import Mathlib

namespace NetInt

/-- Field modulus `p` (`#define MOD 10289`, ITS-MPC.h:15, common.h:11, NetInt.h:24). -/
def MOD : Int := 10289
/-- Number of parties (`#define NP 3`). -/
def NP : Nat := 3
/-- First reconstruction coefficient (`GAMMA1`). -/
def GAMMA1 : Int := 3
/-- Second reconstruction coefficient (`GAMMA2 = MOD - 3`). -/
def GAMMA2 : Int := MOD - 3
/-- Third reconstruction coefficient (`GAMMA3`). -/
def GAMMA3 : Int := 1
/-- Bit length of comparison operands (`l = 14`, common.h:15, NetInt.h:28; ITS-MPC.c computes
`(int32_t)(log2(MOD - 1)) + 1`, which is 14 for this modulus). -/
def l : Nat := 14

/-- Value of an integer after truncation to a two's-complement `int32_t`. -/
def wrap32 (x : Int) : Int := (x + 2147483648) % 4294967296 - 2147483648
/-- Addition `a + b` on `int32_t`. -/
def add32 (a b : Int) : Int := wrap32 (a + b)
/-- Subtraction `a - b` on `int32_t`. -/
def sub32 (a b : Int) : Int := wrap32 (a - b)
/-- Multiplication `a * b` on `int32_t`. -/
def mul32 (a b : Int) : Int := wrap32 (a * b)
/-- The C remainder `a % b`: truncated division, the result has the sign of `a`. -/
def cmod (a b : Int) : Int := Int.tmod a b

/-- Array `gammaArray[NP] = {GAMMA1, GAMMA2, GAMMA3}` (ITS-MPC.c:10, server.c:16, NetInt.h:161). -/
def gammaArray (j : Nat) : Int :=
  match j with
  | 0 => GAMMA1
  | 1 => GAMMA2
  | _ => GAMMA3

/-- Array write `a[i] = v` on an `int32_t` array seen as a function of the index. -/
def setAt (a : Nat → Int) (i : Nat) (v : Int) : Nat → Int :=
  fun k => if k = i then v else a k

/-- Array write `a[i][j] = v` on a two-dimensional `int32_t` array. -/
def setAt2 (a : Nat → Nat → Int) (i j : Nat) (v : Int) : Nat → Nat → Int :=
  fun x y => if x = i ∧ y = j then v else a x y

/-- State of the C random source: the sequence of values the coming calls of `rand()` return.
Every choice of draws `rand() % MOD` in `[0, p)` is the prefix of some state. -/
abbrev Rng := Nat → Nat

/-- One call of `rand()`: the value returned and the state left. -/
def rand (g : Rng) : Int × Rng := ((g 0 : Int), fun n => g (n + 1))

/-- ITS-MPC.c:19-21 and server.c:25-27, `SPLIT(j, r, p)`:
`return (((j + 1) * r + p) + MOD) % MOD;`. -/
def SPLIT (j r p : Int) : Int :=
  cmod (add32 (add32 (mul32 (add32 j 1) r) p) MOD) MOD

/-- ITS-MPC.c:28-35 and server.c:34-41, `RECONSTRUCT(shares)`. -/
def RECONSTRUCT (shares : Nat → Int) : Int :=
  let result := (List.range NP).foldl
    (fun result j => cmod (add32 result (mul32 (gammaArray j) (shares j))) MOD) 0
  if result < 0 then add32 result MOD else result

/-- Step 1 of `RENORMALIZE` (ITS-MPC.c:47-50): `share_r[j] = (r_U + coeff_r2 * (j + 1)) % MOD`. -/
def renormShareR (r_U coeff_r2 : Int) : Nat → Int :=
  (List.range NP).foldl
    (fun share_r j => setAt share_r j (cmod (add32 r_U (mul32 coeff_r2 (add32 j 1))) MOD))
    (fun _ => 0)

/-- Step 2 of `RENORMALIZE` (ITS-MPC.c:53-56): `d[j] = (shares[j] + share_r[j]) % MOD`. -/
def renormD (shares share_r : Nat → Int) : Nat → Int :=
  (List.range NP).foldl
    (fun d j => setAt d j (cmod (add32 (shares j) (share_r j)) MOD)) (fun _ => 0)

/-- Step 3 of `RENORMALIZE` (ITS-MPC.c:59-65): one draw `coeff` per `j`, then
`reshare_d[j][k] = (d[j] + coeff * (k + 1)) % MOD`. -/
def renormReshare (d : Nat → Int) (g : Rng) : (Nat → Nat → Int) × Rng :=
  (List.range NP).foldl
    (fun (acc : (Nat → Nat → Int) × Rng) j =>
      let coeff := cmod (rand acc.2).1 MOD
      ((List.range NP).foldl
        (fun reshare_d k =>
          setAt2 reshare_d j k (cmod (add32 (d j) (mul32 coeff (add32 k 1))) MOD))
        acc.1, (rand acc.2).2))
    (fun _ _ => 0, g)

/-- Step 4 of `RENORMALIZE` (ITS-MPC.c:68-75): the new share `k` is the gamma combination of
`reshare_d[.][k]` minus `share_r[k]`, with `MOD` added when the C remainder is negative. -/
def renormCombine (shares share_r : Nat → Int) (reshare_d : Nat → Nat → Int) : Nat → Int :=
  (List.range NP).foldl
    (fun shares k =>
      let sum := (List.range NP).foldl
        (fun sum j => cmod (add32 sum (mul32 (gammaArray j) (reshare_d j k))) MOD) 0
      let v := cmod (sub32 sum (share_r k)) MOD
      setAt shares k (if v < 0 then add32 v MOD else v))
    shares

/-- ITS-MPC.c:42-76 and server.c:48-82, `RENORMALIZE(shares)`: the array after the call and the
state of the random source after its five draws (`r_U`, `coeff_r2`, three `coeff`). -/
def RENORMALIZE (shares : Nat → Int) (g : Rng) : (Nat → Int) × Rng :=
  let r_U := cmod (rand g).1 MOD
  let g := (rand g).2
  let coeff_r2 := cmod (rand g).1 MOD
  let g := (rand g).2
  let share_r := renormShareR r_U coeff_r2
  let d := renormD shares share_r
  let rd := renormReshare d g
  (renormCombine shares share_r rd.1, rd.2)

/-- ITS-MPC.c:78-108, `MultTest(a, b)`: the two printed values
(`Reconstructed product`, `Expected product`). -/
def MultTest (a b : Int) (g : Rng) : Int × Int :=
  let r1 := cmod (rand g).1 MOD
  let g := (rand g).2
  let shares_a := (List.range NP).foldl
    (fun shares_a j => setAt shares_a j (SPLIT j r1 a)) (fun _ => 0)
  let r2 := cmod (rand g).1 MOD
  let g := (rand g).2
  let shares_b := (List.range NP).foldl
    (fun shares_b j => setAt shares_b j (SPLIT j r2 b)) (fun _ => 0)
  let prod_shares := (List.range NP).foldl
    (fun prod_shares j => setAt prod_shares j (cmod (mul32 (shares_a j) (shares_b j)) MOD))
    (fun _ => 0)
  let prod_shares := (RENORMALIZE prod_shares g).1
  let reconstructed := RECONSTRUCT prod_shares
  let expected := cmod (mul32 a b) MOD
  (reconstructed, expected)

/-- ITS-MPC.c:110-136, `ADDTest(a, b)`: the printed `Reconstructed sum`. -/
def ADDTest (a b : Int) (g : Rng) : Int :=
  let r1 := cmod (rand g).1 MOD
  let g := (rand g).2
  let shares_a := (List.range NP).foldl
    (fun shares_a j => setAt shares_a j (SPLIT j r1 a)) (fun _ => 0)
  let r2 := cmod (rand g).1 MOD
  let shares_b := (List.range NP).foldl
    (fun shares_b j => setAt shares_b j (SPLIT j r2 b)) (fun _ => 0)
  let prod_shares := (List.range NP).foldl
    (fun prod_shares j => setAt prod_shares j (cmod (add32 (shares_a j) (shares_b j)) MOD))
    (fun _ => 0)
  RECONSTRUCT prod_shares

/-- Opcode `OP_ADD`. -/
def OP_ADD : Nat := 0x01
/-- Opcode `OP_MUL`. -/
def OP_MUL : Nat := 0x02
/-- Opcode `OP_CMP`. -/
def OP_CMP : Nat := 0x03
/-- Opcode `OP_EQL` (declared, never sent). -/
def OP_EQL : Nat := 0x04
/-- Opcode `OP_REN`. -/
def OP_REN : Nat := 0x80
/-- Opcode `OP_RES`. -/
def OP_RES : Nat := 0x81

/-- Exit status `EXIT_FAILURE`. -/
def EXIT_FAILURE : Int := 1

/-- Frame `task_t` (common.h:26-32, agent.c:29-35, NetInt.h:39-45): `uint8_t op`, `uint32_t a, b`,
`int32_t u_shares[l], v_shares[l]`; the fields hold the stored (network order) words. -/
structure task_t where
  op : Nat
  a : Nat
  b : Nat
  u_shares : Nat → Int
  v_shares : Nat → Int

/-- Frame `response_t` (common.h:34-37): `uint8_t op`, `uint32_t value`. -/
structure response_t where
  op : Nat
  value : Nat

/-- Conversion `(uint32_t)x` of an `int32_t`. -/
def toU32 (x : Int) : Nat := (x % 4294967296).toNat

/-- Conversion `(int32_t)n` of a `uint32_t`. -/
def toI32 (n : Nat) : Int := wrap32 (n : Int)

/-- Library call `htonl` on a little-endian host: the four bytes of the word in reverse order. -/
def htonl (n : Nat) : Nat :=
  (n % 256) * 16777216 + (n / 256 % 256) * 65536 + (n / 65536 % 256) * 256 + (n / 16777216 % 256)

/-- Library call `ntohl`, the same byte swap as `htonl`. -/
def ntohl (n : Nat) : Nat := htonl n

/-- Behaviour of an agent process seen from its socket: it sends a response frame and goes on,
or blocks in `recvAll` for a response frame (`none` is a short read), or has exited, or waits
at the top of `for (;;)` for the next task frame (`idle`). Sends by the agent always succeed.
`reset` is the state of a connection whose peer has exited and has since been written to: the
peer's side has answered that write with a reset. -/
inductive Proc where
  | send (r : response_t) (k : Proc) : Proc
  | recv (k : Option response_t → Proc) : Proc
  | exit (status : Int) : Proc
  | idle : Proc
  | reset : Proc

/-- agent.c:111-128, `runRENORM(value)`, with the rest of the program as continuation `k`. -/
def runRENORM (value : Int) (k : Int → Proc) : Proc :=
  Proc.send { op := OP_REN, value := htonl (toU32 value) }
    (Proc.recv fun m =>
      match m with
      | none => Proc.exit EXIT_FAILURE
      | some r => if r.op = OP_REN then k (toI32 (ntohl r.value)) else Proc.exit EXIT_FAILURE)

/-- The loop `for (j = j0; j < j0 + n; j++) body` of a process whose body blocks on the socket. -/
def forProc {σ : Type} (body : Nat → σ → (σ → Proc) → Proc) :
    Nat → Nat → σ → (σ → Proc) → Proc
  | 0, _, s, k => k s
  | n + 1, j, s, k => body j s (fun s => forProc body n (j + 1) s k)

/-- Local arrays of the `OP_CMP` branch of the agent (agent.c:170-176). -/
structure CmpLocals where
  u_shares : Nat → Int
  v_shares : Nat → Int
  eq_share : Nat → Int
  gt_share : Nat → Int
  lt_share : Nat → Int
  prefixEq_share : Nat → Int
  flag_share : Nat → Int
  cmp_share : Int

/-- agent.c:170-181: the arrays after `memset` and the decoding loop of the task frame. -/
def cmpDecode (t : task_t) : CmpLocals :=
  (List.range l).foldl
    (fun s i =>
      { s with
        u_shares := setAt s.u_shares i (toI32 (ntohl (toU32 (t.u_shares i))))
        v_shares := setAt s.v_shares i (toI32 (ntohl (toU32 (t.v_shares i))))
        prefixEq_share := setAt s.prefixEq_share 0 (toI32 (ntohl t.a)) })
    { u_shares := fun _ => 0, v_shares := fun _ => 0, eq_share := fun _ => 0,
      gt_share := fun _ => 0, lt_share := fun _ => 0, prefixEq_share := fun _ => 0,
      flag_share := fun _ => 0, cmp_share := 0 }

/-- agent.c:183-192: body of the first loop of the `OP_CMP` branch (three renormalizations). -/
def cmpBitRound (j : Nat) (s : CmpLocals) (k : CmpLocals → Proc) : Proc :=
  runRENORM (cmod (mul32 (s.u_shares j) (s.v_shares j)) MOD) fun tmp_share =>
  let tmp2_share :=
    cmod (add32 (sub32 (add32 (s.u_shares j) (s.v_shares j)) (mul32 2 tmp_share)) MOD) MOD
  let s := { s with eq_share := setAt s.eq_share j (cmod (add32 (sub32 1 tmp2_share) MOD) MOD) }
  let tmp_share := cmod (add32 (sub32 1 (s.v_shares j)) MOD) MOD
  let s := { s with gt_share := setAt s.gt_share j (cmod (mul32 (s.u_shares j) tmp_share) MOD) }
  runRENORM (s.gt_share j) fun r =>
  let s := { s with gt_share := setAt s.gt_share j r }
  let tmp_share := cmod (add32 (sub32 1 (s.u_shares j)) MOD) MOD
  let s := { s with lt_share := setAt s.lt_share j (cmod (mul32 tmp_share (s.v_shares j)) MOD) }
  runRENORM (s.lt_share j) fun r =>
  k { s with lt_share := setAt s.lt_share j r }

/-- agent.c:196-197: body of the prefix-equality loop (`j` from 1). -/
def cmpPrefixRound (j : Nat) (s : CmpLocals) (k : CmpLocals → Proc) : Proc :=
  let tmp_share := cmod (mul32 (s.prefixEq_share (j - 1)) (s.eq_share (j - 1))) MOD
  runRENORM tmp_share fun r =>
  k { s with prefixEq_share := setAt s.prefixEq_share j r }

/-- agent.c:201-203: body of the flag loop. -/
def cmpFlagRound (j : Nat) (s : CmpLocals) (k : CmpLocals → Proc) : Proc :=
  let tmp_share := cmod (add32 (sub32 (s.gt_share j) (s.lt_share j)) MOD) MOD
  let tmp2_share := cmod (mul32 (s.prefixEq_share j) tmp_share) MOD
  runRENORM tmp2_share fun r =>
  k { s with flag_share := setAt s.flag_share j r }

/-- agent.c:206-208: `cmp_share = (cmp_share + flag_share[j]) % MOD` for `j < l`. -/
def cmpSum (s : CmpLocals) : CmpLocals :=
  (List.range l).foldl
    (fun s j => { s with cmp_share := cmod (add32 s.cmp_share (s.flag_share j)) MOD }) s

/-- agent.c:151-215: one iteration of the task loop after a full task frame `t` was read. -/
def agentTask (t : task_t) : Proc :=
  if t.op = OP_ADD then
    let x := toI32 (ntohl t.a)
    let y := toI32 (ntohl t.b)
    let res := cmod (add32 x y) MOD
    Proc.send { op := OP_RES, value := htonl (toU32 res) } Proc.idle
  else if t.op = OP_MUL then
    let x := toI32 (ntohl t.a)
    let y := toI32 (ntohl t.b)
    let res := cmod (mul32 x y) MOD
    Proc.send { op := OP_RES, value := htonl (toU32 res) } Proc.idle
  else if t.op = OP_CMP then
    let s := cmpDecode t
    forProc cmpBitRound l 0 s fun s =>
    forProc cmpPrefixRound (l - 1) 1 s fun s =>
    forProc cmpFlagRound l 0 s fun s =>
    let s := cmpSum s
    Proc.send { op := OP_RES, value := htonl (toU32 s.cmp_share) } Proc.idle
  else Proc.idle

/-- agent.c:148-150 and 216-219: a short read of the task frame leaves the loop and `main`
returns 0; a full frame is dispatched. -/
def agentLoop (m : Option task_t) : Proc :=
  match m with
  | none => Proc.exit 0
  | some t => agentTask t

/-- Frames the coordinator wrote to or read from the socket of agent `i`, in order. -/
inductive Event where
  | sentTask (i : Nat) (t : task_t) : Event
  | sentResp (i : Nat) (r : response_t) : Event
  | received (i : Nat) (r : Option response_t) : Event

/-- Failures of a coordinator operation: the exceptions thrown in NetInt.h, `blocked` for a
read from an agent that itself waits for a frame, `exited status` for a call of
`exit(status)` in server.c, and `sigpipe` for the death of the coordinator process by the
signal SIGPIPE, which neither NetInt.h nor server.c handles or ignores. -/
inductive Err where
  | not_initialized : Err
  | disconnected : Err
  | invalid_response : Err
  | send_failed : Err
  | blocked : Err
  | exited (status : Int) : Err
  | sigpipe : Err

/-- State of the coordinator (`NetIntContext`, NetInt.h:52-64) together with its environment:
`cli i` is the agent process behind socket `cli[i]`, `rng` the random source, `log` the frames
exchanged so far. -/
structure NetIntContext where
  initialized : Bool
  cli : Nat → Proc
  rng : Rng
  log : List Event

/-- Coordinator operations: state passing over `NetIntContext`; a failing operation yields the
exception together with the state in which it was thrown. -/
abbrev Coord (α : Type) := StateT NetIntContext (Except (Err × NetIntContext)) α

/-- Statement `throw`: the operation stops with exception `e`, the state stays as it is at the throw. -/
def fail {α : Type} (e : Err) : Coord α := fun c => Except.error (e, c)

/-- Replacement of the process behind socket `i`. -/
def setCli (cli : Nat → Proc) (i : Nat) (p : Proc) : Nat → Proc :=
  fun k => if k = i then p else cli k

/-- NetInt.h:101-109, `recvAll(cli[i], &r, sizeof r)`: the pending frame of agent `i`, `none` when
the agent has exited or the connection is reset. -/
def recvAll (i : Nat) : Coord (Option response_t) := fun c =>
  match c.cli i with
  | Proc.send r k =>
    Except.ok (some r, { c with cli := setCli c.cli i k, log := c.log ++ [Event.received i (some r)] })
  | Proc.exit _ => Except.ok (none, { c with log := c.log ++ [Event.received i none] })
  | Proc.reset => Except.ok (none, { c with log := c.log ++ [Event.received i none] })
  | _ => Except.error (Err.blocked, c)

/-- Call `send(cli[i], &r, sizeof r, 0)` of a response frame; the result tells whether all bytes
were written. A frame the agent is not waiting for is not delivered. A write to a connection
whose peer has exited is accepted like any other (`send` returns the size of the frame) and
leaves the connection reset; a write to a reset connection raises SIGPIPE, which kills the
coordinator before anything is written. -/
def sendResponse (i : Nat) (r : response_t) : Coord Bool := fun c =>
  match c.cli i with
  | Proc.recv k =>
    Except.ok (true, { c with cli := setCli c.cli i (k (some r)), log := c.log ++ [Event.sentResp i r] })
  | Proc.exit _ =>
    Except.ok (true, { c with cli := setCli c.cli i Proc.reset, log := c.log ++ [Event.sentResp i r] })
  | Proc.reset => Except.error (Err.sigpipe, c)
  | _ => Except.ok (true, { c with log := c.log ++ [Event.sentResp i r] })

/-- Call `send(cli[i], &t, sizeof t, 0)` of a task frame; an agent at the top of its loop reads it.
A write to a connection whose peer has exited is accepted like any other (`send` returns the
size of the frame) and leaves the connection reset; a write to a reset connection raises
SIGPIPE, which kills the coordinator before anything is written. -/
def sendTask (i : Nat) (t : task_t) : Coord Bool := fun c =>
  match c.cli i with
  | Proc.idle =>
    Except.ok (true, { c with cli := setCli c.cli i (agentLoop (some t)), log := c.log ++ [Event.sentTask i t] })
  | Proc.exit _ =>
    Except.ok (true, { c with cli := setCli c.cli i Proc.reset, log := c.log ++ [Event.sentTask i t] })
  | Proc.reset => Except.error (Err.sigpipe, c)
  | _ => Except.ok (true, { c with log := c.log ++ [Event.sentTask i t] })

/-- One call of `rand()` by the coordinator. -/
def nextRand : Coord Int := fun c =>
  Except.ok ((rand c.rng).1, { c with rng := (rand c.rng).2 })

/-- NetInt.h:210-212, `NetIntContext::split`. -/
def split (j r p : Int) : Int :=
  cmod (add32 (add32 (mul32 (add32 j 1) r) p) MOD) MOD

/-- NetInt.h:160-167, `NetIntContext::reconstruct`. -/
def reconstruct (shares : Nat → Int) : Int :=
  let result := (List.range 3).foldl
    (fun result j => cmod (add32 result (mul32 (gammaArray j) (shares j))) MOD) 0
  if result < 0 then add32 result MOD else result

/-- NetInt.h:174-201, `NetIntContext::renormalize`: the same statements as `RENORMALIZE`, on the
random source of the coordinator. -/
def renormalize (shares : Nat → Int) : Coord (Nat → Int) := fun c =>
  Except.ok ((RENORMALIZE shares c.rng).1, { c with rng := (RENORMALIZE shares c.rng).2 })

/-- NetInt.h:219-238, `waitRenorm()`. -/
def waitRenorm : Coord Unit := do
  let resultShares ← (List.range 3).foldlM
    (fun (resultShares : Nat → Int) i => do
      let r ← recvAll i
      match r with
      | none => fail Err.disconnected
      | some r =>
        if r.op ≠ OP_REN then fail Err.invalid_response
        else pure (setAt resultShares i (toI32 (ntohl r.value))))
    (fun _ => 0)
  let resultShares ← renormalize resultShares
  (List.range 3).forM fun i => do
    let ok ← sendResponse i { op := OP_REN, value := htonl (toU32 (resultShares i)) }
    if !ok then fail Err.send_failed

/-- A loop that runs `body` `n` times. -/
def repeatM (n : Nat) (body : Coord Unit) : Coord Unit :=
  match n with
  | 0 => pure ()
  | n + 1 => do body; repeatM n body

/-- Bit `i` of `u`, most significant first: `(u >> (l - 1 - i)) & 1`. -/
def bitAt (u : Int) (i : Nat) : Int := (u >>> (l - 1 - i)) % 2

/-- NetInt.h:248-256: the array `bits_u` after the decomposition loop. -/
def cmpBits (u : Int) : Nat → Int :=
  (List.range l).foldl (fun bits i => setAt bits i (bitAt u i)) (fun _ => 0)

/-- NetInt.h:259-264: body of the loop that shares bit `i` of both operands. -/
def cmpShareBit (bits_u bits_v : Nat → Int)
    (acc : (Nat → Nat → Int) × (Nat → Nat → Int)) (i : Nat) :
    Coord ((Nat → Nat → Int) × (Nat → Nat → Int)) := do
  let ru := cmod (← nextRand) MOD
  let rv := cmod (← nextRand) MOD
  pure ((List.range 3).foldl
    (fun acc j =>
      (setAt2 acc.1 j i (split j ru (bits_u i)), setAt2 acc.2 j i (split j rv (bits_v i))))
    acc)

/-- NetInt.h:269-273: the task frame for agent `j`. -/
def cmpTask (uShares vShares : Nat → Nat → Int) (r0 : Int) (j : Nat) : task_t :=
  (List.range l).foldl
    (fun t i => { t with
      u_shares := setAt t.u_shares i (toI32 (htonl (toU32 (uShares j i))))
      v_shares := setAt t.v_shares i (toI32 (htonl (toU32 (vShares j i)))) })
    { op := OP_CMP, a := htonl (toU32 (split j r0 1)), b := 0,
      u_shares := fun _ => 0, v_shares := fun _ => 0 }

/-- NetInt.h:289-296: the three result frames of `runCMP` (the opcode is not checked). -/
def cmpCollect : Coord (Nat → Int) :=
  (List.range 3).foldlM
    (fun (resultShares : Nat → Int) i => do
      let r ← recvAll i
      match r with
      | none => fail Err.disconnected
      | some r => pure (setAt resultShares i (toI32 (ntohl r.value))))
    (fun _ => 0)

/-- NetInt.h:246-298, `runCMP(u, v)`. -/
def runCMP (u v : Int) : Coord Int := do
  if !(← get).initialized then fail Err.not_initialized
  let bits_u := cmpBits u
  let bits_v := cmpBits v
  let (uShares, vShares) ← (List.range l).foldlM (cmpShareBit bits_u bits_v)
    (fun _ _ => 0, fun _ _ => 0)
  let r0 := cmod (← nextRand) MOD
  (List.range 3).forM fun j => do
    let _ ← sendTask j (cmpTask uShares vShares r0 j)
  repeatM l (do waitRenorm; waitRenorm; waitRenorm)
  repeatM (l - 1) waitRenorm
  repeatM l waitRenorm
  let resultShares ← cmpCollect
  pure (reconstruct resultShares)

/-- NetInt.h:415-424 and 460-469: the three result frames of `runAdd` and `runMul`. -/
def collectResults : Coord (Nat → Int) :=
  (List.range 3).foldlM
    (fun (resultShares : Nat → Int) i => do
      let r ← recvAll i
      match r with
      | none => fail Err.disconnected
      | some r =>
        if r.op ≠ OP_RES then fail Err.invalid_response
        else pure (setAt resultShares i (toI32 (ntohl r.value))))
    (fun _ => 0)

/-- NetInt.h:400-426, `runAdd(a, b)`. -/
def runAdd (a b : Int) : Coord Int := do
  if !(← get).initialized then fail Err.not_initialized
  let r1 := cmod (← nextRand) MOD
  let r2 := cmod (← nextRand) MOD
  let op := OP_ADD
  (List.range 3).forM fun i => do
    let aShare := split i r1 a
    let bShare := split i r2 b
    let t : task_t := { op := op, a := htonl (toU32 aShare), b := htonl (toU32 bShare),
                        u_shares := fun _ => 0, v_shares := fun _ => 0 }
    let _ ← sendTask i t
  let resultShares ← collectResults
  pure (reconstruct resultShares)

/-- NetInt.h:445-472, `runMul(a, b)`. -/
def runMul (a b : Int) : Coord Int := do
  if !(← get).initialized then fail Err.not_initialized
  let r1 := cmod (← nextRand) MOD
  let r2 := cmod (← nextRand) MOD
  let op := OP_MUL
  (List.range 3).forM fun i => do
    let aShare := split i r1 a
    let bShare := split i r2 b
    let t : task_t := { op := op, a := htonl (toU32 aShare), b := htonl (toU32 bShare),
                        u_shares := fun _ => 0, v_shares := fun _ => 0 }
    let _ ← sendTask i t
  let resultShares ← collectResults
  let resultShares ← renormalize resultShares
  pure (reconstruct resultShares)

/-- NetInt.h:480-483, `runSub(a, b)`. -/
def runSub (a b : Int) : Coord Int :=
  runAdd a (cmod (sub32 MOD b) MOD)

/-- NetInt.h:491-494, `runLT`. -/
def runLT (a b : Int) : Coord Int := do
  let cmp ← runCMP a b
  pure (if cmp > MOD / 2 then 1 else 0)

/-- NetInt.h:502-505, `runLE`. -/
def runLE (a b : Int) : Coord Int := do
  let cmp ← runCMP a b
  pure (if cmp = 0 ∨ cmp > MOD / 2 then 1 else 0)

/-- NetInt.h:513-515, `runGT`. -/
def runGT (a b : Int) : Coord Int := runLT b a

/-- NetInt.h:523-525, `runGE`. -/
def runGE (a b : Int) : Coord Int := runLE b a

/-- NetInt.h:533-536, `runEQ`. -/
def runEQ (a b : Int) : Coord Int := do
  let cmp ← runCMP a b
  pure (if cmp = 0 then 1 else 0)

/-- NetInt.h:544-546, `runNE`. -/
def runNE (a b : Int) : Coord Int := do
  pure (sub32 1 (← runEQ a b))

/-- A session right after `socket()`: initialized, three agents at the top of their task loop. -/
def session (g : Rng) : NetIntContext :=
  { initialized := true, cli := fun _ => Proc.idle, rng := g, log := [] }

/-- Value returned by a coordinator operation, if any. -/
def resultOf (r : Except (Err × NetIntContext) (Int × NetIntContext)) : Option Int :=
  match r with
  | Except.ok (x, _) => some x
  | Except.error _ => none

/-- Row `j` of a two-dimensional array replaced by `row` (an in-place call on `a[j]`). -/
def setRow (a : Nat → Nat → Int) (j : Nat) (row : Nat → Int) : Nat → Nat → Int :=
  fun x y => if x = j then row y else a x y

/-- Local arrays of `CompareParallelTest` (ITS-MPC.c:245-267, 340) and the random source. -/
structure CptState where
  u_shares : Nat → Nat → Int
  v_shares : Nat → Nat → Int
  eq_shares : Nat → Nat → Int
  gt_shares : Nat → Nat → Int
  lt_shares : Nat → Nat → Int
  prefixEq_shares : Nat → Nat → Int
  flag_shares : Nat → Nat → Int
  tmp_shares : Nat → Int
  tmp2_shares : Nat → Int
  cmp_shares : Nat → Int
  g : Rng

/-- ITS-MPC.c:260-265: body of the loop that shares bit `i` of both operands. -/
def cptShareBit (bits_u bits_v : Nat → Int) (s : CptState) (i : Nat) : CptState :=
  let ru := cmod (rand s.g).1 MOD
  let g := (rand s.g).2
  let rv := cmod (rand g).1 MOD
  let g := (rand g).2
  (List.range NP).foldl
    (fun s j => { s with
      u_shares := setAt2 s.u_shares i j (SPLIT j ru (bits_u i))
      v_shares := setAt2 s.v_shares i j (SPLIT j rv (bits_v i)) })
    { s with g := g }

/-- ITS-MPC.c:272-302: body of the loop computing `eq_j`, `gt_j`, `lt_j`. -/
def cptBitRound (s : CptState) (j : Nat) : CptState :=
  let s := (List.range NP).foldl
    (fun s k => { s with
      tmp_shares := setAt s.tmp_shares k (cmod (mul32 (s.u_shares j k) (s.v_shares j k)) MOD) })
    s
  let r := RENORMALIZE s.tmp_shares s.g
  let s := { s with tmp_shares := r.1, g := r.2 }
  let s := (List.range NP).foldl
    (fun s k => { s with
      tmp2_shares := setAt s.tmp2_shares k
        (cmod (add32 (sub32 (add32 (s.u_shares j k) (s.v_shares j k))
          (mul32 2 (s.tmp_shares k))) MOD) MOD) })
    s
  let s := (List.range NP).foldl
    (fun s k => { s with
      eq_shares := setAt2 s.eq_shares j k (cmod (add32 (sub32 1 (s.tmp2_shares k)) MOD) MOD) })
    s
  let s := (List.range NP).foldl
    (fun s k => { s with
      tmp_shares := setAt s.tmp_shares k (cmod (add32 (sub32 1 (s.v_shares j k)) MOD) MOD) })
    s
  let s := (List.range NP).foldl
    (fun s k => { s with
      gt_shares := setAt2 s.gt_shares j k (cmod (mul32 (s.u_shares j k) (s.tmp_shares k)) MOD) })
    s
  let r := RENORMALIZE (s.gt_shares j) s.g
  let s := { s with gt_shares := setRow s.gt_shares j r.1, g := r.2 }
  let s := (List.range NP).foldl
    (fun s k => { s with
      tmp_shares := setAt s.tmp_shares k (cmod (add32 (sub32 1 (s.u_shares j k)) MOD) MOD) })
    s
  let s := (List.range NP).foldl
    (fun s k => { s with
      lt_shares := setAt2 s.lt_shares j k (cmod (mul32 (s.tmp_shares k) (s.v_shares j k)) MOD) })
    s
  let r := RENORMALIZE (s.lt_shares j) s.g
  { s with lt_shares := setRow s.lt_shares j r.1, g := r.2 }

/-- ITS-MPC.c:307-310: `prefixEq_0` is a fresh sharing of 1. -/
def cptPrefixInit (s : CptState) : CptState :=
  let r0 := cmod (rand s.g).1 MOD
  (List.range NP).foldl
    (fun s k => { s with prefixEq_shares := setAt2 s.prefixEq_shares 0 k (SPLIT k r0 1) })
    { s with g := (rand s.g).2 }

/-- ITS-MPC.c:314-320: body of the prefix-equality loop. -/
def cptPrefixRound (s : CptState) (j : Nat) : CptState :=
  let s := (List.range NP).foldl
    (fun s k => { s with
      tmp_shares := setAt s.tmp_shares k
        (cmod (mul32 (s.prefixEq_shares (j - 1) k) (s.eq_shares (j - 1) k)) MOD) })
    s
  let r := RENORMALIZE s.tmp_shares s.g
  let s := { s with tmp_shares := r.1, g := r.2 }
  (List.range NP).foldl
    (fun s k => { s with prefixEq_shares := setAt2 s.prefixEq_shares j k (s.tmp_shares k) })
    s

/-- ITS-MPC.c:326-336: body of the flag loop. -/
def cptFlagRound (s : CptState) (j : Nat) : CptState :=
  let s := (List.range NP).foldl
    (fun s k => { s with
      tmp_shares := setAt s.tmp_shares k
        (cmod (add32 (sub32 (s.gt_shares j k) (s.lt_shares j k)) MOD) MOD) })
    s
  let s := (List.range NP).foldl
    (fun s k => { s with
      tmp2_shares := setAt s.tmp2_shares k
        (cmod (mul32 (s.prefixEq_shares j k) (s.tmp_shares k)) MOD) })
    s
  let r := RENORMALIZE s.tmp2_shares s.g
  let s := { s with tmp2_shares := r.1, g := r.2 }
  (List.range NP).foldl
    (fun s k => { s with flag_shares := setAt2 s.flag_shares j k (s.tmp2_shares k) })
    s

/-- ITS-MPC.c:341-345: `cmp_shares[k] = (cmp_shares[k] + flag_shares[j][k]) % MOD`. -/
def cptSum (s : CptState) : CptState :=
  (List.range l).foldl
    (fun s j =>
      (List.range NP).foldl
        (fun s k => { s with
          cmp_shares := setAt s.cmp_shares k
            (cmod (add32 (s.cmp_shares k) (s.flag_shares j k)) MOD) })
        s)
    s

/-- ITS-MPC.c:239-358, `CompareParallelTest(u, v, &c, &e)`: the pair `(c, e)`. -/
def CompareParallelTest (u v : Int) (g : Rng) : Int × Int :=
  let bits_u := (List.range l).foldl (fun b i => setAt b i (bitAt u i)) (fun _ => 0)
  let bits_v := (List.range l).foldl (fun b i => setAt b i (bitAt v i)) (fun _ => 0)
  let s : CptState :=
    { u_shares := fun _ _ => 0, v_shares := fun _ _ => 0, eq_shares := fun _ _ => 0,
      gt_shares := fun _ _ => 0, lt_shares := fun _ _ => 0, prefixEq_shares := fun _ _ => 0,
      flag_shares := fun _ _ => 0, tmp_shares := fun _ => 0, tmp2_shares := fun _ => 0,
      cmp_shares := fun _ => 0, g := g }
  let s := (List.range l).foldl (cptShareBit bits_u bits_v) s
  let s := (List.range l).foldl cptBitRound s
  let s := cptPrefixInit s
  let s := (List.range (l - 1)).foldl (fun s n => cptPrefixRound s (n + 1)) s
  let s := (List.range l).foldl cptFlagRound s
  let s := cptSum s
  let cmp := RECONSTRUCT s.cmp_shares
  let c := if cmp ≥ 0 ∧ cmp ≤ MOD / 2 then 1 else 0
  let e := if cmp = 0 then 1 else 0
  (c, e)

/-- Draw number `i` from state `g`: `rand() % MOD`. -/
def draw (g : Rng) (i : Nat) : Int := (g i : Int) % 10289

/-- The triple `t` is a degree-1 sharing of `v`: `t k = (v + m * (k + 1)) mod p` for one slope `m`. -/
def IsShare (t : Nat → Int) (v : Int) : Prop :=
  ∃ m : Int, ∀ k : Nat, k < 3 → t k = (v + m * ((k : Int) + 1)) % 10289

/-- Direction, agent index and opcode of a logged frame. -/
inductive Tag where
  | toAgent (i op : Nat) : Tag
  | fromAgent (i op : Nat) : Tag
  | eof (i : Nat) : Tag
  deriving DecidableEq

/-- Tag of a logged frame. -/
def Event.tag : Event → Tag
  | Event.sentTask i t => Tag.toAgent i t.op
  | Event.sentResp i r => Tag.toAgent i r.op
  | Event.received i (some r) => Tag.fromAgent i r.op
  | Event.received i none => Tag.eof i

/-- Frames of one `waitRenorm` cycle. -/
def renCycle : List Tag :=
  [Tag.fromAgent 0 OP_REN, Tag.fromAgent 1 OP_REN, Tag.fromAgent 2 OP_REN,
   Tag.toAgent 0 OP_REN, Tag.toAgent 1 OP_REN, Tag.toAgent 2 OP_REN]

/-- Bit `1 - (u_j xor v_j)`. -/
def eqB (bu bv : Nat → Int) (j : Nat) : Int := 1 - (bu j + bv j - 2 * (bu j * bv j))

/-- Bit `u_j * (1 - v_j)`. -/
def gtB (bu bv : Nat → Int) (j : Nat) : Int := bu j * (1 - bv j)

/-- Bit `(1 - u_j) * v_j`. -/
def ltB (bu bv : Nat → Int) (j : Nat) : Int := (1 - bu j) * bv j

/-- Prefix equality: the product of `eqB` over the positions before `j`. -/
def prefB (bu bv : Nat → Int) : Nat → Int
  | 0 => 1
  | j + 1 => prefB bu bv j * eqB bu bv j

/-- Value `prefixEq_j * (gt_j - lt_j)`. -/
def flagB (bu bv : Nat → Int) (j : Nat) : Int := prefB bu bv j * (gtB bu bv j - ltB bu bv j)

/-- Sum of `flagB` over the first `n` positions. -/
def cmpB (bu bv : Nat → Int) : Nat → Int
  | 0 => 0
  | n + 1 => cmpB bu bv n + flagB bu bv n

/-- Number whose binary digits, most significant first, are the first `n` bits. -/
def valB (b : Nat → Int) : Nat → Int
  | 0 => 0
  | n + 1 => 2 * valB b n + b n

/-- Invariant of the three agents in the `OP_CMP` branch: the arrays filled so far are degree-1
sharings of the values they stand for. -/
def CmpInv (bu bv : Nat → Int) (S : Nat → CmpLocals) (ja jb jc : Nat) : Prop :=
  (∀ j : Nat, j < l → IsShare (fun i => (S i).u_shares j) (bu j)) ∧
  (∀ j : Nat, j < l → IsShare (fun i => (S i).v_shares j) (bv j)) ∧
  (∀ j : Nat, j < ja → IsShare (fun i => (S i).eq_share j) (eqB bu bv j) ∧
    IsShare (fun i => (S i).gt_share j) (gtB bu bv j) ∧
    IsShare (fun i => (S i).lt_share j) (ltB bu bv j)) ∧
  (∀ j : Nat, j < jb → IsShare (fun i => (S i).prefixEq_share j) (prefB bu bv j)) ∧
  (∀ j : Nat, j < jc → IsShare (fun i => (S i).flag_share j) (flagB bu bv j)) ∧
  (∀ i : Nat, i < 3 → (S i).cmp_share = 0)

/-- Frames of `n` consecutive `waitRenorm` cycles. -/
def renCycles (n : Nat) : List Tag := (List.replicate n renCycle).flatten

/-- Frames of one `runCMP`, in order. -/
def cmpSchedule : List Tag :=
  [Tag.toAgent 0 OP_CMP, Tag.toAgent 1 OP_CMP, Tag.toAgent 2 OP_CMP] ++
    (renCycles (3 * l) ++ (renCycles (l - 1) ++ (renCycles l ++
      [Tag.fromAgent 0 OP_RES, Tag.fromAgent 1 OP_RES, Tag.fromAgent 2 OP_RES])))

/-- Opcodes of the frames read from agent `i`, in order. -/
def fromAgentOps (i : Nat) (tags : List Tag) : List Nat :=
  tags.filterMap fun t =>
    match t with
    | Tag.fromAgent j op => if j = i then some op else none
    | _ => none

/-- Opcodes of the frames written to agent `i`, in order. -/
def toAgentOps (i : Nat) (tags : List Tag) : List Nat :=
  tags.filterMap fun t =>
    match t with
    | Tag.toAgent j op => if j = i then some op else none
    | _ => none

/-- Memory image of a `uint32_t` (or of an `int32_t` seen as `uint32_t`) on the little-endian host
of `htonl`: four bytes, least significant first. -/
def bytes32 (n : Nat) : List Nat :=
  [n % 256, n / 256 % 256, n / 65536 % 256, n / 16777216 % 256]

/-- The `uint32_t` stored at byte offset `off` of a receive buffer (a byte missing from a short
buffer reads as 0). -/
def word32 (buf : List Nat) (off : Nat) : Nat :=
  buf.getD off 0 + 256 * buf.getD (off + 1) 0 + 65536 * buf.getD (off + 2) 0
    + 16777216 * buf.getD (off + 3) 0

/-- Bytes that `send(cli[j], &t, sizeof t, 0)` writes for a packed `task_t`
(common.h:26-32, NetInt.h:39-45): `op`, `a`, `b`, `u_shares[0..l)`, `v_shares[0..l)`, no padding. -/
def taskBytes (t : task_t) : List Nat :=
  [t.op % 256] ++ bytes32 t.a ++ bytes32 t.b
    ++ ((List.range l).map fun i => bytes32 (toU32 (t.u_shares i))).flatten
    ++ ((List.range l).map fun i => bytes32 (toU32 (t.v_shares i))).flatten

/-- Bytes that `send(fd, &r, sizeof r, 0)` writes for a packed `response_t`: `op`, `value`. -/
def respBytes (r : response_t) : List Nat := [r.op % 256] ++ bytes32 r.value

/-- The `task_t` that `recvAll(fd, &t, sizeof t)` leaves in `t` (agent.c:149-150). -/
def taskOfBytes (buf : List Nat) : task_t :=
  { op := buf.getD 0 0, a := word32 buf 1, b := word32 buf 5,
    u_shares := fun i => toI32 (word32 buf (9 + 4 * i)),
    v_shares := fun i => toI32 (word32 buf (9 + 4 * l + 4 * i)) }

/-- The `response_t` that `recvAll(fd, &r, sizeof r)` leaves in `r`. -/
def respOfBytes (buf : List Nat) : response_t :=
  { op := buf.getD 0 0, value := word32 buf 1 }

/-- State of the coordinator when an operation has returned or thrown. -/
def after {α : Type} (r : Except (Err × NetIntContext) (α × NetIntContext)) : NetIntContext :=
  match r with
  | Except.ok (_, c) => c
  | Except.error (_, c) => c

/-- Operation `m` preserves the state property `I`, whether it returns or throws. -/
def Keeps {α : Type} (I : NetIntContext → Prop) (m : Coord α) : Prop :=
  ∀ c, I c → I (after (m c))

/-- From `c` to `c2` the log has only grown, and every frame added satisfies `Q`. -/
def Extends (Q : Event → Prop) (c c2 : NetIntContext) : Prop :=
  ∃ new, c2.log = c.log ++ new ∧ ∀ e ∈ new, Q e

/-- Property `G` of the task frames among the events (other events are unconstrained). -/
def onTask (G : task_t → Prop) : Event → Prop
  | Event.sentTask _ t => G t
  | _ => True

/-- Task frames written to the agents between state `c` and the later state `c2`. -/
def sentTasks (c c2 : NetIntContext) : List task_t :=
  (c2.log.drop c.log.length).filterMap fun e =>
    match e with
    | Event.sentTask _ t => some t
    | _ => none

/-- The handshake `JOIN_MSG = "JOIN\n"` (NetInt.h:22, server.c:12, common.h:9) as its five bytes. -/
def JOIN_MSG : List Nat := [74, 79, 73, 78, 10]

/-- One incoming connection as the listener meets it: `cfd` is what `accept` returns (negative on
failure), `ip` what `getClientIP(cfd)` returns, `data` the bytes available on the connection when the
coordinator reads it (empty when the peer closed or the read fails). -/
structure Conn where
  cfd : Int
  ip : String
  data : List Nat

/-- The members of `NetIntContext` (NetInt.h:57-64) that `socket` and `disconnect` use: listener `ln`,
channel descriptors `cli[3]`, the `initialized` flag and the whitelist; `closed` records the
descriptors passed to `close`, in order. -/
structure Bootstrap where
  ln : Int
  cli : Nat → Int
  initialized : Bool
  whitelist : List String
  useWhitelist : Bool
  closed : List Int

/-- NetInt.h:70-79, `isWhitelisted`. -/
def isWhitelisted (s : Bootstrap) (clientIP : String) : Bool :=
  if !s.useWhitelist then true
  else s.whitelist.any fun allowedIP => clientIP == allowedIP

/-- Library call `recv(cfd, buf, len, 0)` on a connection holding `data`: the count returned and the
bytes copied, at most `len` of them. -/
def recv (data : List Nat) (len : Nat) : Int × List Nat :=
  (((data.take len).length : Int), data.take len)

/-- Library call `memcmp(a, b, n)`, up to the sign of a non-zero result: 0 exactly when the first `n`
bytes agree. -/
def memcmp (a b : List Nat) (n : Nat) : Int :=
  if a.take n = b.take n then 0 else 1

/-- NetInt.h:351-372, one pass through the body of `while (joined < 3)` in `socket`, for the
connection `x` that `accept` delivers; the result is the state and `joined` after the pass. -/
def acceptStep (s : Bootstrap) (joined : Nat) (x : Conn) : Bootstrap × Nat :=
  if x.cfd < 0 then (s, joined)
  else if !isWhitelisted s x.ip then ({ s with closed := s.closed ++ [x.cfd] }, joined)
  else
    let buf := List.replicate 6 0
    let got := recv x.data (6 - 1)
    let r := got.1
    let buf := got.2 ++ buf.drop got.2.length
    if r = 5 ∧ memcmp buf JOIN_MSG 5 = 0 then
      ({ s with cli := setAt s.cli joined x.cfd }, joined + 1)
    else ({ s with closed := s.closed ++ [x.cfd] }, joined)

/-- NetInt.h:350-373, the loop `while (joined < 3)` of `socket` over the connections that arrive.
When the list runs out before three agents are seated the loop is blocked in `accept`: the result
is the state it waits in, with `joined` and the connections not yet accepted. -/
def acceptLoop (s : Bootstrap) (joined : Nat) : List Conn → Bootstrap × Nat × List Conn
  | [] => (s, joined, [])
  | x :: rest =>
    if joined < 3 then acceptLoop (acceptStep s joined x).1 (acceptStep s joined x).2 rest
    else (s, joined, x :: rest)

/-- NetInt.h:338-378, `socket(port)`, with `ln` the descriptor `bindAndListen` returned. With
fewer than three valid connections the call does not return: the result is the state it waits in. -/
def socket (s : Bootstrap) (ln : Int) (conns : List Conn) : Bootstrap × List Conn :=
  if s.initialized then (s, conns)
  else
    let s := { s with ln := ln }
    let r := acceptLoop s 0 conns
    if r.2.1 < 3 then (r.1, r.2.2)
    else ({ r.1 with closed := r.1.closed ++ [r.1.ln], ln := -1, initialized := true }, r.2.2)

/-- NetInt.h:383-392, `disconnect()`. -/
def disconnect (s : Bootstrap) : Bootstrap :=
  let s := (List.range 3).foldl
    (fun s i =>
      if s.cli i ≠ -1 then { s with closed := s.closed ++ [s.cli i], cli := setAt s.cli i (-1) }
      else s)
    s
  { s with initialized := false }

/-- server.c:341-354, one pass through the body of the handshake loop of `main`. -/
def mainStep (cli : Nat → Int) (closed : List Int) (joined : Nat) (x : Conn) :
    (Nat → Int) × List Int × Nat :=
  if x.cfd < 0 then (cli, closed, joined)
  else
    let buf := List.replicate 8 0
    let got := recv x.data 8
    let r := got.1
    let buf := got.2 ++ buf.drop got.2.length
    if r = (JOIN_MSG.length : Int) ∧ memcmp buf JOIN_MSG r.toNat = 0 then
      (setAt cli joined x.cfd, closed, joined + 1)
    else (cli, closed ++ [x.cfd], joined)

/-- server.c:340-355, the handshake loop `while (joined < NP)` of `main`. -/
def mainLoop (cli : Nat → Int) (closed : List Int) (joined : Nat) :
    List Conn → (Nat → Int) × List Int × Nat
  | [] => (cli, closed, joined)
  | x :: rest =>
    if joined < NP then
      mainLoop (mainStep cli closed joined x).1 (mainStep cli closed joined x).2.1
        (mainStep cli closed joined x).2.2 rest
    else (cli, closed, joined)

/-- A `NetIntContext` as constructed (NetInt.h:58-64): no listener, no channel, not initialized. -/
def fresh : Bootstrap :=
  { ln := -1, cli := fun _ => -1, initialized := false, whitelist := [], useWhitelist := false,
    closed := [] }

/-- A connection that `socket` seats: accepted, allowed by the whitelist, first five bytes `JOIN\n`. -/
def seats (s : Bootstrap) (x : Conn) : Bool :=
  decide (0 ≤ x.cfd) && isWhitelisted s x.ip && decide (x.data.take 5 = JOIN_MSG)

/-- Invariant of `CompareParallelTest`: the first `n` rows of `u_shares`, `v_shares`, the first
`ja` rows of `eq_shares`, `gt_shares`, `lt_shares`, the first `jb` rows of `prefixEq_shares` and the
first `jc` rows of `flag_shares` are degree-1 sharings of the values they stand for, and
`cmp_shares` is still zero. -/
def CptInv (bu bv : Nat → Int) (s : CptState) (n ja jb jc : Nat) : Prop :=
  (∀ j : Nat, j < n → IsShare (s.u_shares j) (bu j) ∧ IsShare (s.v_shares j) (bv j)) ∧
  (∀ j : Nat, j < ja → IsShare (s.eq_shares j) (eqB bu bv j) ∧
    IsShare (s.gt_shares j) (gtB bu bv j) ∧ IsShare (s.lt_shares j) (ltB bu bv j)) ∧
  (∀ j : Nat, j < jb → IsShare (s.prefixEq_shares j) (prefB bu bv j)) ∧
  (∀ j : Nat, j < jc → IsShare (s.flag_shares j) (flagB bu bv j)) ∧
  (∀ k : Nat, k < 3 → s.cmp_shares k = 0)

/-- Execution of an agent process against the frames that arrive on its socket, in order
(`none` is a short read): the frames the agent sends, and the state in which it stops, namely
waiting for a frame that has not arrived, exited (or reset), or back at the top of the task
loop. -/
def Proc.run : Proc → List (Option response_t) → List response_t × Proc
  | Proc.send r k, ins => (r :: (Proc.run k ins).1, (Proc.run k ins).2)
  | Proc.recv k, [] => ([], Proc.recv k)
  | Proc.recv k, m :: ins => Proc.run (k m) ins
  | Proc.exit status, _ => ([], Proc.exit status)
  | Proc.idle, _ => ([], Proc.idle)
  | Proc.reset, _ => ([], Proc.reset)

/-- agent.c:149, `recvAll(fd, &t, sizeof t)` on the bytes the socket still delivers: a full task
frame of `sizeof t = 1 + 4 + 4 + 4*l + 4*l` bytes, or `none` when the stream ends before. -/
def agentRead (stream : List Nat) : Option task_t :=
  if stream.length < 1 + 4 + 4 + 4 * l + 4 * l then none
  else some (taskOfBytes (stream.take (1 + 4 + 4 + 4 * l + 4 * l)))

/-- agent.c:147-219: the first pass of `main` through the task loop on the given byte stream. -/
def agentMain (stream : List Nat) : Proc := agentLoop (agentRead stream)

/-- Whenever operation `m` returns a result, the log has only grown and every event added
satisfies `Q`. -/
def Returns {α : Type} (Q : Event → Prop) (m : Coord α) : Prop :=
  ∀ c a c2, m c = Except.ok (a, c2) → Extends Q c c2

/-- Property `G` of the frames read from the agents: a read counts only if the frame is complete
(other events are unconstrained). -/
def onRecv (G : response_t → Prop) : Event → Prop
  | Event.received _ (some r) => G r
  | Event.received _ none => False
  | _ => True

/-- A peer that is not the agent program: it takes part in `n` renormalization cycles with
share 0 (as `runRENORM` does) and then sends the frame `r`. -/
def renPeer (r : response_t) : Nat → Proc
  | 0 => Proc.send r Proc.idle
  | n + 1 => runRENORM 0 (fun _ => renPeer r n)

/-- An initialized session whose three peers are `renPeer r` for the `3*l + (l-1) + l` cycles of
one comparison. -/
def renSession (r : response_t) (g : Rng) : NetIntContext :=
  { initialized := true, cli := fun _ => renPeer r (3 * l + (l - 1) + l), rng := g, log := [] }

/-- server.c:202-211, 240-250 and 298-309: the collection loop of `runADD`, `runMUL` and `runCMP`.
A short read ends the process with `exit(EXIT_FAILURE)`; a frame whose opcode is not RES is
skipped (`else if` without `else`), so `resultShares[i]` keeps what the array held before,
which is `junk` since the array is not initialized. -/
def serverCollect (junk : Nat → Int) : Coord (Nat → Int) :=
  (List.range 3).foldlM
    (fun (resultShares : Nat → Int) i => do
      let r ← recvAll i
      match r with
      | none => fail (Err.exited EXIT_FAILURE)
      | some r =>
        if r.op = OP_RES then pure (setAt resultShares i (toI32 (ntohl r.value)))
        else pure resultShares)
    junk

/-- server.c:169-175, the second loop of `waitRENORM`: a failed `send` leaves the loop (`break`). -/
def sendREN (resultShares : Nat → Int) : List Nat → Coord Unit
  | [] => pure ()
  | i :: rest => do
    let ok ← sendResponse i { op := OP_REN, value := htonl (toU32 (resultShares i)) }
    if !ok then pure () else sendREN resultShares rest

/-- server.c:152-176, `waitRENORM()`: a short read and a frame with another opcode both end the
process with `exit(EXIT_FAILURE)`. All three slots of `resultShares` are assigned before they
are read. -/
def waitRENORM : Coord Unit := do
  let resultShares ← (List.range 3).foldlM
    (fun (resultShares : Nat → Int) i => do
      let r ← recvAll i
      match r with
      | none => fail (Err.exited EXIT_FAILURE)
      | some r =>
        if r.op = OP_REN then pure (setAt resultShares i (toI32 (ntohl r.value)))
        else fail (Err.exited EXIT_FAILURE))
    (fun _ => 0)
  let resultShares ← renormalize resultShares
  sendREN resultShares (List.range 3)

/-- server.c:184-213, `runADD(a, b)`; `junk` is the content of the uninitialized `resultShares`. -/
def runADD (a b : Int) (junk : Nat → Int) : Coord Int := do
  let r1 := cmod (← nextRand) MOD
  let r2 := cmod (← nextRand) MOD
  let op := OP_ADD
  (List.range 3).forM fun i => do
    let a_share := SPLIT i r1 a
    let b_share := SPLIT i r2 b
    let t : task_t := { op := op, a := htonl (toU32 a_share), b := htonl (toU32 b_share),
                        u_shares := fun _ => 0, v_shares := fun _ => 0 }
    let _ ← sendTask i t
  let resultShares ← serverCollect junk
  pure (RECONSTRUCT resultShares)

/-- server.c:221-253, `runMUL(a, b)`; `junk` is the content of the uninitialized `resultShares`. -/
def runMUL (a b : Int) (junk : Nat → Int) : Coord Int := do
  let r1 := cmod (← nextRand) MOD
  let r2 := cmod (← nextRand) MOD
  let op := OP_MUL
  (List.range 3).forM fun i => do
    let a_share := SPLIT i r1 a
    let b_share := SPLIT i r2 b
    let t : task_t := { op := op, a := htonl (toU32 a_share), b := htonl (toU32 b_share),
                        u_shares := fun _ => 0, v_shares := fun _ => 0 }
    let _ ← sendTask i t
  let resultShares ← serverCollect junk
  let resultShares ← renormalize resultShares
  pure (RECONSTRUCT resultShares)

/-- server.c:266-273, one pass of the loop that shares bit `i` of both operands: the shares are
stored already converted with `htonl`. -/
def serverShareBit (bits_u bits_v : Nat → Int)
    (acc : (Nat → Nat → Int) × (Nat → Nat → Int)) (i : Nat) :
    Coord ((Nat → Nat → Int) × (Nat → Nat → Int)) := do
  let ru := cmod (← nextRand) MOD
  let rv := cmod (← nextRand) MOD
  pure ((List.range 3).foldl
    (fun acc j =>
      (setAt2 acc.1 j i (toI32 (htonl (toU32 (SPLIT j ru (bits_u i))))),
       setAt2 acc.2 j i (toI32 (htonl (toU32 (SPLIT j rv (bits_v i)))))))
    acc)

/-- server.c:275-285: the CMP task for agent `j`, the share rows copied with `memcpy`. -/
def serverTask (u_shares v_shares : Nat → Nat → Int) (r0 : Int) (j : Nat) : task_t :=
  { op := OP_CMP, a := htonl (toU32 (SPLIT j r0 1)), b := htonl 0,
    u_shares := fun i => if i < l then u_shares j i else 0,
    v_shares := fun i => if i < l then v_shares j i else 0 }

/-- server.c:311-320: the outputs `(*c, *e)` of `runCMP` derived from the reconstructed `cmp`. -/
def cmpFlags (cmp : Int) : Int × Int :=
  (if cmp ≥ 0 ∧ cmp ≤ MOD / 2 then 1 else 0, if cmp = 0 then 1 else 0)

/-- server.c:254-322, `runCMP(u, v, &c, &e)`: the result is the pair `(*c, *e)` (the return value
is the constant 1); `junk` is the content of the uninitialized `resultShares`. -/
def Server.runCMP (u v : Int) (junk : Nat → Int) : Coord (Int × Int) := do
  let bits_u := cmpBits u
  let bits_v := cmpBits v
  let (u_shares, v_shares) ← (List.range l).foldlM (serverShareBit bits_u bits_v)
    (fun _ _ => 0, fun _ _ => 0)
  let r0 := cmod (← nextRand) MOD
  (List.range 3).forM fun j => do
    let _ ← sendTask j (serverTask u_shares v_shares r0 j)
  repeatM l (do waitRENORM; waitRENORM; waitRENORM)
  repeatM (l - 1) waitRENORM
  repeatM l waitRENORM
  let resultShares ← serverCollect junk
  let cmp := RECONSTRUCT resultShares
  pure (cmpFlags cmp)

/-- server.c:357-408, one pass of the REPL after `sscanf` has read `a`, `opStr`, `b`: the value
printed as `Result`, or `none` for an unsupported operator. `junk` and `junk2` are the contents
of the uninitialized result arrays of the first and the second operation called. -/
def serverStep (opStr : String) (a b : Int) (junk junk2 : Nat → Int) : Coord (Option Int) :=
  if opStr = "+" then do
    let result ← runADD a b junk
    pure (some result)
  else if opStr = "-" then do
    let (c, _) ← Server.runCMP a b junk
    if c = 0 then do
      let result ← runADD (sub32 0 a) b junk2
      pure (some (mul32 (-1) result))
    else do
      let result ← runADD a (sub32 0 b) junk2
      pure (some result)
  else if opStr = "*" then do
    let result ← runMUL a b junk
    pure (some result)
  else if opStr = "<" then do
    let (c, _) ← Server.runCMP a b junk
    pure (some (if c = 0 then 1 else 0))
  else if opStr = "<=" then do
    let (c, _) ← Server.runCMP b a junk
    pure (some (if c ≠ 0 then 1 else 0))
  else if opStr = ">" then do
    let (c, _) ← Server.runCMP b a junk
    pure (some (if c = 0 then 1 else 0))
  else if opStr = ">=" then do
    let (c, _) ← Server.runCMP a b junk
    pure (some (if c ≠ 0 then 1 else 0))
  else if opStr = "==" then do
    let (_, e) ← Server.runCMP a b junk
    pure (some (if e ≠ 0 then 1 else 0))
  else if opStr = "!=" then do
    let (_, e) ← Server.runCMP a b junk
    pure (some (if e = 0 then 1 else 0))
  else pure none

/-- Range invariant of the agent's `OP_CMP` branch: every entry of the local arrays and the
running sum `cmp_share` lie in `[0, p)`. -/
def CmpRange (s : CmpLocals) : Prop :=
  (∀ i, 0 ≤ s.u_shares i ∧ s.u_shares i < 10289) ∧
  (∀ i, 0 ≤ s.v_shares i ∧ s.v_shares i < 10289) ∧
  (∀ i, 0 ≤ s.eq_share i ∧ s.eq_share i < 10289) ∧
  (∀ i, 0 ≤ s.gt_share i ∧ s.gt_share i < 10289) ∧
  (∀ i, 0 ≤ s.lt_share i ∧ s.lt_share i < 10289) ∧
  (∀ i, 0 ≤ s.prefixEq_share i ∧ s.prefixEq_share i < 10289) ∧
  (∀ i, 0 ≤ s.flag_share i ∧ s.flag_share i < 10289) ∧
  (0 ≤ s.cmp_share ∧ s.cmp_share < 10289)

/-- Process `P` follows the script of the `OP_CMP` branch with `n` renormalizations to go: it
sends `n` REN frames, each with a value in `[0, p)` and each followed by a read of the reply,
and then one RES frame with a value in `[0, p)`, after which it is back at the top of the task
loop. The script continues after a REN reply whose value lies in `[0, p)`; a short read or a
reply with another opcode ends the process with `EXIT_FAILURE`. -/
def CmpScript : Nat → Proc → Prop
  | 0, P => ∃ x : Int, (0 ≤ x ∧ x < 10289) ∧
      P = Proc.send { op := OP_RES, value := htonl (toU32 x) } Proc.idle
  | n + 1, P => ∃ (x : Int) (k : Option response_t → Proc), (0 ≤ x ∧ x < 10289) ∧
      P = Proc.send { op := OP_REN, value := htonl (toU32 x) } (Proc.recv k) ∧
      k none = Proc.exit EXIT_FAILURE ∧
      (∀ r : response_t, r.op ≠ OP_REN → k (some r) = Proc.exit EXIT_FAILURE) ∧
      (∀ r : response_t, r.op = OP_REN →
        0 ≤ toI32 (ntohl r.value) ∧ toI32 (ntohl r.value) < 10289 → CmpScript n (k (some r)))

/-- Arrays of `Compare2Test` that live across its loops (ITS-MPC.c:145-146, 171, 178) and the
random source. -/
structure Cmp2State where
  u_shares : Nat → Nat → Int
  v_shares : Nat → Nat → Int
  b_shares : Nat → Int
  c_shares : Nat → Int
  g : Rng

/-- ITS-MPC.c:161-168: body of the loop of `Compare2Test` that shares bit `i` of both operands. -/
def c2ShareBit (bits_u bits_v : Nat → Int) (s : Cmp2State) (i : Nat) : Cmp2State :=
  let ru := cmod (rand s.g).1 MOD
  let g := (rand s.g).2
  let rv := cmod (rand g).1 MOD
  let g := (rand g).2
  (List.range NP).foldl
    (fun s j => { s with
      u_shares := setAt2 s.u_shares i j (SPLIT j ru (bits_u i))
      v_shares := setAt2 s.v_shares i j (SPLIT j rv (bits_v i)) })
    { s with g := g }

/-- ITS-MPC.c:171-175: `b_shares` is a fresh sharing of 1. -/
def c2InitB (s : Cmp2State) : Cmp2State :=
  let rb0 := cmod (rand s.g).1 MOD
  { s with
    b_shares := (List.range NP).foldl (fun b j => setAt b j (SPLIT j rb0 1)) s.b_shares
    g := (rand s.g).2 }

/-- ITS-MPC.c:178-181: `c_shares[j] = (u_shares[0][j] - v_shares[0][j] + 1 + MOD) % MOD`. -/
def c2InitC (s : Cmp2State) : Cmp2State :=
  { s with
    c_shares := (List.range NP).foldl
      (fun c j => setAt c j
        (cmod (add32 (add32 (sub32 (s.u_shares 0 j) (s.v_shares 0 j)) 1) MOD) MOD))
      s.c_shares }

/-- ITS-MPC.c:186-189: `uv_prod[j] = (u_shares[i - 1][j] * v_shares[i - 1][j]) % MOD`; all `NP`
slots of the local array are assigned before it is read. -/
def c2UvProd (u v : Nat → Int) : Nat → Int :=
  (List.range NP).foldl (fun uv_prod j => setAt uv_prod j (cmod (mul32 (u j) (v j)) MOD))
    (fun _ => 0)

/-- ITS-MPC.c:192-195:
`xor_shares[j] = (u_shares[i - 1][j] + v_shares[i - 1][j] - 2 * uv_prod[j] + MOD) % MOD`. -/
def c2Xor (u v uv_prod : Nat → Int) : Nat → Int :=
  (List.range NP).foldl
    (fun xor_shares j => setAt xor_shares j
      (cmod (add32 (sub32 (add32 (u j) (v j)) (mul32 2 (uv_prod j))) MOD) MOD))
    (fun _ => 0)

/-- ITS-MPC.c:199-202: `tmp_shares[j] = (1 - xor_shares[j] + MOD) % MOD`. -/
def c2Tmp (xor_shares : Nat → Int) : Nat → Int :=
  (List.range NP).foldl
    (fun tmp_shares j => setAt tmp_shares j (cmod (add32 (sub32 1 (xor_shares j)) MOD) MOD))
    (fun _ => 0)

/-- ITS-MPC.c:206-208: `b_shares[j] = (b_shares[j] * tmp_shares[j]) % MOD`, in place. -/
def c2MulB (b_shares tmp_shares : Nat → Int) : Nat → Int :=
  (List.range NP).foldl
    (fun b_shares j => setAt b_shares j (cmod (mul32 (b_shares j) (tmp_shares j)) MOD))
    b_shares

/-- ITS-MPC.c:212-215:
`t_shares[j] = (u_shares[i][j] - v_shares[i][j] + 2 - b_shares[j] + MOD) % MOD`. -/
def c2T (u v b_shares : Nat → Int) : Nat → Int :=
  (List.range NP).foldl
    (fun t_shares j => setAt t_shares j
      (cmod (add32 (sub32 (add32 (sub32 (u j) (v j)) 2) (b_shares j)) MOD) MOD))
    (fun _ => 0)

/-- ITS-MPC.c:219-221: `c_shares[j] = (c_shares[j] * t_shares[j]) % MOD`, in place. -/
def c2MulC (c_shares t_shares : Nat → Int) : Nat → Int :=
  (List.range NP).foldl
    (fun c_shares j => setAt c_shares j (cmod (mul32 (c_shares j) (t_shares j)) MOD))
    c_shares

/-- ITS-MPC.c:184-223: body of the main loop of `Compare2Test` for bit `i`: the six array loops,
each followed by `RENORMALIZE` of the array it filled. -/
def c2Round (s : Cmp2State) (i : Nat) : Cmp2State :=
  let uv_prod := RENORMALIZE (c2UvProd (s.u_shares (i - 1)) (s.v_shares (i - 1))) s.g
  let xor_shares :=
    RENORMALIZE (c2Xor (s.u_shares (i - 1)) (s.v_shares (i - 1)) uv_prod.1) uv_prod.2
  let tmp_shares := RENORMALIZE (c2Tmp xor_shares.1) xor_shares.2
  let b_shares := RENORMALIZE (c2MulB s.b_shares tmp_shares.1) tmp_shares.2
  let t_shares := RENORMALIZE (c2T (s.u_shares i) (s.v_shares i) b_shares.1) b_shares.2
  let c_shares := RENORMALIZE (c2MulC s.c_shares t_shares.1) t_shares.2
  { s with b_shares := b_shares.1, c_shares := c_shares.1, g := c_shares.2 }

/-- ITS-MPC.c:138-229, `Compare2Test(u, v)`: the two printed values
(`Reconstructed Result`, `Expected Result`). -/
def Compare2Test (u v : Int) (g : Rng) : Int × Int :=
  let bits_u := (List.range l).foldl (fun b i => setAt b i (bitAt u i)) (fun _ => 0)
  let bits_v := (List.range l).foldl (fun b i => setAt b i (bitAt v i)) (fun _ => 0)
  let s : Cmp2State :=
    { u_shares := fun _ _ => 0, v_shares := fun _ _ => 0, b_shares := fun _ => 0,
      c_shares := fun _ => 0, g := g }
  let s := (List.range l).foldl (c2ShareBit bits_u bits_v) s
  let s := c2InitB s
  let s := c2InitC s
  let s := (List.range (l - 1)).foldl (fun s n => c2Round s (n + 1)) s
  let result := if RECONSTRUCT s.c_shares ≠ 0 then 1 else 0
  let expected := if u ≥ v then 1 else 0
  (result, expected)

/-- Value shared by `c_shares` after round `n` of `Compare2Test`: the product of `u_0 - v_0 + 1`
and the factors `u_i - v_i + 2 - b_i` for `i = 1..n`, where `b_i` is the prefix equality. -/
def c2Val (bu bv : Nat → Int) : Nat → Int
  | 0 => bu 0 - bv 0 + 1
  | n + 1 => c2Val bu bv n * (bu (n + 1) - bv (n + 1) + 2 - prefB bu bv (n + 1))

/-- Invariant of `Compare2Test` after round `n` of its main loop: the rows of `u_shares` and
`v_shares` are degree-1 sharings of the bits, `b_shares` shares the prefix equality and
`c_shares` shares `c2Val`. -/
def Cmp2Inv (bu bv : Nat → Int) (s : Cmp2State) (n : Nat) : Prop :=
  (∀ i : Nat, i < l → IsShare (s.u_shares i) (bu i) ∧ IsShare (s.v_shares i) (bv i)) ∧
  IsShare s.b_shares (prefB bu bv n) ∧ IsShare s.c_shares (c2Val bu bv n)

/-- ITS-MPC.c:239-348, `CompareParallelTest(u, v, &c, &e)` up to line 348: the value of the local
`cmp = RECONSTRUCT(cmp_shares)` from which lines 349-357 derive `c` and `e`. -/
def cptCmp (u v : Int) (g : Rng) : Int :=
  let bits_u := (List.range l).foldl (fun b i => setAt b i (bitAt u i)) (fun _ => 0)
  let bits_v := (List.range l).foldl (fun b i => setAt b i (bitAt v i)) (fun _ => 0)
  let s : CptState :=
    { u_shares := fun _ _ => 0, v_shares := fun _ _ => 0, eq_shares := fun _ _ => 0,
      gt_shares := fun _ _ => 0, lt_shares := fun _ _ => 0, prefixEq_shares := fun _ _ => 0,
      flag_shares := fun _ _ => 0, tmp_shares := fun _ => 0, tmp2_shares := fun _ => 0,
      cmp_shares := fun _ => 0, g := g }
  let s := (List.range l).foldl (cptShareBit bits_u bits_v) s
  let s := (List.range l).foldl cptBitRound s
  let s := cptPrefixInit s
  let s := (List.range (l - 1)).foldl (fun s n => cptPrefixRound s (n + 1)) s
  let s := (List.range l).foldl cptFlagRound s
  let s := cptSum s
  RECONSTRUCT s.cmp_shares

theorem cmod_of_nonneg {x : Int} (h : 0 ≤ x) : cmod x 10289 = x % 10289 := by
  unfold cmod
  exact Int.tmod_eq_emod h (by decide)

theorem cmod_of_neg {x : Int} (h : x < 0) : cmod x 10289 = -((-x) % 10289) := by
  unfold cmod
  rw [Int.tmod_def]
  have h1 : x.tdiv 10289 = -((-x) / 10289) := by
    have : x = -(-x) := by omega
    rw [this, Int.neg_tdiv, Int.tdiv_eq_ediv (by omega) (by decide)]
    simp
  rw [h1]; omega

theorem wrap32_id {x : Int} (h1 : -2147483648 ≤ x) (h2 : x < 2147483648) : wrap32 x = x := by
  unfold wrap32; omega

theorem foldl_setAt (f : Nat → Int) (a0 : Nat → Int) (n k : Nat) :
    ((List.range n).foldl (fun a j => setAt a j (f j)) a0) k = if k < n then f k else a0 k := by
  induction n with
  | zero => simp
  | succ n ih =>
    rw [List.range_succ, List.foldl_append]
    simp only [List.foldl_cons, List.foldl_nil, setAt]
    by_cases h : k = n
    · subst h; simp
    · rw [if_neg h, ih]
      by_cases h2 : k < n
      · rw [if_pos h2, if_pos (by omega)]
      · rw [if_neg h2, if_neg (by omega)]

theorem foldl_setAt2 (f : Nat → Int) (a0 : Nat → Nat → Int) (i n x y : Nat) :
    ((List.range n).foldl (fun a k => setAt2 a i k (f k)) a0) x y
      = if x = i ∧ y < n then f y else a0 x y := by
  induction n with
  | zero => simp
  | succ n ih =>
    rw [List.range_succ, List.foldl_append]
    simp only [List.foldl_cons, List.foldl_nil, setAt2]
    by_cases h : x = i ∧ y = n
    · obtain ⟨h1, h2⟩ := h
      subst h1; subst h2; simp
    · rw [if_neg h, ih]
      by_cases h2 : x = i ∧ y < n
      · rw [if_pos h2, if_pos ⟨h2.1, by omega⟩]
      · rw [if_neg h2, if_neg (by intro h3; apply h2; refine ⟨h3.1, ?_⟩; by_contra h4; apply h; exact ⟨h3.1, by omega⟩)]

theorem renormShareR_val (r_U coeff_r2 : Int) (k : Nat) :
    renormShareR r_U coeff_r2 k
      = if k < 3 then cmod (add32 r_U (mul32 coeff_r2 (add32 k 1))) MOD else 0 := by
  unfold renormShareR NP
  rw [foldl_setAt]

theorem renormD_val (shares share_r : Nat → Int) (k : Nat) :
    renormD shares share_r k
      = if k < 3 then cmod (add32 (shares k) (share_r k)) MOD else 0 := by
  unfold renormD NP
  rw [foldl_setAt]

theorem renormReshare_rng (d : Nat → Int) (g : Rng) :
    (renormReshare d g).2 = fun n => g (n + 3) := by
  simp [renormReshare, rand, NP, List.range_succ]

theorem renormReshare_val (d : Nat → Int) (g : Rng) (j k : Nat) (hj : j < 3) (hk : k < 3) :
    (renormReshare d g).1 j k
      = cmod (add32 (d j) (mul32 (cmod (g j) MOD) (add32 k 1))) MOD := by
  unfold renormReshare NP
  simp only [List.range_succ, List.range_zero, List.nil_append, List.cons_append,
    List.foldl_cons, List.foldl_nil, rand]
  interval_cases j <;> interval_cases k <;> simp [setAt2]

theorem renormCombine_val (shares share_r : Nat → Int) (rd : Nat → Nat → Int) (k : Nat)
    (hk : k < 3) :
    renormCombine shares share_r rd k
      = (let sum := cmod (add32 (cmod (add32 (cmod (add32 0 (mul32 GAMMA1 (rd 0 k))) MOD)
            (mul32 GAMMA2 (rd 1 k))) MOD) (mul32 GAMMA3 (rd 2 k))) MOD
         let v := cmod (sub32 sum (share_r k)) MOD
         if v < 0 then add32 v MOD else v) := by
  unfold renormCombine
  rw [foldl_setAt (fun k =>
      let sum := (List.range NP).foldl
        (fun sum j => cmod (add32 sum (mul32 (gammaArray j) (rd j k))) MOD) 0
      let v := cmod (sub32 sum (share_r k)) MOD
      if v < 0 then add32 v MOD else v)]
  simp [NP, hk, List.range_succ, gammaArray]

theorem draw_range (g : Rng) (i : Nat) : 0 ≤ draw g i ∧ draw g i < 10289 := by
  unfold draw; omega

theorem cmod_rand (g : Rng) (i : Nat) : cmod (g i : Int) MOD = draw g i := by
  unfold draw MOD
  exact cmod_of_nonneg (Int.natCast_nonneg _)

theorem RENORMALIZE_rng (shares : Nat → Int) (g : Rng) :
    (RENORMALIZE shares g).2 = fun n => g (n + 5) := by
  simp [RENORMALIZE, renormReshare_rng, rand]

theorem final_norm {x y : Int} (hx : 0 ≤ x ∧ x < 10289) (hy : 0 ≤ y ∧ y < 10289) :
    (if cmod (x - y) 10289 < 0 then wrap32 (cmod (x - y) 10289 + 10289) else cmod (x - y) 10289)
      = (x - y) % 10289 := by
  rcases lt_or_le (x - y) 0 with h | h
  · rw [cmod_of_neg h]
    split_ifs with h1
    · rw [wrap32_id (by omega) (by omega)]; omega
    · omega
  · rw [cmod_of_nonneg h]
    split_ifs with h1
    · omega
    · rfl

theorem RENORMALIZE_val (s : Nat → Int) (g : Rng)
    (h0 : 0 ≤ s 0 ∧ s 0 < 10289) (h1 : 0 ≤ s 1 ∧ s 1 < 10289) (h2 : 0 ≤ s 2 ∧ s 2 < 10289)
    (k : Nat) (hk : k < 3) :
      (RENORMALIZE s g).1 k = (3 * s 0 + 10286 * s 1 + s 2 +
        (3 * draw g 2 + 10286 * draw g 3 + draw g 4 + (10289 - draw g 1)) * (k + 1)) % 10289 := by
  have hd0 := draw_range g 0
  have hd1 := draw_range g 1
  have hd2 := draw_range g 2
  have hd3 := draw_range g 3
  have hd4 := draw_range g 4
  simp only [RENORMALIZE, renormCombine_val _ _ _ k hk, renormReshare_val _ _ _ _ _ hk,
    show (0:Nat) < 3 by decide, show (1:Nat) < 3 by decide, show (2:Nat) < 3 by decide,
    renormD_val, renormShareR_val, if_true, hk, rand, cmod_rand, zero_add]
  simp only [add32, mul32, sub32, GAMMA1, GAMMA2, GAMMA3, MOD]
  generalize draw g 0 = r0 at *
  generalize draw g 1 = r1 at *
  generalize draw g 2 = c0 at *
  generalize draw g 3 = c1 at *
  generalize draw g 4 = c2 at *
  generalize s 0 = s0 at *
  generalize s 1 = s1 at *
  generalize s 2 = s2 at *
  interval_cases k <;>
  simp (disch := omega) only [wrap32_id, cmod_of_nonneg, Nat.cast_zero, Nat.cast_one,
    Nat.cast_ofNat, zero_add, mul_one, final_norm] <;>
  omega

theorem IsShare.range {t : Nat → Int} {v : Int} (h : IsShare t v) (k : Nat) (hk : k < 3) :
    0 ≤ t k ∧ t k < 10289 := by
  obtain ⟨m, hm⟩ := h
  rw [hm k hk]; omega

theorem IsShare.congr {t : Nat → Int} {v w : Int} (h : IsShare t v)
    (hvw : v % 10289 = w % 10289) : IsShare t w := by
  obtain ⟨m, hm⟩ := h
  refine ⟨m, fun k hk => ?_⟩
  rw [hm k hk]; omega

theorem IsShare.at0 {t : Nat → Int} {v m : Int}
    (hm : ∀ k : Nat, k < 3 → t k = (v + m * ((k : Int) + 1)) % 10289) :
    t 0 = (v + m) % 10289 ∧ t 1 = (v + m * 2) % 10289 ∧ t 2 = (v + m * 3) % 10289 := by
  have h0 := hm 0 (by decide)
  have h1 := hm 1 (by decide)
  have h2 := hm 2 (by decide)
  norm_num at h0 h1 h2
  exact ⟨h0, h1, h2⟩

theorem IsShare.of3 {t : Nat → Int} {v m : Int}
    (h0 : t 0 = (v + m) % 10289) (h1 : t 1 = (v + m * 2) % 10289)
    (h2 : t 2 = (v + m * 3) % 10289) : IsShare t v := by
  refine ⟨m, fun k hk => ?_⟩
  interval_cases k
  · rw [h0]; norm_num
  · rw [h1]; norm_num
  · rw [h2]; norm_num

theorem RECONSTRUCT_val (t : Nat → Int)
    (h0 : 0 ≤ t 0 ∧ t 0 < 10289) (h1 : 0 ≤ t 1 ∧ t 1 < 10289) (h2 : 0 ≤ t 2 ∧ t 2 < 10289) :
    RECONSTRUCT t = (3 * t 0 + 10286 * t 1 + t 2) % 10289 := by
  simp only [RECONSTRUCT, NP, List.range_succ, List.range_zero, List.nil_append,
    List.cons_append, List.foldl_cons, List.foldl_nil, gammaArray, add32, mul32, GAMMA1, GAMMA2,
    GAMMA3, MOD, zero_add]
  generalize t 0 = a at *
  generalize t 1 = b at *
  generalize t 2 = c at *
  simp (disch := omega) only [wrap32_id, cmod_of_nonneg, one_mul]
  split_ifs <;> omega

theorem IsShare.recon {t : Nat → Int} {v : Int} (h : IsShare t v) :
    RECONSTRUCT t = v % 10289 := by
  rw [RECONSTRUCT_val t (h.range 0 (by decide)) (h.range 1 (by decide)) (h.range 2 (by decide))]
  obtain ⟨m, hm⟩ := h
  obtain ⟨h0, h1, h2⟩ := IsShare.at0 hm
  rw [h0, h1, h2]; omega

theorem SPLIT_val_gen (k : Nat) (hk : k < 3) (r s : Int) (hr : 0 ≤ r ∧ r < 10289)
    (hs : -10289 ≤ s ∧ s < 2147442495) : SPLIT k r s = (s + r * ((k : Int) + 1)) % 10289 := by
  simp only [SPLIT, add32, mul32, MOD]
  interval_cases k <;>
  simp (disch := omega) only [wrap32_id, cmod_of_nonneg, Nat.cast_zero, Nat.cast_one,
    Nat.cast_ofNat, zero_add, one_mul] <;>
  omega

theorem SPLIT_val (k : Nat) (hk : k < 3) (r s : Int) (hr : 0 ≤ r ∧ r < 10289)
    (hs : 0 ≤ s ∧ s < 10289) : SPLIT k r s = (s + r * ((k : Int) + 1)) % 10289 :=
  SPLIT_val_gen k hk r s hr ⟨by omega, by omega⟩

theorem IsShare_SPLIT_gen (t : Nat → Int) (r s : Int) (hr : 0 ≤ r ∧ r < 10289)
    (hs : -10289 ≤ s ∧ s < 2147442495) (ht : ∀ k : Nat, k < 3 → t k = SPLIT k r s) :
    IsShare t s :=
  ⟨r, fun k hk => by rw [ht k hk, SPLIT_val_gen k hk r s hr hs]⟩

theorem IsShare_SPLIT (t : Nat → Int) (r s : Int) (hr : 0 ≤ r ∧ r < 10289)
    (hs : 0 ≤ s ∧ s < 10289) (ht : ∀ k : Nat, k < 3 → t k = SPLIT k r s) : IsShare t s :=
  IsShare_SPLIT_gen t r s hr ⟨by omega, by omega⟩ ht

theorem IsShare_RENORMALIZE (t : Nat → Int) (g : Rng)
    (h0 : 0 ≤ t 0 ∧ t 0 < 10289) (h1 : 0 ≤ t 1 ∧ t 1 < 10289) (h2 : 0 ≤ t 2 ∧ t 2 < 10289) :
    IsShare (RENORMALIZE t g).1 (3 * t 0 + 10286 * t 1 + t 2) :=
  ⟨_, fun k hk => RENORMALIZE_val t g h0 h1 h2 k hk⟩

theorem mul_share_bound {a b : Int} (ha : 0 ≤ a ∧ a < 10289) (hb : 0 ≤ b ∧ b < 10289) :
    0 ≤ a * b ∧ a * b < 2147483648 := by
  constructor
  · exact mul_nonneg ha.1 hb.1
  · have h1 : a * b ≤ 10288 * 10288 := mul_le_mul (by omega) (by omega) hb.1 (by norm_num)
    omega

theorem cmod_mul32 {a b : Int} (ha : 0 ≤ a ∧ a < 10289) (hb : 0 ≤ b ∧ b < 10289) :
    cmod (mul32 a b) MOD = (a * b) % 10289 := by
  have h := mul_share_bound ha hb
  unfold mul32 MOD
  rw [wrap32_id (by omega) h.2, cmod_of_nonneg h.1]

theorem prod_recon {a b : Nat → Int} {x y : Int} (ha : IsShare a x) (hb : IsShare b y) :
    (3 * ((a 0 * b 0) % 10289) + 10286 * ((a 1 * b 1) % 10289) + (a 2 * b 2) % 10289) % 10289
      = (x * y) % 10289 := by
  obtain ⟨m, hm⟩ := ha
  obtain ⟨n, hn⟩ := hb
  obtain ⟨a0, a1, a2⟩ := IsShare.at0 hm
  obtain ⟨b0, b1, b2⟩ := IsShare.at0 hn
  rw [a0, a1, a2, b0, b1, b2]
  have key := (ZMod.intCast_eq_intCast_iff' (3 * (((x + m) % 10289 * ((y + n) % 10289)) % 10289)
      + 10286 * (((x + m * 2) % 10289 * ((y + n * 2) % 10289)) % 10289)
      + ((x + m * 3) % 10289 * ((y + n * 3) % 10289)) % 10289) (x * y) 10289).1
  apply key
  have hp : ((10289 : Int) : ZMod 10289) = 0 := by
    have := ZMod.natCast_self 10289
    exact_mod_cast this
  have em : ∀ z : Int, ((z % 10289 : Int) : ZMod 10289) = (z : ZMod 10289) := fun z => by
    have := ZMod.intCast_mod z 10289
    exact_mod_cast this
  push_cast
  simp only [em]
  push_cast
  simp only [em]
  push_cast
  have hp2 : (10289 : ZMod 10289) = 0 := by exact_mod_cast hp
  linear_combination ((x : ZMod 10289) * y + 2 * (x * n + m * y) + 4 * m * n) * hp2

theorem IsShare_mul_renorm {a b c : Nat → Int} {x y : Int} (g : Rng)
    (ha : IsShare a x) (hb : IsShare b y)
    (hc : ∀ k : Nat, k < 3 → c k = cmod (mul32 (a k) (b k)) MOD) :
    IsShare (RENORMALIZE c g).1 (x * y) := by
  have r0 := cmod_mul32 (ha.range 0 (by decide)) (hb.range 0 (by decide))
  have r1 := cmod_mul32 (ha.range 1 (by decide)) (hb.range 1 (by decide))
  have r2 := cmod_mul32 (ha.range 2 (by decide)) (hb.range 2 (by decide))
  have c0 := (hc 0 (by decide)).trans r0
  have c1 := (hc 1 (by decide)).trans r1
  have c2 := (hc 2 (by decide)).trans r2
  have h := IsShare_RENORMALIZE c g (by rw [c0]; omega) (by rw [c1]; omega) (by rw [c2]; omega)
  apply h.congr
  rw [c0, c1, c2]
  exact prod_recon ha hb

theorem htonl_lt (n : Nat) : htonl n < 4294967296 := by
  unfold htonl; omega

theorem htonl_bytes (b0 b1 b2 b3 : Nat) (h0 : b0 < 256) (h1 : b1 < 256) (h2 : b2 < 256)
    (h3 : b3 < 256) :
    htonl (b0 + 256 * b1 + 65536 * b2 + 16777216 * b3)
      = b3 + 256 * b2 + 65536 * b1 + 16777216 * b0 := by
  unfold htonl; omega

theorem ntohl_htonl (n : Nat) (h : n < 4294967296) : ntohl (htonl n) = n := by
  have e : n = n % 256 + 256 * (n / 256 % 256) + 65536 * (n / 65536 % 256)
      + 16777216 * (n / 16777216) := by omega
  unfold ntohl
  rw [e, htonl_bytes _ _ _ _ (by omega) (by omega) (by omega) (by omega),
    htonl_bytes _ _ _ _ (by omega) (by omega) (by omega) (by omega)]

theorem toU32_toI32 (n : Nat) (h : n < 4294967296) : toU32 (toI32 n) = n := by
  unfold toU32 toI32 wrap32; omega

theorem toI32_toU32 (x : Int) (h1 : -2147483648 ≤ x) (h2 : x < 2147483648) :
    toI32 (toU32 x) = x := by
  unfold toU32 toI32 wrap32; omega

/-- A share in `[0, p)` survives `htonl`/`ntohl` through a `uint32_t` field. -/
theorem wire_value (x : Int) (h : 0 ≤ x ∧ x < 10289) : toI32 (ntohl (htonl (toU32 x))) = x := by
  rw [ntohl_htonl _ (by unfold toU32; omega), toI32_toU32 x (by omega) (by omega)]

/-- A share in `[0, p)` survives the `int32_t` array fields of a task frame. -/
theorem wire_share (x : Int) (h : 0 ≤ x ∧ x < 10289) :
    toI32 (ntohl (toU32 (toI32 (htonl (toU32 x))))) = x := by
  rw [toU32_toI32 _ (htonl_lt _)]
  exact wire_value x h

theorem setAt_same (a : Nat → Int) (i : Nat) (v : Int) : setAt a i v i = v := by
  simp [setAt]

theorem setAt_other (a : Nat → Int) (i k : Nat) (v : Int) (h : k ≠ i) : setAt a i v k = a k := by
  simp [setAt, h]

theorem setAt_setAt (a : Nat → Int) (i : Nat) (v w : Int) :
    setAt (setAt a i v) i w = setAt a i w := by
  funext k; simp only [setAt]; split_ifs <;> rfl

theorem waitRenorm_spec (c : NetIntContext) (v : Nat → Int) (K : Nat → Int → Proc)
    (hcli : ∀ i : Nat, i < 3 → c.cli i = runRENORM (v i) (K i))
    (hv : ∀ i : Nat, i < 3 → 0 ≤ v i ∧ v i < 10289) :
    ∃ c' w, waitRenorm c = Except.ok ((), c') ∧ IsShare w (3 * v 0 + 10286 * v 1 + v 2) ∧
      (∀ i : Nat, i < 3 → c'.cli i = K i (w i)) ∧ (∀ i : Nat, 3 ≤ i → c'.cli i = c.cli i) ∧
      c'.initialized = c.initialized ∧ c'.log.map Event.tag = c.log.map Event.tag ++ renCycle := by
  have h0 := hcli 0 (by decide)
  have h1 := hcli 1 (by decide)
  have h2 := hcli 2 (by decide)
  simp only [runRENORM] at h0 h1 h2
  have hs := IsShare_RENORMALIZE (setAt (setAt (setAt (fun _ => 0) 0 (v 0)) 1 (v 1)) 2 (v 2))
    c.rng (by simpa [setAt] using hv 0 (by decide)) (by simpa [setAt] using hv 1 (by decide))
    (by simpa [setAt] using hv 2 (by decide))
  have e0 : setAt (setAt (setAt (fun _ => 0) 0 (v 0)) 1 (v 1)) 2 (v 2) 0 = v 0 := by simp [setAt]
  have e1 : setAt (setAt (setAt (fun _ => 0) 0 (v 0)) 1 (v 1)) 2 (v 2) 1 = v 1 := by simp [setAt]
  have e2 : setAt (setAt (setAt (fun _ => 0) 0 (v 0)) 1 (v 1)) 2 (v 2) 2 = v 2 := by simp [setAt]
  rw [e0, e1, e2] at hs
  have w0 := wire_value _ (hs.range 0 (by decide))
  have w1 := wire_value _ (hs.range 1 (by decide))
  have w2 := wire_value _ (hs.range 2 (by decide))
  simp [waitRenorm, List.range_succ, bind, StateT.bind, Except.bind, recvAll, sendResponse,
    renormalize, setCli, h0, h1, h2, pure, StateT.pure, Except.pure,
    wire_value _ (hv 0 (by decide)), wire_value _ (hv 1 (by decide)),
    wire_value _ (hv 2 (by decide)), w0, w1, w2, Event.tag, renCycle]
  refine ⟨_, hs, ?_, ?_⟩
  · intro i hi
    interval_cases i <;> simp
  · intro i hi
    have a0 : i ≠ 0 := by omega
    have a1 : i ≠ 1 := by omega
    have a2 : i ≠ 2 := by omega
    simp [a0, a1, a2]

theorem waitRenorm_mul (c : NetIntContext) (a b : Nat → Int) (x y : Int) (v : Nat → Int)
    (K : Nat → Int → Proc) (ha : IsShare a x) (hb : IsShare b y)
    (hv : ∀ i : Nat, i < 3 → v i = cmod (mul32 (a i) (b i)) MOD)
    (hcli : ∀ i : Nat, i < 3 → c.cli i = runRENORM (v i) (K i)) :
    ∃ c' w, waitRenorm c = Except.ok ((), c') ∧ IsShare w (x * y) ∧
      (∀ i : Nat, i < 3 → c'.cli i = K i (w i)) ∧ (∀ i : Nat, 3 ≤ i → c'.cli i = c.cli i) ∧
      c'.initialized = c.initialized ∧ c'.log.map Event.tag = c.log.map Event.tag ++ renCycle := by
  have r0 := cmod_mul32 (ha.range 0 (by decide)) (hb.range 0 (by decide))
  have r1 := cmod_mul32 (ha.range 1 (by decide)) (hb.range 1 (by decide))
  have r2 := cmod_mul32 (ha.range 2 (by decide)) (hb.range 2 (by decide))
  have c0 := (hv 0 (by decide)).trans r0
  have c1 := (hv 1 (by decide)).trans r1
  have c2 := (hv 2 (by decide)).trans r2
  have hr : ∀ i : Nat, i < 3 → 0 ≤ v i ∧ v i < 10289 := by
    intro i hi
    interval_cases i
    · rw [c0]; omega
    · rw [c1]; omega
    · rw [c2]; omega
  obtain ⟨c', w, h1, h2, h3⟩ := waitRenorm_spec c v K hcli hr
  refine ⟨c', w, h1, ?_, h3⟩
  apply h2.congr
  rw [c0, c1, c2]
  exact prod_recon ha hb

theorem emod_eq_of_cast {a b : Int} (h : (a : ZMod 10289) = (b : ZMod 10289)) :
    a % 10289 = b % 10289 :=
  (ZMod.intCast_eq_intCast_iff' a b 10289).1 h

theorem cast_emod (z : Int) : ((z % 10289 : Int) : ZMod 10289) = (z : ZMod 10289) := by
  have := ZMod.intCast_mod z 10289
  exact_mod_cast this

theorem cmod_abs (x : Int) : -10289 < cmod x 10289 ∧ cmod x 10289 < 10289 := by
  rcases lt_or_le x 0 with h | h
  · rw [cmod_of_neg h]; omega
  · rw [cmod_of_nonneg h]; omega

theorem cmod_emod (x : Int) : cmod x 10289 % 10289 = x % 10289 := by
  rcases lt_or_le x 0 with h | h
  · rw [cmod_of_neg h]; omega
  · rw [cmod_of_nonneg h]; omega

theorem one_sub_val (v : Int) (hv : 0 ≤ v ∧ v < 10289) :
    cmod (add32 (sub32 1 v) MOD) MOD = (1 - v) % 10289 := by
  simp only [add32, sub32, MOD]
  simp (disch := omega) only [wrap32_id, cmod_of_nonneg]
  omega

theorem diff_val (a b : Int) (ha : 0 ≤ a ∧ a < 10289) (hb : 0 ≤ b ∧ b < 10289) :
    cmod (add32 (sub32 a b) MOD) MOD = (a - b) % 10289 := by
  simp only [add32, sub32, MOD]
  simp (disch := omega) only [wrap32_id, cmod_of_nonneg]
  omega

theorem sum_val (a b : Int) (ha : 0 ≤ a ∧ a < 10289) (hb : 0 ≤ b ∧ b < 10289) :
    cmod (add32 a b) MOD = (a + b) % 10289 := by
  simp only [add32, MOD]
  simp (disch := omega) only [wrap32_id, cmod_of_nonneg]

theorem eq_val (u v t : Int) (hu : 0 ≤ u ∧ u < 10289) (hv : 0 ≤ v ∧ v < 10289)
    (ht : 0 ≤ t ∧ t < 10289) :
    cmod (add32 (sub32 1 (cmod (add32 (sub32 (add32 u v) (mul32 2 t)) MOD) MOD)) MOD) MOD
      = (1 - (u + v - 2 * t)) % 10289 := by
  have h1 := cmod_abs (u + v - 2 * t + 10289)
  have h2 := cmod_emod (u + v - 2 * t + 10289)
  simp only [add32, sub32, mul32, MOD]
  simp (disch := omega) only [wrap32_id]
  generalize cmod (u + v - 2 * t + 10289) 10289 = T at *
  rw [cmod_of_nonneg (by omega)]
  omega

theorem IsShare_one_sub {v c : Nat → Int} {y : Int} (hv : IsShare v y)
    (hc : ∀ k : Nat, k < 3 → c k = cmod (add32 (sub32 1 (v k)) MOD) MOD) : IsShare c (1 - y) := by
  have c0 := (hc 0 (by decide)).trans (one_sub_val (v 0) (hv.range 0 (by decide)))
  have c1 := (hc 1 (by decide)).trans (one_sub_val (v 1) (hv.range 1 (by decide)))
  have c2 := (hc 2 (by decide)).trans (one_sub_val (v 2) (hv.range 2 (by decide)))
  obtain ⟨m, hm⟩ := hv
  obtain ⟨v0, v1, v2⟩ := IsShare.at0 hm
  apply IsShare.of3 (m := -m)
  · rw [c0, v0]; omega
  · rw [c1, v1]; omega
  · rw [c2, v2]; omega

theorem IsShare_diff {a b c : Nat → Int} {x y : Int} (ha : IsShare a x) (hb : IsShare b y)
    (hc : ∀ k : Nat, k < 3 → c k = cmod (add32 (sub32 (a k) (b k)) MOD) MOD) :
    IsShare c (x - y) := by
  have c0 := (hc 0 (by decide)).trans (diff_val (a 0) (b 0) (ha.range 0 (by decide)) (hb.range 0 (by decide)))
  have c1 := (hc 1 (by decide)).trans (diff_val (a 1) (b 1) (ha.range 1 (by decide)) (hb.range 1 (by decide)))
  have c2 := (hc 2 (by decide)).trans (diff_val (a 2) (b 2) (ha.range 2 (by decide)) (hb.range 2 (by decide)))
  obtain ⟨m, hm⟩ := ha
  obtain ⟨n, hn⟩ := hb
  obtain ⟨a0, a1, a2⟩ := IsShare.at0 hm
  obtain ⟨b0, b1, b2⟩ := IsShare.at0 hn
  apply IsShare.of3 (m := m - n)
  · rw [c0, a0, b0]; apply emod_eq_of_cast; push_cast; simp only [cast_emod]; push_cast; ring
  · rw [c1, a1, b1]; apply emod_eq_of_cast; push_cast; simp only [cast_emod]; push_cast; ring
  · rw [c2, a2, b2]; apply emod_eq_of_cast; push_cast; simp only [cast_emod]; push_cast; ring

theorem IsShare_sum {a b c : Nat → Int} {x y : Int} (ha : IsShare a x) (hb : IsShare b y)
    (hc : ∀ k : Nat, k < 3 → c k = cmod (add32 (a k) (b k)) MOD) :
    IsShare c (x + y) := by
  have c0 := (hc 0 (by decide)).trans (sum_val (a 0) (b 0) (ha.range 0 (by decide)) (hb.range 0 (by decide)))
  have c1 := (hc 1 (by decide)).trans (sum_val (a 1) (b 1) (ha.range 1 (by decide)) (hb.range 1 (by decide)))
  have c2 := (hc 2 (by decide)).trans (sum_val (a 2) (b 2) (ha.range 2 (by decide)) (hb.range 2 (by decide)))
  obtain ⟨m, hm⟩ := ha
  obtain ⟨n, hn⟩ := hb
  obtain ⟨a0, a1, a2⟩ := IsShare.at0 hm
  obtain ⟨b0, b1, b2⟩ := IsShare.at0 hn
  apply IsShare.of3 (m := m + n)
  · rw [c0, a0, b0]; apply emod_eq_of_cast; push_cast; simp only [cast_emod]; push_cast; ring
  · rw [c1, a1, b1]; apply emod_eq_of_cast; push_cast; simp only [cast_emod]; push_cast; ring
  · rw [c2, a2, b2]; apply emod_eq_of_cast; push_cast; simp only [cast_emod]; push_cast; ring

theorem IsShare_eq {u v t e : Nat → Int} {x y z : Int} (hu : IsShare u x) (hv : IsShare v y)
    (ht : IsShare t z)
    (he : ∀ k : Nat, k < 3 → e k = cmod (add32 (sub32 1 (cmod (add32 (sub32 (add32 (u k) (v k))
      (mul32 2 (t k))) MOD) MOD)) MOD) MOD) :
    IsShare e (1 - (x + y - 2 * z)) := by
  have c0 := (he 0 (by decide)).trans
    (eq_val (u 0) (v 0) (t 0) (hu.range 0 (by decide)) (hv.range 0 (by decide)) (ht.range 0 (by decide)))
  have c1 := (he 1 (by decide)).trans
    (eq_val (u 1) (v 1) (t 1) (hu.range 1 (by decide)) (hv.range 1 (by decide)) (ht.range 1 (by decide)))
  have c2 := (he 2 (by decide)).trans
    (eq_val (u 2) (v 2) (t 2) (hu.range 2 (by decide)) (hv.range 2 (by decide)) (ht.range 2 (by decide)))
  obtain ⟨m, hm⟩ := hu
  obtain ⟨n, hn⟩ := hv
  obtain ⟨q, hq⟩ := ht
  obtain ⟨a0, a1, a2⟩ := IsShare.at0 hm
  obtain ⟨b0, b1, b2⟩ := IsShare.at0 hn
  obtain ⟨t0, t1, t2⟩ := IsShare.at0 hq
  apply IsShare.of3 (m := -(m + n - 2 * q))
  · rw [c0, a0, b0, t0]; apply emod_eq_of_cast; push_cast; simp only [cast_emod]; push_cast; ring
  · rw [c1, a1, b1, t1]; apply emod_eq_of_cast; push_cast; simp only [cast_emod]; push_cast; ring
  · rw [c2, a2, b2, t2]; apply emod_eq_of_cast; push_cast; simp only [cast_emod]; push_cast; ring

theorem seq_ok {a b : Coord Unit} {c c1 : NetIntContext} (h : a c = Except.ok ((), c1)) :
    (do a; b) c = b c1 := by
  simp [bind, StateT.bind, Except.bind, h]

theorem bitRound_spec (c : NetIntContext) (S : Nat → CmpLocals) (K : Nat → CmpLocals → Proc)
    (j : Nat) (x y : Int)
    (hu : IsShare (fun i => (S i).u_shares j) x) (hv : IsShare (fun i => (S i).v_shares j) y)
    (hcli : ∀ i : Nat, i < 3 → c.cli i = cmpBitRound j (S i) (K i)) :
    ∃ c' e g t, (do waitRenorm; waitRenorm; waitRenorm) c = Except.ok ((), c') ∧
      IsShare e (1 - (x + y - 2 * (x * y))) ∧ IsShare g (x * (1 - y)) ∧
      IsShare t ((1 - x) * y) ∧
      (∀ i : Nat, i < 3 → c'.cli i = K i { S i with
          eq_share := setAt (S i).eq_share j (e i)
          gt_share := setAt (S i).gt_share j (g i)
          lt_share := setAt (S i).lt_share j (t i) }) ∧
      (∀ i : Nat, 3 ≤ i → c'.cli i = c.cli i) ∧
      c'.initialized = c.initialized ∧
      c'.log.map Event.tag = c.log.map Event.tag ++ (renCycle ++ (renCycle ++ renCycle)) := by
  obtain ⟨c1, w1, r1, s1, k1, o1, i1, l1⟩ := waitRenorm_mul c _ _ x y _ _ hu hv
    (fun i _ => rfl) hcli
  have hnv : IsShare (fun i => cmod (add32 (sub32 1 ((S i).v_shares j)) MOD) MOD) (1 - y) :=
    IsShare_one_sub hv (fun k _ => rfl)
  have hnu : IsShare (fun i => cmod (add32 (sub32 1 ((S i).u_shares j)) MOD) MOD) (1 - x) :=
    IsShare_one_sub hu (fun k _ => rfl)
  obtain ⟨c2, w2, r2, s2, k2, o2, i2, l2⟩ := waitRenorm_mul c1 _ _ x (1 - y) _ _ hu hnv
    (fun i _ => rfl) (fun i hi => by rw [k1 i hi]; simp only [setAt_same]; rfl)
  obtain ⟨c3, w3, r3, s3, k3, o3, i3, l3⟩ := waitRenorm_mul c2 _ _ (1 - x) y _ _ hnu hv
    (fun i _ => rfl) (fun i hi => by rw [k2 i hi])
  refine ⟨c3, _, w2, w3, ?_, IsShare_eq hu hv s1 (fun k _ => rfl), s2, s3, ?_, ?_, ?_, ?_⟩
  · rw [seq_ok r1, seq_ok r2, r3]
  · intro i hi
    rw [k3 i hi]
    simp only [setAt_setAt]
  · intro i hi
    rw [o3 i hi, o2 i hi, o1 i hi]
  · rw [i3, i2, i1]
  · rw [l3, l2, l1, List.append_assoc, List.append_assoc]

theorem renCycles_zero : renCycles 0 = [] := rfl

theorem renCycles_succ (n : Nat) : renCycles (n + 1) = renCycle ++ renCycles n := by
  simp [renCycles, List.replicate_succ]

theorem renCycles_add (a b : Nat) : renCycles (a + b) = renCycles a ++ renCycles b := by
  induction a with
  | zero => simp [renCycles_zero]
  | succ a ih => rw [Nat.succ_add, renCycles_succ, renCycles_succ, ih, List.append_assoc]

theorem repeatM_zero (body : Coord Unit) (c : NetIntContext) :
    repeatM 0 body c = Except.ok ((), c) := rfl

theorem repeatM_succ (n : Nat) (body : Coord Unit) (c : NetIntContext) :
    repeatM (n + 1) body c = (do body; repeatM n body) c := rfl

theorem phaseA (bu bv : Nat → Int) (K : Nat → CmpLocals → Proc) :
    ∀ (n j : Nat) (c : NetIntContext) (S : Nat → CmpLocals), j + n ≤ l →
      (∀ i : Nat, i < 3 → c.cli i = forProc cmpBitRound n j (S i) (K i)) →
      CmpInv bu bv S j 1 0 →
      ∃ c' S', repeatM n (do waitRenorm; waitRenorm; waitRenorm) c = Except.ok ((), c') ∧
        (∀ i : Nat, i < 3 → c'.cli i = K i (S' i)) ∧ CmpInv bu bv S' (j + n) 1 0 ∧
        (∀ i : Nat, 3 ≤ i → c'.cli i = c.cli i) ∧ c'.initialized = c.initialized ∧
        c'.log.map Event.tag = c.log.map Event.tag ++ renCycles (3 * n) := by
  intro n
  induction n with
  | zero =>
    intro j c S _ hcli hinv
    exact ⟨c, S, rfl, hcli, hinv, fun _ _ => rfl, rfl, by simp [renCycles_zero]⟩
  | succ n ih =>
    intro j c S hj hcli hinv
    obtain ⟨hU, hV, hA, hB, hC, hZ⟩ := hinv
    obtain ⟨c1, e, g, t, r1, se, sg, st, k1, o1, i1, l1⟩ :=
      bitRound_spec c S (fun i s => forProc cmpBitRound n (j + 1) s (K i)) j (bu j) (bv j)
        (hU j (by omega)) (hV j (by omega)) hcli
    have hinv1 : CmpInv bu bv (fun i => { S i with
          eq_share := setAt (S i).eq_share j (e i)
          gt_share := setAt (S i).gt_share j (g i)
          lt_share := setAt (S i).lt_share j (t i) }) (j + 1) 1 0 := by
      refine ⟨hU, hV, ?_, hB, hC, hZ⟩
      intro j' hj'
      by_cases h : j' = j
      · subst h
        simp only [setAt_same]
        exact ⟨se, sg, st⟩
      · have := hA j' (by omega)
        simp only [setAt_other _ _ _ _ h]
        exact this
    obtain ⟨c2, S2, r2, k2, inv2, o2, i2, l2⟩ := ih (j + 1) c1 _ (by omega) k1 hinv1
    refine ⟨c2, S2, ?_, k2, ?_, ?_, ?_, ?_⟩
    · rw [repeatM_succ, seq_ok r1, r2]
    · have : j + (n + 1) = j + 1 + n := by omega
      rw [this]; exact inv2
    · intro i hi; rw [o2 i hi, o1 i hi]
    · rw [i2, i1]
    · rw [l2, l1, List.append_assoc]
      have : 3 * (n + 1) = 1 + (1 + (1 + 3 * n)) := by omega
      rw [this, renCycles_add, renCycles_add, renCycles_add]
      simp [renCycles]

theorem prefixRound_spec (c : NetIntContext) (S : Nat → CmpLocals)
    (K : Nat → CmpLocals → Proc) (j : Nat) (x y : Int)
    (hp : IsShare (fun i => (S i).prefixEq_share (j - 1)) x)
    (he : IsShare (fun i => (S i).eq_share (j - 1)) y)
    (hcli : ∀ i : Nat, i < 3 → c.cli i = cmpPrefixRound j (S i) (K i)) :
    ∃ c' w, waitRenorm c = Except.ok ((), c') ∧ IsShare w (x * y) ∧
      (∀ i : Nat, i < 3 → c'.cli i = K i { S i with
          prefixEq_share := setAt (S i).prefixEq_share j (w i) }) ∧
      (∀ i : Nat, 3 ≤ i → c'.cli i = c.cli i) ∧
      c'.initialized = c.initialized ∧
      c'.log.map Event.tag = c.log.map Event.tag ++ renCycle :=
  waitRenorm_mul c (fun i => (S i).prefixEq_share (j - 1)) (fun i => (S i).eq_share (j - 1)) x y
    (fun i => cmod (mul32 ((S i).prefixEq_share (j - 1)) ((S i).eq_share (j - 1))) MOD)
    (fun i r => K i { S i with prefixEq_share := setAt (S i).prefixEq_share j r })
    hp he (fun i _ => rfl) (fun i hi => by rw [hcli i hi]; rfl)

theorem flagRound_spec (c : NetIntContext) (S : Nat → CmpLocals)
    (K : Nat → CmpLocals → Proc) (j : Nat) (x y z : Int)
    (hp : IsShare (fun i => (S i).prefixEq_share j) x)
    (hg : IsShare (fun i => (S i).gt_share j) y)
    (hl : IsShare (fun i => (S i).lt_share j) z)
    (hcli : ∀ i : Nat, i < 3 → c.cli i = cmpFlagRound j (S i) (K i)) :
    ∃ c' w, waitRenorm c = Except.ok ((), c') ∧ IsShare w (x * (y - z)) ∧
      (∀ i : Nat, i < 3 → c'.cli i = K i { S i with
          flag_share := setAt (S i).flag_share j (w i) }) ∧
      (∀ i : Nat, 3 ≤ i → c'.cli i = c.cli i) ∧
      c'.initialized = c.initialized ∧
      c'.log.map Event.tag = c.log.map Event.tag ++ renCycle :=
  waitRenorm_mul c (fun i => (S i).prefixEq_share j)
    (fun i => cmod (add32 (sub32 ((S i).gt_share j) ((S i).lt_share j)) MOD) MOD) x (y - z)
    (fun i => cmod (mul32 ((S i).prefixEq_share j)
      (cmod (add32 (sub32 ((S i).gt_share j) ((S i).lt_share j)) MOD) MOD)) MOD)
    (fun i r => K i { S i with flag_share := setAt (S i).flag_share j r })
    hp (IsShare_diff hg hl (fun k _ => rfl)) (fun i _ => rfl)
    (fun i hi => by rw [hcli i hi]; rfl)

theorem phaseB (bu bv : Nat → Int) (K : Nat → CmpLocals → Proc) :
    ∀ (n j : Nat) (c : NetIntContext) (S : Nat → CmpLocals), 1 ≤ j → j + n ≤ l →
      (∀ i : Nat, i < 3 → c.cli i = forProc cmpPrefixRound n j (S i) (K i)) →
      CmpInv bu bv S l j 0 →
      ∃ c' S', repeatM n waitRenorm c = Except.ok ((), c') ∧
        (∀ i : Nat, i < 3 → c'.cli i = K i (S' i)) ∧ CmpInv bu bv S' l (j + n) 0 ∧
        (∀ i : Nat, 3 ≤ i → c'.cli i = c.cli i) ∧ c'.initialized = c.initialized ∧
        c'.log.map Event.tag = c.log.map Event.tag ++ renCycles n := by
  intro n
  induction n with
  | zero =>
    intro j c S _ _ hcli hinv
    exact ⟨c, S, rfl, hcli, hinv, fun _ _ => rfl, rfl, by simp [renCycles_zero]⟩
  | succ n ih =>
    intro j c S hj1 hj hcli hinv
    obtain ⟨hU, hV, hA, hB, hC, hZ⟩ := hinv
    obtain ⟨c1, w, r1, sw, k1, o1, i1, l1⟩ :=
      prefixRound_spec c S (fun i s => forProc cmpPrefixRound n (j + 1) s (K i)) j _ _
        (hB (j - 1) (by omega)) (hA (j - 1) (by omega)).1 hcli
    have hinv1 : CmpInv bu bv (fun i => { S i with
          prefixEq_share := setAt (S i).prefixEq_share j (w i) }) l (j + 1) 0 := by
      refine ⟨hU, hV, hA, ?_, hC, hZ⟩
      intro j' hj'
      by_cases h : j' = j
      · subst h
        simp only [setAt_same]
        have e : prefB bu bv j' = prefB bu bv (j' - 1) * eqB bu bv (j' - 1) := by
          obtain ⟨q, rfl⟩ : ∃ q, j' = q + 1 := ⟨j' - 1, by omega⟩
          rfl
        rw [e]; exact sw
      · have := hB j' (by omega)
        simp only [setAt_other _ _ _ _ h]
        exact this
    obtain ⟨c2, S2, r2, k2, inv2, o2, i2, l2⟩ := ih (j + 1) c1 _ (by omega) (by omega) k1 hinv1
    refine ⟨c2, S2, ?_, k2, ?_, ?_, ?_, ?_⟩
    · rw [repeatM_succ, seq_ok r1, r2]
    · have : j + (n + 1) = j + 1 + n := by omega
      rw [this]; exact inv2
    · intro i hi; rw [o2 i hi, o1 i hi]
    · rw [i2, i1]
    · rw [l2, l1, List.append_assoc, renCycles_succ]

theorem phaseC (bu bv : Nat → Int) (K : Nat → CmpLocals → Proc) :
    ∀ (n j : Nat) (c : NetIntContext) (S : Nat → CmpLocals), j + n ≤ l →
      (∀ i : Nat, i < 3 → c.cli i = forProc cmpFlagRound n j (S i) (K i)) →
      CmpInv bu bv S l l j →
      ∃ c' S', repeatM n waitRenorm c = Except.ok ((), c') ∧
        (∀ i : Nat, i < 3 → c'.cli i = K i (S' i)) ∧ CmpInv bu bv S' l l (j + n) ∧
        (∀ i : Nat, 3 ≤ i → c'.cli i = c.cli i) ∧ c'.initialized = c.initialized ∧
        c'.log.map Event.tag = c.log.map Event.tag ++ renCycles n := by
  intro n
  induction n with
  | zero =>
    intro j c S _ hcli hinv
    exact ⟨c, S, rfl, hcli, hinv, fun _ _ => rfl, rfl, by simp [renCycles_zero]⟩
  | succ n ih =>
    intro j c S hj hcli hinv
    obtain ⟨hU, hV, hA, hB, hC, hZ⟩ := hinv
    obtain ⟨c1, w, r1, sw, k1, o1, i1, l1⟩ :=
      flagRound_spec c S (fun i s => forProc cmpFlagRound n (j + 1) s (K i)) j _ _ _
        (hB j (by omega)) (hA j (by omega)).2.1 (hA j (by omega)).2.2 hcli
    have hinv1 : CmpInv bu bv (fun i => { S i with
          flag_share := setAt (S i).flag_share j (w i) }) l l (j + 1) := by
      refine ⟨hU, hV, hA, hB, ?_, hZ⟩
      intro j' hj'
      by_cases h : j' = j
      · subst h
        simp only [setAt_same]
        exact sw
      · have := hC j' (by omega)
        simp only [setAt_other _ _ _ _ h]
        exact this
    obtain ⟨c2, S2, r2, k2, inv2, o2, i2, l2⟩ := ih (j + 1) c1 _ (by omega) k1 hinv1
    refine ⟨c2, S2, ?_, k2, ?_, ?_, ?_, ?_⟩
    · rw [repeatM_succ, seq_ok r1, r2]
    · have : j + (n + 1) = j + 1 + n := by omega
      rw [this]; exact inv2
    · intro i hi; rw [o2 i hi, o1 i hi]
    · rw [i2, i1]
    · rw [l2, l1, List.append_assoc, renCycles_succ]

theorem bitAt_val (u : Int) (i : Nat) : bitAt u i = u / 2 ^ (l - 1 - i) % 2 := by
  unfold bitAt
  rw [Int.shiftRight_eq_div_pow]
  norm_cast

theorem bitAt_bit (u : Int) (i : Nat) : bitAt u i = 0 ∨ bitAt u i = 1 := by
  rw [bitAt_val]; omega

theorem bitAt_range (u : Int) (i : Nat) : 0 ≤ bitAt u i ∧ bitAt u i < 10289 := by
  rcases bitAt_bit u i with h | h <;> rw [h] <;> decide

theorem cmpBits_val (u : Int) (i : Nat) (hi : i < l) : cmpBits u i = bitAt u i := by
  unfold cmpBits
  rw [foldl_setAt (fun i => bitAt u i), if_pos hi]

theorem int_div_div (a b c : Int) (hb : 0 < b) (hc : 0 < c) : a / (b * c) = a / b / c := by
  have h1 := Int.emod_add_ediv a b
  have h2 := Int.emod_nonneg a (ne_of_gt hb)
  have h3 := Int.emod_lt_of_pos a hb
  have h4 := Int.emod_add_ediv (a / b) c
  have h5 := Int.emod_nonneg (a / b) (ne_of_gt hc)
  have h6 := Int.emod_lt_of_pos (a / b) hc
  have hbc : 0 < b * c := mul_pos hb hc
  have key : a / (b * c) = a / b / c ∧ a % (b * c) = b * ((a / b) % c) + a % b := by
    rw [Int.ediv_emod_unique hbc]
    refine ⟨?_, ?_, ?_⟩
    · linear_combination h1 + b * h4
    · have := mul_nonneg (le_of_lt hb) h5
      omega
    · have h7 : b * ((a / b) % c) ≤ b * (c - 1) :=
        mul_le_mul_of_nonneg_left (by omega) (le_of_lt hb)
      have h8 : b * (c - 1) = b * c - b := by ring
      omega
  exact key.1

theorem valB_bitAt (u : Int) (n : Nat) (hn : n ≤ l) :
    valB (bitAt u) n = u / 2 ^ (l - n) % 2 ^ n := by
  induction n with
  | zero => simp [valB]
  | succ n ih =>
    have e1 : l - n = (l - (n + 1)) + 1 := by omega
    have e2 : l - 1 - n = l - (n + 1) := by omega
    rw [valB, ih (by omega), bitAt_val, e1, e2, pow_succ, pow_succ,
      int_div_div _ _ 2 (by positivity) (by norm_num)]
    generalize u / 2 ^ (l - (n + 1)) = w
    have hp : (0 : Int) < 2 ^ n := by positivity
    generalize (2 : Int) ^ n = q at *
    have h1 : w / 2 % q = (w / 2) - q * (w / 2 / q) := Int.emod_def _ _
    have h2 : w % (q * 2) = w - (q * 2) * (w / (q * 2)) := Int.emod_def _ _
    have h3 : w / (q * 2) = w / 2 / q := by
      rw [mul_comm, int_div_div _ 2 q (by norm_num) hp]
    rw [h1, h2, h3]
    generalize w / 2 / q = z
    have h4 : q * 2 * z = 2 * (q * z) := by ring
    rw [h4]
    generalize q * z = y
    omega

theorem valB_of_lt (u : Int) (hu : 0 ≤ u ∧ u < 16384) : valB (bitAt u) l = u := by
  rw [valB_bitAt u l (le_refl _)]
  simp only [l, Nat.sub_self, pow_zero, Int.ediv_one]
  norm_num
  omega

theorem cmpB_val (bu bv : Nat → Int) (hbu : ∀ i, bu i = 0 ∨ bu i = 1)
    (hbv : ∀ i, bv i = 0 ∨ bv i = 1) (n : Nat) :
    prefB bu bv n = (if valB bu n = valB bv n then 1 else 0) ∧
    cmpB bu bv n = (if valB bu n > valB bv n then 1 else if valB bu n < valB bv n then -1 else 0) := by
  induction n with
  | zero => simp [prefB, cmpB, valB]
  | succ n ih =>
    obtain ⟨ih1, ih2⟩ := ih
    simp only [prefB, cmpB, valB, flagB, eqB, gtB, ltB, ih1, ih2]
    rcases hbu n with h | h <;> rcases hbv n with h' | h' <;> simp only [h, h'] <;>
      constructor <;> split_ifs <;> omega

theorem cmp_semantics (u v : Int) (hu : 0 ≤ u ∧ u < 16384) (hv : 0 ≤ v ∧ v < 16384) :
    cmpB (bitAt u) (bitAt v) l % 10289 = (if u > v then 1 else if u < v then 10288 else 0) := by
  rw [(cmpB_val _ _ (bitAt_bit u) (bitAt_bit v) l).2, valB_of_lt u hu, valB_of_lt v hv]
  split_ifs <;> rfl

theorem sumFold_flag (n : Nat) (s : CmpLocals) :
    ((List.range n).foldl
      (fun s j => { s with cmp_share := cmod (add32 s.cmp_share (s.flag_share j)) MOD }) s).flag_share
      = s.flag_share := by
  induction n with
  | zero => rfl
  | succ n ih => rw [List.range_succ, List.foldl_append]; simpa using ih

theorem sumFold_share (bu bv : Nat → Int) (S : Nat → CmpLocals) (n : Nat)
    (hF : ∀ j : Nat, j < n → IsShare (fun i => (S i).flag_share j) (flagB bu bv j))
    (hZ : ∀ i : Nat, i < 3 → (S i).cmp_share = 0) :
    IsShare (fun i => ((List.range n).foldl
      (fun s j => { s with cmp_share := cmod (add32 s.cmp_share (s.flag_share j)) MOD })
      (S i)).cmp_share) (cmpB bu bv n) := by
  induction n with
  | zero =>
    apply IsShare.of3 (m := 0) <;> simp [hZ, cmpB]
  | succ n ih =>
    have h1 := ih (fun j hj => hF j (by omega))
    have h2 := hF n (by omega)
    refine IsShare_sum h1 h2 ?_
    intro k _
    simp only [List.range_succ, List.foldl_append, List.foldl_cons, List.foldl_nil, sumFold_flag]

theorem cmpSum_share (bu bv : Nat → Int) (S : Nat → CmpLocals)
    (hinv : CmpInv bu bv S l l l) :
    IsShare (fun i => (cmpSum (S i)).cmp_share) (cmpB bu bv l) :=
  sumFold_share bu bv S l hinv.2.2.2.2.1 hinv.2.2.2.2.2

theorem setAt2_same (a : Nat → Nat → Int) (i j : Nat) (v : Int) : setAt2 a i j v i j = v := by
  simp [setAt2]

theorem setAt2_other (a : Nat → Nat → Int) (i j x y : Nat) (v : Int) (h : ¬(x = i ∧ y = j)) :
    setAt2 a i j v x y = a x y := by
  simp only [setAt2, if_neg h]

theorem cmpDecode_fold (t : task_t) (s0 : CmpLocals) (n : Nat) :
    let s := (List.range n).foldl
      (fun s i =>
        { s with
          u_shares := setAt s.u_shares i (toI32 (ntohl (toU32 (t.u_shares i))))
          v_shares := setAt s.v_shares i (toI32 (ntohl (toU32 (t.v_shares i))))
          prefixEq_share := setAt s.prefixEq_share 0 (toI32 (ntohl t.a)) }) s0
    (∀ j, s.u_shares j = if j < n then toI32 (ntohl (toU32 (t.u_shares j))) else s0.u_shares j) ∧
    (∀ j, s.v_shares j = if j < n then toI32 (ntohl (toU32 (t.v_shares j))) else s0.v_shares j) ∧
    (s.prefixEq_share 0 = if 0 < n then toI32 (ntohl t.a) else s0.prefixEq_share 0) ∧
    s.cmp_share = s0.cmp_share := by
  induction n with
  | zero => simp
  | succ n ih =>
    obtain ⟨h1, h2, h3, h4⟩ := ih
    simp only [List.range_succ, List.foldl_append, List.foldl_cons, List.foldl_nil]
    refine ⟨?_, ?_, ?_, h4⟩
    · intro j
      by_cases h : j = n
      · subst h; simp [setAt_same]
      · rw [setAt_other _ _ _ _ h, h1 j]
        by_cases h' : j < n
        · rw [if_pos h', if_pos (by omega)]
        · rw [if_neg h', if_neg (by omega)]
    · intro j
      by_cases h : j = n
      · subst h; simp [setAt_same]
      · rw [setAt_other _ _ _ _ h, h2 j]
        by_cases h' : j < n
        · rw [if_pos h', if_pos (by omega)]
        · rw [if_neg h', if_neg (by omega)]
    · simp [setAt_same]

theorem cmpTask_fold (U V : Nat → Nat → Int) (j : Nat) (t0 : task_t) (n : Nat) :
    let t := (List.range n).foldl
      (fun t i => { t with
        u_shares := setAt t.u_shares i (toI32 (htonl (toU32 (U j i))))
        v_shares := setAt t.v_shares i (toI32 (htonl (toU32 (V j i)))) }) t0
    t.op = t0.op ∧ t.a = t0.a ∧
    (∀ i, t.u_shares i = if i < n then toI32 (htonl (toU32 (U j i))) else t0.u_shares i) ∧
    (∀ i, t.v_shares i = if i < n then toI32 (htonl (toU32 (V j i))) else t0.v_shares i) := by
  induction n with
  | zero => simp
  | succ n ih =>
    obtain ⟨h1, h2, h3, h4⟩ := ih
    simp only [List.range_succ, List.foldl_append, List.foldl_cons, List.foldl_nil]
    refine ⟨h1, h2, ?_, ?_⟩
    · intro i
      by_cases h : i = n
      · subst h; simp [setAt_same]
      · rw [setAt_other _ _ _ _ h, h3 i]
        by_cases h' : i < n
        · rw [if_pos h', if_pos (by omega)]
        · rw [if_neg h', if_neg (by omega)]
    · intro i
      by_cases h : i = n
      · subst h; simp [setAt_same]
      · rw [setAt_other _ _ _ _ h, h4 i]
        by_cases h' : i < n
        · rw [if_pos h', if_pos (by omega)]
        · rw [if_neg h', if_neg (by omega)]

theorem split_eq_SPLIT (j r p : Int) : split j r p = SPLIT j r p := rfl

theorem reconstruct_eq_RECONSTRUCT (shares : Nat → Int) :
    reconstruct shares = RECONSTRUCT shares := rfl

theorem cmpShareBit_spec (bu bv : Nat → Int) (acc : (Nat → Nat → Int) × (Nat → Nat → Int))
    (i : Nat) (c : NetIntContext) :
    cmpShareBit bu bv acc i c = Except.ok
      (((List.range 3).foldl
        (fun acc j =>
          (setAt2 acc.1 j i (split j (draw c.rng 0) (bu i)),
           setAt2 acc.2 j i (split j (draw c.rng 1) (bv i))))
        acc), { c with rng := fun k => c.rng (k + 2) }) := by
  have h1 : cmod (rand c.rng).1 MOD = draw c.rng 0 := cmod_rand c.rng 0
  have h2 : cmod (rand (rand c.rng).2).1 MOD = draw c.rng 1 := cmod_rand c.rng 1
  have h3 : (rand (rand c.rng).2).2 = fun k => c.rng (k + 2) := rfl
  unfold cmpShareBit
  simp only [nextRand, bind, StateT.bind, Except.bind, pure, StateT.pure, Except.pure]
  rw [h1, h2, h3]

theorem cmpShareBits_spec (bu bv : Nat → Int) (hbu : ∀ i, 0 ≤ bu i ∧ bu i < 10289)
    (hbv : ∀ i, 0 ≤ bv i ∧ bv i < 10289) (c : NetIntContext) (n : Nat) :
    ∃ U V g, (List.range n).foldlM (cmpShareBit bu bv) (fun _ _ => 0, fun _ _ => 0) c
        = Except.ok ((U, V), { c with rng := g }) ∧
      ∀ i : Nat, i < n → IsShare (fun j => U j i) (bu i) ∧ IsShare (fun j => V j i) (bv i) := by
  induction n with
  | zero =>
    exact ⟨_, _, c.rng, rfl, fun i hi => absurd hi (by omega)⟩
  | succ n ih =>
    obtain ⟨U, V, g, h, hs⟩ := ih
    refine ⟨((List.range 3).foldl
        (fun (acc : (Nat → Nat → Int) × (Nat → Nat → Int)) (j : Nat) =>
          (setAt2 acc.1 j n (split j (draw g 0) (bu n)),
           setAt2 acc.2 j n (split j (draw g 1) (bv n)))) (U, V)).1,
      ((List.range 3).foldl
        (fun (acc : (Nat → Nat → Int) × (Nat → Nat → Int)) (j : Nat) =>
          (setAt2 acc.1 j n (split j (draw g 0) (bu n)),
           setAt2 acc.2 j n (split j (draw g 1) (bv n)))) (U, V)).2,
      fun k => g (k + 2), ?_, ?_⟩
    · rw [List.range_succ, List.foldlM_append]
      simp only [bind, StateT.bind, Except.bind, h, List.foldlM_cons, List.foldlM_nil,
        cmpShareBit_spec, pure, StateT.pure, Except.pure]
    · intro i hi
      simp only [List.range_succ, List.range_zero, List.nil_append, List.cons_append,
        List.foldl_cons, List.foldl_nil]
      by_cases h' : i = n
      · subst h'
        constructor
        · refine IsShare_SPLIT _ _ _ (draw_range g 0) (hbu i) ?_
          intro k hk
          interval_cases k <;> simp [setAt2, split_eq_SPLIT]
        · refine IsShare_SPLIT _ _ _ (draw_range g 1) (hbv i) ?_
          intro k hk
          interval_cases k <;> simp [setAt2, split_eq_SPLIT]
      · have := hs i (by omega)
        simpa [setAt2, h'] using this

theorem bind_ok {α β : Type} {x : Coord α} {f : α → Coord β} {c c1 : NetIntContext} {a : α}
    (h : x c = Except.ok (a, c1)) : (x >>= f) c = f a c1 := by
  simp [StateT.bind, bind, Except.bind, h]

theorem bind_at {α β : Type} (a : α) (c1 : NetIntContext) {x : Coord α} {f : α → Coord β}
    {c : NetIntContext} (h : x c = Except.ok (a, c1)) : (x >>= f) c = f a c1 :=
  bind_ok h

theorem IsShare.ext {t t' : Nat → Int} {v : Int} (h : IsShare t v)
    (e : ∀ k : Nat, k < 3 → t' k = t k) : IsShare t' v := by
  obtain ⟨m, hm⟩ := h
  exact ⟨m, fun k hk => by rw [e k hk, hm k hk]⟩

theorem sendTasks_spec (c : NetIntContext) (mk : Nat → task_t)
    (hidle : ∀ i : Nat, i < 3 → c.cli i = Proc.idle) :
    ∃ c', ((List.range 3).forM fun j => do
        let _ ← sendTask j (mk j)) c = Except.ok (PUnit.unit, c') ∧
      (∀ i : Nat, i < 3 → c'.cli i = agentTask (mk i)) ∧ c'.initialized = c.initialized ∧
      c'.log.map Event.tag = c.log.map Event.tag ++
        [Tag.toAgent 0 (mk 0).op, Tag.toAgent 1 (mk 1).op, Tag.toAgent 2 (mk 2).op] := by
  have h0 := hidle 0 (by decide)
  have h1 := hidle 1 (by decide)
  have h2 := hidle 2 (by decide)
  simp [List.range_succ, bind, StateT.bind, Except.bind, sendTask, setCli, h0, h1, h2, pure,
    StateT.pure, Except.pure, Event.tag, agentLoop]
  intro i hi
  interval_cases i <;> simp

theorem cmpCollect_spec (c : NetIntContext) (op : Nat) (v : Nat → Int)
    (hv : ∀ i : Nat, i < 3 → 0 ≤ v i ∧ v i < 10289)
    (hcli : ∀ i : Nat, i < 3 →
      c.cli i = Proc.send { op := op, value := htonl (toU32 (v i)) } Proc.idle) :
    ∃ c' rs, cmpCollect c = Except.ok (rs, c') ∧ (∀ i : Nat, i < 3 → rs i = v i) ∧
      (∀ i : Nat, i < 3 → c'.cli i = Proc.idle) ∧ c'.initialized = c.initialized ∧
      c'.log.map Event.tag = c.log.map Event.tag ++
        [Tag.fromAgent 0 op, Tag.fromAgent 1 op, Tag.fromAgent 2 op] := by
  have h0 := hcli 0 (by decide)
  have h1 := hcli 1 (by decide)
  have h2 := hcli 2 (by decide)
  refine ⟨{ c with
      cli := setCli (setCli (setCli c.cli 0 Proc.idle) 1 Proc.idle) 2 Proc.idle
      log := c.log ++ [Event.received 0 (some { op := op, value := htonl (toU32 (v 0)) }),
        Event.received 1 (some { op := op, value := htonl (toU32 (v 1)) }),
        Event.received 2 (some { op := op, value := htonl (toU32 (v 2)) })] },
    setAt (setAt (setAt (fun _ => 0) 0 (v 0)) 1 (v 1)) 2 (v 2), ?_, ?_, ?_, rfl, ?_⟩
  · simp [cmpCollect, List.range_succ, bind, StateT.bind, Except.bind, recvAll, setCli, h0, h1,
      h2, pure, StateT.pure, Except.pure, wire_value _ (hv 0 (by decide)),
      wire_value _ (hv 1 (by decide)), wire_value _ (hv 2 (by decide))]
  · intro i hi
    interval_cases i <;> simp [setAt]
  · intro i hi
    interval_cases i <;> simp [setCli]
  · simp [Event.tag]

theorem cmpDecode_u (t : task_t) (j : Nat) (hj : j < l) :
    (cmpDecode t).u_shares j = toI32 (ntohl (toU32 (t.u_shares j))) := by
  have h := (cmpDecode_fold t
    { u_shares := fun _ => 0, v_shares := fun _ => 0, eq_share := fun _ => 0,
      gt_share := fun _ => 0, lt_share := fun _ => 0, prefixEq_share := fun _ => 0,
      flag_share := fun _ => 0, cmp_share := 0 } l).1 j
  rw [if_pos hj] at h
  exact h

theorem cmpDecode_v (t : task_t) (j : Nat) (hj : j < l) :
    (cmpDecode t).v_shares j = toI32 (ntohl (toU32 (t.v_shares j))) := by
  have h := (cmpDecode_fold t
    { u_shares := fun _ => 0, v_shares := fun _ => 0, eq_share := fun _ => 0,
      gt_share := fun _ => 0, lt_share := fun _ => 0, prefixEq_share := fun _ => 0,
      flag_share := fun _ => 0, cmp_share := 0 } l).2.1 j
  rw [if_pos hj] at h
  exact h

theorem cmpDecode_p (t : task_t) : (cmpDecode t).prefixEq_share 0 = toI32 (ntohl t.a) := by
  have h := (cmpDecode_fold t
    { u_shares := fun _ => 0, v_shares := fun _ => 0, eq_share := fun _ => 0,
      gt_share := fun _ => 0, lt_share := fun _ => 0, prefixEq_share := fun _ => 0,
      flag_share := fun _ => 0, cmp_share := 0 } l).2.2.1
  rw [if_pos (by decide)] at h
  exact h

theorem cmpDecode_c (t : task_t) : (cmpDecode t).cmp_share = 0 :=
  (cmpDecode_fold t
    { u_shares := fun _ => 0, v_shares := fun _ => 0, eq_share := fun _ => 0,
      gt_share := fun _ => 0, lt_share := fun _ => 0, prefixEq_share := fun _ => 0,
      flag_share := fun _ => 0, cmp_share := 0 } l).2.2.2

theorem cmpTask_op (U V : Nat → Nat → Int) (r0 : Int) (j : Nat) :
    (cmpTask U V r0 j).op = OP_CMP :=
  (cmpTask_fold U V j _ l).1

theorem cmpTask_a (U V : Nat → Nat → Int) (r0 : Int) (j : Nat) :
    (cmpTask U V r0 j).a = htonl (toU32 (split j r0 1)) :=
  (cmpTask_fold U V j _ l).2.1

theorem cmpTask_u (U V : Nat → Nat → Int) (r0 : Int) (j i : Nat) (hi : i < l) :
    (cmpTask U V r0 j).u_shares i = toI32 (htonl (toU32 (U j i))) := by
  have h : (cmpTask U V r0 j).u_shares i = if i < l then toI32 (htonl (toU32 (U j i))) else 0 :=
    (cmpTask_fold U V j _ l).2.2.1 i
  rw [if_pos hi] at h
  exact h

theorem cmpTask_v (U V : Nat → Nat → Int) (r0 : Int) (j i : Nat) (hi : i < l) :
    (cmpTask U V r0 j).v_shares i = toI32 (htonl (toU32 (V j i))) := by
  have h : (cmpTask U V r0 j).v_shares i = if i < l then toI32 (htonl (toU32 (V j i))) else 0 :=
    (cmpTask_fold U V j _ l).2.2.2 i
  rw [if_pos hi] at h
  exact h

theorem cmpBits_range (u : Int) (i : Nat) : 0 ≤ cmpBits u i ∧ cmpBits u i < 10289 := by
  unfold cmpBits
  rw [foldl_setAt (fun i => bitAt u i)]
  split_ifs
  · exact bitAt_range u i
  · decide

theorem agentTask_cmp (t : task_t) (h : t.op = OP_CMP) :
    agentTask t = forProc cmpBitRound l 0 (cmpDecode t) fun s =>
      forProc cmpPrefixRound (l - 1) 1 s fun s =>
      forProc cmpFlagRound l 0 s fun s =>
      Proc.send { op := OP_RES, value := htonl (toU32 (cmpSum s).cmp_share) } Proc.idle := by
  unfold agentTask
  rw [h]
  simp [OP_CMP, OP_ADD, OP_MUL]

theorem runCMP_core (u v : Int) (c : NetIntContext) (hinit : c.initialized = true)
    (hidle : ∀ i : Nat, i < 3 → c.cli i = Proc.idle) :
    ∃ c', runCMP u v c = Except.ok (cmpB (bitAt u) (bitAt v) l % 10289, c') ∧
      c'.initialized = true ∧ (∀ i : Nat, i < 3 → c'.cli i = Proc.idle) ∧
      c'.log.map Event.tag = c.log.map Event.tag ++ cmpSchedule := by
  obtain ⟨U, V, g, hsb, hsh⟩ :=
    cmpShareBits_spec (cmpBits u) (cmpBits v) (cmpBits_range u) (cmpBits_range v) c l
  have hr0 := draw_range g 0
  have e0 : cmod (rand g).1 MOD = draw g 0 := cmod_rand g 0
  obtain ⟨c1, hd, k1, i1, l1⟩ := sendTasks_spec { c with rng := (rand g).2 }
    (cmpTask U V (draw g 0)) hidle
  -- the three agents are now in the first loop of the CMP branch
  have hop : ∀ i, (cmpTask U V (draw g 0) i).op = OP_CMP := fun i => cmpTask_op U V _ i
  have hinv : CmpInv (bitAt u) (bitAt v) (fun i => cmpDecode (cmpTask U V (draw g 0) i)) 0 1 0 := by
    refine ⟨?_, ?_, fun j hj => absurd hj (by omega), ?_, fun j hj => absurd hj (by omega), ?_⟩
    · intro j hj
      have hs := (hsh j hj).1
      rw [cmpBits_val u j hj] at hs
      refine hs.ext (fun k hk => ?_)
      show (cmpDecode (cmpTask U V (draw g 0) k)).u_shares j = U k j
      rw [cmpDecode_u _ j hj, cmpTask_u U V _ k j hj]
      exact wire_share _ (hs.range k hk)
    · intro j hj
      have hs := (hsh j hj).2
      rw [cmpBits_val v j hj] at hs
      refine hs.ext (fun k hk => ?_)
      show (cmpDecode (cmpTask U V (draw g 0) k)).v_shares j = V k j
      rw [cmpDecode_v _ j hj, cmpTask_v U V _ k j hj]
      exact wire_share _ (hs.range k hk)
    · intro j hj
      have hj0 : j = 0 := by omega
      subst hj0
      have hs : IsShare (fun k : Nat => SPLIT k (draw g 0) 1) 1 :=
        IsShare_SPLIT _ _ _ hr0 (by decide) (fun k _ => rfl)
      refine hs.ext (fun k hk => ?_)
      show (cmpDecode (cmpTask U V (draw g 0) k)).prefixEq_share 0 = SPLIT k (draw g 0) 1
      rw [cmpDecode_p, cmpTask_a, split_eq_SPLIT]
      exact wire_value _ (hs.range k hk)
    · intro i _
      exact cmpDecode_c _
  obtain ⟨c2, S2, r2, k2, inv2, _, i2, l2⟩ := phaseA (bitAt u) (bitAt v) _ l 0 c1 _ (by omega)
    (fun i hi => by rw [k1 i hi, agentTask_cmp _ (hop i)]) hinv
  obtain ⟨c3, S3, r3, k3, inv3, _, i3, l3⟩ := phaseB (bitAt u) (bitAt v) _ (l - 1) 1 c2 S2
    (by omega) (by decide) k2 inv2
  obtain ⟨c4, S4, r4, k4, inv4, _, i4, l4⟩ := phaseC (bitAt u) (bitAt v) _ l 0 c3 S3
    (by omega) k3 inv3
  have hsum := cmpSum_share (bitAt u) (bitAt v) S4 inv4
  obtain ⟨c5, rs, r5, v5, k5, i5, l5⟩ := cmpCollect_spec c4 OP_RES _ (fun i hi => hsum.range i hi) k4
  refine ⟨c5, ?_, ?_, k5, ?_⟩
  · unfold runCMP
    rw [bind_at (c) (c) rfl]
    simp only [hinit, Bool.not_true, Bool.false_eq_true, if_false]
    rw [bind_at (PUnit.unit) (c) rfl, bind_ok hsb,
      bind_at ((rand g).1) ({ c with rng := (rand g).2 }) rfl]
    simp only [e0]
    rw [bind_ok hd, bind_ok r2, bind_ok r3, bind_ok r4, bind_ok r5]
    have hrec : reconstruct rs = cmpB (bitAt u) (bitAt v) l % 10289 :=
      (hsum.ext v5).recon
    simp only [pure, StateT.pure, Except.pure, hrec]
  · rw [i5, i4, i3, i2, i1]; exact hinit
  · rw [l5, l4, l3, l2, l1]
    simp only [hop, cmpSchedule, List.append_assoc]

theorem collectResults_spec (c : NetIntContext) (v : Nat → Int)
    (hv : ∀ i : Nat, i < 3 → 0 ≤ v i ∧ v i < 10289)
    (hcli : ∀ i : Nat, i < 3 →
      c.cli i = Proc.send { op := OP_RES, value := htonl (toU32 (v i)) } Proc.idle) :
    ∃ c' rs, collectResults c = Except.ok (rs, c') ∧ (∀ i : Nat, i < 3 → rs i = v i) ∧
      (∀ i : Nat, i < 3 → c'.cli i = Proc.idle) ∧ c'.initialized = c.initialized ∧
      c'.rng = c.rng ∧
      c'.log.map Event.tag = c.log.map Event.tag ++
        [Tag.fromAgent 0 OP_RES, Tag.fromAgent 1 OP_RES, Tag.fromAgent 2 OP_RES] := by
  have h0 := hcli 0 (by decide)
  have h1 := hcli 1 (by decide)
  have h2 := hcli 2 (by decide)
  refine ⟨{ c with
      cli := setCli (setCli (setCli c.cli 0 Proc.idle) 1 Proc.idle) 2 Proc.idle
      log := c.log ++ [Event.received 0 (some { op := OP_RES, value := htonl (toU32 (v 0)) }),
        Event.received 1 (some { op := OP_RES, value := htonl (toU32 (v 1)) }),
        Event.received 2 (some { op := OP_RES, value := htonl (toU32 (v 2)) })] },
    setAt (setAt (setAt (fun _ => 0) 0 (v 0)) 1 (v 1)) 2 (v 2), ?_, ?_, ?_, rfl, rfl, ?_⟩
  · simp [collectResults, List.range_succ, bind, StateT.bind, Except.bind, recvAll, setCli, h0,
      h1, h2, pure, StateT.pure, Except.pure, wire_value _ (hv 0 (by decide)),
      wire_value _ (hv 1 (by decide)), wire_value _ (hv 2 (by decide))]
  · intro i hi
    interval_cases i <;> simp [setAt]
  · intro i hi
    interval_cases i <;> simp [setCli]
  · simp [Event.tag]

theorem agentTask_add (t : task_t) (h : t.op = OP_ADD) :
    agentTask t = Proc.send
      { op := OP_RES,
        value := htonl (toU32 (cmod (add32 (toI32 (ntohl t.a)) (toI32 (ntohl t.b))) MOD)) }
      Proc.idle := by
  unfold agentTask
  rw [h]
  simp

theorem agentTask_mul (t : task_t) (h : t.op = OP_MUL) :
    agentTask t = Proc.send
      { op := OP_RES,
        value := htonl (toU32 (cmod (mul32 (toI32 (ntohl t.a)) (toI32 (ntohl t.b))) MOD)) }
      Proc.idle := by
  unfold agentTask
  rw [h]
  simp [OP_MUL, OP_ADD]

/-- Dispatch and collection shared by `runAdd` and `runMul`: after the two draws the three agents
hold degree-1 shares of `a` and `b`. -/
theorem arith_shares (a b : Int) (g : Rng) (ha : -10289 ≤ a ∧ a < 2147442495)
    (hb : -10289 ≤ b ∧ b < 2147442495) :
    IsShare (fun i : Nat => split i (draw g 0) a) a ∧
    IsShare (fun i : Nat => split i (draw g 1) b) b :=
  ⟨IsShare_SPLIT_gen _ _ _ (draw_range g 0) ha (fun _ _ => rfl),
   IsShare_SPLIT_gen _ _ _ (draw_range g 1) hb (fun _ _ => rfl)⟩

theorem runAdd_core (a b : Int) (c : NetIntContext) (ha : -10289 ≤ a ∧ a < 2147442495)
    (hb : -10289 ≤ b ∧ b < 2147442495) (hinit : c.initialized = true)
    (hidle : ∀ i : Nat, i < 3 → c.cli i = Proc.idle) :
    ∃ c', runAdd a b c = Except.ok ((a + b) % 10289, c') ∧
      c'.initialized = true ∧ (∀ i : Nat, i < 3 → c'.cli i = Proc.idle) ∧
      c'.log.map Event.tag = c.log.map Event.tag ++
        [Tag.toAgent 0 OP_ADD, Tag.toAgent 1 OP_ADD, Tag.toAgent 2 OP_ADD,
         Tag.fromAgent 0 OP_RES, Tag.fromAgent 1 OP_RES, Tag.fromAgent 2 OP_RES] := by
  obtain ⟨sa, sb⟩ := arith_shares a b c.rng ha hb
  have e1 : cmod (rand c.rng).1 MOD = draw c.rng 0 := cmod_rand c.rng 0
  have e2 : cmod (rand (rand c.rng).2).1 MOD = draw c.rng 1 := cmod_rand c.rng 1
  obtain ⟨c1, hd, k1, i1, l1⟩ := sendTasks_spec { c with rng := (rand (rand c.rng).2).2 }
    (fun i =>
      { op := OP_ADD, a := htonl (toU32 (split i (draw c.rng 0) a)),
        b := htonl (toU32 (split i (draw c.rng 1) b)),
        u_shares := fun _ => 0, v_shares := fun _ => 0 }) hidle
  have hsum : IsShare (fun i : Nat => cmod (add32 (split i (draw c.rng 0) a)
      (split i (draw c.rng 1) b)) MOD) (a + b) := IsShare_sum sa sb (fun _ _ => rfl)
  obtain ⟨c2, rs, r2, v2, k2, i2, _, l2⟩ := collectResults_spec c1 _ (fun i hi => hsum.range i hi)
    (fun i hi => by
      rw [k1 i hi, agentTask_add _ rfl]
      simp only [wire_value _ (sa.range i hi), wire_value _ (sb.range i hi)])
  refine ⟨c2, ?_, ?_, k2, ?_⟩
  · unfold runAdd
    rw [bind_at (c) (c) rfl]
    simp only [hinit, Bool.not_true, Bool.false_eq_true, if_false]
    rw [bind_at (PUnit.unit) (c) rfl,
      bind_at ((rand c.rng).1) ({ c with rng := (rand c.rng).2 }) rfl,
      bind_at ((rand (rand c.rng).2).1) ({ c with rng := (rand (rand c.rng).2).2 }) rfl]
    simp only [e1, e2]
    rw [bind_ok hd, bind_ok r2]
    have hrec : reconstruct rs = (a + b) % 10289 := (hsum.ext v2).recon
    simp only [pure, StateT.pure, Except.pure, hrec]
  · rw [i2, i1]; exact hinit
  · rw [l2, l1]; simp

theorem renormalize_spec (c : NetIntContext) (t : Nat → Int) (x : Int)
    (h0 : 0 ≤ t 0 ∧ t 0 < 10289) (h1 : 0 ≤ t 1 ∧ t 1 < 10289) (h2 : 0 ≤ t 2 ∧ t 2 < 10289)
    (hx : (3 * t 0 + 10286 * t 1 + t 2) % 10289 = x % 10289) :
    ∃ c' w, renormalize t c = Except.ok (w, c') ∧ IsShare w x ∧ c'.cli = c.cli ∧
      c'.initialized = c.initialized ∧ c'.log = c.log :=
  ⟨_, _, rfl, (IsShare_RENORMALIZE t c.rng h0 h1 h2).congr hx, rfl, rfl, rfl⟩

theorem runMul_core (a b : Int) (c : NetIntContext) (ha : -10289 ≤ a ∧ a < 2147442495)
    (hb : -10289 ≤ b ∧ b < 2147442495) (hinit : c.initialized = true)
    (hidle : ∀ i : Nat, i < 3 → c.cli i = Proc.idle) :
    ∃ c', runMul a b c = Except.ok ((a * b) % 10289, c') ∧
      c'.initialized = true ∧ (∀ i : Nat, i < 3 → c'.cli i = Proc.idle) ∧
      c'.log.map Event.tag = c.log.map Event.tag ++
        [Tag.toAgent 0 OP_MUL, Tag.toAgent 1 OP_MUL, Tag.toAgent 2 OP_MUL,
         Tag.fromAgent 0 OP_RES, Tag.fromAgent 1 OP_RES, Tag.fromAgent 2 OP_RES] := by
  obtain ⟨sa, sb⟩ := arith_shares a b c.rng ha hb
  have e1 : cmod (rand c.rng).1 MOD = draw c.rng 0 := cmod_rand c.rng 0
  have e2 : cmod (rand (rand c.rng).2).1 MOD = draw c.rng 1 := cmod_rand c.rng 1
  obtain ⟨c1, hd, k1, i1, l1⟩ := sendTasks_spec { c with rng := (rand (rand c.rng).2).2 }
    (fun i =>
      { op := OP_MUL, a := htonl (toU32 (split i (draw c.rng 0) a)),
        b := htonl (toU32 (split i (draw c.rng 1) b)),
        u_shares := fun _ => 0, v_shares := fun _ => 0 }) hidle
  have hpv : ∀ i : Nat, i < 3 → cmod (mul32 (split i (draw c.rng 0) a)
      (split i (draw c.rng 1) b)) MOD
        = (split i (draw c.rng 0) a * split i (draw c.rng 1) b) % 10289 :=
    fun i hi => cmod_mul32 (sa.range i hi) (sb.range i hi)
  have hpr : ∀ i : Nat, i < 3 → 0 ≤ cmod (mul32 (split i (draw c.rng 0) a)
      (split i (draw c.rng 1) b)) MOD ∧ cmod (mul32 (split i (draw c.rng 0) a)
      (split i (draw c.rng 1) b)) MOD < 10289 := by
    intro i hi
    rw [hpv i hi]
    exact ⟨Int.emod_nonneg _ (by decide), Int.emod_lt_of_pos _ (by decide)⟩
  obtain ⟨c2, rs, r2, v2, k2, i2, _, l2⟩ := collectResults_spec c1
    (fun i : Nat => cmod (mul32 (split i (draw c.rng 0) a) (split i (draw c.rng 1) b)) MOD) hpr
    (fun i hi => by
      rw [k1 i hi, agentTask_mul _ rfl]
      simp only [wire_value _ (sa.range i hi), wire_value _ (sb.range i hi)])
  have q0 : rs 0 = cmod (mul32 (split ((0 : Nat) : Int) (draw c.rng 0) a)
      (split ((0 : Nat) : Int) (draw c.rng 1) b)) MOD := v2 0 (by decide)
  have q1 : rs 1 = cmod (mul32 (split ((1 : Nat) : Int) (draw c.rng 0) a)
      (split ((1 : Nat) : Int) (draw c.rng 1) b)) MOD := v2 1 (by decide)
  have q2 : rs 2 = cmod (mul32 (split ((2 : Nat) : Int) (draw c.rng 0) a)
      (split ((2 : Nat) : Int) (draw c.rng 1) b)) MOD := v2 2 (by decide)
  have hp := prod_recon sa sb
  obtain ⟨c3, w, r3, sw, k3, i3, l3⟩ := renormalize_spec c2 rs (a * b)
    (by rw [q0]; exact hpr 0 (by decide)) (by rw [q1]; exact hpr 1 (by decide))
    (by rw [q2]; exact hpr 2 (by decide))
    (by rw [q0, q1, q2, hpv 0 (by decide), hpv 1 (by decide), hpv 2 (by decide)]; exact hp)
  refine ⟨c3, ?_, ?_, ?_, ?_⟩
  · unfold runMul
    rw [bind_at (c) (c) rfl]
    simp only [hinit, Bool.not_true, Bool.false_eq_true, if_false]
    rw [bind_at (PUnit.unit) (c) rfl,
      bind_at ((rand c.rng).1) ({ c with rng := (rand c.rng).2 }) rfl,
      bind_at ((rand (rand c.rng).2).1) ({ c with rng := (rand (rand c.rng).2).2 }) rfl]
    simp only [e1, e2]
    rw [bind_ok hd, bind_ok r2, bind_ok r3]
    have hrec : reconstruct w = (a * b) % 10289 := sw.recon
    simp only [pure, StateT.pure, Except.pure, hrec]
  · rw [i3, i2, i1]; exact hinit
  · intro i hi; rw [k3]; exact k2 i hi
  · rw [l3, l2, l1]; simp

theorem neg_val (b : Int) (hb : 0 ≤ b ∧ b < 10289) :
    cmod (sub32 MOD b) MOD = (10289 - b) % 10289 := by
  simp only [sub32, MOD]
  simp (disch := omega) only [wrap32_id, cmod_of_nonneg]

theorem MultTest_spec (a b : Int) (g : Rng) (ha : 0 ≤ a ∧ a < 10289) (hb : 0 ≤ b ∧ b < 10289) :
    MultTest a b g = ((a * b) % 10289, (a * b) % 10289) := by
  have e1 : cmod (rand g).1 MOD = draw g 0 := cmod_rand g 0
  have e2 : cmod (rand (rand g).2).1 MOD = draw g 1 := cmod_rand g 1
  have sa : IsShare ((List.range NP).foldl
      (fun shares_a j => setAt shares_a j (SPLIT j (draw g 0) a)) (fun _ => 0)) a :=
    IsShare_SPLIT _ _ _ (draw_range g 0) ha (fun k hk => by
      rw [foldl_setAt (fun j : Nat => SPLIT j (draw g 0) a), NP, if_pos hk])
  have sb : IsShare ((List.range NP).foldl
      (fun shares_b j => setAt shares_b j (SPLIT j (draw g 1) b)) (fun _ => 0)) b :=
    IsShare_SPLIT _ _ _ (draw_range g 1) hb (fun k hk => by
      rw [foldl_setAt (fun j : Nat => SPLIT j (draw g 1) b), NP, if_pos hk])
  have hren := IsShare_mul_renorm (rand (rand g).2).2 sa sb
    (c := (List.range NP).foldl
      (fun prod_shares j => setAt prod_shares j
        (cmod (mul32
          ((List.range NP).foldl
            (fun shares_a j => setAt shares_a j (SPLIT j (draw g 0) a)) (fun _ => 0) j)
          ((List.range NP).foldl
            (fun shares_b j => setAt shares_b j (SPLIT j (draw g 1) b)) (fun _ => 0) j)) MOD))
      (fun _ => 0))
    (fun k hk => by
      rw [foldl_setAt (fun j : Nat => cmod (mul32
          ((List.range NP).foldl
            (fun shares_a j => setAt shares_a j (SPLIT j (draw g 0) a)) (fun _ => 0) j)
          ((List.range NP).foldl
            (fun shares_b j => setAt shares_b j (SPLIT j (draw g 1) b)) (fun _ => 0) j)) MOD),
        NP, if_pos hk])
  unfold MultTest
  simp only [e1, e2]
  rw [hren.recon, cmod_mul32 ha hb]

theorem ADDTest_spec (a b : Int) (g : Rng) (ha : 0 ≤ a ∧ a < 10289) (hb : 0 ≤ b ∧ b < 10289) :
    ADDTest a b g = (a + b) % 10289 := by
  have e1 : cmod (rand g).1 MOD = draw g 0 := cmod_rand g 0
  have e2 : cmod (rand (rand g).2).1 MOD = draw g 1 := cmod_rand g 1
  have sa : IsShare ((List.range NP).foldl
      (fun shares_a j => setAt shares_a j (SPLIT j (draw g 0) a)) (fun _ => 0)) a :=
    IsShare_SPLIT _ _ _ (draw_range g 0) ha (fun k hk => by
      rw [foldl_setAt (fun j : Nat => SPLIT j (draw g 0) a), NP, if_pos hk])
  have sb : IsShare ((List.range NP).foldl
      (fun shares_b j => setAt shares_b j (SPLIT j (draw g 1) b)) (fun _ => 0)) b :=
    IsShare_SPLIT _ _ _ (draw_range g 1) hb (fun k hk => by
      rw [foldl_setAt (fun j : Nat => SPLIT j (draw g 1) b), NP, if_pos hk])
  have hsum := IsShare_sum sa sb
    (c := (List.range NP).foldl
      (fun prod_shares j => setAt prod_shares j
        (cmod (add32
          ((List.range NP).foldl
            (fun shares_a j => setAt shares_a j (SPLIT j (draw g 0) a)) (fun _ => 0) j)
          ((List.range NP).foldl
            (fun shares_b j => setAt shares_b j (SPLIT j (draw g 1) b)) (fun _ => 0) j)) MOD))
      (fun _ => 0))
    (fun k hk => by
      rw [foldl_setAt (fun j : Nat => cmod (add32
          ((List.range NP).foldl
            (fun shares_a j => setAt shares_a j (SPLIT j (draw g 0) a)) (fun _ => 0) j)
          ((List.range NP).foldl
            (fun shares_b j => setAt shares_b j (SPLIT j (draw g 1) b)) (fun _ => 0) j)) MOD),
        NP, if_pos hk])
  unfold ADDTest
  simp only [e1, e2]
  exact hsum.recon

theorem cmp_value (u v : Int) (hu : 0 ≤ u ∧ u < 16384) (hv : 0 ≤ v ∧ v < 16384)
    (c : NetIntContext) (hinit : c.initialized = true)
    (hidle : ∀ i : Nat, i < 3 → c.cli i = Proc.idle) :
    ∃ c', runCMP u v c
        = Except.ok ((if u > v then 1 else if u < v then 10288 else 0 : Int), c') ∧
      c'.initialized = true ∧ (∀ i : Nat, i < 3 → c'.cli i = Proc.idle) := by
  obtain ⟨c', h, hi, hk, _⟩ := runCMP_core u v c hinit hidle
  rw [cmp_semantics u v hu hv] at h
  exact ⟨c', h, hi, hk⟩

theorem schedule_from (i : Nat) (hi : i < 3) :
    fromAgentOps i cmpSchedule = List.replicate 69 OP_REN ++ [OP_RES] := by
  interval_cases i <;> decide

theorem schedule_to (i : Nat) (hi : i < 3) :
    toAgentOps i cmpSchedule = OP_CMP :: List.replicate 69 OP_REN := by
  interval_cases i <;> decide

/-- C1: for every secret `s` and coefficient `r` in `[0, p)`, `RECONSTRUCT` of the triple
`(SPLIT(0,r,s), SPLIT(1,r,s), SPLIT(2,r,s))` is `s`; the same holds for the wrapper's
`split` and `reconstruct`. -/
theorem C1_split_reconstruct_roundtrip (s r : Int) (hs : 0 ≤ s ∧ s < MOD)
    (hr : 0 ≤ r ∧ r < MOD) :
    RECONSTRUCT (fun j : Nat => SPLIT j r s) = s ∧
    reconstruct (fun j : Nat => split j r s) = s := by
  unfold MOD at hs hr
  have h : IsShare (fun j : Nat => SPLIT j r s) s := IsShare_SPLIT _ r s hr hs (fun _ _ => rfl)
  have e : s % 10289 = s := Int.emod_eq_of_lt hs.1 hs.2
  exact ⟨h.recon.trans e, h.recon.trans e⟩

theorem C1_witness :
    RECONSTRUCT (fun j : Nat => SPLIT j 77 1234) = 1234 ∧
    reconstruct (fun j : Nat => split j 77 1234) = 1234 :=
  C1_split_reconstruct_roundtrip 1234 77 (by decide) (by decide)

/-- C2: if `T` holds the values at 1, 2, 3 of `f(x) = s + a*x + b*x^2` reduced mod `p`, with
`s` in `[0, p)` and any integer coefficients `a, b` (in particular those in `[0, p)`), then for
every state of the random source, that is for every choice of the five draws `rand() % MOD`,
`RECONSTRUCT (RENORMALIZE T)` is `s`. -/
theorem C2_renormalize_preserves_secret (s a b : Int) (hs : 0 ≤ s ∧ s < MOD) (g : Rng) :
    RECONSTRUCT (RENORMALIZE
      (fun k : Nat => (s + a * ((k : Int) + 1) + b * ((k : Int) + 1) ^ 2) % MOD) g).1 = s := by
  unfold MOD at hs
  unfold MOD
  have h := IsShare_RENORMALIZE
    (fun k : Nat => (s + a * ((k : Int) + 1) + b * ((k : Int) + 1) ^ 2) % 10289) g
    ⟨Int.emod_nonneg _ (by decide), Int.emod_lt_of_pos _ (by decide)⟩
    ⟨Int.emod_nonneg _ (by decide), Int.emod_lt_of_pos _ (by decide)⟩
    ⟨Int.emod_nonneg _ (by decide), Int.emod_lt_of_pos _ (by decide)⟩
  rw [h.recon]
  norm_num
  omega

theorem C2_witness :
    RECONSTRUCT (RENORMALIZE
      (fun k : Nat => (60 + 5 * ((k : Int) + 1) + 7 * ((k : Int) + 1) ^ 2) % MOD)
      (fun n => 1000 * n + 17)).1 = 60 :=
  C2_renormalize_preserves_secret 60 5 7 (by decide) (fun n => 1000 * n + 17)

/-- C3: for every input triple with entries in `[0, p)` and every state of the random source,
each output share of `RENORMALIZE` lies in `[0, p)`, the outputs lie on a line
(`p` divides `s0' - 2*s1' + s2'`), and `s_k' = (s + m*(k+1)) mod p` for one `m` in `[0, p)`
with `s` the `RECONSTRUCT` of the input. -/
theorem C3_renormalize_degree_one (t : Nat → Int)
    (ht : ∀ k : Nat, k < 3 → 0 ≤ t k ∧ t k < MOD) (g : Rng) :
    (∀ k : Nat, k < 3 → 0 ≤ (RENORMALIZE t g).1 k ∧ (RENORMALIZE t g).1 k < MOD) ∧
    MOD ∣ ((RENORMALIZE t g).1 0 - 2 * (RENORMALIZE t g).1 1 + (RENORMALIZE t g).1 2) ∧
    ∃ m : Int, 0 ≤ m ∧ m < MOD ∧ ∀ k : Nat, k < 3 →
      (RENORMALIZE t g).1 k = (RECONSTRUCT t + m * ((k : Int) + 1)) % MOD := by
  unfold MOD at ht ⊢
  have h0 := ht 0 (by decide)
  have h1 := ht 1 (by decide)
  have h2 := ht 2 (by decide)
  have hs := IsShare_RENORMALIZE t g h0 h1 h2
  have hrec := RECONSTRUCT_val t h0 h1 h2
  obtain ⟨m, hm⟩ := hs
  obtain ⟨e0, e1, e2⟩ := IsShare.at0 hm
  refine ⟨fun k hk => IsShare.range ⟨m, hm⟩ k hk, ?_, m % 10289, Int.emod_nonneg _ (by decide),
    Int.emod_lt_of_pos _ (by decide), ?_⟩
  · apply Int.dvd_of_emod_eq_zero
    rw [e0, e1, e2]
    omega
  · intro k hk
    rw [hm k hk, hrec]
    apply emod_eq_of_cast
    push_cast
    simp only [cast_emod]
    push_cast
    ring

theorem C3_witness :
    (∀ k : Nat, k < 3 → 0 ≤ (RENORMALIZE (fun _ => 5) (fun n => n)).1 k ∧
      (RENORMALIZE (fun _ => 5) (fun n => n)).1 k < MOD) ∧
    MOD ∣ ((RENORMALIZE (fun _ => 5) (fun n => n)).1 0
      - 2 * (RENORMALIZE (fun _ => 5) (fun n => n)).1 1
      + (RENORMALIZE (fun _ => 5) (fun n => n)).1 2) ∧
    ∃ m : Int, 0 ≤ m ∧ m < MOD ∧ ∀ k : Nat, k < 3 →
      (RENORMALIZE (fun _ => 5) (fun n => n)).1 k
        = (RECONSTRUCT (fun _ => 5) + m * ((k : Int) + 1)) % MOD :=
  C3_renormalize_degree_one (fun _ => 5)
    (fun _ _ => show (0 : Int) ≤ 5 ∧ (5 : Int) < MOD by decide) (fun n => n)

/-- C4: for all `a, b` in `[0, p)` and every state of the random source, in an initialized
session whose three agents wait for a task, `runAdd a b` (split both operands, each agent
answers `(a_share + b_share) % MOD`, the coordinator reconstructs) returns `(a + b) mod p`;
the single-process `ADDTest` reconstructs the same value. -/
theorem C4_add_correct (a b : Int) (c : NetIntContext) (ha : 0 ≤ a ∧ a < MOD)
    (hb : 0 ≤ b ∧ b < MOD) (hinit : c.initialized = true)
    (hidle : ∀ i : Nat, i < 3 → c.cli i = Proc.idle) :
    (∃ c', runAdd a b c = Except.ok ((a + b) % MOD, c')) ∧
    ADDTest a b c.rng = (a + b) % MOD := by
  unfold MOD at ha hb
  obtain ⟨c', h, _⟩ := runAdd_core a b c ⟨by omega, by omega⟩ ⟨by omega, by omega⟩ hinit hidle
  exact ⟨⟨c', h⟩, ADDTest_spec a b c.rng ha hb⟩

theorem C4_witness :
    (∃ c', runAdd 10000 500 (session fun n => 31 * n + 7) = Except.ok ((10000 + 500) % MOD, c')) ∧
    ADDTest 10000 500 (session fun n => 31 * n + 7).rng = (10000 + 500) % MOD :=
  C4_add_correct 10000 500 (session fun n => 31 * n + 7) (by decide) (by decide) rfl
    (fun _ _ => rfl)

/-- C5: for all `a, b` in `[0, p)` and every state of the random source, in an initialized
session whose three agents wait for a task, `runMul a b` (split, each agent answers
`(a_share * b_share) % MOD`, the coordinator renormalizes and reconstructs) returns
`(a * b) mod p`; `MultTest` computes that value both as reconstructed and as expected product. -/
theorem C5_mul_correct (a b : Int) (c : NetIntContext) (ha : 0 ≤ a ∧ a < MOD)
    (hb : 0 ≤ b ∧ b < MOD) (hinit : c.initialized = true)
    (hidle : ∀ i : Nat, i < 3 → c.cli i = Proc.idle) :
    (∃ c', runMul a b c = Except.ok ((a * b) % MOD, c')) ∧
    MultTest a b c.rng = ((a * b) % MOD, (a * b) % MOD) := by
  unfold MOD at ha hb
  obtain ⟨c', h, _⟩ := runMul_core a b c ⟨by omega, by omega⟩ ⟨by omega, by omega⟩ hinit hidle
  exact ⟨⟨c', h⟩, MultTest_spec a b c.rng ha hb⟩

theorem C5_witness :
    (∃ c', runMul 13 11 (session fun n => 31 * n + 7) = Except.ok ((13 * 11) % MOD, c')) ∧
    MultTest 13 11 (session fun n => 31 * n + 7).rng = ((13 * 11) % MOD, (13 * 11) % MOD) :=
  C5_mul_correct 13 11 (session fun n => 31 * n + 7) (by decide) (by decide) rfl
    (fun _ _ => rfl)

/-- C6: for all `a, b` in `[0, p)` and every state of the random source, `runSub a b`, which is
`runAdd a ((MOD - b) % MOD)`, returns `(a - b) mod p`, a value in `[0, p)`. -/
theorem C6_sub_correct (a b : Int) (c : NetIntContext) (ha : 0 ≤ a ∧ a < MOD)
    (hb : 0 ≤ b ∧ b < MOD) (hinit : c.initialized = true)
    (hidle : ∀ i : Nat, i < 3 → c.cli i = Proc.idle) :
    runSub a b = runAdd a (cmod (sub32 MOD b) MOD) ∧
    (∃ c', runSub a b c = Except.ok ((a - b) % MOD, c')) ∧
    0 ≤ (a - b) % MOD ∧ (a - b) % MOD < MOD := by
  unfold MOD at ha hb
  refine ⟨rfl, ?_, Int.emod_nonneg _ (by decide), Int.emod_lt_of_pos _ (by decide)⟩
  have hn := neg_val b hb
  obtain ⟨c', h, _⟩ := runAdd_core a (cmod (sub32 MOD b) MOD) c ⟨by omega, by omega⟩
    ⟨by rw [hn]; omega, by rw [hn]; omega⟩ hinit hidle
  refine ⟨c', ?_⟩
  unfold runSub
  rw [h, hn]
  have e : (a + (10289 - b) % 10289) % 10289 = (a - b) % MOD := by
    unfold MOD; omega
  rw [e]

theorem C6_witness :
    runSub 5 9 = runAdd 5 (cmod (sub32 MOD 9) MOD) ∧
    (∃ c', runSub 5 9 (session fun n => 31 * n + 7) = Except.ok ((5 - 9) % MOD, c')) ∧
    0 ≤ ((5 : Int) - 9) % MOD ∧ ((5 : Int) - 9) % MOD < MOD :=
  C6_sub_correct 5 9 (session fun n => 31 * n + 7) (by decide) (by decide) rfl
    (fun _ _ => rfl)

/-- C7: for all `u, v` in `[0, 2^14)` and every state of the random source, in an initialized
session whose three agents wait for a task, `runCMP u v` returns a value `cmp` reconstructed
from the agents' RES shares with `cmp = 0` iff `u = v`, and `0 ≤ cmp ≤ MOD / 2` iff `u ≥ v`. -/
theorem C7_cmp_indicator (u v : Int) (c : NetIntContext) (hu : 0 ≤ u ∧ u < 2 ^ l)
    (hv : 0 ≤ v ∧ v < 2 ^ l) (hinit : c.initialized = true)
    (hidle : ∀ i : Nat, i < 3 → c.cli i = Proc.idle) :
    ∃ cmp c', runCMP u v c = Except.ok (cmp, c') ∧
      (cmp = 0 ↔ u = v) ∧ ((0 ≤ cmp ∧ cmp ≤ MOD / 2) ↔ u ≥ v) := by
  have hu' : 0 ≤ u ∧ u < 16384 := by simpa [l] using hu
  have hv' : 0 ≤ v ∧ v < 16384 := by simpa [l] using hv
  obtain ⟨c', h, _⟩ := cmp_value u v hu' hv' c hinit hidle
  refine ⟨_, c', h, ?_, ?_⟩
  · split_ifs <;> omega
  · have e : MOD / 2 = 5144 := by decide
    rw [e]
    split_ifs <;> omega

theorem C7_witness :
    ∃ cmp c', runCMP 7 100 (session fun n => 31 * n + 7) = Except.ok (cmp, c') ∧
      (cmp = 0 ↔ (7 : Int) = 100) ∧ ((0 ≤ cmp ∧ cmp ≤ MOD / 2) ↔ (7 : Int) ≥ 100) :=
  C7_cmp_indicator 7 100 (session fun n => 31 * n + 7) (by decide) (by decide) rfl
    (fun _ _ => rfl)

theorem comparator_eval (f : Int → Int) (u v : Int) (c : NetIntContext) (x : Int)
    (c' : NetIntContext) (h : runCMP u v c = Except.ok (x, c')) :
    (do let cmp ← runCMP u v; pure (f cmp) : Coord Int) c = Except.ok (f x, c') := by
  rw [bind_ok h]
  rfl

/-- C8: for all `u, v` in `[0, 2^14)` and every state of the random source, in an initialized
session whose three agents wait for a task, each of `runLT`, `runLE`, `runGT`, `runGE`,
`runEQ`, `runNE` returns 0 or 1, and returns 1 exactly when `u < v`, `u ≤ v`, `u > v`,
`u ≥ v`, `u = v`, `u ≠ v` respectively. -/
theorem C8_derived_comparators (u v : Int) (c : NetIntContext) (hu : 0 ≤ u ∧ u < 2 ^ l)
    (hv : 0 ≤ v ∧ v < 2 ^ l) (hinit : c.initialized = true)
    (hidle : ∀ i : Nat, i < 3 → c.cli i = Proc.idle) :
    (∃ x c', runLT u v c = Except.ok (x, c') ∧ (x = 0 ∨ x = 1) ∧ (x = 1 ↔ u < v)) ∧
    (∃ x c', runLE u v c = Except.ok (x, c') ∧ (x = 0 ∨ x = 1) ∧ (x = 1 ↔ u ≤ v)) ∧
    (∃ x c', runGT u v c = Except.ok (x, c') ∧ (x = 0 ∨ x = 1) ∧ (x = 1 ↔ u > v)) ∧
    (∃ x c', runGE u v c = Except.ok (x, c') ∧ (x = 0 ∨ x = 1) ∧ (x = 1 ↔ u ≥ v)) ∧
    (∃ x c', runEQ u v c = Except.ok (x, c') ∧ (x = 0 ∨ x = 1) ∧ (x = 1 ↔ u = v)) ∧
    (∃ x c', runNE u v c = Except.ok (x, c') ∧ (x = 0 ∨ x = 1) ∧ (x = 1 ↔ u ≠ v)) := by
  have hu' : 0 ≤ u ∧ u < 16384 := by simpa [l] using hu
  have hv' : 0 ≤ v ∧ v < 16384 := by simpa [l] using hv
  have e : MOD / 2 = 5144 := by decide
  obtain ⟨c1, h1, _⟩ := cmp_value u v hu' hv' c hinit hidle
  obtain ⟨c2, h2, _⟩ := cmp_value v u hv' hu' c hinit hidle
  refine ⟨⟨_, c1, comparator_eval (fun cmp => if cmp > MOD / 2 then 1 else 0) u v c _ c1 h1,
      ?_, ?_⟩,
    ⟨_, c1, comparator_eval (fun cmp => if cmp = 0 ∨ cmp > MOD / 2 then 1 else 0) u v c _ c1 h1,
      ?_, ?_⟩,
    ⟨_, c2, comparator_eval (fun cmp => if cmp > MOD / 2 then 1 else 0) v u c _ c2 h2,
      ?_, ?_⟩,
    ⟨_, c2, comparator_eval (fun cmp => if cmp = 0 ∨ cmp > MOD / 2 then 1 else 0) v u c _ c2 h2,
      ?_, ?_⟩,
    ⟨_, c1, comparator_eval (fun cmp => if cmp = 0 then 1 else 0) u v c _ c1 h1, ?_, ?_⟩,
    ⟨1 - (if (if u > v then (1 : Int) else if u < v then 10288 else 0) = 0 then 1 else 0), c1,
      ?_, ?_, ?_⟩⟩
  all_goals first
    | (simp only [e]; split_ifs <;> omega)
    | (split_ifs <;> omega)
    | skip
  · unfold runNE
    have h := comparator_eval (fun cmp => if cmp = 0 then 1 else 0) u v c _ c1 h1
    have h' : runEQ u v c = Except.ok
        ((if (if u > v then (1 : Int) else if u < v then 10288 else 0) = 0 then 1 else 0), c1) := h
    rw [bind_ok h']
    have hw : sub32 1 (if (if u > v then (1 : Int) else if u < v then 10288 else 0) = 0
        then 1 else 0)
        = 1 - (if (if u > v then (1 : Int) else if u < v then 10288 else 0) = 0 then 1 else 0) := by
      unfold sub32
      apply wrap32_id <;> split_ifs <;> omega
    simp only [pure, StateT.pure, Except.pure, hw]

theorem C8_witness :
    (∃ x c', runLT 7 100 (session fun n => 31 * n + 7) = Except.ok (x, c') ∧ (x = 0 ∨ x = 1) ∧
      (x = 1 ↔ (7 : Int) < 100)) ∧
    (∃ x c', runLE 7 100 (session fun n => 31 * n + 7) = Except.ok (x, c') ∧ (x = 0 ∨ x = 1) ∧
      (x = 1 ↔ (7 : Int) ≤ 100)) ∧
    (∃ x c', runGT 7 100 (session fun n => 31 * n + 7) = Except.ok (x, c') ∧ (x = 0 ∨ x = 1) ∧
      (x = 1 ↔ (7 : Int) > 100)) ∧
    (∃ x c', runGE 7 100 (session fun n => 31 * n + 7) = Except.ok (x, c') ∧ (x = 0 ∨ x = 1) ∧
      (x = 1 ↔ (7 : Int) ≥ 100)) ∧
    (∃ x c', runEQ 7 100 (session fun n => 31 * n + 7) = Except.ok (x, c') ∧ (x = 0 ∨ x = 1) ∧
      (x = 1 ↔ (7 : Int) = 100)) ∧
    (∃ x c', runNE 7 100 (session fun n => 31 * n + 7) = Except.ok (x, c') ∧ (x = 0 ∨ x = 1) ∧
      (x = 1 ↔ (7 : Int) ≠ 100)) :=
  C8_derived_comparators 7 100 (session fun n => 31 * n + 7) (by decide) (by decide) rfl
    (fun _ _ => rfl)

/-- C10: within one `runCMP`, in an initialized session whose three agents wait for a task, the
coordinator sends the three CMP tasks, then performs exactly `3*l + (l-1) + l = 5*l - 1 = 69`
`waitRenorm` cycles (each reads one REN frame from agents 0, 1, 2 and answers one REN frame to
each), then reads one RES frame from each agent; so each agent sent exactly 69 REN frames
followed by one RES frame, received exactly 69 REN replies, and waits for the next task. -/
theorem C10_round_count (u v : Int) (c : NetIntContext) (hinit : c.initialized = true)
    (hidle : ∀ i : Nat, i < 3 → c.cli i = Proc.idle) :
    3 * l + (l - 1) + l = 69 ∧ 5 * l - 1 = 69 ∧
    ∃ cmp c', runCMP u v c = Except.ok (cmp, c') ∧
      c'.log.map Event.tag = c.log.map Event.tag ++
        ([Tag.toAgent 0 OP_CMP, Tag.toAgent 1 OP_CMP, Tag.toAgent 2 OP_CMP] ++
          (List.replicate (3 * l) renCycle).flatten ++
          (List.replicate (l - 1) renCycle).flatten ++
          (List.replicate l renCycle).flatten ++
          [Tag.fromAgent 0 OP_RES, Tag.fromAgent 1 OP_RES, Tag.fromAgent 2 OP_RES]) ∧
      (∀ i : Nat, i < 3 →
        fromAgentOps i (c'.log.map Event.tag) = fromAgentOps i (c.log.map Event.tag) ++
          (List.replicate 69 OP_REN ++ [OP_RES]) ∧
        toAgentOps i (c'.log.map Event.tag) = toAgentOps i (c.log.map Event.tag) ++
          (OP_CMP :: List.replicate 69 OP_REN)) ∧
      (∀ i : Nat, i < 3 → c'.cli i = Proc.idle) := by
  obtain ⟨c', h, _, hk, hl⟩ := runCMP_core u v c hinit hidle
  refine ⟨by decide, by decide, _, c', h, ?_, ?_, hk⟩
  · rw [hl]
    simp only [cmpSchedule, renCycles, List.append_assoc]
  · intro i hi
    rw [hl]
    simp only [fromAgentOps, toAgentOps, List.filterMap_append]
    exact ⟨congrArg _ (schedule_from i hi), congrArg _ (schedule_to i hi)⟩

theorem C10_witness :
    3 * l + (l - 1) + l = 69 ∧ 5 * l - 1 = 69 ∧
    ∃ cmp c', runCMP 100 7 (session fun n => 31 * n + 7) = Except.ok (cmp, c') ∧
      c'.log.map Event.tag = (session fun n => 31 * n + 7).log.map Event.tag ++
        ([Tag.toAgent 0 OP_CMP, Tag.toAgent 1 OP_CMP, Tag.toAgent 2 OP_CMP] ++
          (List.replicate (3 * l) renCycle).flatten ++
          (List.replicate (l - 1) renCycle).flatten ++
          (List.replicate l renCycle).flatten ++
          [Tag.fromAgent 0 OP_RES, Tag.fromAgent 1 OP_RES, Tag.fromAgent 2 OP_RES]) ∧
      (∀ i : Nat, i < 3 →
        fromAgentOps i (c'.log.map Event.tag)
          = fromAgentOps i ((session fun n => 31 * n + 7).log.map Event.tag) ++
            (List.replicate 69 OP_REN ++ [OP_RES]) ∧
        toAgentOps i (c'.log.map Event.tag)
          = toAgentOps i ((session fun n => 31 * n + 7).log.map Event.tag) ++
            (OP_CMP :: List.replicate 69 OP_REN)) ∧
      (∀ i : Nat, i < 3 → c'.cli i = Proc.idle) :=
  C10_round_count 100 7 (session fun n => 31 * n + 7) rfl (fun _ _ => rfl)

theorem fold_field {σ : Type} (get : σ → Nat → Int) (put : σ → (Nat → Int) → σ)
    (val : σ → Nat → Int) (hgp : ∀ s a, get (put s a) = a)
    (hval : ∀ s a k, val (put s a) k = val s k) (hpp : ∀ s a b, put (put s a) b = put s b)
    (n : Nat) (s : σ) :
    (List.range (n + 1)).foldl (fun s k => put s (setAt (get s) k (val s k))) s
      = put s (fun k => if k < n + 1 then val s k else get s k) := by
  induction n with
  | zero =>
    simp only [List.range_succ, List.range_zero, List.nil_append, List.foldl_cons,
      List.foldl_nil]
    congr 1
    funext k
    simp only [setAt]
    by_cases h : k = 0
    · subst h; simp
    · rw [if_neg h, if_neg (by omega)]
  | succ n ih =>
    rw [List.range_succ, List.foldl_append, ih]
    simp only [List.foldl_cons, List.foldl_nil]
    rw [hgp, hval, hpp]
    congr 1
    funext k
    simp only [setAt]
    by_cases h : k = n + 1
    · subst h; simp
    · rw [if_neg h]
      by_cases h' : k < n + 1
      · rw [if_pos h', if_pos (by omega)]
      · rw [if_neg h', if_neg (by omega)]

theorem setRow_same (a : Nat → Nat → Int) (j : Nat) (row : Nat → Int) :
    setRow a j row j = row := by
  funext y
  simp [setRow]

theorem setRow_other (a : Nat → Nat → Int) (j i : Nat) (row : Nat → Int) (h : i ≠ j) :
    setRow a j row i = a i := by
  funext y
  simp [setRow, h]

theorem setRow_setRow (a : Nat → Nat → Int) (j : Nat) (r1 r2 : Nat → Int) :
    setRow (setRow a j r1) j r2 = setRow a j r2 := by
  funext x y
  simp only [setRow]
  split_ifs <;> rfl

theorem fold_field2 {σ : Type} (get : σ → Nat → Nat → Int) (put : σ → (Nat → Nat → Int) → σ)
    (val : σ → Nat → Int) (j : Nat) (hgp : ∀ s a, get (put s a) = a)
    (hval : ∀ s a k, val (put s a) k = val s k) (hpp : ∀ s a b, put (put s a) b = put s b)
    (n : Nat) (s : σ) :
    (List.range (n + 1)).foldl (fun s k => put s (setAt2 (get s) j k (val s k))) s
      = put s (setRow (get s) j (fun y => if y < n + 1 then val s y else get s j y)) := by
  induction n with
  | zero =>
    simp only [List.range_succ, List.range_zero, List.nil_append, List.foldl_cons,
      List.foldl_nil]
    congr 1
    funext x y
    simp only [setAt2, setRow]
    by_cases hx : x = j
    · subst hx
      by_cases hy : y = 0
      · subst hy; simp
      · rw [if_neg (fun h => hy h.2), if_pos rfl, if_neg (by omega)]
    · rw [if_neg (fun h => hx h.1), if_neg hx]
  | succ n ih =>
    rw [List.range_succ, List.foldl_append, ih]
    simp only [List.foldl_cons, List.foldl_nil]
    rw [hgp, hval, hpp]
    congr 1
    funext x y
    simp only [setAt2, setRow]
    by_cases hx : x = j
    · subst hx
      by_cases hy : y = n + 1
      · subst hy; simp
      · simp only [hy, and_false, if_false, if_true]
        by_cases h' : y < n + 1
        · rw [if_pos h', if_pos (by omega)]
        · rw [if_neg h', if_neg (by omega)]
    · simp only [hx, false_and, if_false]

theorem fold_tmp (val : CptState → Nat → Int)
    (hval : ∀ s a k, val { s with tmp_shares := a } k = val s k) (s : CptState) :
    (List.range NP).foldl (fun s k => { s with tmp_shares := setAt s.tmp_shares k (val s k) }) s
      = { s with tmp_shares := fun k => if k < 3 then val s k else s.tmp_shares k } :=
  fold_field (fun s : CptState => s.tmp_shares) (fun s a => { s with tmp_shares := a })
    val (fun _ _ => rfl) hval (fun _ _ _ => rfl) 2 s

theorem fold_tmp2 (val : CptState → Nat → Int)
    (hval : ∀ s a k, val { s with tmp2_shares := a } k = val s k) (s : CptState) :
    (List.range NP).foldl
        (fun s k => { s with tmp2_shares := setAt s.tmp2_shares k (val s k) }) s
      = { s with tmp2_shares := fun k => if k < 3 then val s k else s.tmp2_shares k } :=
  fold_field (fun s : CptState => s.tmp2_shares) (fun s a => { s with tmp2_shares := a })
    val (fun _ _ => rfl) hval (fun _ _ _ => rfl) 2 s

theorem fold_eq (val : CptState → Nat → Int) (j : Nat)
    (hval : ∀ s a k, val { s with eq_shares := a } k = val s k) (s : CptState) :
    (List.range NP).foldl
        (fun s k => { s with eq_shares := setAt2 s.eq_shares j k (val s k) }) s
      = { s with
          eq_shares :=
            setRow s.eq_shares j (fun y => if y < 3 then val s y else s.eq_shares j y) } :=
  fold_field2 (fun s : CptState => s.eq_shares) (fun s a => { s with eq_shares := a })
    val j (fun _ _ => rfl) hval (fun _ _ _ => rfl) 2 s

theorem fold_gt (val : CptState → Nat → Int) (j : Nat)
    (hval : ∀ s a k, val { s with gt_shares := a } k = val s k) (s : CptState) :
    (List.range NP).foldl
        (fun s k => { s with gt_shares := setAt2 s.gt_shares j k (val s k) }) s
      = { s with
          gt_shares :=
            setRow s.gt_shares j (fun y => if y < 3 then val s y else s.gt_shares j y) } :=
  fold_field2 (fun s : CptState => s.gt_shares) (fun s a => { s with gt_shares := a })
    val j (fun _ _ => rfl) hval (fun _ _ _ => rfl) 2 s

theorem fold_lt (val : CptState → Nat → Int) (j : Nat)
    (hval : ∀ s a k, val { s with lt_shares := a } k = val s k) (s : CptState) :
    (List.range NP).foldl
        (fun s k => { s with lt_shares := setAt2 s.lt_shares j k (val s k) }) s
      = { s with
          lt_shares :=
            setRow s.lt_shares j (fun y => if y < 3 then val s y else s.lt_shares j y) } :=
  fold_field2 (fun s : CptState => s.lt_shares) (fun s a => { s with lt_shares := a })
    val j (fun _ _ => rfl) hval (fun _ _ _ => rfl) 2 s

theorem fold_prefixEq (val : CptState → Nat → Int) (j : Nat)
    (hval : ∀ s a k, val { s with prefixEq_shares := a } k = val s k) (s : CptState) :
    (List.range NP).foldl
        (fun s k => { s with prefixEq_shares := setAt2 s.prefixEq_shares j k (val s k) }) s
      = { s with
          prefixEq_shares :=
            setRow s.prefixEq_shares j (fun y => if y < 3 then val s y else s.prefixEq_shares j y) } :=
  fold_field2 (fun s : CptState => s.prefixEq_shares)
    (fun s a => { s with prefixEq_shares := a })
    val j (fun _ _ => rfl) hval (fun _ _ _ => rfl) 2 s

theorem fold_flag (val : CptState → Nat → Int) (j : Nat)
    (hval : ∀ s a k, val { s with flag_shares := a } k = val s k) (s : CptState) :
    (List.range NP).foldl
        (fun s k => { s with flag_shares := setAt2 s.flag_shares j k (val s k) }) s
      = { s with
          flag_shares :=
            setRow s.flag_shares j (fun y => if y < 3 then val s y else s.flag_shares j y) } :=
  fold_field2 (fun s : CptState => s.flag_shares) (fun s a => { s with flag_shares := a })
    val j (fun _ _ => rfl) hval (fun _ _ _ => rfl) 2 s

theorem cptBitRound_eq (s : CptState) (j : Nat) (x y : Int)
    (hu : IsShare (s.u_shares j) x) (hv : IsShare (s.v_shares j) y) :
    ∃ E G T tmp tmp2 g', IsShare E (1 - (x + y - 2 * (x * y))) ∧ IsShare G (x * (1 - y)) ∧
      IsShare T ((1 - x) * y) ∧
      cptBitRound s j = { s with
        eq_shares := setRow s.eq_shares j E
        gt_shares := setRow s.gt_shares j G
        lt_shares := setRow s.lt_shares j T
        tmp_shares := tmp
        tmp2_shares := tmp2
        g := g' } := by
  unfold cptBitRound
  rw [fold_tmp (fun s k => cmod (mul32 (s.u_shares j k) (s.v_shares j k)) MOD)
    (fun _ _ _ => rfl) s]
  dsimp only
  have h1 : IsShare (RENORMALIZE (fun k => if k < 3 then
      cmod (mul32 (s.u_shares j k) (s.v_shares j k)) MOD else s.tmp_shares k) s.g).1 (x * y) :=
    IsShare_mul_renorm s.g hu hv (fun k hk => by simp only [hk, if_true])
  generalize RENORMALIZE (fun k => if k < 3 then
      cmod (mul32 (s.u_shares j k) (s.v_shares j k)) MOD else s.tmp_shares k) s.g = r1 at h1 ⊢
  rw [fold_tmp2 (fun s k => cmod (add32 (sub32 (add32 (s.u_shares j k) (s.v_shares j k))
          (mul32 2 (s.tmp_shares k))) MOD) MOD) (fun _ _ _ => rfl)]
  dsimp only
  rw [fold_eq (fun s k => cmod (add32 (sub32 1 (s.tmp2_shares k)) MOD) MOD) j
    (fun _ _ _ => rfl)]
  dsimp only
  rw [fold_tmp (fun s k => cmod (add32 (sub32 1 (s.v_shares j k)) MOD) MOD)
    (fun _ _ _ => rfl)]
  dsimp only
  rw [fold_gt (fun s k => cmod (mul32 (s.u_shares j k) (s.tmp_shares k)) MOD) j
    (fun _ _ _ => rfl)]
  dsimp only
  rw [setRow_same, setRow_setRow]
  have hnv : IsShare (fun k => if k < 3 then
      cmod (add32 (sub32 1 (s.v_shares j k)) MOD) MOD else r1.1 k) (1 - y) :=
    IsShare_one_sub hv (fun k hk => by simp only [hk, if_true])
  have h2 := IsShare_mul_renorm r1.2 hu hnv (c := fun y => if y < 3 then
      cmod (mul32 (s.u_shares j y) (if y < 3 then
        cmod (add32 (sub32 1 (s.v_shares j y)) MOD) MOD else r1.1 y)) MOD
      else s.gt_shares j y) (fun k hk => by simp only [hk, if_true])
  generalize RENORMALIZE (fun y => if y < 3 then
      cmod (mul32 (s.u_shares j y) (if y < 3 then
        cmod (add32 (sub32 1 (s.v_shares j y)) MOD) MOD else r1.1 y)) MOD
      else s.gt_shares j y) r1.2 = r2 at h2 ⊢
  rw [fold_tmp (fun s k => cmod (add32 (sub32 1 (s.u_shares j k)) MOD) MOD)
    (fun _ _ _ => rfl)]
  dsimp only
  rw [fold_lt (fun s k => cmod (mul32 (s.tmp_shares k) (s.v_shares j k)) MOD) j
    (fun _ _ _ => rfl)]
  dsimp only
  rw [setRow_same, setRow_setRow]
  have hnu : IsShare (fun k => if k < 3 then
      cmod (add32 (sub32 1 (s.u_shares j k)) MOD) MOD
      else if k < 3 then cmod (add32 (sub32 1 (s.v_shares j k)) MOD) MOD else r1.1 k) (1 - x) :=
    IsShare_one_sub hu (fun k hk => by simp only [hk, if_true])
  have h3 := IsShare_mul_renorm r2.2 hnu hv (c := fun y => if y < 3 then
      cmod (mul32 (if y < 3 then cmod (add32 (sub32 1 (s.u_shares j y)) MOD) MOD
        else if y < 3 then cmod (add32 (sub32 1 (s.v_shares j y)) MOD) MOD else r1.1 y)
        (s.v_shares j y)) MOD
      else s.lt_shares j y) (fun k hk => by simp only [hk, if_true])
  have hE : IsShare (fun y => if y < 3 then
      cmod (add32 (sub32 1 (if y < 3 then
        cmod (add32 (sub32 (add32 (s.u_shares j y) (s.v_shares j y)) (mul32 2 (r1.1 y))) MOD) MOD
        else s.tmp2_shares y)) MOD) MOD
      else s.eq_shares j y) (1 - (x + y - 2 * (x * y))) :=
    IsShare_eq hu hv h1 (fun k hk => by simp only [hk, if_true])
  exact ⟨_, _, _, _, _, _, hE, h2, h3, rfl⟩

theorem cptPrefixRound_eq (s : CptState) (j : Nat) (x y : Int)
    (hp : IsShare (s.prefixEq_shares (j - 1)) x) (he : IsShare (s.eq_shares (j - 1)) y) :
    ∃ P tmp g', IsShare P (x * y) ∧
      cptPrefixRound s j = { s with
        prefixEq_shares := setRow s.prefixEq_shares j P
        tmp_shares := tmp
        g := g' } := by
  unfold cptPrefixRound
  rw [fold_tmp (fun s k => cmod (mul32 (s.prefixEq_shares (j - 1) k) (s.eq_shares (j - 1) k)) MOD)
    (fun _ _ _ => rfl) s]
  dsimp only
  have h1 := IsShare_mul_renorm s.g hp he (c := fun k => if k < 3 then
      cmod (mul32 (s.prefixEq_shares (j - 1) k) (s.eq_shares (j - 1) k)) MOD
      else s.tmp_shares k) (fun k hk => by simp only [hk, if_true])
  generalize RENORMALIZE (fun k => if k < 3 then
      cmod (mul32 (s.prefixEq_shares (j - 1) k) (s.eq_shares (j - 1) k)) MOD
      else s.tmp_shares k) s.g = r1 at h1 ⊢
  rw [fold_prefixEq (fun s k => s.tmp_shares k) j (fun _ _ _ => rfl)]
  dsimp only
  have hP : IsShare (fun y => if y < 3 then r1.1 y else s.prefixEq_shares j y) (x * y) :=
    h1.ext (fun k hk => by simp only [hk, if_true])
  exact ⟨_, _, _, hP, rfl⟩

theorem cptFlagRound_eq (s : CptState) (j : Nat) (p a b : Int)
    (hp : IsShare (s.prefixEq_shares j) p) (hg : IsShare (s.gt_shares j) a)
    (hl : IsShare (s.lt_shares j) b) :
    ∃ F tmp tmp2 g', IsShare F (p * (a - b)) ∧
      cptFlagRound s j = { s with
        flag_shares := setRow s.flag_shares j F
        tmp_shares := tmp
        tmp2_shares := tmp2
        g := g' } := by
  unfold cptFlagRound
  rw [fold_tmp (fun s k => cmod (add32 (sub32 (s.gt_shares j k) (s.lt_shares j k)) MOD) MOD)
    (fun _ _ _ => rfl) s]
  dsimp only
  rw [fold_tmp2 (fun s k => cmod (mul32 (s.prefixEq_shares j k) (s.tmp_shares k)) MOD)
    (fun _ _ _ => rfl)]
  dsimp only
  have hd : IsShare (fun k => if k < 3 then
      cmod (add32 (sub32 (s.gt_shares j k) (s.lt_shares j k)) MOD) MOD
      else s.tmp_shares k) (a - b) :=
    IsShare_diff hg hl (fun k hk => by simp only [hk, if_true])
  have h1 := IsShare_mul_renorm s.g hp hd (c := fun k => if k < 3 then
      cmod (mul32 (s.prefixEq_shares j k) (if k < 3 then
        cmod (add32 (sub32 (s.gt_shares j k) (s.lt_shares j k)) MOD) MOD
        else s.tmp_shares k)) MOD
      else s.tmp2_shares k) (fun k hk => by simp only [hk, if_true])
  generalize RENORMALIZE (fun k => if k < 3 then
      cmod (mul32 (s.prefixEq_shares j k) (if k < 3 then
        cmod (add32 (sub32 (s.gt_shares j k) (s.lt_shares j k)) MOD) MOD
        else s.tmp_shares k)) MOD
      else s.tmp2_shares k) s.g = r1 at h1 ⊢
  rw [fold_flag (fun s k => s.tmp2_shares k) j (fun _ _ _ => rfl)]
  dsimp only
  have hF : IsShare (fun y => if y < 3 then r1.1 y else s.flag_shares j y) (p * (a - b)) :=
    h1.ext (fun k hk => by simp only [hk, if_true])
  exact ⟨_, _, _, _, hF, rfl⟩

theorem cptPrefixInit_eq (s : CptState) :
    ∃ P g', IsShare P 1 ∧
      cptPrefixInit s = { s with prefixEq_shares := setRow s.prefixEq_shares 0 P, g := g' } := by
  unfold cptPrefixInit
  have e0 : cmod (rand s.g).1 MOD = draw s.g 0 := cmod_rand s.g 0
  dsimp only
  rw [e0, fold_prefixEq (fun _ k => SPLIT k (draw s.g 0) 1) 0 (fun _ _ _ => rfl)]
  dsimp only
  have hP : IsShare (fun y : Nat => if y < 3 then SPLIT y (draw s.g 0) 1
      else s.prefixEq_shares 0 y) 1 :=
    IsShare_SPLIT _ _ _ (draw_range s.g 0) (by decide) (fun k hk => by simp only [hk, if_true])
  exact ⟨_, _, hP, rfl⟩

theorem cptShareBit_eq (bu bv : Nat → Int) (s : CptState) (i : Nat)
    (hbu : 0 ≤ bu i ∧ bu i < 10289) (hbv : 0 ≤ bv i ∧ bv i < 10289) :
    ∃ U V g', IsShare U (bu i) ∧ IsShare V (bv i) ∧
      cptShareBit bu bv s i = { s with
        u_shares := setRow s.u_shares i U
        v_shares := setRow s.v_shares i V
        g := g' } := by
  unfold cptShareBit
  have e0 : cmod (rand s.g).1 MOD = draw s.g 0 := cmod_rand s.g 0
  have e1 : cmod (rand (rand s.g).2).1 MOD = draw s.g 1 := cmod_rand s.g 1
  dsimp only
  rw [e0, e1]
  have hU : IsShare (fun y : Nat => SPLIT y (draw s.g 0) (bu i)) (bu i) :=
    IsShare_SPLIT _ _ _ (draw_range s.g 0) hbu (fun k hk => rfl)
  have hV : IsShare (fun y : Nat => SPLIT y (draw s.g 1) (bv i)) (bv i) :=
    IsShare_SPLIT _ _ _ (draw_range s.g 1) hbv (fun k hk => rfl)
  refine ⟨fun y => if y < 3 then SPLIT y (draw s.g 0) (bu i) else s.u_shares i y,
    fun y => if y < 3 then SPLIT y (draw s.g 1) (bv i) else s.v_shares i y,
    (rand (rand s.g).2).2,
    hU.ext (fun k hk => by simp only [hk, if_true]),
    hV.ext (fun k hk => by simp only [hk, if_true]), ?_⟩
  simp only [NP, List.range_succ, List.range_zero, List.nil_append, List.cons_append,
    List.foldl_cons, List.foldl_nil, CptState.mk.injEq, true_and, and_true]
  constructor <;>
  · funext a b
    simp only [setAt2, setRow]
    by_cases ha : a = i
    · subst ha
      by_cases h2 : b = 2
      · subst h2; simp
      · by_cases h1 : b = 1
        · subst h1; simp
        · by_cases h0 : b = 0
          · subst h0; simp
          · simp only [h2, h1, h0, and_false, if_false, if_true]
            rw [if_neg (by omega)]
    · simp only [ha, false_and, if_false]

theorem cptSumStep_eq (s : CptState) (j : Nat) :
    (List.range NP).foldl
        (fun s k => { s with
          cmp_shares := setAt s.cmp_shares k
            (cmod (add32 (s.cmp_shares k) (s.flag_shares j k)) MOD) })
        s
      = { s with cmp_shares := fun k =>
            if k < 3 then cmod (add32 (s.cmp_shares k) (s.flag_shares j k)) MOD
            else s.cmp_shares k } := by
  simp only [NP, List.range_succ, List.range_zero, List.nil_append, List.cons_append,
    List.foldl_cons, List.foldl_nil, CptState.mk.injEq, true_and, and_true]
  funext b
  simp only [setAt]
  by_cases h2 : b = 2
  · subst h2; simp
  · by_cases h1 : b = 1
    · subst h1; simp
    · by_cases h0 : b = 0
      · subst h0; simp
      · simp only [h2, h1, h0, if_false]
        rw [if_neg (by omega)]

theorem foldl_range_inv {σ : Type} (f : σ → Nat → σ) (I : Nat → σ → Prop) (n : Nat) (s0 : σ)
    (h0 : I 0 s0) (hstep : ∀ k s, k < n → I k s → I (k + 1) (f s k)) :
    I n ((List.range n).foldl f s0) := by
  induction n with
  | zero => exact h0
  | succ n ih =>
    rw [List.range_succ, List.foldl_append]
    exact hstep n _ (Nat.lt_succ_self n) (ih (fun k s hk => hstep k s (by omega)))

theorem setRow_at (a : Nat → Nat → Int) (j i : Nat) (row : Nat → Int) :
    setRow a j row i = if i = j then row else a i := by
  by_cases h : i = j
  · subst h; rw [if_pos rfl, setRow_same]
  · rw [if_neg h, setRow_other a j i row h]

theorem cptShare_step (u v : Int) (s : CptState) (i : Nat) (hi : i < l)
    (h : CptInv (bitAt u) (bitAt v) s i 0 0 0) :
    CptInv (bitAt u) (bitAt v) (cptShareBit (cmpBits u) (cmpBits v) s i) (i + 1) 0 0 0 := by
  obtain ⟨U, V, g', hU, hV, e⟩ := cptShareBit_eq (cmpBits u) (cmpBits v) s i
    (cmpBits_range u i) (cmpBits_range v i)
  rw [cmpBits_val u i hi] at hU
  rw [cmpBits_val v i hi] at hV
  rw [e]
  refine ⟨fun j hj => ?_, fun j hj => absurd hj (by omega), fun j hj => absurd hj (by omega),
    fun j hj => absurd hj (by omega), h.2.2.2.2⟩
  show IsShare (setRow s.u_shares i U j) _ ∧ IsShare (setRow s.v_shares i V j) _
  rw [setRow_at, setRow_at]
  by_cases hji : j = i
  · subst hji; simp only [if_true]; exact ⟨hU, hV⟩
  · simp only [hji, if_false]; exact h.1 j (by omega)

theorem cptBit_step (bu bv : Nat → Int) (s : CptState) (j : Nat) (hj : j < l)
    (h : CptInv bu bv s l j 0 0) : CptInv bu bv (cptBitRound s j) l (j + 1) 0 0 := by
  obtain ⟨E, G, T, tmp, tmp2, g', hE, hG, hT, e⟩ :=
    cptBitRound_eq s j (bu j) (bv j) (h.1 j hj).1 (h.1 j hj).2
  rw [e]
  refine ⟨h.1, fun i hi => ?_, fun i hi => absurd hi (by omega),
    fun i hi => absurd hi (by omega), h.2.2.2.2⟩
  show IsShare (setRow s.eq_shares j E i) _ ∧ IsShare (setRow s.gt_shares j G i) _ ∧
    IsShare (setRow s.lt_shares j T i) _
  rw [setRow_at, setRow_at, setRow_at]
  by_cases hij : i = j
  · subst hij; simp only [if_true]; exact ⟨hE, hG, hT⟩
  · simp only [hij, if_false]; exact h.2.1 i (by omega)

theorem cptInit_step (bu bv : Nat → Int) (s : CptState) (h : CptInv bu bv s l l 0 0) :
    CptInv bu bv (cptPrefixInit s) l l 1 0 := by
  obtain ⟨P, g', hP, e⟩ := cptPrefixInit_eq s
  rw [e]
  refine ⟨h.1, h.2.1, fun i hi => ?_, fun i hi => absurd hi (by omega), h.2.2.2.2⟩
  have hi0 : i = 0 := by omega
  subst hi0
  show IsShare (setRow s.prefixEq_shares 0 P 0) _
  rw [setRow_same]
  exact hP

theorem cptPrefix_step (bu bv : Nat → Int) (s : CptState) (n : Nat) (hn : n < l - 1)
    (h : CptInv bu bv s l l (n + 1) 0) :
    CptInv bu bv (cptPrefixRound s (n + 1)) l l (n + 1 + 1) 0 := by
  have hl : n < l := by unfold l at hn ⊢; omega
  obtain ⟨P, tmp, g', hP, e⟩ := cptPrefixRound_eq s (n + 1) (prefB bu bv n) (eqB bu bv n)
    (h.2.2.1 n (by omega)) (h.2.1 n hl).1
  rw [e]
  refine ⟨h.1, h.2.1, fun i hi => ?_, fun i hi => absurd hi (by omega), h.2.2.2.2⟩
  show IsShare (setRow s.prefixEq_shares (n + 1) P i) _
  rw [setRow_at]
  by_cases hij : i = n + 1
  · subst hij; simp only [if_true]; exact hP
  · simp only [hij, if_false]; exact h.2.2.1 i (by omega)

theorem cptFlag_step (bu bv : Nat → Int) (s : CptState) (j : Nat) (hj : j < l)
    (h : CptInv bu bv s l l l j) : CptInv bu bv (cptFlagRound s j) l l l (j + 1) := by
  obtain ⟨F, tmp, tmp2, g', hF, e⟩ := cptFlagRound_eq s j (prefB bu bv j) (gtB bu bv j)
    (ltB bu bv j) (h.2.2.1 j hj) (h.2.1 j hj).2.1 (h.2.1 j hj).2.2
  rw [e]
  refine ⟨h.1, h.2.1, h.2.2.1, fun i hi => ?_, h.2.2.2.2⟩
  show IsShare (setRow s.flag_shares j F i) _
  rw [setRow_at]
  by_cases hij : i = j
  · subst hij; simp only [if_true]; exact hF
  · simp only [hij, if_false]; exact h.2.2.2.1 i (by omega)

theorem cptSum_share (bu bv : Nat → Int) (s : CptState) (h : CptInv bu bv s l l l l) :
    IsShare (cptSum s).cmp_shares (cmpB bu bv l) := by
  unfold cptSum
  have key := foldl_range_inv
    (fun (s : CptState) j => (List.range NP).foldl
        (fun s k => { s with
          cmp_shares := setAt s.cmp_shares k
            (cmod (add32 (s.cmp_shares k) (s.flag_shares j k)) MOD) })
        s)
    (fun n s' => s'.flag_shares = s.flag_shares ∧ IsShare s'.cmp_shares (cmpB bu bv n)) l s
    ⟨rfl, by
      apply IsShare.of3 (m := 0) <;> simp [h.2.2.2.2, cmpB]⟩
    (fun k s' hk hs' => by
      dsimp only at hs' ⊢
      rw [cptSumStep_eq]
      refine ⟨hs'.1, ?_⟩
      have hF := h.2.2.2.1 k hk
      rw [← hs'.1] at hF
      exact IsShare_sum hs'.2 hF (fun i hi => by simp only [hi, if_true]))
  exact key.2

theorem CompareParallelTest_cmp (u v : Int) (g : Rng) :
    ∃ s : CptState, IsShare s.cmp_shares (cmpB (bitAt u) (bitAt v) l) ∧
      CompareParallelTest u v g
        = ((if RECONSTRUCT s.cmp_shares ≥ 0 ∧ RECONSTRUCT s.cmp_shares ≤ MOD / 2 then 1 else 0),
           (if RECONSTRUCT s.cmp_shares = 0 then 1 else 0)) := by
  have h0 : CptInv (bitAt u) (bitAt v)
      ({ u_shares := fun _ _ => 0, v_shares := fun _ _ => 0, eq_shares := fun _ _ => 0,
         gt_shares := fun _ _ => 0, lt_shares := fun _ _ => 0, prefixEq_shares := fun _ _ => 0,
         flag_shares := fun _ _ => 0, tmp_shares := fun _ => 0, tmp2_shares := fun _ => 0,
         cmp_shares := fun _ => 0, g := g } : CptState) 0 0 0 0 :=
    ⟨fun j hj => absurd hj (by omega), fun j hj => absurd hj (by omega),
      fun j hj => absurd hj (by omega), fun j hj => absurd hj (by omega), fun _ _ => rfl⟩
  have h1 := foldl_range_inv (cptShareBit (cmpBits u) (cmpBits v))
    (fun n s => CptInv (bitAt u) (bitAt v) s n 0 0 0) l _ h0
    (fun k s hk hs => cptShare_step u v s k hk hs)
  have h2 := foldl_range_inv cptBitRound
    (fun n s => CptInv (bitAt u) (bitAt v) s l n 0 0) l _ h1
    (fun k s hk hs => cptBit_step _ _ s k hk hs)
  have h3 := cptInit_step _ _ _ h2
  have h4 := foldl_range_inv (fun s n => cptPrefixRound s (n + 1))
    (fun n s => CptInv (bitAt u) (bitAt v) s l l (n + 1) 0) (l - 1) _ h3
    (fun k s hk hs => cptPrefix_step _ _ s k hk hs)
  have h5 := foldl_range_inv cptFlagRound
    (fun n s => CptInv (bitAt u) (bitAt v) s l l l n) l _ h4
    (fun k s hk hs => cptFlag_step _ _ s k hk hs)
  exact ⟨_, cptSum_share _ _ _ h5, rfl⟩

theorem RECONSTRUCT_signed (t : Nat → Int)
    (h0 : -10289 < t 0 ∧ t 0 < 10289) (h1 : -10289 < t 1 ∧ t 1 < 10289)
    (h2 : -10289 < t 2 ∧ t 2 < 10289) :
    RECONSTRUCT t = (3 * t 0 + 10286 * t 1 + t 2) % 10289 := by
  simp only [RECONSTRUCT, NP, List.range_succ, List.range_zero, List.nil_append,
    List.cons_append, List.foldl_cons, List.foldl_nil, gammaArray, add32, mul32, GAMMA1, GAMMA2,
    GAMMA3, MOD, zero_add]
  generalize t 0 = a at *
  generalize t 1 = b at *
  generalize t 2 = c at *
  have w1 : wrap32 (3 * a) = 3 * a := wrap32_id (by omega) (by omega)
  have wb : wrap32 ((10289 - 3) * b) = 10286 * b := by
    rw [wrap32_id (by omega) (by omega)]; norm_num
  have wc : wrap32 (1 * c) = c := by rw [wrap32_id (by omega) (by omega)]; omega
  simp only [w1, wb, wc]
  have a1 := cmod_abs (3 * a)
  have e1 := cmod_emod (3 * a)
  generalize cmod (3 * a) 10289 = r1 at *
  have w2 : wrap32 (r1 + 10286 * b) = r1 + 10286 * b := wrap32_id (by omega) (by omega)
  rw [w2]
  have a2 := cmod_abs (r1 + 10286 * b)
  have e2 := cmod_emod (r1 + 10286 * b)
  generalize cmod (r1 + 10286 * b) 10289 = r2 at *
  have w3 : wrap32 (r2 + c) = r2 + c := wrap32_id (by omega) (by omega)
  rw [w3]
  have a3 := cmod_abs (r2 + c)
  have e3 := cmod_emod (r2 + c)
  generalize cmod (r2 + c) 10289 = r3 at *
  have key : r3 % 10289 = (3 * a + 10286 * b + c) % 10289 := by
    rw [e3, Int.add_emod, e2, Int.add_emod r1, e1]
    simp only [Int.emod_emod_of_dvd, Int.add_emod, Int.emod_emod, dvd_refl]
  split_ifs with hneg
  · rw [wrap32_id (by omega) (by omega), ← key]; omega
  · rw [← key]; omega

theorem taskBytes_length (t : task_t) : (taskBytes t).length = 121 := by
  simp [taskBytes, bytes32, l, List.range_succ]

theorem respBytes_length (r : response_t) : (respBytes r).length = 5 := by
  simp [respBytes, bytes32]

theorem bytes32_digits (b0 b1 b2 b3 : Nat) (h0 : b0 < 256) (h1 : b1 < 256) (h2 : b2 < 256)
    (h3 : b3 < 256) :
    bytes32 (b0 + 256 * b1 + 65536 * b2 + 16777216 * b3) = [b0, b1, b2, b3] := by
  unfold bytes32
  simp only [List.cons.injEq, and_true]
  refine ⟨?_, ?_, ?_, ?_⟩ <;> omega

theorem bytes32_htonl (n : Nat) (h : n < 4294967296) :
    bytes32 (htonl n) = [n / 16777216 % 256, n / 65536 % 256, n / 256 % 256, n % 256] := by
  have e : n = n % 256 + 256 * (n / 256 % 256) + 65536 * (n / 65536 % 256)
      + 16777216 * (n / 16777216 % 256) := by omega
  have h0 : n % 256 < 256 := Nat.mod_lt _ (by decide)
  have h1 : n / 256 % 256 < 256 := Nat.mod_lt _ (by decide)
  have h2 : n / 65536 % 256 < 256 := Nat.mod_lt _ (by decide)
  have h3 : n / 16777216 % 256 < 256 := Nat.mod_lt _ (by decide)
  generalize n % 256 = b0 at *
  generalize n / 256 % 256 = b1 at *
  generalize n / 65536 % 256 = b2 at *
  generalize n / 16777216 % 256 = b3 at *
  rw [e, htonl_bytes _ _ _ _ h0 h1 h2 h3, bytes32_digits _ _ _ _ h3 h2 h1 h0]

theorem digits_sum (n : Nat) :
    n % 256 + 256 * (n / 256 % 256) + 65536 * (n / 65536 % 256)
      + 16777216 * (n / 16777216 % 256) = n % 4294967296 := by
  omega

theorem taskOfBytes_op (t : task_t) : (taskOfBytes (taskBytes t)).op = t.op % 256 := by
  simp [taskOfBytes, taskBytes]

theorem taskOfBytes_a (t : task_t) : (taskOfBytes (taskBytes t)).a = t.a % 4294967296 := by
  simp only [taskOfBytes, taskBytes, word32, bytes32, List.cons_append, List.nil_append,
    List.getD_cons_succ, List.getD_cons_zero]
  exact digits_sum t.a

theorem taskOfBytes_b (t : task_t) : (taskOfBytes (taskBytes t)).b = t.b % 4294967296 := by
  simp only [taskOfBytes, taskBytes, word32, bytes32, List.cons_append, List.nil_append,
    List.getD_cons_succ, List.getD_cons_zero]
  exact digits_sum t.b

theorem taskOfBytes_u (t : task_t) (i : Nat) (hi : i < l) :
    (taskOfBytes (taskBytes t)).u_shares i = toI32 (toU32 (t.u_shares i) % 4294967296) := by
  unfold l at hi
  interval_cases i <;>
  simp only [taskOfBytes, taskBytes, word32, bytes32, List.cons_append, List.nil_append,
    List.getD_cons_succ, List.getD_cons_zero, l, List.range_succ, List.range_zero,
    List.map_append, List.map_cons, List.map_nil, List.flatten_append, List.flatten_cons,
    List.flatten_nil, List.append_nil, List.append_assoc, digits_sum]

theorem bind_error {α β : Type} {x : Coord α} {f : α → Coord β} {c : NetIntContext}
    {e : Err × NetIntContext} (h : x c = Except.error e) : (x >>= f) c = Except.error e := by
  simp [StateT.bind, bind, Except.bind, h]

theorem keeps_pure {α : Type} (I : NetIntContext → Prop) (a : α) : Keeps I (pure a : Coord α) :=
  fun _ h => h

theorem keeps_fail {α : Type} (I : NetIntContext → Prop) (e : Err) :
    Keeps I (fail e : Coord α) :=
  fun _ h => h

theorem keeps_get (I : NetIntContext → Prop) : Keeps I (get : Coord NetIntContext) :=
  fun _ h => h

theorem keeps_bind {α β : Type} {I : NetIntContext → Prop} {m : Coord α} {f : α → Coord β}
    (hm : Keeps I m) (hf : ∀ a, Keeps I (f a)) : Keeps I (m >>= f) := by
  intro c hc
  have h1 := hm c hc
  cases hmc : m c with
  | error e =>
    rw [hmc] at h1
    rw [bind_error hmc]
    exact h1
  | ok p =>
    obtain ⟨a, c1⟩ := p
    rw [hmc] at h1
    rw [bind_ok hmc]
    exact hf a c1 h1

theorem keeps_ite {α : Type} {I : NetIntContext → Prop} {p : Prop} {d : Decidable p}
    {m n : Coord α} (hm : Keeps I m) (hn : Keeps I n) : Keeps I (@ite _ p d m n) := by
  split_ifs
  · exact hm
  · exact hn

theorem keeps_guard {α : Type} {I : NetIntContext → Prop} {p : Prop} {d : Decidable p}
    (e : Err) (jp : PUnit → Coord α) (h : ∀ y, Keeps I (jp y)) :
    Keeps I (@ite _ p d (fail e >>= jp) (pure PUnit.unit >>= jp)) :=
  keeps_ite (keeps_bind (keeps_fail _ _) h) (keeps_bind (keeps_pure _ _) h)

theorem keeps_foldlM {α β : Type} {I : NetIntContext → Prop} (f : β → α → Coord β)
    (hf : ∀ b a, Keeps I (f b a)) (xs : List α) (b : β) : Keeps I (xs.foldlM f b) := by
  induction xs generalizing b with
  | nil => exact keeps_pure I b
  | cons x xs ih =>
    rw [List.foldlM_cons]
    exact keeps_bind (hf b x) (fun b' => ih b')

theorem keeps_forM {α : Type} {I : NetIntContext → Prop} (f : α → Coord PUnit)
    (hf : ∀ a, Keeps I (f a)) (xs : List α) : Keeps I (xs.forM f) := by
  induction xs with
  | nil => exact keeps_pure I _
  | cons x xs ih =>
    show Keeps I (f x >>= fun _ => xs.forM f)
    exact keeps_bind (hf x) (fun _ => ih)

theorem keeps_repeatM {I : NetIntContext → Prop} (body : Coord Unit) (hb : Keeps I body)
    (n : Nat) : Keeps I (repeatM n body) := by
  induction n with
  | zero => exact keeps_pure I _
  | succ n ih => exact keeps_bind hb (fun _ => ih)

theorem Extends.refl (Q : Event → Prop) (c : NetIntContext) : Extends Q c c :=
  ⟨[], by simp, fun _ h => absurd h (List.not_mem_nil _)⟩

theorem keeps_step {α : Type} {Q : Event → Prop} {c0 : NetIntContext} {m : Coord α}
    (h : ∀ c, (after (m c)).log = c.log ∨ ∃ e, Q e ∧ (after (m c)).log = c.log ++ [e]) :
    Keeps (Extends Q c0) m := by
  rintro c ⟨new, hn, hq⟩
  rcases h c with h | ⟨e, he, h⟩
  · exact ⟨new, by rw [h, hn], hq⟩
  · refine ⟨new ++ [e], by rw [h, hn, List.append_assoc], ?_⟩
    intro x hx
    rcases List.mem_append.1 hx with hx | hx
    · exact hq x hx
    · rw [List.mem_singleton.1 hx]; exact he

theorem keeps_nextRand (Q : Event → Prop) (c0 : NetIntContext) :
    Keeps (Extends Q c0) nextRand :=
  keeps_step fun _ => Or.inl rfl

theorem keeps_renormalize (Q : Event → Prop) (c0 : NetIntContext) (s : Nat → Int) :
    Keeps (Extends Q c0) (renormalize s) :=
  keeps_step fun _ => Or.inl rfl

theorem keeps_recvAll (G : task_t → Prop) (c0 : NetIntContext) (i : Nat) :
    Keeps (Extends (onTask G) c0) (recvAll i) := by
  apply keeps_step
  intro c
  unfold recvAll
  cases c.cli i with
  | send r k => exact Or.inr ⟨Event.received i (some r), trivial, rfl⟩
  | exit s => exact Or.inr ⟨Event.received i none, trivial, rfl⟩
  | recv k => exact Or.inl rfl
  | idle => exact Or.inl rfl
  | reset => exact Or.inr ⟨Event.received i none, trivial, rfl⟩

theorem keeps_sendResponse (G : task_t → Prop) (c0 : NetIntContext) (i : Nat) (r : response_t) :
    Keeps (Extends (onTask G) c0) (sendResponse i r) := by
  apply keeps_step
  intro c
  unfold sendResponse
  cases c.cli i with
  | send r' k => exact Or.inr ⟨Event.sentResp i r, trivial, rfl⟩
  | exit s => exact Or.inr ⟨Event.sentResp i r, trivial, rfl⟩
  | recv k => exact Or.inr ⟨Event.sentResp i r, trivial, rfl⟩
  | idle => exact Or.inr ⟨Event.sentResp i r, trivial, rfl⟩
  | reset => exact Or.inl rfl

theorem keeps_sendTask (G : task_t → Prop) (c0 : NetIntContext) (i : Nat) (t : task_t)
    (ht : G t) : Keeps (Extends (onTask G) c0) (sendTask i t) := by
  apply keeps_step
  intro c
  unfold sendTask
  cases c.cli i with
  | send r k => exact Or.inr ⟨Event.sentTask i t, ht, rfl⟩
  | exit s => exact Or.inr ⟨Event.sentTask i t, ht, rfl⟩
  | recv k => exact Or.inr ⟨Event.sentTask i t, ht, rfl⟩
  | idle => exact Or.inr ⟨Event.sentTask i t, ht, rfl⟩
  | reset => exact Or.inl rfl

theorem keeps_collectResults (G : task_t → Prop) (c0 : NetIntContext) :
    Keeps (Extends (onTask G) c0) collectResults := by
  unfold collectResults
  apply keeps_foldlM
  intro b a
  refine keeps_bind (keeps_recvAll G c0 a) (fun r => ?_)
  cases r with
  | none => exact keeps_fail _ _
  | some r => exact keeps_ite (keeps_fail _ _) (keeps_pure _ _)

theorem keeps_runAdd (G : task_t → Prop) (c0 : NetIntContext) (a b : Int)
    (hG : ∀ x y : Nat,
      G { op := OP_ADD, a := x, b := y, u_shares := fun _ => 0, v_shares := fun _ => 0 }) :
    Keeps (Extends (onTask G) c0) (runAdd a b) := by
  unfold runAdd
  refine keeps_bind (keeps_get _) (fun s => ?_)
  apply keeps_guard
  intro _
  refine keeps_bind (keeps_nextRand _ _) (fun r1 => ?_)
  refine keeps_bind (keeps_nextRand _ _) (fun r2 => ?_)
  refine keeps_bind (keeps_forM _ (fun i => ?_) _) (fun _ => ?_)
  · exact keeps_bind (keeps_sendTask G c0 _ _ (hG _ _)) (fun _ => keeps_pure _ _)
  · exact keeps_bind (keeps_collectResults G c0) (fun _ => keeps_pure _ _)

theorem guard_fails (c : NetIntContext) (h : c.initialized = false) {α : Type}
    (rest : Coord α) :
    (do if !(← get).initialized then fail Err.not_initialized
        rest : Coord α) c = Except.error (Err.not_initialized, c) := by
  simp [bind, StateT.bind, get, getThe, MonadStateOf.get, StateT.get, pure, Except.pure,
    Except.bind, h, fail]

theorem runCMP_uninit (u v : Int) (c : NetIntContext) (h : c.initialized = false) :
    runCMP u v c = Except.error (Err.not_initialized, c) := by
  unfold runCMP
  exact guard_fails c h _

theorem runAdd_uninit (a b : Int) (c : NetIntContext) (h : c.initialized = false) :
    runAdd a b c = Except.error (Err.not_initialized, c) := by
  unfold runAdd
  exact guard_fails c h _

theorem runMul_uninit (a b : Int) (c : NetIntContext) (h : c.initialized = false) :
    runMul a b c = Except.error (Err.not_initialized, c) := by
  unfold runMul
  exact guard_fails c h _

theorem keeps_runMul (G : task_t → Prop) (c0 : NetIntContext) (a b : Int)
    (hG : ∀ x y : Nat,
      G { op := OP_MUL, a := x, b := y, u_shares := fun _ => 0, v_shares := fun _ => 0 }) :
    Keeps (Extends (onTask G) c0) (runMul a b) := by
  unfold runMul
  refine keeps_bind (keeps_get _) (fun s => ?_)
  apply keeps_guard
  intro _
  refine keeps_bind (keeps_nextRand _ _) (fun r1 => ?_)
  refine keeps_bind (keeps_nextRand _ _) (fun r2 => ?_)
  refine keeps_bind (keeps_forM _ (fun i => ?_) _) (fun _ => ?_)
  · exact keeps_bind (keeps_sendTask G c0 _ _ (hG _ _)) (fun _ => keeps_pure _ _)
  · refine keeps_bind (keeps_collectResults G c0) (fun _ => ?_)
    exact keeps_bind (keeps_renormalize _ _ _) (fun _ => keeps_pure _ _)

theorem keeps_waitRenorm (G : task_t → Prop) (c0 : NetIntContext) :
    Keeps (Extends (onTask G) c0) waitRenorm := by
  unfold waitRenorm
  refine keeps_bind (keeps_foldlM _ (fun b a => ?_) _ _) (fun _ => ?_)
  · refine keeps_bind (keeps_recvAll G c0 a) (fun r => ?_)
    cases r with
    | none => exact keeps_fail _ _
    | some r => exact keeps_ite (keeps_fail _ _) (keeps_pure _ _)
  · refine keeps_bind (keeps_renormalize _ _ _) (fun _ => ?_)
    refine keeps_forM _ (fun i => ?_) _
    refine keeps_bind (keeps_sendResponse G c0 _ _) (fun ok => ?_)
    exact keeps_ite (keeps_fail _ _) (keeps_pure _ _)

theorem keeps_cmpCollect (G : task_t → Prop) (c0 : NetIntContext) :
    Keeps (Extends (onTask G) c0) cmpCollect := by
  unfold cmpCollect
  apply keeps_foldlM
  intro b a
  refine keeps_bind (keeps_recvAll G c0 a) (fun r => ?_)
  cases r with
  | none => exact keeps_fail _ _
  | some r => exact keeps_pure _ _

theorem keeps_cmpShareBit (Q : Event → Prop) (c0 : NetIntContext) (bu bv : Nat → Int)
    (acc : (Nat → Nat → Int) × (Nat → Nat → Int)) (i : Nat) :
    Keeps (Extends Q c0) (cmpShareBit bu bv acc i) := by
  unfold cmpShareBit
  refine keeps_bind (keeps_nextRand _ _) (fun r1 => ?_)
  exact keeps_bind (keeps_nextRand _ _) (fun r2 => keeps_pure _ _)

theorem cmpTask_b (U V : Nat → Nat → Int) (r0 : Int) (j : Nat) : (cmpTask U V r0 j).b = 0 := by
  unfold cmpTask
  generalize l = n
  induction n with
  | zero => rfl
  | succ n ih =>
    simp only [List.range_succ, List.foldl_append, List.foldl_cons, List.foldl_nil]
    exact ih

theorem keeps_runCMP (G : task_t → Prop) (c0 : NetIntContext) (u v : Int)
    (hG : ∀ U V r0 j, G (cmpTask U V r0 j)) :
    Keeps (Extends (onTask G) c0) (runCMP u v) := by
  unfold runCMP
  refine keeps_bind (keeps_get _) (fun s => ?_)
  apply keeps_guard
  intro _
  refine keeps_bind (keeps_foldlM _ (fun b a => keeps_cmpShareBit _ _ _ _ _ _) _ _) (fun p => ?_)
  obtain ⟨U, V⟩ := p
  refine keeps_bind (keeps_nextRand _ _) (fun r0 => ?_)
  refine keeps_bind (keeps_forM _ (fun i => ?_) _) (fun _ => ?_)
  · exact keeps_bind (keeps_sendTask G c0 _ _ (hG _ _ _ _)) (fun _ => keeps_pure _ _)
  have hw := keeps_waitRenorm G c0
  refine keeps_bind (keeps_repeatM _ ?_ _) (fun _ => ?_)
  · exact keeps_bind hw (fun _ => keeps_bind hw (fun _ => hw))
  refine keeps_bind (keeps_repeatM _ hw _) (fun _ => ?_)
  refine keeps_bind (keeps_repeatM _ hw _) (fun _ => ?_)
  exact keeps_bind (keeps_cmpCollect G c0) (fun _ => keeps_pure _ _)

theorem sentTasks_of_extends {G : task_t → Prop} {c c2 : NetIntContext}
    (h : Extends (onTask G) c c2) (t : task_t) (ht : t ∈ sentTasks c c2) : G t := by
  obtain ⟨new, hn, hq⟩ := h
  unfold sentTasks at ht
  rw [hn, List.drop_left] at ht
  obtain ⟨e, he, hm⟩ := List.mem_filterMap.1 ht
  have := hq e he
  cases e with
  | sentTask i t' =>
    simp only [Option.some.injEq] at hm
    subst hm
    exact this
  | sentResp i r => simp at hm
  | received i r => simp at hm

theorem zero_tail (op x y : Nat) :
    (taskBytes { op := op, a := x, b := y, u_shares := fun _ => 0, v_shares := fun _ => 0 }).drop 9
      = List.replicate 112 0 := by
  simp [taskBytes, bytes32, toU32, l, List.range_succ]

theorem taskOfBytes_v (t : task_t) (i : Nat) (hi : i < l) :
    (taskOfBytes (taskBytes t)).v_shares i = toI32 (toU32 (t.v_shares i) % 4294967296) := by
  unfold l at hi
  interval_cases i <;>
  simp only [taskOfBytes, taskBytes, word32, bytes32, List.cons_append, List.nil_append,
    List.getD_cons_succ, List.getD_cons_zero, l, List.range_succ, List.range_zero,
    List.map_append, List.map_cons, List.map_nil, List.flatten_append, List.flatten_cons,
    List.flatten_nil, List.append_nil, List.append_assoc, digits_sum]

theorem respOfBytes_respBytes (r : response_t) (hop : r.op < 256) (hv : r.value < 4294967296) :
    respOfBytes (respBytes r) = r := by
  cases r with
  | mk op value =>
    simp only [respOfBytes, respBytes, word32, bytes32, List.cons_append, List.nil_append,
      List.getD_cons_succ, List.getD_cons_zero, digits_sum]
    simp only at hop hv
    rw [Nat.mod_eq_of_lt hop, Nat.mod_eq_of_lt hv]

theorem toU32_lt (x : Int) : toU32 x < 4294967296 := by
  unfold toU32; omega

theorem task_layout (t : task_t) :
    (taskBytes t).take 1 = [t.op % 256] ∧
    ((taskBytes t).drop 1).take 4 = bytes32 t.a ∧
    ((taskBytes t).drop 5).take 4 = bytes32 t.b ∧
    ((taskBytes t).drop 9).take (4 * l)
      = ((List.range l).map fun i => bytes32 (toU32 (t.u_shares i))).flatten ∧
    (taskBytes t).drop (9 + 4 * l)
      = ((List.range l).map fun i => bytes32 (toU32 (t.v_shares i))).flatten := by
  simp [taskBytes, bytes32, l, List.range_succ]

theorem frame_roundtrip (t : task_t) (hop : t.op < 256) (ha : t.a < 4294967296)
    (hb : t.b < 4294967296)
    (hu : ∀ i : Nat, i < l → -2147483648 ≤ t.u_shares i ∧ t.u_shares i < 2147483648)
    (hv : ∀ i : Nat, i < l → -2147483648 ≤ t.v_shares i ∧ t.v_shares i < 2147483648) :
    (taskOfBytes (taskBytes t)).op = t.op ∧ (taskOfBytes (taskBytes t)).a = t.a ∧
    (taskOfBytes (taskBytes t)).b = t.b ∧
    (∀ i : Nat, i < l → (taskOfBytes (taskBytes t)).u_shares i = t.u_shares i) ∧
    (∀ i : Nat, i < l → (taskOfBytes (taskBytes t)).v_shares i = t.v_shares i) := by
  refine ⟨?_, ?_, ?_, fun i hi => ?_, fun i hi => ?_⟩
  · rw [taskOfBytes_op, Nat.mod_eq_of_lt hop]
  · rw [taskOfBytes_a, Nat.mod_eq_of_lt ha]
  · rw [taskOfBytes_b, Nat.mod_eq_of_lt hb]
  · rw [taskOfBytes_u t i hi, Nat.mod_eq_of_lt (toU32_lt _),
      toI32_toU32 _ (hu i hi).1 (hu i hi).2]
  · rw [taskOfBytes_v t i hi, Nat.mod_eq_of_lt (toU32_lt _),
      toI32_toU32 _ (hv i hi).1 (hv i hi).2]

theorem toI32_range (n : Nat) : -2147483648 ≤ toI32 n ∧ toI32 n < 2147483648 := by
  unfold toI32 wrap32; omega

theorem bitAt_low (u : Int) (i : Nat) : bitAt (u % 16384) i = bitAt u i := by
  rw [bitAt_val, bitAt_val]
  rcases Nat.lt_or_ge i 14 with h | h
  · unfold l
    interval_cases i <;> norm_num <;> omega
  · have e : l - 1 - i = 0 := by unfold l; omega
    rw [e]
    norm_num

theorem runCMP_low (u v : Int) (c : NetIntContext) (hinit : c.initialized = true)
    (hidle : ∀ i : Nat, i < 3 → c.cli i = Proc.idle) :
    ∃ c', runCMP u v c = Except.ok ((if u % 16384 > v % 16384 then 1
        else if u % 16384 < v % 16384 then 10288 else 0 : Int), c') ∧
      c'.initialized = true ∧ (∀ i : Nat, i < 3 → c'.cli i = Proc.idle) ∧
      c'.log.map Event.tag = c.log.map Event.tag ++ cmpSchedule := by
  obtain ⟨c', h, hi, hk, hl⟩ := runCMP_core u v c hinit hidle
  have eu : bitAt u = bitAt (u % 16384) := funext fun i => (bitAt_low u i).symm
  have ev : bitAt v = bitAt (v % 16384) := funext fun i => (bitAt_low v i).symm
  rw [eu, ev, cmp_semantics (u % 16384) (v % 16384) (by omega) (by omega)] at h
  exact ⟨c', h, hi, hk, hl⟩

theorem handshake_test (data : List Nat) :
    ((recv data (6 - 1)).1 = 5 ∧
      memcmp ((recv data (6 - 1)).2 ++ (List.replicate 6 0).drop (recv data (6 - 1)).2.length)
        JOIN_MSG 5 = 0) ↔ data.take 5 = JOIN_MSG := by
  unfold recv memcmp
  simp only [Nat.add_one_sub_one]
  constructor
  · rintro ⟨h1, h2⟩
    have hl : (data.take 5).length = 5 := by exact_mod_cast h1
    split_ifs at h2 with h
    · rw [List.take_append_of_le_length (by omega), List.take_of_length_le (by omega)] at h
      rw [h]; rfl
    · exact absurd h2 (by decide)
  · intro h
    rw [h]
    decide

theorem acceptStep_seat (s : Bootstrap) (joined : Nat) (x : Conn) (h : seats s x = true) :
    acceptStep s joined x = ({ s with cli := setAt s.cli joined x.cfd }, joined + 1) := by
  unfold seats at h
  simp only [Bool.and_eq_true, decide_eq_true_eq] at h
  obtain ⟨⟨h1, h2⟩, h3⟩ := h
  unfold acceptStep
  rw [if_neg (by omega)]
  simp only [h2, Bool.not_true, Bool.false_eq_true, if_false]
  rw [if_pos ((handshake_test x.data).2 h3)]

theorem acceptStep_reject (s : Bootstrap) (joined : Nat) (x : Conn) (h : seats s x = false) :
    acceptStep s joined x = (s, joined) ∨
    acceptStep s joined x = ({ s with closed := s.closed ++ [x.cfd] }, joined) := by
  unfold acceptStep
  by_cases h1 : x.cfd < 0
  · left; rw [if_pos h1]
  · right
    rw [if_neg h1]
    by_cases h2 : isWhitelisted s x.ip = true
    · have h3 : ¬ x.data.take 5 = JOIN_MSG := by
        intro h3
        unfold seats at h
        simp [h2, h3] at h
        omega
      simp only [h2, Bool.not_true, Bool.false_eq_true, if_false]
      rw [if_neg (fun hh => h3 ((handshake_test x.data).1 hh))]
    · simp only [Bool.not_eq_true] at h2
      simp only [h2, Bool.not_false, if_true]

theorem seats_congr (s s' : Bootstrap) (h1 : s'.whitelist = s.whitelist)
    (h2 : s'.useWhitelist = s.useWhitelist) : seats s' = seats s := by
  funext x
  unfold seats isWhitelisted
  rw [h1, h2]

theorem acceptLoop_spec (conns : List Conn) :
    ∀ (s : Bootstrap) (j : Nat), j ≤ 3 →
      (acceptLoop s j conns).2.1 = min 3 (j + (conns.filter (seats s)).length) ∧
      (∀ i, (acceptLoop s j conns).1.cli i
        = if j ≤ i ∧ i < (acceptLoop s j conns).2.1
          then ((conns.filter (seats s)).map Conn.cfd).getD (i - j) (-1) else s.cli i) ∧
      (acceptLoop s j conns).1.initialized = s.initialized ∧
      (acceptLoop s j conns).1.ln = s.ln ∧
      (acceptLoop s j conns).1.whitelist = s.whitelist ∧
      (acceptLoop s j conns).1.useWhitelist = s.useWhitelist := by
  induction conns with
  | nil =>
    intro s j hj
    refine ⟨?_, fun i => ?_, rfl, rfl, rfl, rfl⟩
    · simp only [acceptLoop, List.filter_nil, List.length_nil]; omega
    · simp only [acceptLoop]
      rw [if_neg (by omega)]
  | cons x rest ih =>
    intro s j hj
    by_cases hlt : j < 3
    · have e : acceptLoop s j (x :: rest)
          = acceptLoop (acceptStep s j x).1 (acceptStep s j x).2 rest := by
        simp only [acceptLoop, if_pos hlt]
      rw [e]
      by_cases hx : seats s x = true
      · rw [acceptStep_seat s j x hx]
        obtain ⟨a1, a2, a3, a4, a5, a6⟩ := ih { s with cli := setAt s.cli j x.cfd } (j + 1) (by omega)
        have hc : seats { s with cli := setAt s.cli j x.cfd } = seats s :=
          seats_congr _ _ rfl rfl
        rw [hc] at a1 a2
        simp only [List.filter_cons, hx, if_true, List.length_cons, List.map_cons]
        refine ⟨by rw [a1]; omega, fun i => ?_, a3, a4, a5, a6⟩
        rw [a2 i]
        by_cases hi : i = j
        · subst hi
          rw [if_neg (by omega), if_pos ⟨le_refl _, by rw [a1]; omega⟩, Nat.sub_self]
          simp [setAt]
        · by_cases hi2 : j + 1 ≤ i ∧ i < (acceptLoop { s with cli := setAt s.cli j x.cfd } (j + 1) rest).2.1
          · rw [if_pos hi2, if_pos ⟨by omega, hi2.2⟩]
            have : i - j = (i - (j + 1)) + 1 := by omega
            rw [this, List.getD_cons_succ]
          · rw [if_neg hi2, if_neg (by omega)]
            simp [setAt, hi]
      · simp only [Bool.not_eq_true] at hx
        have hstep : (acceptStep s j x).2 = j ∧ (acceptStep s j x).1.cli = s.cli ∧
            (acceptStep s j x).1.initialized = s.initialized ∧ (acceptStep s j x).1.ln = s.ln ∧
            (acceptStep s j x).1.whitelist = s.whitelist ∧
            (acceptStep s j x).1.useWhitelist = s.useWhitelist := by
          rcases acceptStep_reject s j x hx with h | h <;> rw [h] <;> exact ⟨rfl, rfl, rfl, rfl, rfl, rfl⟩
        obtain ⟨b1, b2, b3, b4, b5, b6⟩ := hstep
        rw [b1]
        obtain ⟨a1, a2, a3, a4, a5, a6⟩ := ih (acceptStep s j x).1 j hj
        have hc : seats (acceptStep s j x).1 = seats s := seats_congr _ _ b5 b6
        rw [hc] at a1
        rw [hc, b2] at a2
        simp only [List.filter_cons, hx, Bool.false_eq_true, if_false]
        exact ⟨a1, a2, a3.trans b3, a4.trans b4, a5.trans b5, a6.trans b6⟩
    · have e : acceptLoop s j (x :: rest) = (s, j, x :: rest) := by
        simp only [acceptLoop, if_neg hlt]
      rw [e]
      refine ⟨by simp only; omega, fun i => ?_, rfl, rfl, rfl, rfl⟩
      rw [if_neg (by simp only; omega)]

theorem main_test (data : List Nat) :
    ((recv data 8).1 = (JOIN_MSG.length : Int) ∧
      memcmp ((recv data 8).2 ++ (List.replicate 8 0).drop (recv data 8).2.length)
        JOIN_MSG (recv data 8).1.toNat = 0) ↔ data = JOIN_MSG := by
  unfold recv memcmp
  constructor
  · rintro ⟨h1, h2⟩
    have hl : (data.take 8).length = 5 := by
      have h1' : ((data.take 8).length : Int) = 5 := h1
      exact_mod_cast h1'
    have hd : data.length = 5 := by
      rw [List.length_take] at hl; omega
    have ht : data.take 8 = data := List.take_of_length_le (by omega)
    simp only [hl, Int.toNat_ofNat] at h2
    split_ifs at h2 with h
    · rw [ht, List.take_append_of_le_length (by omega), List.take_of_length_le (by omega)] at h
      rw [h]; rfl
    · exact absurd h2 (by decide)
  · intro h
    rw [h]
    decide

theorem mainStep_seat (cli : Nat → Int) (closed : List Int) (joined : Nat) (x : Conn)
    (hfd : 0 ≤ x.cfd) (h : x.data = JOIN_MSG) :
    mainStep cli closed joined x = (setAt cli joined x.cfd, closed, joined + 1) := by
  unfold mainStep
  rw [if_neg (by omega), if_pos ((main_test x.data).2 h)]

theorem mainStep_reject (cli : Nat → Int) (closed : List Int) (joined : Nat) (x : Conn)
    (hfd : 0 ≤ x.cfd) (h : x.data ≠ JOIN_MSG) :
    mainStep cli closed joined x = (cli, closed ++ [x.cfd], joined) := by
  unfold mainStep
  rw [if_neg (by omega), if_neg (fun hh => h ((main_test x.data).1 hh))]

theorem acceptStep_close (s : Bootstrap) (joined : Nat) (x : Conn) (hfd : 0 ≤ x.cfd)
    (h : seats s x = false) :
    acceptStep s joined x = ({ s with closed := s.closed ++ [x.cfd] }, joined) := by
  rcases acceptStep_reject s joined x h with h1 | h1
  · exfalso
    unfold acceptStep at h1
    rw [if_neg (by omega)] at h1
    by_cases h2 : isWhitelisted s x.ip = true
    · simp only [h2, Bool.not_true, Bool.false_eq_true, if_false] at h1
      split_ifs at h1 with h3
      · have := congrArg Prod.snd h1
        simp at this
      · have := congrArg (fun p => p.1.closed.length) h1
        simp at this
    · simp only [Bool.not_eq_true] at h2
      simp only [h2, Bool.not_false, if_true] at h1
      have := congrArg (fun p => p.1.closed.length) h1
      simp at this
  · exact h1

theorem acceptLoop_full (s : Bootstrap) (extra : List Conn) :
    acceptLoop s 3 extra = (s, 3, extra) := by
  cases extra with
  | nil => rfl
  | cons x r => simp only [acceptLoop, lt_irrefl, if_false]

theorem acceptLoop_append (conns extra : List Conn) :
    ∀ (s : Bootstrap) (j : Nat), j ≤ 3 → (acceptLoop s j conns).2.1 = 3 →
      acceptLoop s j (conns ++ extra)
        = ((acceptLoop s j conns).1, 3, (acceptLoop s j conns).2.2 ++ extra) := by
  induction conns with
  | nil =>
    intro s j _ h
    simp only [acceptLoop] at h
    subst h
    simp only [List.nil_append, acceptLoop]
    exact acceptLoop_full s extra
  | cons x rest ih =>
    intro s j hj h
    by_cases hlt : j < 3
    · have e : acceptLoop s j (x :: rest)
          = acceptLoop (acceptStep s j x).1 (acceptStep s j x).2 rest := by
        simp only [acceptLoop, if_pos hlt]
      have e' : acceptLoop s j (x :: rest ++ extra)
          = acceptLoop (acceptStep s j x).1 (acceptStep s j x).2 (rest ++ extra) := by
        rw [List.cons_append]
        simp only [acceptLoop, if_pos hlt]
      rw [e] at h ⊢
      rw [e']
      have hj' : (acceptStep s j x).2 ≤ 3 := by
        by_cases hx : seats s x = true
        · rw [acceptStep_seat s j x hx]; simp only; omega
        · simp only [Bool.not_eq_true] at hx
          rcases acceptStep_reject s j x hx with h1 | h1 <;> rw [h1] <;> simp only <;> omega
      exact ih _ _ hj' h
    · have hj3 : j = 3 := by omega
      subst hj3
      rw [acceptLoop_full, acceptLoop_full]

theorem seated_fd (s : Bootstrap) (conns : List Conn) (i : Nat)
    (hi : i < (conns.filter (seats s)).length) :
    ((conns.filter (seats s)).map Conn.cfd).getD i (-1) ≠ -1 := by
  rw [List.getD_eq_getElem _ _ (by rw [List.length_map]; exact hi), List.getElem_map]
  have hm : (conns.filter (seats s))[i] ∈ conns.filter (seats s) := List.getElem_mem _
  have hs := (List.mem_filter.1 hm).2
  generalize (conns.filter (seats s))[i] = y at hs ⊢
  unfold seats at hs
  simp only [Bool.and_eq_true, decide_eq_true_eq] at hs
  omega

theorem socket_uninit (s : Bootstrap) (ln : Int) (conns : List Conn)
    (hs : s.initialized = false) :
    socket s ln conns
      = if (acceptLoop { s with ln := ln } 0 conns).2.1 < 3
        then ((acceptLoop { s with ln := ln } 0 conns).1,
          (acceptLoop { s with ln := ln } 0 conns).2.2)
        else ({ (acceptLoop { s with ln := ln } 0 conns).1 with
            closed := (acceptLoop { s with ln := ln } 0 conns).1.closed
              ++ [(acceptLoop { s with ln := ln } 0 conns).1.ln],
            ln := -1, initialized := true },
          (acceptLoop { s with ln := ln } 0 conns).2.2) := by
  unfold socket
  rw [if_neg (by rw [hs]; decide)]

theorem bootstrap_example :
    (socket fresh 3
      [{ cfd := 4, ip := "10.0.0.1", data := [74, 79, 73, 78, 10] },
       { cfd := 5, ip := "10.0.0.2", data := [72, 69, 76, 76, 79] },
       { cfd := 6, ip := "10.0.0.3", data := [74, 79, 73, 78, 10] },
       { cfd := 7, ip := "10.0.0.4", data := [74, 79, 73, 78, 10] },
       { cfd := 8, ip := "10.0.0.5", data := [74, 79, 73, 78, 10] }]).1.closed = [5, 3] ∧
    (socket fresh 3
      [{ cfd := 4, ip := "10.0.0.1", data := [74, 79, 73, 78, 10] },
       { cfd := 5, ip := "10.0.0.2", data := [72, 69, 76, 76, 79] },
       { cfd := 6, ip := "10.0.0.3", data := [74, 79, 73, 78, 10] },
       { cfd := 7, ip := "10.0.0.4", data := [74, 79, 73, 78, 10] },
       { cfd := 8, ip := "10.0.0.5", data := [74, 79, 73, 78, 10] }]).1.cli 2 = 7 := by
  decide

theorem disconnect_flag (s : Bootstrap) : (disconnect s).initialized = false := rfl

theorem socket_waiting (s : Bootstrap) (ln : Int) (conns : List Conn)
    (hs : s.initialized = false) (h : (conns.filter (seats s)).length < 3) :
    (socket s ln conns).1.initialized = false := by
  obtain ⟨a1, _, a3, _⟩ := acceptLoop_spec conns { s with ln := ln } 0 (by omega)
  have hc : seats { s with ln := ln } = seats s := seats_congr _ _ rfl rfl
  rw [hc, Nat.zero_add] at a1
  rw [socket_uninit s ln conns hs, if_pos (by rw [a1]; omega)]
  exact a3.trans hs

theorem keeps_serverCollect (G : task_t → Prop) (c0 : NetIntContext) (junk : Nat → Int) :
    Keeps (Extends (onTask G) c0) (serverCollect junk) := by
  unfold serverCollect
  apply keeps_foldlM
  intro b a
  refine keeps_bind (keeps_recvAll G c0 a) (fun r => ?_)
  cases r with
  | none => exact keeps_fail _ _
  | some r => exact keeps_ite (keeps_pure _ _) (keeps_pure _ _)

theorem keeps_sendREN (G : task_t → Prop) (c0 : NetIntContext) (s : Nat → Int)
    (is : List Nat) : Keeps (Extends (onTask G) c0) (sendREN s is) := by
  induction is with
  | nil => exact keeps_pure _ _
  | cons i rest ih =>
    unfold sendREN
    refine keeps_bind (keeps_sendResponse G c0 _ _) (fun ok => ?_)
    exact keeps_ite (keeps_pure _ _) ih

theorem keeps_waitRENORM (G : task_t → Prop) (c0 : NetIntContext) :
    Keeps (Extends (onTask G) c0) waitRENORM := by
  unfold waitRENORM
  refine keeps_bind (keeps_foldlM _ (fun b a => ?_) _ _) (fun _ => ?_)
  · refine keeps_bind (keeps_recvAll G c0 a) (fun r => ?_)
    cases r with
    | none => exact keeps_fail _ _
    | some r => exact keeps_ite (keeps_pure _ _) (keeps_fail _ _)
  · exact keeps_bind (keeps_renormalize _ _ _) (fun _ => keeps_sendREN G c0 _ _)

theorem keeps_runADD (G : task_t → Prop) (c0 : NetIntContext) (a b : Int) (junk : Nat → Int)
    (hG : ∀ x y : Nat,
      G { op := OP_ADD, a := x, b := y, u_shares := fun _ => 0, v_shares := fun _ => 0 }) :
    Keeps (Extends (onTask G) c0) (runADD a b junk) := by
  unfold runADD
  refine keeps_bind (keeps_nextRand _ _) (fun r1 => ?_)
  refine keeps_bind (keeps_nextRand _ _) (fun r2 => ?_)
  refine keeps_bind (keeps_forM _ (fun i => ?_) _) (fun _ => ?_)
  · exact keeps_bind (keeps_sendTask G c0 _ _ (hG _ _)) (fun _ => keeps_pure _ _)
  · exact keeps_bind (keeps_serverCollect G c0 junk) (fun _ => keeps_pure _ _)

theorem keeps_runMUL (G : task_t → Prop) (c0 : NetIntContext) (a b : Int) (junk : Nat → Int)
    (hG : ∀ x y : Nat,
      G { op := OP_MUL, a := x, b := y, u_shares := fun _ => 0, v_shares := fun _ => 0 }) :
    Keeps (Extends (onTask G) c0) (runMUL a b junk) := by
  unfold runMUL
  refine keeps_bind (keeps_nextRand _ _) (fun r1 => ?_)
  refine keeps_bind (keeps_nextRand _ _) (fun r2 => ?_)
  refine keeps_bind (keeps_forM _ (fun i => ?_) _) (fun _ => ?_)
  · exact keeps_bind (keeps_sendTask G c0 _ _ (hG _ _)) (fun _ => keeps_pure _ _)
  · refine keeps_bind (keeps_serverCollect G c0 junk) (fun _ => ?_)
    exact keeps_bind (keeps_renormalize _ _ _) (fun _ => keeps_pure _ _)

theorem keeps_serverShareBit (Q : Event → Prop) (c0 : NetIntContext) (bu bv : Nat → Int)
    (acc : (Nat → Nat → Int) × (Nat → Nat → Int)) (i : Nat) :
    Keeps (Extends Q c0) (serverShareBit bu bv acc i) := by
  unfold serverShareBit
  refine keeps_bind (keeps_nextRand _ _) (fun r1 => ?_)
  exact keeps_bind (keeps_nextRand _ _) (fun r2 => keeps_pure _ _)

theorem keeps_Server_runCMP (G : task_t → Prop) (c0 : NetIntContext) (u v : Int)
    (junk : Nat → Int) (hG : ∀ U V r0 j, G (serverTask U V r0 j)) :
    Keeps (Extends (onTask G) c0) (Server.runCMP u v junk) := by
  unfold Server.runCMP
  refine keeps_bind (keeps_foldlM _ (fun b a => keeps_serverShareBit _ _ _ _ _ _) _ _)
    (fun p => ?_)
  obtain ⟨U, V⟩ := p
  refine keeps_bind (keeps_nextRand _ _) (fun r0 => ?_)
  refine keeps_bind (keeps_forM _ (fun i => ?_) _) (fun _ => ?_)
  · exact keeps_bind (keeps_sendTask G c0 _ _ (hG _ _ _ _)) (fun _ => keeps_pure _ _)
  have hw := keeps_waitRENORM G c0
  refine keeps_bind (keeps_repeatM _ ?_ _) (fun _ => ?_)
  · exact keeps_bind hw (fun _ => keeps_bind hw (fun _ => hw))
  refine keeps_bind (keeps_repeatM _ hw _) (fun _ => ?_)
  refine keeps_bind (keeps_repeatM _ hw _) (fun _ => ?_)
  exact keeps_bind (keeps_serverCollect G c0 junk) (fun _ => keeps_pure _ _)

theorem serverTask_frame (U V : Nat → Nat → Int) (r0 : Int) (j : Nat) :
    (serverTask U V r0 j).op = OP_CMP ∧ (serverTask U V r0 j).b = 0 ∧
      (taskBytes (serverTask U V r0 j)).length = 121 ∧
      ((taskBytes (serverTask U V r0 j)).drop 5).take 4 = [0, 0, 0, 0] := by
  have hz : htonl 0 = 0 := by decide
  have hb : (serverTask U V r0 j).b = 0 := hz
  refine ⟨rfl, hb, taskBytes_length _, ?_⟩
  simp [taskBytes, bytes32, hb]

/-- C9: for all `u, v` in `[0, 2^14)` and every state of the random source,
`CompareParallelTest u v` (bit decomposition, sharing of the 28 bits, the three renormalized
rounds and the sum, all in one process) sets `c = 1` if `u ≥ v` and `c = 0` otherwise, and
`e = 1` if `u = v` and `e = 0` otherwise. -/
theorem C9_compare_parallel (u v : Int) (g : Rng) (hu : 0 ≤ u ∧ u < 2 ^ l)
    (hv : 0 ≤ v ∧ v < 2 ^ l) :
    CompareParallelTest u v g = ((if u ≥ v then 1 else 0), (if u = v then 1 else 0)) := by
  have e14 : (2 : Int) ^ l = 16384 := by decide
  rw [e14] at hu hv
  obtain ⟨s, hs, e⟩ := CompareParallelTest_cmp u v g
  rw [e, hs.recon, cmp_semantics u v hu hv]
  have e2 : MOD / 2 = 5144 := by decide
  rw [e2]
  rcases lt_trichotomy u v with h | h | h
  · have h1 : ¬ u > v := by omega
    have h2 : ¬ u ≥ v := by omega
    have h3 : ¬ u = v := by omega
    simp only [h1, h, h2, h3, if_true, if_false]
    decide
  · subst h
    simp only [gt_iff_lt, lt_irrefl, ge_iff_le, le_refl, if_true, if_false]
    decide
  · have h1 : ¬ u < v := by omega
    have h2 : u ≥ v := by omega
    have h3 : ¬ u = v := by omega
    simp only [h1, h, h2, h3, if_true, if_false]
    decide

theorem C9_witness :
    CompareParallelTest 42 42 (fun n => 31 * n + 7) = (1, 1) ∧
    CompareParallelTest 100 7 (fun n => 31 * n + 7) = (1, 0) ∧
    CompareParallelTest 7 100 (fun n => 31 * n + 7) = (0, 0) :=
  ⟨C9_compare_parallel 42 42 _ (by decide) (by decide),
   C9_compare_parallel 100 7 _ (by decide) (by decide),
   C9_compare_parallel 7 100 _ (by decide) (by decide)⟩

/-- C11 (amended): for every state of the random source, in an initialized session whose three
agents wait for a task, `runMul 200 300` returns `8555`, which is `60000 mod 10289`
(`60000 = 5 * 10289 + 8555`); `MultTest 200 300` reconstructs the same value. -/
theorem C11_mul_200_300 (c : NetIntContext) (hinit : c.initialized = true)
    (hidle : ∀ i : Nat, i < 3 → c.cli i = Proc.idle) :
    resultOf (runMul 200 300 c) = some 8555 ∧ MultTest 200 300 c.rng = (8555, 8555) ∧
    (60000 : Int) % MOD = 8555 := by
  obtain ⟨c', h, _⟩ := runMul_core 200 300 c (by decide) (by decide) hinit hidle
  refine ⟨?_, ?_, by decide⟩
  · rw [h]; rfl
  · exact MultTest_spec 200 300 c.rng (by decide) (by decide)

theorem C11_witness :
    resultOf (runMul 200 300 (session fun n => 31 * n + 7)) = some 8555 ∧
    MultTest 200 300 (session fun n => 31 * n + 7).rng = (8555, 8555) ∧
    (60000 : Int) % MOD = 8555 :=
  C11_mul_200_300 (session fun n => 31 * n + 7) rfl (fun _ _ => rfl)

/-- C11, as stated, fails: `MUL(200, 300)` does not return `8844`, neither over the network nor
in `MultTest`, and `60000 mod 10289` is not `8844`. -/
theorem C11_counterexample :
    resultOf (runMul 200 300 (session fun n => 31 * n + 7)) ≠ some 8844 ∧
    (MultTest 200 300 (fun n => 31 * n + 7)).1 ≠ 8844 ∧ (60000 : Int) % MOD ≠ 8844 := by
  obtain ⟨c', h, _⟩ := runMul_core 200 300 (session fun n => 31 * n + 7) (by decide) (by decide)
    rfl (fun _ _ => rfl)
  refine ⟨?_, ?_, by decide⟩
  · rw [h]; simp [resultOf]
  · rw [MultTest_spec 200 300 _ (by decide) (by decide)]; decide

/-- C12: for every party index `j` in `{0,1,2}` and all `r, s` in `[0, p)`, `SPLIT j r s`
(ITS-MPC.c, server.c) and `split j r s` (NetInt.h) equal `((j + 1) * r + s) mod p`, a value in
`[0, p)`. -/
theorem C12_split_formula (j : Nat) (r s : Int) (hj : j < 3) (hr : 0 ≤ r ∧ r < MOD)
    (hs : 0 ≤ s ∧ s < MOD) :
    SPLIT j r s = (((j : Int) + 1) * r + s) % MOD ∧
    split j r s = (((j : Int) + 1) * r + s) % MOD ∧
    0 ≤ SPLIT j r s ∧ SPLIT j r s < MOD := by
  unfold MOD at hr hs
  have h := SPLIT_val j hj r s hr hs
  have e : (s + r * ((j : Int) + 1)) = (((j : Int) + 1) * r + s) := by ring
  rw [e] at h
  refine ⟨h, h, ?_, ?_⟩
  · rw [h]; exact Int.emod_nonneg _ (by decide)
  · rw [h]; exact Int.emod_lt_of_pos _ (by decide)

theorem C12_witness :
    SPLIT (2 : Nat) 10288 10288 = ((((2 : Nat) : Int) + 1) * 10288 + 10288) % MOD ∧
    split (2 : Nat) 10288 10288 = ((((2 : Nat) : Int) + 1) * 10288 + 10288) % MOD ∧
    0 ≤ SPLIT (2 : Nat) 10288 10288 ∧ SPLIT (2 : Nat) 10288 10288 < MOD :=
  C12_split_formula 2 10288 10288 (by decide) (by decide) (by decide)

/-- C13: for every triple of shares with `|s_i| < p`, negative ones included, `RECONSTRUCT`
(ITS-MPC.c, server.c) and `reconstruct` (NetInt.h) return the mathematical residue
`(3 * s1 + (p - 3) * s2 + s3) mod p`, which lies in `[0, p)`: no product leaves the `int32_t`
range and the final `result += MOD` repairs a negative C remainder. -/
theorem C13_reconstruct_formula (shares : Nat → Int)
    (h0 : -MOD < shares 0 ∧ shares 0 < MOD) (h1 : -MOD < shares 1 ∧ shares 1 < MOD)
    (h2 : -MOD < shares 2 ∧ shares 2 < MOD) :
    RECONSTRUCT shares = (3 * shares 0 + (MOD - 3) * shares 1 + shares 2) % MOD ∧
    reconstruct shares = (3 * shares 0 + (MOD - 3) * shares 1 + shares 2) % MOD ∧
    0 ≤ RECONSTRUCT shares ∧ RECONSTRUCT shares < MOD := by
  unfold MOD at h0 h1 h2
  have h := RECONSTRUCT_signed shares (by omega) (by omega) (by omega)
  have e : (3 * shares 0 + (MOD - 3) * shares 1 + shares 2) % MOD
      = (3 * shares 0 + 10286 * shares 1 + shares 2) % 10289 := by
    unfold MOD; norm_num
  rw [e]
  refine ⟨h, (reconstruct_eq_RECONSTRUCT shares).trans h, ?_, ?_⟩
  · rw [h]; exact Int.emod_nonneg _ (by decide)
  · rw [h]; exact Int.emod_lt_of_pos _ (by decide)

theorem C13_witness :
    RECONSTRUCT (fun k => if k = 0 then -10288 else if k = 1 then 10288 else -1)
      = (3 * (-10288) + (MOD - 3) * 10288 + (-1)) % MOD ∧
    reconstruct (fun k => if k = 0 then -10288 else if k = 1 then 10288 else -1)
      = (3 * (-10288) + (MOD - 3) * 10288 + (-1)) % MOD ∧
    0 ≤ RECONSTRUCT (fun k => if k = 0 then -10288 else if k = 1 then 10288 else -1) ∧
    RECONSTRUCT (fun k => if k = 0 then -10288 else if k = 1 then 10288 else -1) < MOD :=
  C13_reconstruct_formula (fun k => if k = 0 then -10288 else if k = 1 then 10288 else -1)
    (by decide) (by decide) (by decide)

/-- C14: the reconstruction coefficients are `(GAMMA1, GAMMA2, GAMMA3) = (3, p - 3, 1)`; their
sum is `1` modulo `p`, and `GAMMA1 * 1 + GAMMA2 * 2 + GAMMA3 * 3` is `0` modulo `p`, so they
annihilate the noise coordinate of a degree-1 sharing. -/
theorem C14_gamma_identity :
    (gammaArray 0, gammaArray 1, gammaArray 2) = (GAMMA1, GAMMA2, GAMMA3) ∧
    (GAMMA1, GAMMA2, GAMMA3) = (3, MOD - 3, 1) ∧
    (GAMMA1 + GAMMA2 + GAMMA3) % MOD = 1 ∧
    (GAMMA1 * 1 + GAMMA2 * 2 + GAMMA3 * 3) % MOD = 0 ∧
    cmod (add32 (add32 (mul32 GAMMA1 1) (mul32 GAMMA2 1)) (mul32 GAMMA3 1)) MOD = 1 ∧
    cmod (add32 (add32 (mul32 GAMMA1 1) (mul32 GAMMA2 2)) (mul32 GAMMA3 3)) MOD = 0 := by
  refine ⟨rfl, rfl, ?_, ?_, ?_, ?_⟩ <;> decide

/-- C15: a task frame is exactly 121 bytes (`op` at offset 0, `a` at 1, `b` at 5, the 14 words
of `u_shares` at 9 and of `v_shares` at 65) and a response frame exactly 5 bytes (`op`, `value`);
a word passed through `htonl` lies in memory most significant byte first; reading a frame that
was written gives back every field; and `ntohl` after `htonl` returns every share in `[0, p)`:
the CMP task built by the coordinator is decoded by the agent to the opcode, the share of the
constant 1 and the 28 bit shares it was built from, its field `a` travels most significant
byte first, and a response carries its share back. -/
theorem C15_wire_codec (t : task_t) (r : response_t) (n : Nat) (x : Int)
    (U V : Nat → Nat → Int) (r0 : Int) (j : Nat)
    (ht : t.op < 256 ∧ t.a < 4294967296 ∧ t.b < 4294967296)
    (hu : ∀ i : Nat, i < l → -2147483648 ≤ t.u_shares i ∧ t.u_shares i < 2147483648)
    (hv : ∀ i : Nat, i < l → -2147483648 ≤ t.v_shares i ∧ t.v_shares i < 2147483648)
    (hr : r.op < 256 ∧ r.value < 4294967296) (hn : n < 4294967296) (hx : 0 ≤ x ∧ x < MOD)
    (hU : ∀ i : Nat, i < l → 0 ≤ U j i ∧ U j i < MOD)
    (hV : ∀ i : Nat, i < l → 0 ≤ V j i ∧ V j i < MOD)
    (hr0 : 0 ≤ r0 ∧ r0 < MOD) (hj : j < 3) :
    ((taskBytes t).length = 121 ∧ 121 = 1 + 4 + 4 + 4 * l + 4 * l ∧
      (respBytes r).length = 5) ∧
    ((taskBytes t).take 1 = [t.op % 256] ∧
      ((taskBytes t).drop 1).take 4 = bytes32 t.a ∧
      ((taskBytes t).drop 5).take 4 = bytes32 t.b ∧
      ((taskBytes t).drop 9).take (4 * l)
        = ((List.range l).map fun i => bytes32 (toU32 (t.u_shares i))).flatten ∧
      (taskBytes t).drop (9 + 4 * l)
        = ((List.range l).map fun i => bytes32 (toU32 (t.v_shares i))).flatten ∧
      respBytes r = (r.op % 256) :: bytes32 r.value) ∧
    bytes32 (htonl n) = [n / 16777216 % 256, n / 65536 % 256, n / 256 % 256, n % 256] ∧
    ((taskOfBytes (taskBytes t)).op = t.op ∧ (taskOfBytes (taskBytes t)).a = t.a ∧
      (taskOfBytes (taskBytes t)).b = t.b ∧
      (∀ i : Nat, i < l → (taskOfBytes (taskBytes t)).u_shares i = t.u_shares i) ∧
      (∀ i : Nat, i < l → (taskOfBytes (taskBytes t)).v_shares i = t.v_shares i) ∧
      respOfBytes (respBytes r) = r) ∧
    (toI32 (ntohl (htonl (toU32 x))) = x ∧
      toI32 (ntohl (toU32 (toI32 (htonl (toU32 x))))) = x ∧
      toI32 (ntohl (respOfBytes (respBytes { op := OP_RES, value := htonl (toU32 x) })).value)
        = x) ∧
    ((taskOfBytes (taskBytes (cmpTask U V r0 j))).op = OP_CMP ∧
      (cmpDecode (taskOfBytes (taskBytes (cmpTask U V r0 j)))).prefixEq_share 0
        = split j r0 1 ∧
      (∀ i : Nat, i < l →
        (cmpDecode (taskOfBytes (taskBytes (cmpTask U V r0 j)))).u_shares i = U j i) ∧
      (∀ i : Nat, i < l →
        (cmpDecode (taskOfBytes (taskBytes (cmpTask U V r0 j)))).v_shares i = V j i) ∧
      ((taskBytes (cmpTask U V r0 j)).drop 1).take 4
        = [toU32 (split j r0 1) / 16777216 % 256, toU32 (split j r0 1) / 65536 % 256,
           toU32 (split j r0 1) / 256 % 256, toU32 (split j r0 1) % 256]) := by
  unfold MOD at hx hU hV hr0
  have hrt := frame_roundtrip t ht.1 ht.2.1 ht.2.2 hu hv
  have hc := frame_roundtrip (cmpTask U V r0 j)
    (by rw [cmpTask_op]; decide) (by rw [cmpTask_a]; exact htonl_lt _)
    (by rw [cmpTask_b]; decide)
    (fun i hi => by rw [cmpTask_u U V r0 j i hi]; exact toI32_range _)
    (fun i hi => by rw [cmpTask_v U V r0 j i hi]; exact toI32_range _)
  have hs : 0 ≤ split j r0 1 ∧ split j r0 1 < 10289 := by
    rw [split_eq_SPLIT, SPLIT_val j hj r0 1 hr0 (by decide)]
    omega
  refine ⟨⟨taskBytes_length t, by decide, respBytes_length r⟩, ?_, bytes32_htonl n hn,
    ⟨hrt.1, hrt.2.1, hrt.2.2.1, hrt.2.2.2.1, hrt.2.2.2.2,
      respOfBytes_respBytes r hr.1 hr.2⟩,
    ⟨wire_value x hx, wire_share x hx, ?_⟩, ⟨?_, ?_, fun i hi => ?_, fun i hi => ?_, ?_⟩⟩
  · obtain ⟨l1, l2, l3, l4, l5⟩ := task_layout t
    exact ⟨l1, l2, l3, l4, l5, rfl⟩
  · rw [respOfBytes_respBytes _ (show OP_RES < 256 by decide) (htonl_lt _)]
    exact wire_value x hx
  · rw [hc.1, cmpTask_op]
  · rw [cmpDecode_p, hc.2.1, cmpTask_a]
    exact wire_value _ hs
  · rw [cmpDecode_u _ i hi, hc.2.2.2.1 i hi, cmpTask_u U V r0 j i hi]
    exact wire_share _ (hU i hi)
  · rw [cmpDecode_v _ i hi, hc.2.2.2.2 i hi, cmpTask_v U V r0 j i hi]
    exact wire_share _ (hV i hi)
  · rw [(task_layout (cmpTask U V r0 j)).2.1, cmpTask_a]
    exact bytes32_htonl _ (toU32_lt _)

theorem C15_witness :
    (taskBytes
      { op := OP_CMP, a := 66051, b := 0, u_shares := fun _ => 5, v_shares := fun _ => -1 }).length
        = 121 ∧
    (respBytes { op := OP_REN, value := 66051 }).length = 5 ∧
    bytes32 (htonl 66051) = [66051 / 16777216 % 256, 66051 / 65536 % 256, 66051 / 256 % 256,
      66051 % 256] ∧
    (∀ i : Nat, i < l →
      (taskOfBytes (taskBytes
        { op := OP_CMP, a := 66051, b := 0, u_shares := fun _ => 5, v_shares := fun _ => -1 })
          ).v_shares i = -1) ∧
    toI32 (ntohl (htonl (toU32 10288))) = 10288 ∧
    (cmpDecode (taskOfBytes (taskBytes
      (cmpTask (fun _ _ => 10288) (fun _ _ => 0) 4242 2)))).prefixEq_share 0
        = split (2 : Nat) 4242 1 := by
  have h := C15_wire_codec
    { op := OP_CMP, a := 66051, b := 0, u_shares := fun _ => 5, v_shares := fun _ => -1 }
    { op := OP_REN, value := 66051 } 66051 10288 (fun _ _ => 10288) (fun _ _ => 0) 4242 2
    (by decide)
    (fun _ _ => show (-2147483648 : Int) ≤ 5 ∧ (5 : Int) < 2147483648 by decide)
    (fun _ _ => show (-2147483648 : Int) ≤ -1 ∧ (-1 : Int) < 2147483648 by decide)
    (by decide) (by decide) (by decide)
    (fun _ _ => show (0 : Int) ≤ 10288 ∧ (10288 : Int) < MOD by decide)
    (fun _ _ => show (0 : Int) ≤ 0 ∧ (0 : Int) < MOD by decide) (by decide) (by decide)
  exact ⟨h.1.1, h.1.2.2, h.2.2.1, h.2.2.2.1.2.2.2.2.1, h.2.2.2.2.1.1, h.2.2.2.2.2.2.1⟩

/-- C16: every task frame that `runAdd` or `runMul` of NetInt.h, or `runADD` or `runMUL` of
server.c, writes, whatever the state of the session and whether the call returns or throws, has
the full task size of 121 bytes and carries zero in all 112 bytes of `u_shares` and `v_shares`
(offsets 9 to 120); every task frame that `runCMP` of NetInt.h or `runCMP` of server.c writes is
a full-size CMP frame whose `b` field, bytes 5 to 8, is zero. -/
theorem C16_zero_padded_frames (a b : Int) (c : NetIntContext) (t : task_t)
    (junk : Nat → Int) :
    (t ∈ sentTasks c (after (runAdd a b c)) →
      t.op = OP_ADD ∧ (taskBytes t).length = 121 ∧
        (taskBytes t).drop 9 = List.replicate 112 0) ∧
    (t ∈ sentTasks c (after (runMul a b c)) →
      t.op = OP_MUL ∧ (taskBytes t).length = 121 ∧
        (taskBytes t).drop 9 = List.replicate 112 0) ∧
    (t ∈ sentTasks c (after (runCMP a b c)) →
      t.op = OP_CMP ∧ t.b = 0 ∧ (taskBytes t).length = 121 ∧
        ((taskBytes t).drop 5).take 4 = [0, 0, 0, 0]) ∧
    (t ∈ sentTasks c (after (runADD a b junk c)) →
      t.op = OP_ADD ∧ (taskBytes t).length = 121 ∧
        (taskBytes t).drop 9 = List.replicate 112 0) ∧
    (t ∈ sentTasks c (after (runMUL a b junk c)) →
      t.op = OP_MUL ∧ (taskBytes t).length = 121 ∧
        (taskBytes t).drop 9 = List.replicate 112 0) ∧
    (t ∈ sentTasks c (after (Server.runCMP a b junk c)) →
      t.op = OP_CMP ∧ t.b = 0 ∧ (taskBytes t).length = 121 ∧
        ((taskBytes t).drop 5).take 4 = [0, 0, 0, 0]) := by
  refine ⟨fun h => ?_, fun h => ?_, fun h => ?_, fun h => ?_, fun h => ?_, fun h => ?_⟩
  · exact sentTasks_of_extends
      (keeps_runAdd (fun t => t.op = OP_ADD ∧ (taskBytes t).length = 121 ∧
          (taskBytes t).drop 9 = List.replicate 112 0) c a b
        (fun x y => ⟨rfl, taskBytes_length _, zero_tail _ x y⟩) c (Extends.refl _ c)) t h
  · exact sentTasks_of_extends
      (keeps_runMul (fun t => t.op = OP_MUL ∧ (taskBytes t).length = 121 ∧
          (taskBytes t).drop 9 = List.replicate 112 0) c a b
        (fun x y => ⟨rfl, taskBytes_length _, zero_tail _ x y⟩) c (Extends.refl _ c)) t h
  · exact sentTasks_of_extends
      (keeps_runCMP (fun t => t.op = OP_CMP ∧ t.b = 0 ∧ (taskBytes t).length = 121 ∧
          ((taskBytes t).drop 5).take 4 = [0, 0, 0, 0]) c a b
        (fun U V r0 j => ⟨cmpTask_op U V r0 j, cmpTask_b U V r0 j, taskBytes_length _, by
          simp [taskBytes, bytes32, cmpTask_b]⟩) c (Extends.refl _ c)) t h
  · exact sentTasks_of_extends
      (keeps_runADD (fun t => t.op = OP_ADD ∧ (taskBytes t).length = 121 ∧
          (taskBytes t).drop 9 = List.replicate 112 0) c a b junk
        (fun x y => ⟨rfl, taskBytes_length _, zero_tail _ x y⟩) c (Extends.refl _ c)) t h
  · exact sentTasks_of_extends
      (keeps_runMUL (fun t => t.op = OP_MUL ∧ (taskBytes t).length = 121 ∧
          (taskBytes t).drop 9 = List.replicate 112 0) c a b junk
        (fun x y => ⟨rfl, taskBytes_length _, zero_tail _ x y⟩) c (Extends.refl _ c)) t h
  · exact sentTasks_of_extends
      (keeps_Server_runCMP (fun t => t.op = OP_CMP ∧ t.b = 0 ∧ (taskBytes t).length = 121 ∧
          ((taskBytes t).drop 5).take 4 = [0, 0, 0, 0]) c a b junk
        (fun U V r0 j => serverTask_frame U V r0 j) c (Extends.refl _ c)) t h

theorem C16_witness :
    ∃ t, t ∈ sentTasks (session fun n => 31 * n + 7)
        (after (runAdd 7 5 (session fun n => 31 * n + 7))) ∧
      t.op = OP_ADD ∧ (taskBytes t).length = 121 ∧
        (taskBytes t).drop 9 = List.replicate 112 0 :=
  ⟨_, List.Mem.head _,
    (C16_zero_padded_frames 7 5 (session fun n => 31 * n + 7) _ (fun _ => 0)).1
      (List.Mem.head _)⟩

/-- C17: whenever the `initialized` flag of the session is false, `runAdd`, `runMul`, `runSub`,
`runCMP` and the six comparators stop at their first statement with the exception
"not initialized": the state at the throw is the state of the call, so no frame has been
written to any agent, no random number drawn and no channel touched. The flag is false after
`disconnect`, and `socket` leaves it false as long as fewer than three agents are seated. -/
theorem C17_uninitialized_fails_fast (a b : Int) (c : NetIntContext) (s : Bootstrap)
    (ln : Int) (conns : List Conn) (h : c.initialized = false) :
    runAdd a b c = Except.error (Err.not_initialized, c) ∧
    runMul a b c = Except.error (Err.not_initialized, c) ∧
    runSub a b c = Except.error (Err.not_initialized, c) ∧
    runCMP a b c = Except.error (Err.not_initialized, c) ∧
    runLT a b c = Except.error (Err.not_initialized, c) ∧
    runLE a b c = Except.error (Err.not_initialized, c) ∧
    runGT a b c = Except.error (Err.not_initialized, c) ∧
    runGE a b c = Except.error (Err.not_initialized, c) ∧
    runEQ a b c = Except.error (Err.not_initialized, c) ∧
    runNE a b c = Except.error (Err.not_initialized, c) ∧
    (disconnect s).initialized = false ∧
    (s.initialized = false → (conns.filter (seats s)).length < 3 →
      (socket s ln conns).1.initialized = false) :=
  ⟨runAdd_uninit a b c h, runMul_uninit a b c h, runAdd_uninit _ _ c h, runCMP_uninit a b c h,
   bind_error (runCMP_uninit a b c h), bind_error (runCMP_uninit a b c h),
   bind_error (runCMP_uninit b a c h), bind_error (runCMP_uninit b a c h),
   bind_error (runCMP_uninit a b c h),
   bind_error (bind_error (runCMP_uninit a b c h)), disconnect_flag s,
   socket_waiting s ln conns⟩

theorem C17_witness :
    runAdd 7 5 { session (fun n => 31 * n + 7) with initialized := false }
      = Except.error (Err.not_initialized,
          { session (fun n => 31 * n + 7) with initialized := false }) :=
  (C17_uninitialized_fails_fast 7 5 { session (fun n => 31 * n + 7) with initialized := false }
    fresh 3 [] rfl).1

/-- C18 (amended): in the bootstrap loop of `socket` (NetInt.h), a connection accepted from an
allowed peer (`accept` succeeded, whitelist off or address listed) is seated if and only if its
one read of at most 5 bytes returns exactly the bytes `JOIN\n`, that is, iff the bytes available
on the connection begin with `JOIN\n`: the exact 5-byte handshake is seated; a handshake that is
shorter, or whose first five bytes differ, closes the connection, leaves `joined` and `cli`
unchanged, and the loop goes on to the next connection. In server.c, whose read takes up to 8
bytes, the connection is seated if and only if the bytes available are exactly `JOIN\n`. -/
theorem C18_handshake_validation (s : Bootstrap) (joined : Nat) (x : Conn) (cli : Nat → Int)
    (closed : List Int) (rest : List Conn) (hfd : 0 ≤ x.cfd)
    (hw : isWhitelisted s x.ip = true) :
    (x.data.take 5 = JOIN_MSG →
      acceptStep s joined x = ({ s with cli := setAt s.cli joined x.cfd }, joined + 1)) ∧
    (x.data.take 5 ≠ JOIN_MSG →
      acceptStep s joined x = ({ s with closed := s.closed ++ [x.cfd] }, joined)) ∧
    (x.data = JOIN_MSG → x.data.take 5 = JOIN_MSG) ∧
    (x.data.length < 5 → x.data.take 5 ≠ JOIN_MSG) ∧
    (x.data = JOIN_MSG →
      mainStep cli closed joined x = (setAt cli joined x.cfd, closed, joined + 1)) ∧
    (x.data ≠ JOIN_MSG → mainStep cli closed joined x = (cli, closed ++ [x.cfd], joined)) ∧
    (joined < 3 →
      acceptLoop s joined (x :: rest)
        = acceptLoop (acceptStep s joined x).1 (acceptStep s joined x).2 rest) ∧
    (joined < 3 →
      mainLoop cli closed joined (x :: rest)
        = mainLoop (mainStep cli closed joined x).1 (mainStep cli closed joined x).2.1
            (mainStep cli closed joined x).2.2 rest) := by
  refine ⟨fun h => ?_, fun h => ?_, fun h => ?_, fun h h' => ?_, mainStep_seat cli closed joined x hfd,
    mainStep_reject cli closed joined x hfd, fun h => ?_, fun h => ?_⟩
  · exact acceptStep_seat s joined x (by simp [seats, hfd, hw, h])
  · exact acceptStep_close s joined x hfd (by simp [seats, hw, h])
  · rw [h]; rfl
  · have := congrArg List.length h'
    rw [List.length_take] at this
    simp [JOIN_MSG] at this
    omega
  · simp only [acceptLoop, if_pos h]
  · simp only [mainLoop, NP, if_pos h]

theorem C18_witness :
    acceptStep fresh 2 { cfd := 9, ip := "10.0.0.7", data := [74, 79, 73, 78, 10] }
      = ({ fresh with cli := setAt fresh.cli 2 9 }, 2 + 1) ∧
    mainStep (fun _ => -1) [] 2 { cfd := 9, ip := "10.0.0.7", data := [74, 79, 73, 78, 10] }
      = (setAt (fun _ => -1) 2 9, [], 2 + 1) := by
  have h := C18_handshake_validation fresh 2
    { cfd := 9, ip := "10.0.0.7", data := [74, 79, 73, 78, 10] } (fun _ => -1) [] []
    (by decide) (by decide)
  exact ⟨h.1 (by decide), h.2.2.2.2.1 (by decide)⟩

/-- C18, as stated, fails for `socket`: the six bytes `JOIN\nX`, a handshake longer than the
5-byte string, seat the connection (it becomes `cli[0]` and `joined` is 1), because only five
bytes are read and compared. -/
theorem C18_counterexample :
    ([74, 79, 73, 78, 10, 88] : List Nat) ≠ JOIN_MSG ∧
    (acceptStep fresh 0 { cfd := 7, ip := "10.0.0.1", data := [74, 79, 73, 78, 10, 88] }).2 = 1 ∧
    (acceptStep fresh 0 { cfd := 7, ip := "10.0.0.1", data := [74, 79, 73, 78, 10, 88] }).1.cli 0
      = 7 ∧
    (acceptStep fresh 0 { cfd := 7, ip := "10.0.0.1", data := [74, 79, 73, 78, 10, 88] }).1.closed
      = [] := by
  refine ⟨by decide, by decide, by decide, by decide⟩

/-- C19: every state of the bootstrap loop of `socket`, started with no channel set and the
flag clear, that is, the state after any list `conns` of incoming connections: the seated count
`joined` is at most 3 and equals the number of valid JOINs so far, capped at 3; exactly the
channels `cli[0..joined)` are set, `cli[i]` being the descriptor of the `i`-th valid JOIN in
order of arrival, and the others are still `-1`; inside the loop `initialized` stays false, and
`socket` ends with `initialized` true exactly when three agents are seated. From then on the
listener is closed (`ln = -1`), later connections are never looked at, and a further call of
`socket` returns at once. -/
theorem C19_seating_invariant (s : Bootstrap) (ln : Int) (conns extra : List Conn)
    (hs : s.initialized = false) (hcli : ∀ i, s.cli i = -1) :
    (acceptLoop { s with ln := ln } 0 conns).2.1 ≤ 3 ∧
    (acceptLoop { s with ln := ln } 0 conns).2.1 = min 3 (conns.filter (seats s)).length ∧
    (∀ i, i < (acceptLoop { s with ln := ln } 0 conns).2.1 →
      (acceptLoop { s with ln := ln } 0 conns).1.cli i
        = ((conns.filter (seats s)).map Conn.cfd).getD i (-1) ∧
      (acceptLoop { s with ln := ln } 0 conns).1.cli i ≠ -1) ∧
    (∀ i, (acceptLoop { s with ln := ln } 0 conns).2.1 ≤ i →
      (acceptLoop { s with ln := ln } 0 conns).1.cli i = -1) ∧
    (acceptLoop { s with ln := ln } 0 conns).1.initialized = false ∧
    ((socket s ln conns).1.initialized = true ↔
      (acceptLoop { s with ln := ln } 0 conns).2.1 = 3) ∧
    ((socket s ln conns).1.initialized = true →
      (socket s ln conns).1.ln = -1 ∧
      (∀ i, (socket s ln conns).1.cli i = (acceptLoop { s with ln := ln } 0 conns).1.cli i) ∧
      socket s ln (conns ++ extra) = ((socket s ln conns).1, (socket s ln conns).2 ++ extra) ∧
      socket (socket s ln conns).1 ln extra = ((socket s ln conns).1, extra)) := by
  obtain ⟨a1, a2, a3, a4, a5, a6⟩ := acceptLoop_spec conns { s with ln := ln } 0 (by omega)
  have hc : seats { s with ln := ln } = seats s := seats_congr _ _ rfl rfl
  rw [hc, Nat.zero_add] at a1
  rw [hc] at a2
  have hsock := socket_uninit s ln conns hs
  have a3' : (acceptLoop { s with ln := ln } 0 conns).1.initialized = false := a3.trans hs
  have hiff : (socket s ln conns).1.initialized = true ↔
      (acceptLoop { s with ln := ln } 0 conns).2.1 = 3 := by
    rw [hsock]
    split_ifs with h
    · simp only [a3']
      constructor
      · intro hh; exact absurd hh (by decide)
      · intro hh; omega
    · simp only [true_iff]; omega
  refine ⟨by omega, a1, fun i hi => ?_, fun i hi => ?_, a3', hiff, fun hinit => ?_⟩
  · have e : (acceptLoop { s with ln := ln } 0 conns).1.cli i
        = ((conns.filter (seats s)).map Conn.cfd).getD i (-1) := by
      rw [a2 i, if_pos ⟨Nat.zero_le _, hi⟩, Nat.sub_zero]
    exact ⟨e, by rw [e]; exact seated_fd s conns i (by omega)⟩
  · rw [a2 i, if_neg (by omega)]
    exact hcli i
  · have h3 := hiff.1 hinit
    have happ := acceptLoop_append conns extra { s with ln := ln } 0 (by omega) h3
    have hsock' := socket_uninit s ln (conns ++ extra) hs
    rw [happ, if_neg (by simp only; omega)] at hsock'
    rw [hsock, if_neg (by omega)] at hinit ⊢
    refine ⟨rfl, fun i => rfl, hsock', ?_⟩
    unfold socket
    simp only [if_true]

theorem C19_witness :
    (acceptLoop { fresh with ln := 3 } 0
      [{ cfd := 4, ip := "10.0.0.1", data := [74, 79, 73, 78, 10] },
       { cfd := 5, ip := "10.0.0.2", data := [72, 69, 76, 76, 79] },
       { cfd := 6, ip := "10.0.0.3", data := [74, 79, 73, 78, 10] },
       { cfd := 7, ip := "10.0.0.4", data := [74, 79, 73, 78, 10] }]).2.1 ≤ 3 ∧
    ((socket fresh 3
      [{ cfd := 4, ip := "10.0.0.1", data := [74, 79, 73, 78, 10] },
       { cfd := 5, ip := "10.0.0.2", data := [72, 69, 76, 76, 79] },
       { cfd := 6, ip := "10.0.0.3", data := [74, 79, 73, 78, 10] },
       { cfd := 7, ip := "10.0.0.4", data := [74, 79, 73, 78, 10] }]).1.initialized = true ↔
      (acceptLoop { fresh with ln := 3 } 0
        [{ cfd := 4, ip := "10.0.0.1", data := [74, 79, 73, 78, 10] },
         { cfd := 5, ip := "10.0.0.2", data := [72, 69, 76, 76, 79] },
         { cfd := 6, ip := "10.0.0.3", data := [74, 79, 73, 78, 10] },
         { cfd := 7, ip := "10.0.0.4", data := [74, 79, 73, 78, 10] }]).2.1 = 3) := by
  have h := C19_seating_invariant fresh 3
    [{ cfd := 4, ip := "10.0.0.1", data := [74, 79, 73, 78, 10] },
     { cfd := 5, ip := "10.0.0.2", data := [72, 69, 76, 76, 79] },
     { cfd := 6, ip := "10.0.0.3", data := [74, 79, 73, 78, 10] },
     { cfd := 7, ip := "10.0.0.4", data := [74, 79, 73, 78, 10] }]
    [{ cfd := 8, ip := "10.0.0.5", data := [74, 79, 73, 78, 10] }] rfl (fun _ => rfl)
  exact ⟨h.1, h.2.2.2.2.2.1⟩

/-- C20 (amended): `runCMP` has no domain check. Called with any 32-bit operands, in range or
not, in an initialized session whose agents wait for a task, it raises no error: it dispatches
the three CMP tasks, runs the 69 renormalization cycles and returns the comparison value of the
operands' low 14 bits (`1` if `u mod 2^14 > v mod 2^14`, `p - 1` if smaller, `0` if equal);
afterwards the session is still initialized and the three agents wait for the next task. -/
theorem C20_cmp_no_domain_check (u v : Int) (c : NetIntContext) (hinit : c.initialized = true)
    (hidle : ∀ i : Nat, i < 3 → c.cli i = Proc.idle) :
    ∃ c', runCMP u v c = Except.ok ((if u % 2 ^ l > v % 2 ^ l then 1
        else if u % 2 ^ l < v % 2 ^ l then MOD - 1 else 0 : Int), c') ∧
      c'.log.map Event.tag = c.log.map Event.tag ++ cmpSchedule ∧
      cmpSchedule.take 3 = [Tag.toAgent 0 OP_CMP, Tag.toAgent 1 OP_CMP, Tag.toAgent 2 OP_CMP] ∧
      c'.initialized = true ∧ (∀ i : Nat, i < 3 → c'.cli i = Proc.idle) := by
  obtain ⟨c', h, hi, hk, hl⟩ := runCMP_low u v c hinit hidle
  exact ⟨c', h, hl, rfl, hi, hk⟩

theorem C20_witness :
    ∃ c', runCMP (-1) 16384 (session fun n => 31 * n + 7)
        = Except.ok ((if (-1 : Int) % 2 ^ l > 16384 % 2 ^ l then 1
          else if (-1 : Int) % 2 ^ l < 16384 % 2 ^ l then MOD - 1 else 0 : Int), c') ∧
      c'.log.map Event.tag = (session fun n => 31 * n + 7).log.map Event.tag ++ cmpSchedule ∧
      cmpSchedule.take 3 = [Tag.toAgent 0 OP_CMP, Tag.toAgent 1 OP_CMP, Tag.toAgent 2 OP_CMP] ∧
      c'.initialized = true ∧ (∀ i : Nat, i < 3 → c'.cli i = Proc.idle) :=
  C20_cmp_no_domain_check (-1) 16384 (session fun n => 31 * n + 7) rfl (fun _ _ => rfl)

/-- C20, as stated, fails: `runCMP (-1) 16384`, both operands outside `[0, 2^14)`, is not
reported as an error; the three CMP tasks are dispatched and the call returns `1`. -/
theorem C20_counterexample :
    ∃ c', runCMP (-1) 16384 (session fun n => 31 * n + 7) = Except.ok (1, c') ∧
      c'.log.map Event.tag = cmpSchedule ∧
      cmpSchedule.take 3 = [Tag.toAgent 0 OP_CMP, Tag.toAgent 1 OP_CMP, Tag.toAgent 2 OP_CMP] := by
  obtain ⟨c', h, _, _, hl⟩ := runCMP_low (-1) 16384 (session fun n => 31 * n + 7) rfl
    (fun _ _ => rfl)
  exact ⟨c', h, hl, rfl⟩

theorem run_send (r : response_t) (k : Proc) (ins : List (Option response_t)) :
    Proc.run (Proc.send r k) ins = (r :: (Proc.run k ins).1, (Proc.run k ins).2) := by
  cases ins <;> rfl

theorem run_recv_cons (k : Option response_t → Proc) (m : Option response_t)
    (ins : List (Option response_t)) : Proc.run (Proc.recv k) (m :: ins) = Proc.run (k m) ins :=
  rfl

theorem run_exit (status : Int) (ins : List (Option response_t)) :
    Proc.run (Proc.exit status) ins = ([], Proc.exit status) := by
  cases ins <;> rfl

theorem bind_inv {α β : Type} {x : Coord α} {f : α → Coord β} {c : NetIntContext}
    {r : β × NetIntContext} (h : (x >>= f) c = Except.ok r) :
    ∃ a c1, x c = Except.ok (a, c1) ∧ f a c1 = Except.ok r := by
  cases hx : x c with
  | error e =>
    rw [bind_error hx] at h
    exact absurd h (by simp)
  | ok p =>
    obtain ⟨a, c1⟩ := p
    rw [bind_ok hx] at h
    exact ⟨a, c1, rfl, h⟩

theorem Extends.trans {Q : Event → Prop} {c c1 c2 : NetIntContext} (h1 : Extends Q c c1)
    (h2 : Extends Q c1 c2) : Extends Q c c2 := by
  obtain ⟨n1, e1, q1⟩ := h1
  obtain ⟨n2, e2, q2⟩ := h2
  refine ⟨n1 ++ n2, by rw [e2, e1, List.append_assoc], fun e he => ?_⟩
  rcases List.mem_append.1 he with h | h
  · exact q1 e h
  · exact q2 e h

theorem returns_pure {α : Type} (Q : Event → Prop) (a : α) : Returns Q (pure a : Coord α) := by
  intro c x c2 h
  have e : c2 = c := by
    have := congrArg (fun r => match r with
      | Except.ok (_, s) => s
      | Except.error (_, s) => s) h
    exact this.symm
  rw [e]
  exact Extends.refl Q c

theorem returns_fail {α : Type} (Q : Event → Prop) (e : Err) : Returns Q (fail e : Coord α) := by
  intro c x c2 h
  exact absurd h (by simp [fail])

theorem returns_bind {α β : Type} {Q : Event → Prop} {m : Coord α} {f : α → Coord β}
    (hm : Returns Q m) (hf : ∀ a, Returns Q (f a)) : Returns Q (m >>= f) := by
  intro c x c2 h
  obtain ⟨a, c1, h1, h2⟩ := bind_inv h
  exact (hm c a c1 h1).trans (hf a c1 x c2 h2)

theorem returns_ite {α : Type} {Q : Event → Prop} {p : Prop} {d : Decidable p}
    {m n : Coord α} (hm : Returns Q m) (hn : Returns Q n) : Returns Q (@ite _ p d m n) := by
  split_ifs
  · exact hm
  · exact hn

theorem returns_guard {α : Type} {Q : Event → Prop} {p : Prop} {d : Decidable p}
    (e : Err) (jp : PUnit → Coord α) (h : ∀ y, Returns Q (jp y)) :
    Returns Q (@ite _ p d (fail e >>= jp) (pure PUnit.unit >>= jp)) :=
  returns_ite (returns_bind (returns_fail _ _) h) (returns_bind (returns_pure _ _) h)

theorem returns_foldlM {α β : Type} {Q : Event → Prop} (f : β → α → Coord β)
    (hf : ∀ b a, Returns Q (f b a)) (xs : List α) (b : β) : Returns Q (xs.foldlM f b) := by
  induction xs generalizing b with
  | nil => exact returns_pure Q b
  | cons x xs ih =>
    rw [List.foldlM_cons]
    exact returns_bind (hf b x) (fun b' => ih b')

theorem returns_forM {α : Type} {Q : Event → Prop} (f : α → Coord PUnit)
    (hf : ∀ a, Returns Q (f a)) (xs : List α) : Returns Q (xs.forM f) := by
  induction xs with
  | nil => exact returns_pure Q _
  | cons x xs ih =>
    show Returns Q (f x >>= fun _ => xs.forM f)
    exact returns_bind (hf x) (fun _ => ih)

theorem returns_repeatM {Q : Event → Prop} (body : Coord Unit) (hb : Returns Q body)
    (n : Nat) : Returns Q (repeatM n body) := by
  induction n with
  | zero => exact returns_pure Q _
  | succ n ih => exact returns_bind hb (fun _ => ih)

theorem returns_of_keeps {α : Type} {Q : Event → Prop} {m : Coord α}
    (h : ∀ c0, Keeps (Extends Q c0) m) : Returns Q m := by
  intro c a c2 hm
  have := h c c (Extends.refl Q c)
  rw [hm] at this
  exact this

theorem returns_step {α : Type} {Q : Event → Prop} {m : Coord α}
    (h : ∀ c, (after (m c)).log = c.log ∨ ∃ e, Q e ∧ (after (m c)).log = c.log ++ [e]) :
    Returns Q m :=
  returns_of_keeps fun _ => keeps_step h

theorem returns_get (Q : Event → Prop) : Returns Q (get : Coord NetIntContext) :=
  returns_step fun _ => Or.inl rfl

theorem returns_nextRand (Q : Event → Prop) : Returns Q nextRand :=
  returns_step fun _ => Or.inl rfl

theorem returns_renormalize (Q : Event → Prop) (s : Nat → Int) : Returns Q (renormalize s) :=
  returns_step fun _ => Or.inl rfl

theorem returns_sendTask (G : response_t → Prop) (i : Nat) (t : task_t) :
    Returns (onRecv G) (sendTask i t) := by
  apply returns_step
  intro c
  unfold sendTask
  cases c.cli i with
  | send r k => exact Or.inr ⟨Event.sentTask i t, trivial, rfl⟩
  | exit s => exact Or.inr ⟨Event.sentTask i t, trivial, rfl⟩
  | recv k => exact Or.inr ⟨Event.sentTask i t, trivial, rfl⟩
  | idle => exact Or.inr ⟨Event.sentTask i t, trivial, rfl⟩
  | reset => exact Or.inl rfl

theorem returns_sendResponse (G : response_t → Prop) (i : Nat) (r : response_t) :
    Returns (onRecv G) (sendResponse i r) := by
  apply returns_step
  intro c
  unfold sendResponse
  cases c.cli i with
  | send r' k => exact Or.inr ⟨Event.sentResp i r, trivial, rfl⟩
  | exit s => exact Or.inr ⟨Event.sentResp i r, trivial, rfl⟩
  | recv k => exact Or.inr ⟨Event.sentResp i r, trivial, rfl⟩
  | idle => exact Or.inr ⟨Event.sentResp i r, trivial, rfl⟩
  | reset => exact Or.inl rfl

/-- A read followed by the opcode test of `collectResults` or `waitRenorm`. -/
theorem returns_recvChecked (op : Nat) (i : Nat) (acc : Nat → Int) :
    Returns (onRecv fun r => r.op = op)
      (do
        let r ← recvAll i
        match r with
        | none => fail Err.disconnected
        | some r =>
          if r.op ≠ op then fail Err.invalid_response
          else pure (setAt acc i (toI32 (ntohl r.value)))) := by
  intro c a c2 h
  obtain ⟨m, c1, h1, h2⟩ := bind_inv h
  unfold recvAll at h1
  cases hc : c.cli i with
  | send r k =>
    rw [hc] at h1
    simp only [Except.ok.injEq, Prod.mk.injEq] at h1
    obtain ⟨hm, hc1⟩ := h1
    subst hm
    subst hc1
    by_cases hop : r.op = op
    · simp only [hop, ne_eq, not_true_eq_false, if_false] at h2
      have e : c2 = { c with cli := setCli c.cli i k,
                             log := c.log ++ [Event.received i (some r)] } := by
        have := congrArg (fun r => match r with
          | Except.ok (_, s) => s
          | Except.error (_, s) => s) h2
        exact this.symm
      rw [e]
      exact ⟨[Event.received i (some r)], rfl, fun x hx => by
        rw [List.mem_singleton.1 hx]; exact hop⟩
    · simp only [ne_eq, hop, not_false_eq_true, if_true] at h2
      exact absurd h2 (by simp [fail])
  | exit s =>
    rw [hc] at h1
    simp only [Except.ok.injEq, Prod.mk.injEq] at h1
    obtain ⟨hm, hc1⟩ := h1
    subst hm
    exact absurd h2 (by simp [fail])
  | reset =>
    rw [hc] at h1
    simp only [Except.ok.injEq, Prod.mk.injEq] at h1
    obtain ⟨hm, hc1⟩ := h1
    subst hm
    exact absurd h2 (by simp [fail])
  | recv k =>
    rw [hc] at h1
    exact absurd h1 (by simp)
  | idle =>
    rw [hc] at h1
    exact absurd h1 (by simp)

theorem returns_collectResults : Returns (onRecv fun r => r.op = OP_RES) collectResults := by
  unfold collectResults
  exact returns_foldlM _ (fun b a => returns_recvChecked OP_RES a b) _ _

theorem returns_runAdd (a b : Int) : Returns (onRecv fun r => r.op = OP_RES) (runAdd a b) := by
  unfold runAdd
  refine returns_bind (returns_get _) (fun s => ?_)
  apply returns_guard
  intro _
  refine returns_bind (returns_nextRand _) (fun r1 => ?_)
  refine returns_bind (returns_nextRand _) (fun r2 => ?_)
  refine returns_bind (returns_forM _ (fun i => ?_) _) (fun _ => ?_)
  · exact returns_bind (returns_sendTask _ _ _) (fun _ => returns_pure _ _)
  · exact returns_bind returns_collectResults (fun _ => returns_pure _ _)

theorem returns_runMul (a b : Int) : Returns (onRecv fun r => r.op = OP_RES) (runMul a b) := by
  unfold runMul
  refine returns_bind (returns_get _) (fun s => ?_)
  apply returns_guard
  intro _
  refine returns_bind (returns_nextRand _) (fun r1 => ?_)
  refine returns_bind (returns_nextRand _) (fun r2 => ?_)
  refine returns_bind (returns_forM _ (fun i => ?_) _) (fun _ => ?_)
  · exact returns_bind (returns_sendTask _ _ _) (fun _ => returns_pure _ _)
  · refine returns_bind returns_collectResults (fun _ => ?_)
    exact returns_bind (returns_renormalize _ _) (fun _ => returns_pure _ _)

theorem returns_waitRenorm : Returns (onRecv fun r => r.op = OP_REN) waitRenorm := by
  unfold waitRenorm
  refine returns_bind (returns_foldlM _ (fun b a => returns_recvChecked OP_REN a b) _ _)
    (fun _ => ?_)
  refine returns_bind (returns_renormalize _ _) (fun _ => ?_)
  refine returns_forM _ (fun i => ?_) _
  refine returns_bind (returns_sendResponse _ _ _) (fun ok => ?_)
  exact returns_ite (returns_fail _ _) (returns_pure _ _)

theorem zero_in_field : (0 : Int) ≤ 0 ∧ (0 : Int) < 10289 := by decide

theorem renPeer_rounds (r : response_t) (n m : Nat) (c : NetIntContext)
    (h : ∀ i : Nat, i < 3 → c.cli i = renPeer r (m + n)) :
    ∃ c2, repeatM n waitRenorm c = Except.ok ((), c2) ∧
      (∀ i : Nat, i < 3 → c2.cli i = renPeer r m) ∧ c2.initialized = c.initialized := by
  induction n generalizing c with
  | zero => exact ⟨c, rfl, h, rfl⟩
  | succ n ih =>
    obtain ⟨c1, w, h1, _, k1, _, i1, _⟩ := waitRenorm_spec c (fun _ => 0)
      (fun _ _ => renPeer r (m + n)) h (fun _ _ => zero_in_field)
    obtain ⟨c2, h2, k2, i2⟩ := ih c1 k1
    refine ⟨c2, ?_, k2, i2.trans i1⟩
    rw [repeatM_succ, bind_ok h1]
    exact h2

theorem renPeer_rounds3 (r : response_t) (n m : Nat) (c : NetIntContext)
    (h : ∀ i : Nat, i < 3 → c.cli i = renPeer r (m + 3 * n)) :
    ∃ c2, repeatM n (do waitRenorm; waitRenorm; waitRenorm) c = Except.ok ((), c2) ∧
      (∀ i : Nat, i < 3 → c2.cli i = renPeer r m) ∧ c2.initialized = c.initialized := by
  induction n generalizing c with
  | zero => exact ⟨c, rfl, h, rfl⟩
  | succ n ih =>
    obtain ⟨c1, _, h1, _, k1, _, i1, _⟩ := waitRenorm_spec c (fun _ => 0)
      (fun _ _ => renPeer r (m + 3 * n + 2)) h (fun _ _ => zero_in_field)
    obtain ⟨c2, _, h2, _, k2, _, i2, _⟩ := waitRenorm_spec c1 (fun _ => 0)
      (fun _ _ => renPeer r (m + 3 * n + 1)) k1 (fun _ _ => zero_in_field)
    obtain ⟨c3, _, h3, _, k3, _, i3, _⟩ := waitRenorm_spec c2 (fun _ => 0)
      (fun _ _ => renPeer r (m + 3 * n)) k2 (fun _ _ => zero_in_field)
    obtain ⟨c4, h4, k4, i4⟩ := ih c3 k3
    refine ⟨c4, ?_, k4, by rw [i4, i3, i2, i1]⟩
    rw [repeatM_succ, bind_ok (bind_ok h1 ▸ bind_ok h2 ▸ h3 :
      (do waitRenorm; waitRenorm; waitRenorm) c = Except.ok ((), c3))]
    exact h4

theorem sendTasks_busy (c : NetIntContext) (mk : Nat → task_t) (v : Nat → Int)
    (K : Nat → Int → Proc) (h : ∀ i : Nat, i < 3 → c.cli i = runRENORM (v i) (K i)) :
    ((List.range 3).forM fun j => do
        let _ ← sendTask j (mk j)) c = Except.ok (PUnit.unit, { c with
          log := c.log ++ [Event.sentTask 0 (mk 0), Event.sentTask 1 (mk 1),
            Event.sentTask 2 (mk 2)] }) := by
  have h0 := h 0 (by decide)
  have h1 := h 1 (by decide)
  have h2 := h 2 (by decide)
  simp only [runRENORM] at h0 h1 h2
  simp [List.range_succ, bind, StateT.bind, Except.bind, sendTask, h0, h1, h2, pure,
    StateT.pure, Except.pure]

theorem runCMP_renPeer (u v : Int) (g : Rng) (x : Int) (hx : 0 ≤ x ∧ x < 10289) :
    ∃ c2, runCMP u v (renSession { op := OP_REN, value := htonl (toU32 x) } g)
        = Except.ok (x, c2) ∧
      ∃ pre, c2.log.map Event.tag = pre ++
        [Tag.fromAgent 0 OP_REN, Tag.fromAgent 1 OP_REN, Tag.fromAgent 2 OP_REN] := by
  have hinit : (renSession { op := OP_REN, value := htonl (toU32 x) } g).initialized = true :=
    rfl
  have hcli : ∀ i : Nat, i < 3 →
      (renSession { op := OP_REN, value := htonl (toU32 x) } g).cli i
        = renPeer { op := OP_REN, value := htonl (toU32 x) } ((l - 1) + l + 3 * l) :=
    fun _ _ => rfl
  generalize renSession { op := OP_REN, value := htonl (toU32 x) } g = c at hinit hcli ⊢
  obtain ⟨U, V, g1, hsb, _⟩ :=
    cmpShareBits_spec (cmpBits u) (cmpBits v) (cmpBits_range u) (cmpBits_range v) c l
  have hd := sendTasks_busy { c with rng := (rand g1).2 }
    (cmpTask U V (cmod (rand g1).1 MOD)) (fun _ => 0)
    (fun _ _ => renPeer { op := OP_REN, value := htonl (toU32 x) } ((l - 1) + l + 3 * l - 1))
    hcli
  obtain ⟨c2, r2, k2, i2⟩ := renPeer_rounds3 { op := OP_REN, value := htonl (toU32 x) } l
    ((l - 1) + l) _ (show ∀ i : Nat, i < 3 → ({ c with rng := (rand g1).2, log := c.log ++
      [Event.sentTask 0 (cmpTask U V (cmod (rand g1).1 MOD) 0),
       Event.sentTask 1 (cmpTask U V (cmod (rand g1).1 MOD) 1),
       Event.sentTask 2 (cmpTask U V (cmod (rand g1).1 MOD) 2)] } : NetIntContext).cli i = _
      from hcli)
  obtain ⟨c3, r3, k3, i3⟩ := renPeer_rounds { op := OP_REN, value := htonl (toU32 x) } (l - 1)
    l c2 (fun i hi => by rw [k2 i hi, Nat.add_comm])
  obtain ⟨c4, r4, k4, i4⟩ := renPeer_rounds { op := OP_REN, value := htonl (toU32 x) } l
    0 c3 (fun i hi => by rw [k3 i hi, Nat.zero_add])
  obtain ⟨c5, rs, r5, v5, k5, i5, l5⟩ := cmpCollect_spec c4 OP_REN (fun _ => x)
    (fun _ _ => hx) k4
  refine ⟨c5, ?_, _, l5⟩
  unfold runCMP
  rw [bind_at (c) (c) rfl]
  simp only [hinit, Bool.not_true, Bool.false_eq_true, if_false]
  rw [bind_at (PUnit.unit) (c) rfl, bind_ok hsb,
    bind_at ((rand g1).1) ({ c with rng := (rand g1).2 }) rfl]
  rw [bind_ok hd, bind_ok r2, bind_ok r3, bind_ok r4, bind_ok r5]
  have hs : IsShare rs x := ⟨0, fun k hk => by rw [v5 k hk]; omega⟩
  have hrec : reconstruct rs = x := hs.recon.trans (Int.emod_eq_of_lt hx.1 hx.2)
  simp only [pure, StateT.pure, Except.pure, hrec]

theorem mul32_exact {a b : Int} (ha : 0 ≤ a ∧ a < 10289) (hb : 0 ≤ b ∧ b < 10289) :
    mul32 a b = a * b := by
  have h := mul_share_bound ha hb
  unfold mul32
  exact wrap32_id (by omega) h.2

theorem gamma_range (j : Nat) : 0 ≤ gammaArray j ∧ gammaArray j < 10289 := by
  unfold gammaArray
  split <;> decide

theorem foldlM_mono {α β : Type} (f g : β → α → Coord β)
    (h : ∀ b a c r, f b a c = Except.ok r → g b a c = Except.ok r) (xs : List α) :
    ∀ (b : β) (c : NetIntContext) (r : β × NetIntContext),
      xs.foldlM f b c = Except.ok r → xs.foldlM g b c = Except.ok r := by
  induction xs with
  | nil => intro b c r hr; exact hr
  | cons x xs ih =>
    intro b c r hr
    rw [List.foldlM_cons] at hr ⊢
    obtain ⟨b1, c1, h1, h2⟩ := bind_inv hr
    rw [bind_ok (h b x c _ h1)]
    exact ih b1 c1 r h2

theorem repeatM_mono (a b : Coord Unit)
    (h : ∀ c r, a c = Except.ok r → b c = Except.ok r) (n : Nat) :
    ∀ (c : NetIntContext) (r : Unit × NetIntContext),
      repeatM n a c = Except.ok r → repeatM n b c = Except.ok r := by
  induction n with
  | zero => intro c r hr; exact hr
  | succ n ih =>
    intro c r hr
    rw [repeatM_succ] at hr ⊢
    obtain ⟨u, c1, h1, h2⟩ := bind_inv hr
    rw [bind_ok (h c _ h1)]
    exact ih c1 r h2

theorem sendREN_of (rs : Nat → Int) (xs : List Nat) :
    ∀ (c : NetIntContext) (r : PUnit × NetIntContext),
      (xs.forM fun i => do
        let ok ← sendResponse i { op := OP_REN, value := htonl (toU32 (rs i)) }
        if !ok then fail Err.send_failed) c = Except.ok r →
      sendREN rs xs c = Except.ok r := by
  induction xs with
  | nil => intro c r hr; exact hr
  | cons x xs ih =>
    intro c r hr
    have hr2 : ((do
        let ok ← sendResponse x { op := OP_REN, value := htonl (toU32 (rs x)) }
        if !ok then fail Err.send_failed) >>= fun _ => xs.forM fun i => do
        let ok ← sendResponse i { op := OP_REN, value := htonl (toU32 (rs i)) }
        if !ok then fail Err.send_failed) c = Except.ok r := hr
    obtain ⟨u, c1, h1, h2⟩ := bind_inv hr2
    obtain ⟨ok, c2, h3, h4⟩ := bind_inv h1
    unfold sendREN
    rw [bind_ok h3]
    cases ok with
    | false => exact absurd h4 (by simp [fail])
    | true =>
      have e : c2 = c1 := by
        have := congrArg (fun r => match r with
          | Except.ok (_, s) => s
          | Except.error (_, s) => s) h4
        exact this
      rw [e]
      simp only [Bool.not_true, Bool.false_eq_true, if_false]
      exact ih c1 r h2

theorem waitRENORM_of (c : NetIntContext) (r : Unit × NetIntContext)
    (h : waitRenorm c = Except.ok r) : waitRENORM c = Except.ok r := by
  unfold waitRenorm at h
  unfold waitRENORM
  obtain ⟨rs, c1, h1, h2⟩ := bind_inv h
  obtain ⟨rs2, c2, h3, h4⟩ := bind_inv h2
  refine (bind_ok (foldlM_mono _ _ ?_ _ _ _ _ h1)).trans ?_
  · intro b a c0 r0 hr
    obtain ⟨m, c3, h5, h6⟩ := bind_inv hr
    rw [bind_ok h5]
    cases m with
    | none => exact absurd h6 (by simp [fail])
    | some q =>
      by_cases hq : q.op = OP_REN
      · simpa [hq] using h6
      · simp only [ne_eq, hq, not_false_eq_true, if_true] at h6
        exact absurd h6 (by simp [fail])
  · rw [bind_ok h3]
    exact sendREN_of rs2 _ c2 r h4

theorem waitRENORM3_of (c : NetIntContext) (r : Unit × NetIntContext)
    (h : (do waitRenorm; waitRenorm; waitRenorm : Coord Unit) c = Except.ok r) :
    (do waitRENORM; waitRENORM; waitRENORM : Coord Unit) c = Except.ok r := by
  obtain ⟨_, c1, h1, h2⟩ := bind_inv h
  obtain ⟨_, c2, h3, h4⟩ := bind_inv h2
  rw [bind_ok (waitRENORM_of c _ h1), bind_ok (waitRENORM_of c1 _ h3)]
  exact waitRENORM_of c2 r h4

theorem serverCollect_spec (c : NetIntContext) (junk : Nat → Int) (v : Nat → Int)
    (hv : ∀ i : Nat, i < 3 → 0 ≤ v i ∧ v i < 10289)
    (hcli : ∀ i : Nat, i < 3 →
      c.cli i = Proc.send { op := OP_RES, value := htonl (toU32 (v i)) } Proc.idle) :
    ∃ c2 rs, serverCollect junk c = Except.ok (rs, c2) ∧ (∀ i : Nat, i < 3 → rs i = v i) ∧
      (∀ i : Nat, i < 3 → c2.cli i = Proc.idle) ∧ c2.rng = c.rng := by
  have h0 := hcli 0 (by decide)
  have h1 := hcli 1 (by decide)
  have h2 := hcli 2 (by decide)
  refine ⟨{ c with
      cli := setCli (setCli (setCli c.cli 0 Proc.idle) 1 Proc.idle) 2 Proc.idle
      log := c.log ++ [Event.received 0 (some { op := OP_RES, value := htonl (toU32 (v 0)) }),
        Event.received 1 (some { op := OP_RES, value := htonl (toU32 (v 1)) }),
        Event.received 2 (some { op := OP_RES, value := htonl (toU32 (v 2)) })] },
    setAt (setAt (setAt junk 0 (v 0)) 1 (v 1)) 2 (v 2), ?_, ?_, ?_, rfl⟩
  · simp [serverCollect, List.range_succ, bind, StateT.bind, Except.bind, recvAll, setCli, h0,
      h1, h2, pure, StateT.pure, Except.pure, wire_value _ (hv 0 (by decide)),
      wire_value _ (hv 1 (by decide)), wire_value _ (hv 2 (by decide))]
  · intro i hi
    interval_cases i <;> simp [setAt]
  · intro i hi
    interval_cases i <;> simp [setCli]

theorem runADD_core (a b : Int) (junk : Nat → Int) (c : NetIntContext)
    (ha : -10289 ≤ a ∧ a < 2147442495) (hb : -10289 ≤ b ∧ b < 2147442495)
    (hidle : ∀ i : Nat, i < 3 → c.cli i = Proc.idle) :
    ∃ c2, runADD a b junk c = Except.ok ((a + b) % 10289, c2) ∧
      (∀ i : Nat, i < 3 → c2.cli i = Proc.idle) := by
  have sa : IsShare (fun i : Nat => SPLIT i (draw c.rng 0) a) a :=
    IsShare_SPLIT_gen _ _ _ (draw_range c.rng 0) ha (fun _ _ => rfl)
  have sb : IsShare (fun i : Nat => SPLIT i (draw c.rng 1) b) b :=
    IsShare_SPLIT_gen _ _ _ (draw_range c.rng 1) hb (fun _ _ => rfl)
  have e1 : cmod (rand c.rng).1 MOD = draw c.rng 0 := cmod_rand c.rng 0
  have e2 : cmod (rand (rand c.rng).2).1 MOD = draw c.rng 1 := cmod_rand c.rng 1
  obtain ⟨c1, hd, k1, i1, l1⟩ := sendTasks_spec { c with rng := (rand (rand c.rng).2).2 }
    (fun i =>
      { op := OP_ADD, a := htonl (toU32 (SPLIT i (draw c.rng 0) a)),
        b := htonl (toU32 (SPLIT i (draw c.rng 1) b)),
        u_shares := fun _ => 0, v_shares := fun _ => 0 }) hidle
  have hsum : IsShare (fun i : Nat => cmod (add32 (SPLIT i (draw c.rng 0) a)
      (SPLIT i (draw c.rng 1) b)) MOD) (a + b) := IsShare_sum sa sb (fun _ _ => rfl)
  obtain ⟨c2, rs, r2, v2, k2, _⟩ := serverCollect_spec c1 junk _ (fun i hi => hsum.range i hi)
    (fun i hi => by
      rw [k1 i hi, agentTask_add _ rfl]
      simp only [wire_value _ (sa.range i hi), wire_value _ (sb.range i hi)])
  refine ⟨c2, ?_, k2⟩
  unfold runADD
  rw [bind_at ((rand c.rng).1) ({ c with rng := (rand c.rng).2 }) rfl,
    bind_at ((rand (rand c.rng).2).1) ({ c with rng := (rand (rand c.rng).2).2 }) rfl]
  simp only [e1, e2]
  rw [bind_ok hd, bind_ok r2]
  have hrec : RECONSTRUCT rs = (a + b) % 10289 := (hsum.ext v2).recon
  simp only [pure, StateT.pure, Except.pure, hrec]

theorem serverShareBit_spec (bu bv : Nat → Int)
    (acc : (Nat → Nat → Int) × (Nat → Nat → Int)) (i : Nat) (c : NetIntContext) :
    serverShareBit bu bv acc i c = Except.ok
      (((List.range 3).foldl
        (fun acc j =>
          (setAt2 acc.1 j i (toI32 (htonl (toU32 (SPLIT j (draw c.rng 0) (bu i))))),
           setAt2 acc.2 j i (toI32 (htonl (toU32 (SPLIT j (draw c.rng 1) (bv i)))))))
        acc), { c with rng := fun k => c.rng (k + 2) }) := by
  have h1 : cmod (rand c.rng).1 MOD = draw c.rng 0 := cmod_rand c.rng 0
  have h2 : cmod (rand (rand c.rng).2).1 MOD = draw c.rng 1 := cmod_rand c.rng 1
  have h3 : (rand (rand c.rng).2).2 = fun k => c.rng (k + 2) := rfl
  unfold serverShareBit
  simp only [nextRand, bind, StateT.bind, Except.bind, pure, StateT.pure, Except.pure]
  rw [h1, h2, h3]

theorem serverShareBits_spec (bu bv : Nat → Int) (hbu : ∀ i, 0 ≤ bu i ∧ bu i < 10289)
    (hbv : ∀ i, 0 ≤ bv i ∧ bv i < 10289) (c : NetIntContext) (n : Nat) :
    ∃ U V g, (List.range n).foldlM (serverShareBit bu bv) (fun _ _ => 0, fun _ _ => 0) c
        = Except.ok ((U, V), { c with rng := g }) ∧
      ∀ i : Nat, i < n → IsShare (fun j => toI32 (ntohl (toU32 (U j i)))) (bu i) ∧
        IsShare (fun j => toI32 (ntohl (toU32 (V j i)))) (bv i) := by
  induction n with
  | zero =>
    exact ⟨_, _, c.rng, rfl, fun i hi => absurd hi (by omega)⟩
  | succ n ih =>
    obtain ⟨U, V, g, h, hs⟩ := ih
    refine ⟨((List.range 3).foldl
        (fun (acc : (Nat → Nat → Int) × (Nat → Nat → Int)) (j : Nat) =>
          (setAt2 acc.1 j n (toI32 (htonl (toU32 (SPLIT j (draw g 0) (bu n))))),
           setAt2 acc.2 j n (toI32 (htonl (toU32 (SPLIT j (draw g 1) (bv n))))))) (U, V)).1,
      ((List.range 3).foldl
        (fun (acc : (Nat → Nat → Int) × (Nat → Nat → Int)) (j : Nat) =>
          (setAt2 acc.1 j n (toI32 (htonl (toU32 (SPLIT j (draw g 0) (bu n))))),
           setAt2 acc.2 j n (toI32 (htonl (toU32 (SPLIT j (draw g 1) (bv n))))))) (U, V)).2,
      fun k => g (k + 2), ?_, ?_⟩
    · rw [List.range_succ, List.foldlM_append]
      simp only [bind, StateT.bind, Except.bind, h, List.foldlM_cons, List.foldlM_nil,
        serverShareBit_spec, pure, StateT.pure, Except.pure]
    · intro i hi
      simp only [List.range_succ, List.range_zero, List.nil_append, List.cons_append,
        List.foldl_cons, List.foldl_nil]
      by_cases h' : i = n
      · subst h'
        have su : IsShare (fun k : Nat => SPLIT k (draw g 0) (bu i)) (bu i) :=
          IsShare_SPLIT _ _ _ (draw_range g 0) (hbu i) (fun _ _ => rfl)
        have sv : IsShare (fun k : Nat => SPLIT k (draw g 1) (bv i)) (bv i) :=
          IsShare_SPLIT _ _ _ (draw_range g 1) (hbv i) (fun _ _ => rfl)
        have w0 := wire_share _ (su.range 0 (by decide))
        have w1 := wire_share _ (su.range 1 (by decide))
        have w2 := wire_share _ (su.range 2 (by decide))
        have x0 := wire_share _ (sv.range 0 (by decide))
        have x1 := wire_share _ (sv.range 1 (by decide))
        have x2 := wire_share _ (sv.range 2 (by decide))
        constructor
        · refine su.ext (fun k hk => ?_)
          interval_cases k
          · rw [setAt2_other _ _ _ _ _ _ (fun h => absurd h.1 (by decide)),
              setAt2_other _ _ _ _ _ _ (fun h => absurd h.1 (by decide)),
              setAt2_same]
            exact w0
          · rw [setAt2_other _ _ _ _ _ _ (fun h => absurd h.1 (by decide)), setAt2_same]
            exact w1
          · rw [setAt2_same]
            exact w2
        · refine sv.ext (fun k hk => ?_)
          interval_cases k
          · rw [setAt2_other _ _ _ _ _ _ (fun h => absurd h.1 (by decide)),
              setAt2_other _ _ _ _ _ _ (fun h => absurd h.1 (by decide)),
              setAt2_same]
            exact x0
          · rw [setAt2_other _ _ _ _ _ _ (fun h => absurd h.1 (by decide)), setAt2_same]
            exact x1
          · rw [setAt2_same]
            exact x2
      · have := hs i (by omega)
        simpa [setAt2, h'] using this

theorem Server_runCMP_core (u v : Int) (junk : Nat → Int) (c : NetIntContext)
    (hidle : ∀ i : Nat, i < 3 → c.cli i = Proc.idle) :
    ∃ c2, Server.runCMP u v junk c
        = Except.ok (cmpFlags (cmpB (bitAt u) (bitAt v) l % 10289), c2) ∧
      (∀ i : Nat, i < 3 → c2.cli i = Proc.idle) := by
  obtain ⟨U, V, g, hsb, hsh⟩ :=
    serverShareBits_spec (cmpBits u) (cmpBits v) (cmpBits_range u) (cmpBits_range v) c l
  have hr0 := draw_range g 0
  have e0 : cmod (rand g).1 MOD = draw g 0 := cmod_rand g 0
  obtain ⟨c1, hd, k1, i1, l1⟩ := sendTasks_spec { c with rng := (rand g).2 }
    (serverTask U V (draw g 0)) hidle
  have hop : ∀ i, (serverTask U V (draw g 0) i).op = OP_CMP := fun i => rfl
  have hinv :
      CmpInv (bitAt u) (bitAt v) (fun i => cmpDecode (serverTask U V (draw g 0) i)) 0 1 0 := by
    refine ⟨?_, ?_, fun j hj => absurd hj (by omega), ?_, fun j hj => absurd hj (by omega), ?_⟩
    · intro j hj
      have hs := (hsh j hj).1
      rw [cmpBits_val u j hj] at hs
      refine hs.ext (fun k hk => ?_)
      show (cmpDecode (serverTask U V (draw g 0) k)).u_shares j = _
      rw [cmpDecode_u _ j hj]
      simp only [serverTask, if_pos hj]
    · intro j hj
      have hs := (hsh j hj).2
      rw [cmpBits_val v j hj] at hs
      refine hs.ext (fun k hk => ?_)
      show (cmpDecode (serverTask U V (draw g 0) k)).v_shares j = _
      rw [cmpDecode_v _ j hj]
      simp only [serverTask, if_pos hj]
    · intro j hj
      have hj0 : j = 0 := by omega
      subst hj0
      have hs : IsShare (fun k : Nat => SPLIT k (draw g 0) 1) 1 :=
        IsShare_SPLIT _ _ _ hr0 (by decide) (fun k _ => rfl)
      refine hs.ext (fun k hk => ?_)
      show (cmpDecode (serverTask U V (draw g 0) k)).prefixEq_share 0 = SPLIT k (draw g 0) 1
      rw [cmpDecode_p]
      exact wire_value _ (hs.range k hk)
    · intro i _
      exact cmpDecode_c _
  obtain ⟨c2, S2, r2, k2, inv2, _, i2, l2⟩ := phaseA (bitAt u) (bitAt v) _ l 0 c1 _ (by omega)
    (fun i hi => by rw [k1 i hi, agentTask_cmp _ (hop i)]) hinv
  obtain ⟨c3, S3, r3, k3, inv3, _, i3, l3⟩ := phaseB (bitAt u) (bitAt v) _ (l - 1) 1 c2 S2
    (by omega) (by decide) k2 inv2
  obtain ⟨c4, S4, r4, k4, inv4, _, i4, l4⟩ := phaseC (bitAt u) (bitAt v) _ l 0 c3 S3
    (by omega) k3 inv3
  have hsum := cmpSum_share (bitAt u) (bitAt v) S4 inv4
  obtain ⟨c5, rs, r5, v5, k5, _⟩ := serverCollect_spec c4 junk _
    (fun i hi => hsum.range i hi) k4
  refine ⟨c5, ?_, k5⟩
  unfold Server.runCMP
  rw [bind_ok hsb]
  dsimp only
  rw [bind_at ((rand g).1) ({ c with rng := (rand g).2 }) rfl]
  simp only [e0]
  have q2 : repeatM l (do waitRENORM; waitRENORM; waitRENORM) c1 = Except.ok ((), c2) :=
    repeatM_mono _ _ waitRENORM3_of _ _ _ r2
  have q3 : repeatM (l - 1) waitRENORM c2 = Except.ok ((), c3) :=
    repeatM_mono _ _ waitRENORM_of _ _ _ r3
  have q4 : repeatM l waitRENORM c3 = Except.ok ((), c4) :=
    repeatM_mono _ _ waitRENORM_of _ _ _ r4
  rw [bind_ok hd, bind_ok q2, bind_ok q3, bind_ok q4, bind_ok r5]
  have hrec : RECONSTRUCT rs = cmpB (bitAt u) (bitAt v) l % 10289 := (hsum.ext v5).recon
  simp only [pure, StateT.pure, Except.pure, hrec]

theorem Server_cmp_value (u v : Int) (hu : 0 ≤ u ∧ u < 16384) (hv : 0 ≤ v ∧ v < 16384)
    (junk : Nat → Int) (c : NetIntContext) (hidle : ∀ i : Nat, i < 3 → c.cli i = Proc.idle) :
    ∃ c2, Server.runCMP u v junk c
        = Except.ok (cmpFlags (if u > v then 1 else if u < v then 10288 else 0), c2) ∧
      (∀ i : Nat, i < 3 → c2.cli i = Proc.idle) := by
  obtain ⟨c2, h, hk⟩ := Server_runCMP_core u v junk c hidle
  rw [cmp_semantics u v hu hv] at h
  exact ⟨c2, h, hk⟩

theorem cmpFlags_value (a b : Int) :
    cmpFlags (if a > b then 1 else if a < b then 10288 else 0)
      = (if a ≥ b then 1 else 0, if a = b then 1 else 0) := by
  have e : MOD / 2 = 5144 := by decide
  unfold cmpFlags
  rw [e]
  refine Prod.ext ?_ ?_ <;> dsimp only <;> split_ifs <;> omega

theorem serverStep_lt (a b : Int) (junk junk2 : Nat → Int) :
    serverStep "<" a b junk junk2 = (do
      let (c, _) ← Server.runCMP a b junk
      pure (some (if c = 0 then 1 else 0))) := by
  unfold serverStep
  rw [if_neg (by decide), if_neg (by decide), if_neg (by decide), if_pos rfl]

theorem serverStep_le (a b : Int) (junk junk2 : Nat → Int) :
    serverStep "<=" a b junk junk2 = (do
      let (c, _) ← Server.runCMP b a junk
      pure (some (if c ≠ 0 then 1 else 0))) := by
  unfold serverStep
  rw [if_neg (by decide), if_neg (by decide), if_neg (by decide), if_neg (by decide),
    if_pos rfl]

theorem serverStep_gt (a b : Int) (junk junk2 : Nat → Int) :
    serverStep ">" a b junk junk2 = (do
      let (c, _) ← Server.runCMP b a junk
      pure (some (if c = 0 then 1 else 0))) := by
  unfold serverStep
  rw [if_neg (by decide), if_neg (by decide), if_neg (by decide), if_neg (by decide),
    if_neg (by decide), if_pos rfl]

theorem serverStep_ge (a b : Int) (junk junk2 : Nat → Int) :
    serverStep ">=" a b junk junk2 = (do
      let (c, _) ← Server.runCMP a b junk
      pure (some (if c ≠ 0 then 1 else 0))) := by
  unfold serverStep
  rw [if_neg (by decide), if_neg (by decide), if_neg (by decide), if_neg (by decide),
    if_neg (by decide), if_neg (by decide), if_pos rfl]

theorem serverStep_eq (a b : Int) (junk junk2 : Nat → Int) :
    serverStep "==" a b junk junk2 = (do
      let (_, e) ← Server.runCMP a b junk
      pure (some (if e ≠ 0 then 1 else 0))) := by
  unfold serverStep
  rw [if_neg (by decide), if_neg (by decide), if_neg (by decide), if_neg (by decide),
    if_neg (by decide), if_neg (by decide), if_neg (by decide), if_pos rfl]

theorem serverStep_ne (a b : Int) (junk junk2 : Nat → Int) :
    serverStep "!=" a b junk junk2 = (do
      let (_, e) ← Server.runCMP a b junk
      pure (some (if e = 0 then 1 else 0))) := by
  unfold serverStep
  rw [if_neg (by decide), if_neg (by decide), if_neg (by decide), if_neg (by decide),
    if_neg (by decide), if_neg (by decide), if_neg (by decide), if_neg (by decide), if_pos rfl]

theorem serverStep_sub (a b : Int) (junk junk2 : Nat → Int) :
    serverStep "-" a b junk junk2 = (do
      let (c, _) ← Server.runCMP a b junk
      if c = 0 then do
        let result ← runADD (sub32 0 a) b junk2
        pure (some (mul32 (-1) result))
      else do
        let result ← runADD a (sub32 0 b) junk2
        pure (some result)) := by
  unfold serverStep
  rw [if_neg (by decide), if_pos rfl]

theorem pair_eval {α : Type} (m : Coord (Int × Int)) (f : Int → Int → α) (c : NetIntContext)
    (p : Int × Int) (c1 : NetIntContext) (y : α) (h : m c = Except.ok (p, c1))
    (hy : f p.1 p.2 = y) :
    (do
      let (x1, x2) ← m
      pure (f x1 x2) : Coord α) c = Except.ok (y, c1) := by
  rw [bind_ok h, ← hy]
  rfl

theorem RECONSTRUCT_bounds (shares : Nat → Int) :
    0 ≤ RECONSTRUCT shares ∧ RECONSTRUCT shares < 10289 := by
  unfold RECONSTRUCT
  simp only [NP, List.range_succ, List.range_zero, List.nil_append, List.cons_append,
    List.foldl_cons, List.foldl_nil]
  unfold MOD
  generalize add32 (cmod (add32 (cmod (add32 0 (mul32 (gammaArray 0) (shares 0))) 10289)
    (mul32 (gammaArray 1) (shares 1))) 10289) (mul32 (gammaArray 2) (shares 2)) = x
  have h := cmod_abs x
  split_ifs with hneg
  · unfold add32
    rw [wrap32_id (by omega) (by omega)]
    omega
  · omega

theorem result_bind {α β : Type} (P : β → Prop) (m : Coord α) (f : α → Coord β)
    (h : ∀ a c x c2, f a c = Except.ok (x, c2) → P x) :
    ∀ c x c2, (m >>= f) c = Except.ok (x, c2) → P x := by
  intro c x c2 hr
  obtain ⟨a, c1, _, h2⟩ := bind_inv hr
  exact h a c1 x c2 h2

theorem runCMP_range (u v : Int) (c : NetIntContext) (cmp : Int) (c2 : NetIntContext)
    (h : runCMP u v c = Except.ok (cmp, c2)) : 0 ≤ cmp ∧ cmp < 10289 := by
  unfold runCMP at h
  refine result_bind (fun x => 0 ≤ x ∧ x < 10289) _ _ (fun s => ?_) c cmp c2 h
  have hjp : ∀ (p : Prop) (d : Decidable p) (e : Err) (jp : PUnit → Coord Int),
      (∀ y c x c2, jp y c = Except.ok (x, c2) → 0 ≤ x ∧ x < 10289) →
      ∀ c x c2, (@ite _ p d (fail e >>= jp) (pure PUnit.unit >>= jp)) c = Except.ok (x, c2) →
        0 ≤ x ∧ x < 10289 := by
    intro p d e jp hj
    split_ifs
    · exact result_bind _ _ _ hj
    · exact result_bind _ _ _ hj
  apply hjp
  intro _
  refine result_bind _ _ _ (fun uv => ?_)
  refine result_bind _ _ _ (fun r0 => ?_)
  refine result_bind _ _ _ (fun _ => ?_)
  refine result_bind _ _ _ (fun _ => ?_)
  refine result_bind _ _ _ (fun _ => ?_)
  refine result_bind _ _ _ (fun _ => ?_)
  refine result_bind _ _ _ (fun rs => ?_)
  intro c x c2 hx
  have e : x = reconstruct rs := by
    have := congrArg (fun r => match r with
      | Except.ok (y, _) => y
      | Except.error _ => 0) hx
    exact this.symm
  rw [e]
  exact RECONSTRUCT_bounds rs

theorem thresholds_agree (cmp : Int) (h : 0 ≤ cmp ∧ cmp < MOD) :
    (if cmp > MOD / 2 then (1 : Int) else 0) = (if (cmpFlags cmp).1 = 0 then 1 else 0) ∧
    (if cmp = 0 then (1 : Int) else 0) = (if (cmpFlags cmp).2 ≠ 0 then 1 else 0) := by
  have e : MOD / 2 = 5144 := by decide
  unfold cmpFlags
  dsimp only
  rw [e]
  constructor <;> split_ifs <;> omega

theorem map_result {α : Type} (m : Coord Int) (f g : Int → α)
    (h : ∀ c x c2, m c = Except.ok (x, c2) → f x = g x) :
    (do let x ← m; pure (f x) : Coord α) = (do let x ← m; pure (g x)) := by
  funext c
  cases hm : m c with
  | error e => rw [bind_error hm, bind_error hm]
  | ok p =>
    obtain ⟨x, c2⟩ := p
    rw [bind_ok hm, bind_ok hm, h c x c2 hm]

theorem sendTasks_sending (c : NetIntContext) (mk : Nat → task_t) (R : Nat → response_t)
    (K : Nat → Proc) (h : ∀ i : Nat, i < 3 → c.cli i = Proc.send (R i) (K i)) :
    ((List.range 3).forM fun j => do
        let _ ← sendTask j (mk j)) c = Except.ok (PUnit.unit, { c with
          log := c.log ++ [Event.sentTask 0 (mk 0), Event.sentTask 1 (mk 1),
            Event.sentTask 2 (mk 2)] }) := by
  have h0 := h 0 (by decide)
  have h1 := h 1 (by decide)
  have h2 := h 2 (by decide)
  simp [List.range_succ, bind, StateT.bind, Except.bind, sendTask, h0, h1, h2, pure,
    StateT.pure, Except.pure]

theorem serverCollect_skip (c : NetIntContext) (junk : Nat → Int) (R : Nat → response_t)
    (hop : ∀ i : Nat, i < 3 → (R i).op ≠ OP_RES)
    (hcli : ∀ i : Nat, i < 3 → c.cli i = Proc.send (R i) Proc.idle) :
    serverCollect junk c = Except.ok (junk, { c with
      cli := setCli (setCli (setCli c.cli 0 Proc.idle) 1 Proc.idle) 2 Proc.idle
      log := c.log ++ [Event.received 0 (some (R 0)), Event.received 1 (some (R 1)),
        Event.received 2 (some (R 2))] }) := by
  have h0 := hcli 0 (by decide)
  have h1 := hcli 1 (by decide)
  have h2 := hcli 2 (by decide)
  have p0 := hop 0 (by decide)
  have p1 := hop 1 (by decide)
  have p2 := hop 2 (by decide)
  simp [serverCollect, List.range_succ, bind, StateT.bind, Except.bind, recvAll, setCli, h0,
    h1, h2, p0, p1, p2, pure, StateT.pure, Except.pure]

theorem runADD_wrong_opcode (a b : Int) (junk : Nat → Int) (c : NetIntContext)
    (R : Nat → response_t) (hop : ∀ i : Nat, i < 3 → (R i).op ≠ OP_RES)
    (hcli : ∀ i : Nat, i < 3 → c.cli i = Proc.send (R i) Proc.idle) :
    ∃ c2, runADD a b junk c = Except.ok (RECONSTRUCT junk, c2) := by
  obtain ⟨c1, hd, k1⟩ : ∃ c1, ((List.range 3).forM fun i => do
        let _ ← sendTask i
          { op := OP_ADD, a := htonl (toU32 (SPLIT i (cmod (rand c.rng).1 MOD) a)),
            b := htonl (toU32 (SPLIT i (cmod (rand (rand c.rng).2).1 MOD) b)),
            u_shares := fun _ => 0, v_shares := fun _ => 0 })
        { c with rng := (rand (rand c.rng).2).2 } = Except.ok (PUnit.unit, c1) ∧
      ∀ i : Nat, i < 3 → c1.cli i = Proc.send (R i) Proc.idle :=
    ⟨_, sendTasks_sending { c with rng := (rand (rand c.rng).2).2 } _ R (fun _ => Proc.idle)
      hcli, hcli⟩
  obtain ⟨c2, hc⟩ : ∃ c2, serverCollect junk c1 = Except.ok (junk, c2) :=
    ⟨_, serverCollect_skip c1 junk R hop k1⟩
  refine ⟨c2, ?_⟩
  unfold runADD
  rw [bind_at ((rand c.rng).1) ({ c with rng := (rand c.rng).2 }) rfl,
    bind_at ((rand (rand c.rng).2).1) ({ c with rng := (rand (rand c.rng).2).2 }) rfl]
  rw [bind_ok hd, bind_ok hc]
  rfl

theorem ok_inj {α : Type} {x y : α} {c d : NetIntContext}
    (h : (Except.ok (x, c) : Except (Err × NetIntContext) (α × NetIntContext))
      = Except.ok (y, d)) : x = y ∧ c = d := by
  simp only [Except.ok.injEq, Prod.mk.injEq] at h
  exact h

theorem recvAll_inv (i : Nat) (c : NetIntContext) (m : Option response_t)
    (d : NetIntContext) (h : recvAll i c = Except.ok (m, d)) :
    d.log = c.log ++ [Event.received i m] ∧ d.rng = c.rng := by
  unfold recvAll at h
  cases hc : c.cli i with
  | send r k =>
    rw [hc] at h
    obtain ⟨e1, e2⟩ := ok_inj h
    subst e1 e2
    exact ⟨rfl, rfl⟩
  | exit s =>
    rw [hc] at h
    obtain ⟨e1, e2⟩ := ok_inj h
    subst e1 e2
    exact ⟨rfl, rfl⟩
  | reset =>
    rw [hc] at h
    obtain ⟨e1, e2⟩ := ok_inj h
    subst e1 e2
    exact ⟨rfl, rfl⟩
  | recv k =>
    rw [hc] at h
    exact absurd h (by simp)
  | idle =>
    rw [hc] at h
    exact absurd h (by simp)

theorem returns_sendREN (G : response_t → Prop) (rs : Nat → Int) (xs : List Nat) :
    Returns (onRecv G) (sendREN rs xs) := by
  induction xs with
  | nil => exact returns_pure _ _
  | cons x xs ih =>
    unfold sendREN
    exact returns_bind (returns_sendResponse G x _)
      (fun ok => returns_ite (returns_pure _ _) ih)

theorem returns_waitRENORM : Returns (onRecv fun r => r.op = OP_REN) waitRENORM := by
  unfold waitRENORM
  refine returns_bind (returns_foldlM _ (fun b i => ?_) _ _) (fun _ => ?_)
  · intro c a c2 h
    obtain ⟨m, c1, h1, h2⟩ := bind_inv h
    obtain ⟨l1, _⟩ := recvAll_inv i c m c1 h1
    cases m with
    | none => exact absurd h2 (by simp [fail])
    | some r =>
      by_cases hop : r.op = OP_REN
      · simp only [hop, if_true] at h2
        have e : c1 = c2 := (ok_inj h2).2
        subst e
        exact ⟨[Event.received i (some r)], l1, fun x hx => by
          rw [List.mem_singleton.1 hx]; exact hop⟩
      · simp only [hop, if_false] at h2
        exact absurd h2 (by simp [fail])
  · exact returns_bind (returns_renormalize _ _) (fun _ => returns_sendREN _ _ _)

/-- C21: a frame with an unexpected opcode. In NetInt.h, `runAdd`, `runMul` and `waitRenorm`
return only when every frame they read was complete and carried the expected opcode (RES for
the collections, REN for a renormalization cycle); otherwise they end with an exception, and
so does `waitRENORM` of server.c (with `exit`). The collection of NetInt.h `runCMP` has no
such test: against three peers that answer the 69 cycles and then send a REN frame with value
1 where RES is due, `runCMP u v` returns 1 for all `u`, `v` and every state of the random
source. In server.c, `runADD` against three peers whose pending frame has opcode REN returns
the reconstruction of the unassigned array `resultShares`. -/
theorem C21_unexpected_opcode :
    (∀ a b : Int, Returns (onRecv fun r => r.op = OP_RES) (runAdd a b)) ∧
    (∀ a b : Int, Returns (onRecv fun r => r.op = OP_RES) (runMul a b)) ∧
    Returns (onRecv fun r => r.op = OP_REN) waitRenorm ∧
    Returns (onRecv fun r => r.op = OP_REN) waitRENORM ∧
    (∀ (u v : Int) (g : Rng), ∃ c2,
      runCMP u v (renSession { op := OP_REN, value := htonl (toU32 1) } g)
        = Except.ok (1, c2) ∧
      ∃ pre, c2.log.map Event.tag = pre ++
        [Tag.fromAgent 0 OP_REN, Tag.fromAgent 1 OP_REN, Tag.fromAgent 2 OP_REN]) ∧
    (∀ (a b : Int) (junk : Nat → Int) (g : Rng), ∃ c2,
      runADD a b junk
        { initialized := true, cli := fun _ => Proc.send { op := OP_REN, value := 0 } Proc.idle,
          rng := g, log := [] }
        = Except.ok (RECONSTRUCT junk, c2)) :=
  ⟨returns_runAdd, returns_runMul, returns_waitRenorm, returns_waitRENORM,
    fun u v g => runCMP_renPeer u v g 1 (by decide),
    fun a b junk g => runADD_wrong_opcode a b junk _ (fun _ => { op := OP_REN, value := 0 })
      (fun _ _ => show OP_REN ≠ OP_RES by decide) (fun _ _ => rfl)⟩

/-- C22: `runRENORM(s)` sends exactly one response frame, with opcode REN and value `s`, and
then reads one response frame. If that frame is complete and its opcode is REN the function
returns the frame's value (the agent goes on with `k` applied to it); if the frame is short, or
complete with any other opcode, the agent sends nothing more and terminates with
`EXIT_FAILURE`, which is non-zero: the caller's continuation `k` is not entered. -/
theorem C22_agent_renorm_contract (s : Int) (k : Int → Proc) (r : response_t)
    (ins : List (Option response_t)) (hs : -2147483648 ≤ s ∧ s < 2147483648) :
    Proc.run (runRENORM s k) []
      = ([{ op := OP_REN, value := htonl (toU32 s) }],
         Proc.recv fun m =>
           match m with
           | none => Proc.exit EXIT_FAILURE
           | some r => if r.op = OP_REN then k (toI32 (ntohl r.value))
                       else Proc.exit EXIT_FAILURE) ∧
    toI32 (ntohl (htonl (toU32 s))) = s ∧
    (r.op = OP_REN → Proc.run (runRENORM s k) (some r :: ins)
      = ({ op := OP_REN, value := htonl (toU32 s) } :: (Proc.run (k (toI32 (ntohl r.value))) ins).1,
         (Proc.run (k (toI32 (ntohl r.value))) ins).2)) ∧
    (r.op ≠ OP_REN → Proc.run (runRENORM s k) (some r :: ins)
      = ([{ op := OP_REN, value := htonl (toU32 s) }], Proc.exit EXIT_FAILURE)) ∧
    Proc.run (runRENORM s k) (none :: ins)
      = ([{ op := OP_REN, value := htonl (toU32 s) }], Proc.exit EXIT_FAILURE) ∧
    EXIT_FAILURE ≠ 0 := by
  refine ⟨rfl, ?_, fun h => ?_, fun h => ?_, ?_, by decide⟩
  · rw [ntohl_htonl _ (toU32_lt s), toI32_toU32 s hs.1 hs.2]
  · unfold runRENORM
    rw [run_send, run_recv_cons]
    simp only [h, if_true]
  · unfold runRENORM
    rw [run_send, run_recv_cons]
    simp only [h, if_false, run_exit]
  · unfold runRENORM
    rw [run_send, run_recv_cons]
    simp only [run_exit]

theorem C22_witness :
    Proc.run (runRENORM 4242 fun _ => Proc.idle) [some { op := OP_RES, value := 7 }]
      = ([{ op := OP_REN, value := htonl (toU32 4242) }], Proc.exit EXIT_FAILURE) :=
  (C22_agent_renorm_contract 4242 (fun _ => Proc.idle) { op := OP_RES, value := 7 } []
    (by decide)).2.2.2.1 (by decide)

/-- C23 (amended): if the agent's read of a task frame returns fewer bytes than a full task
frame (the stream ends before the 121 bytes of a task frame have arrived), the agent handles
no task and sends no frame: `main` leaves the task loop, closes the socket and returns
status 0, which is not the failure status. -/
theorem C23_agent_short_read (stream : List Nat) (ins : List (Option response_t))
    (h : stream.length < 121) :
    (∀ t : task_t, (taskBytes t).length = 121) ∧
    agentRead stream = none ∧ agentMain stream = Proc.exit 0 ∧
    Proc.run (agentMain stream) ins = ([], Proc.exit 0) ∧ (0 : Int) ≠ EXIT_FAILURE := by
  have e : agentRead stream = none := by
    unfold agentRead l
    rw [if_pos (by omega)]
  refine ⟨taskBytes_length, e, ?_, ?_, by decide⟩
  · unfold agentMain; rw [e]; rfl
  · unfold agentMain; rw [e]
    exact run_exit 0 ins

theorem C23_witness :
    agentRead [3, 0, 0, 0] = none ∧ agentMain [3, 0, 0, 0] = Proc.exit 0 ∧
    Proc.run (agentMain [3, 0, 0, 0]) [] = ([], Proc.exit 0) :=
  ⟨(C23_agent_short_read [3, 0, 0, 0] [] (by decide)).2.1,
    (C23_agent_short_read [3, 0, 0, 0] [] (by decide)).2.2.1,
    (C23_agent_short_read [3, 0, 0, 0] [] (by decide)).2.2.2.1⟩

/-- C23, as stated, fails: when the stream ends four bytes into a task frame the agent
terminates with status 0, which is not a failure status. -/
theorem C23_counterexample :
    ([3, 0, 0, 0] : List Nat).length < 121 ∧ agentMain [3, 0, 0, 0] = Proc.exit 0 ∧
    agentMain [3, 0, 0, 0] ≠ Proc.exit EXIT_FAILURE := by
  refine ⟨by decide, rfl, ?_⟩
  intro h
  have e : agentMain [3, 0, 0, 0] = Proc.exit 0 := rfl
  rw [e] at h
  simp [EXIT_FAILURE] at h

/-- C24: for all `x, y` in `[0, p)` the `int32_t` product `x * y` does not wrap (it is at most
`10288^2 < 2^31`), so `(x * y) % MOD` in C is the mathematical `(x * y) mod p`. This covers the
agent's MUL answer, the products of the CMP rounds, the product of `MultTest`, and the
`gamma * share` products of `RECONSTRUCT` and `RENORMALIZE`, whose results are the exact
residues. -/
theorem C24_products_do_not_overflow (x y : Int) (g : Rng) (shares : Nat → Int) (j : Nat)
    (s : CmpLocals) (K : CmpLocals → Proc)
    (hx : 0 ≤ x ∧ x < MOD) (hy : 0 ≤ y ∧ y < MOD)
    (hs : ∀ k : Nat, k < 3 → 0 ≤ shares k ∧ shares k < MOD)
    (hp : 0 ≤ s.prefixEq_share (j - 1) ∧ s.prefixEq_share (j - 1) < MOD)
    (he : 0 ≤ s.eq_share (j - 1) ∧ s.eq_share (j - 1) < MOD) :
    (-2147483648 ≤ x * y ∧ x * y < 2147483648) ∧ mul32 x y = x * y ∧
    cmod (mul32 x y) MOD = (x * y) % MOD ∧
    (mul32 (gammaArray j) x = gammaArray j * x ∧
      -2147483648 ≤ gammaArray j * x ∧ gammaArray j * x < 2147483648) ∧
    agentTask { op := OP_MUL, a := htonl (toU32 x), b := htonl (toU32 y),
                u_shares := fun _ => 0, v_shares := fun _ => 0 }
      = Proc.send { op := OP_RES, value := htonl (toU32 ((x * y) % MOD)) } Proc.idle ∧
    cmpPrefixRound j s K
      = runRENORM ((s.prefixEq_share (j - 1) * s.eq_share (j - 1)) % MOD)
          (fun r => K { s with prefixEq_share := setAt s.prefixEq_share j r }) ∧
    MultTest x y g = ((x * y) % MOD, (x * y) % MOD) ∧
    RECONSTRUCT shares
      = (gammaArray 0 * shares 0 + gammaArray 1 * shares 1 + gammaArray 2 * shares 2) % MOD ∧
    (∀ k : Nat, k < 3 → (RENORMALIZE shares g).1 k
      = (3 * shares 0 + 10286 * shares 1 + shares 2 +
          (3 * draw g 2 + 10286 * draw g 3 + draw g 4 + (10289 - draw g 1)) * (k + 1)) % MOD) := by
  unfold MOD at hx hy hs hp he
  have hb := mul_share_bound hx hy
  have hg := mul_share_bound (gamma_range j) hx
  refine ⟨⟨by omega, hb.2⟩, mul32_exact hx hy, cmod_mul32 hx hy,
    ⟨mul32_exact (gamma_range j) hx, by omega, hg.2⟩, ?_, ?_, MultTest_spec x y g hx hy, ?_,
    fun k hk => RENORMALIZE_val shares g (hs 0 (by decide)) (hs 1 (by decide))
      (hs 2 (by decide)) k hk⟩
  · rw [agentTask_mul _ rfl]
    show Proc.send { op := OP_RES, value := htonl (toU32 (cmod (mul32
      (toI32 (ntohl (htonl (toU32 x)))) (toI32 (ntohl (htonl (toU32 y))))) MOD)) } Proc.idle = _
    rw [wire_value x hx, wire_value y hy, cmod_mul32 hx hy]
    rfl
  · unfold cmpPrefixRound
    simp only [cmod_mul32 hp he]
    rfl
  · rw [RECONSTRUCT_val shares (hs 0 (by decide)) (hs 1 (by decide)) (hs 2 (by decide))]
    have e0 : gammaArray 0 = 3 := rfl
    have e1 : gammaArray 1 = 10286 := by decide
    have e2 : gammaArray 2 = 1 := rfl
    rw [e0, e1, e2, one_mul]
    rfl

theorem C24_witness :
    (-2147483648 ≤ (10288 : Int) * 10288 ∧ (10288 : Int) * 10288 < 2147483648) ∧
    mul32 10288 10288 = 10288 * 10288 ∧
    cmod (mul32 10288 10288) MOD = (10288 * 10288) % MOD :=
  have h := C24_products_do_not_overflow 10288 10288 (fun n => 31 * n + 7) (fun _ => 10288) 1
    { u_shares := fun _ => 0, v_shares := fun _ => 0, eq_share := fun _ => 10288,
      gt_share := fun _ => 0, lt_share := fun _ => 0, prefixEq_share := fun _ => 10288,
      flag_share := fun _ => 0, cmp_share := 0 } (fun _ => Proc.idle)
    (by decide) (by decide) (fun _ _ => show (0 : Int) ≤ 10288 ∧ (10288 : Int) < MOD by decide)
    (by decide) (by decide)
  ⟨h.1, h.2.1, h.2.2.1⟩

/-- C25: for all `a, b` in `[0, 2^14)`, every state of the random source and every content of
the unassigned result array, with the three agents waiting for a task, the REPL step of
server.c answers `<`, `<=`, `>`, `>=`, `==`, `!=` with 1 exactly when the relation holds
between `a` and `b` and with 0 otherwise; the flags of `runCMP(a, b)` are `c = 1` iff `a ≥ b`
and `e = 1` iff `a = b`. -/
theorem C25_cli_comparisons (a b : Int) (junk junk2 : Nat → Int) (c : NetIntContext)
    (ha : 0 ≤ a ∧ a < 2 ^ l) (hb : 0 ≤ b ∧ b < 2 ^ l)
    (hidle : ∀ i : Nat, i < 3 → c.cli i = Proc.idle) :
    (∃ c2, Server.runCMP a b junk c
      = Except.ok ((if a ≥ b then 1 else 0, if a = b then 1 else 0), c2)) ∧
    (∃ c2, serverStep "<" a b junk junk2 c
      = Except.ok (some (if a < b then 1 else 0), c2)) ∧
    (∃ c2, serverStep "<=" a b junk junk2 c
      = Except.ok (some (if a ≤ b then 1 else 0), c2)) ∧
    (∃ c2, serverStep ">" a b junk junk2 c
      = Except.ok (some (if a > b then 1 else 0), c2)) ∧
    (∃ c2, serverStep ">=" a b junk junk2 c
      = Except.ok (some (if a ≥ b then 1 else 0), c2)) ∧
    (∃ c2, serverStep "==" a b junk junk2 c
      = Except.ok (some (if a = b then 1 else 0), c2)) ∧
    (∃ c2, serverStep "!=" a b junk junk2 c
      = Except.ok (some (if a ≠ b then 1 else 0), c2)) := by
  have ha2 : 0 ≤ a ∧ a < 16384 := by simpa [l] using ha
  have hb2 : 0 ≤ b ∧ b < 16384 := by simpa [l] using hb
  obtain ⟨c1, h1, _⟩ := Server_cmp_value a b ha2 hb2 junk c hidle
  obtain ⟨c2, h2, _⟩ := Server_cmp_value b a hb2 ha2 junk c hidle
  rw [cmpFlags_value] at h1 h2
  have v1 : (if (if a ≥ b then (1 : Int) else 0) = 0 then (1 : Int) else 0)
      = (if a < b then 1 else 0) := by split_ifs <;> omega
  have v2 : (if (if b ≥ a then (1 : Int) else 0) ≠ 0 then (1 : Int) else 0)
      = (if a ≤ b then 1 else 0) := by split_ifs <;> omega
  have v3 : (if (if b ≥ a then (1 : Int) else 0) = 0 then (1 : Int) else 0)
      = (if a > b then 1 else 0) := by split_ifs <;> omega
  have v4 : (if (if a ≥ b then (1 : Int) else 0) ≠ 0 then (1 : Int) else 0)
      = (if a ≥ b then 1 else 0) := by split_ifs <;> omega
  have v5 : (if (if a = b then (1 : Int) else 0) ≠ 0 then (1 : Int) else 0)
      = (if a = b then 1 else 0) := by split_ifs <;> omega
  have v6 : (if (if a = b then (1 : Int) else 0) = 0 then (1 : Int) else 0)
      = (if a ≠ b then 1 else 0) := by split_ifs <;> omega
  have t1 := pair_eval _ (fun x _ => some (if x = 0 then (1 : Int) else 0)) c _ c1
    (some (if a < b then 1 else 0)) h1 (congrArg some v1)
  have t2 := pair_eval _ (fun x _ => some (if x ≠ 0 then (1 : Int) else 0)) c _ c2
    (some (if a ≤ b then 1 else 0)) h2 (congrArg some v2)
  have t3 := pair_eval _ (fun x _ => some (if x = 0 then (1 : Int) else 0)) c _ c2
    (some (if a > b then 1 else 0)) h2 (congrArg some v3)
  have t4 := pair_eval _ (fun x _ => some (if x ≠ 0 then (1 : Int) else 0)) c _ c1
    (some (if a ≥ b then 1 else 0)) h1 (congrArg some v4)
  have t5 := pair_eval _ (fun _ x => some (if x ≠ 0 then (1 : Int) else 0)) c _ c1
    (some (if a = b then 1 else 0)) h1 (congrArg some v5)
  have t6 := pair_eval _ (fun _ x => some (if x = 0 then (1 : Int) else 0)) c _ c1
    (some (if a ≠ b then 1 else 0)) h1 (congrArg some v6)
  rw [serverStep_lt, serverStep_le, serverStep_gt, serverStep_ge, serverStep_eq, serverStep_ne]
  exact ⟨⟨c1, h1⟩, ⟨c1, t1⟩, ⟨c2, t2⟩, ⟨c2, t3⟩, ⟨c1, t4⟩, ⟨c1, t5⟩, ⟨c1, t6⟩⟩

theorem C25_witness :
    (∃ c2, Server.runCMP 7 100 (fun _ => 0) (session fun n => 31 * n + 7)
      = Except.ok ((if (7 : Int) ≥ 100 then 1 else 0, if (7 : Int) = 100 then 1 else 0), c2)) ∧
    (∃ c2, serverStep "<" 7 100 (fun _ => 0) (fun _ => 0) (session fun n => 31 * n + 7)
      = Except.ok (some (if (7 : Int) < 100 then 1 else 0), c2)) ∧
    (∃ c2, serverStep "<=" 7 100 (fun _ => 0) (fun _ => 0) (session fun n => 31 * n + 7)
      = Except.ok (some (if (7 : Int) ≤ 100 then 1 else 0), c2)) ∧
    (∃ c2, serverStep ">" 7 100 (fun _ => 0) (fun _ => 0) (session fun n => 31 * n + 7)
      = Except.ok (some (if (7 : Int) > 100 then 1 else 0), c2)) ∧
    (∃ c2, serverStep ">=" 7 100 (fun _ => 0) (fun _ => 0) (session fun n => 31 * n + 7)
      = Except.ok (some (if (7 : Int) ≥ 100 then 1 else 0), c2)) ∧
    (∃ c2, serverStep "==" 7 100 (fun _ => 0) (fun _ => 0) (session fun n => 31 * n + 7)
      = Except.ok (some (if (7 : Int) = 100 then 1 else 0), c2)) ∧
    (∃ c2, serverStep "!=" 7 100 (fun _ => 0) (fun _ => 0) (session fun n => 31 * n + 7)
      = Except.ok (some (if (7 : Int) ≠ 100 then 1 else 0), c2)) :=
  C25_cli_comparisons 7 100 (fun _ => 0) (fun _ => 0) (session fun n => 31 * n + 7)
    (by decide) (by decide) (fun _ _ => rfl)

/-- C26: for all `a, b` in `[0, p)`, every state of the random source and every content of the
unassigned result arrays, with the three agents waiting for a task, the `-` branch of the REPL
step of server.c (`runCMP(a, b)`, then `-1 * runADD(-a, b)` when `c` is 0 and `runADD(a, -b)`
otherwise) yields the integer `a - b`, which is negative when `a < b`. -/
theorem C26_cli_subtraction (a b : Int) (junk junk2 : Nat → Int) (c : NetIntContext)
    (ha : 0 ≤ a ∧ a < MOD) (hb : 0 ≤ b ∧ b < MOD)
    (hidle : ∀ i : Nat, i < 3 → c.cli i = Proc.idle) :
    (∃ c2, serverStep "-" a b junk junk2 c = Except.ok (some (a - b), c2)) ∧
    (a < b → a - b < 0) ∧
    (∃ c1 c2, Server.runCMP a b junk c = Except.ok ((if a ≥ b then 1 else 0,
        if a = b then 1 else 0), c1) ∧
      (a < b → runADD (sub32 0 a) b junk2 c1 = Except.ok (b - a, c2) ∧
        mul32 (-1) (b - a) = a - b) ∧
      (a ≥ b → runADD a (sub32 0 b) junk2 c1 = Except.ok (a - b, c2))) := by
  unfold MOD at ha hb
  have ha2 : 0 ≤ a ∧ a < 16384 := by omega
  have hb2 : 0 ≤ b ∧ b < 16384 := by omega
  obtain ⟨c1, h1, k1⟩ := Server_cmp_value a b ha2 hb2 junk c hidle
  rw [cmpFlags_value] at h1
  have na : sub32 0 a = -a := by
    unfold sub32
    rw [wrap32_id (by omega) (by omega)]
    omega
  have nb : sub32 0 b = -b := by
    unfold sub32
    rw [wrap32_id (by omega) (by omega)]
    omega
  by_cases hlt : a < b
  · obtain ⟨c2, h2, _⟩ := runADD_core (-a) b junk2 c1 (by omega) (by omega) k1
    have e2 : (-a + b) % 10289 = b - a := by omega
    have m1 : mul32 (-1) (b - a) = a - b := by
      unfold mul32
      rw [wrap32_id (by omega) (by omega)]
      omega
    rw [e2, ← na] at h2
    refine ⟨⟨c2, ?_⟩, fun _ => by omega, c1, c2, h1, fun _ => ⟨h2, m1⟩,
      fun h => absurd hlt (by omega)⟩
    rw [serverStep_sub, bind_ok h1]
    have hc : (if a ≥ b then (1 : Int) else 0) = 0 := by
      rw [if_neg (by omega)]
    dsimp only
    rw [if_pos hc, bind_ok h2, ← m1]
    rfl
  · obtain ⟨c2, h2, _⟩ := runADD_core a (-b) junk2 c1 (by omega) (by omega) k1
    have e2 : (a + -b) % 10289 = a - b := by omega
    rw [e2, ← nb] at h2
    refine ⟨⟨c2, ?_⟩, fun h => absurd h hlt, c1, c2, h1, fun h => absurd h hlt, fun _ => h2⟩
    rw [serverStep_sub, bind_ok h1]
    have hc : ¬ (if a ≥ b then (1 : Int) else 0) = 0 := by
      rw [if_pos (by omega)]
      decide
    dsimp only
    rw [if_neg hc, bind_ok h2]
    rfl

theorem C26_witness :
    (∃ c2, serverStep "-" 7 100 (fun _ => 0) (fun _ => 0) (session fun n => 31 * n + 7)
      = Except.ok (some (7 - 100), c2)) ∧ ((7 : Int) < 100 → (7 : Int) - 100 < 0) :=
  ⟨(C26_cli_subtraction 7 100 (fun _ => 0) (fun _ => 0) (session fun n => 31 * n + 7)
      (by decide) (by decide) (fun _ _ => rfl)).1,
    (C26_cli_subtraction 7 100 (fun _ => 0) (fun _ => 0) (session fun n => 31 * n + 7)
      (by decide) (by decide) (fun _ _ => rfl)).2.1⟩

/-- C27 (amended): the wrapper and the CLI read `cmp` the same way. For every `cmp` in `[0, p)`
the wrapper thresholds (`LT` is `cmp > p/2`, `EQ` is `cmp == 0`) give the answers the CLI
derives from the flags of server.c (`c = 1` iff `0 ≤ cmp ≤ p/2`, `e = 1` iff `cmp == 0`,
`LT = !c`, `EQ = e`); `runLT` and `runEQ` of NetInt.h are `runCMP` followed by the CLI
derivation, and the `<` and `==` branches of the REPL are server.c `runCMP` followed by the
same derivation. -/
theorem C27_wrapper_cli_agree :
    (∀ cmp : Int, 0 ≤ cmp ∧ cmp < MOD →
      (if cmp > MOD / 2 then (1 : Int) else 0) = (if (cmpFlags cmp).1 = 0 then 1 else 0) ∧
      (if cmp = 0 then (1 : Int) else 0) = (if (cmpFlags cmp).2 ≠ 0 then 1 else 0)) ∧
    (∀ a b : Int, runLT a b = (do
      let cmp ← runCMP a b
      pure (if (cmpFlags cmp).1 = 0 then 1 else 0))) ∧
    (∀ a b : Int, runEQ a b = (do
      let cmp ← runCMP a b
      pure (if (cmpFlags cmp).2 ≠ 0 then 1 else 0))) ∧
    (∀ (a b : Int) (junk junk2 : Nat → Int), serverStep "<" a b junk junk2 = (do
      let (c, _) ← Server.runCMP a b junk
      pure (some (if c = 0 then 1 else 0)))) ∧
    (∀ (a b : Int) (junk junk2 : Nat → Int), serverStep "==" a b junk junk2 = (do
      let (_, e) ← Server.runCMP a b junk
      pure (some (if e ≠ 0 then 1 else 0)))) ∧
    (∀ (u v : Int) (c : NetIntContext) (cmp : Int) (c2 : NetIntContext),
      runCMP u v c = Except.ok (cmp, c2) → 0 ≤ cmp ∧ cmp < MOD) := by
  refine ⟨thresholds_agree, fun a b => ?_, fun a b => ?_, serverStep_lt, serverStep_eq,
    runCMP_range⟩
  · exact map_result (runCMP a b) (fun cmp => if cmp > MOD / 2 then 1 else 0) _
      (fun c x c2 h => (thresholds_agree x (runCMP_range a b c x c2 h)).1)
  · exact map_result (runCMP a b) (fun cmp => if cmp = 0 then 1 else 0) _
      (fun c x c2 h => (thresholds_agree x (runCMP_range a b c x c2 h)).2)

/-- C27, as stated, fails: no `cmp` in `[0, p)` separates the wrapper thresholds from the CLI
derivation, neither for `LT` nor for `EQ`. -/
theorem C27_counterexample :
    ¬ ∃ cmp : Int, 0 ≤ cmp ∧ cmp < MOD ∧
      ((if cmp > MOD / 2 then (1 : Int) else 0) ≠ (if (cmpFlags cmp).1 = 0 then 1 else 0) ∨
       (if cmp = 0 then (1 : Int) else 0) ≠ (if (cmpFlags cmp).2 ≠ 0 then 1 else 0)) := by
  rintro ⟨cmp, h0, h1, h2⟩
  have h := thresholds_agree cmp ⟨h0, h1⟩
  rcases h2 with h2 | h2
  · exact h2 h.1
  · exact h2 h.2

/-- C28: the field modulus `MOD = 10289` is a prime number, and `3 * (MOD - 1)^2 < 2^63`. -/
theorem C28_modulus_prime :
    Nat.Prime MOD.toNat ∧ Prime MOD ∧ 3 * (MOD - 1) ^ 2 < 2 ^ 63 := by
  have hp : Nat.Prime 10289 := by norm_num
  refine ⟨hp, ?_, by decide⟩
  rw [Int.prime_iff_natAbs_prime]
  exact hp

/-- C29: the hard-wired bit length `l = 14` equals `floor(log2(MOD - 1)) + 1`, that is,
`2^13 ≤ MOD - 1 < 2^14`; hence every field element in `[0, p)` is a comparison operand in
`[0, 2^l)`. -/
theorem C29_bit_length :
    l = Nat.log 2 (MOD - 1).toNat + 1 ∧ (2 ^ 13 ≤ MOD - 1 ∧ MOD - 1 < 2 ^ 14) ∧
    (2 : Int) ^ (l - 1) ≤ MOD - 1 ∧ MOD - 1 < 2 ^ l ∧
    ∀ x : Int, 0 ≤ x ∧ x < MOD → 0 ≤ x ∧ x < 2 ^ l := by
  have hlog : Nat.log 2 10288 = 13 := by
    rw [Nat.log_eq_iff (by decide)]
    decide
  refine ⟨?_, by decide, by decide, by decide, fun x hx => ⟨hx.1, ?_⟩⟩
  · have e : (MOD - 1).toNat = 10288 := by decide
    rw [e, hlog]
    rfl
  · have h1 : MOD < 2 ^ l := by decide
    omega

theorem recon_add (a0 a1 a2 b0 b1 b2 : Int) :
    (3 * ((a0 + b0) % 10289) + 10286 * ((a1 + b1) % 10289) + (a2 + b2) % 10289) % 10289
      = ((3 * a0 + 10286 * a1 + a2) % 10289 + (3 * b0 + 10286 * b1 + b2) % 10289) % 10289 := by
  apply emod_eq_of_cast
  push_cast
  rw [cast_emod, cast_emod, cast_emod, cast_emod, cast_emod]
  push_cast
  ring

theorem SPLIT_unique (j : Nat) (hj : j < 3) (s y : Int) (hs : 0 ≤ s ∧ s < 10289)
    (hy : 0 ≤ y ∧ y < 10289) :
    ∃! r : Int, (0 ≤ r ∧ r < 10289) ∧ SPLIT j r s = y := by
  interval_cases j
  · refine ⟨(y - s) % 10289, ⟨by omega, ?_⟩, ?_⟩
    · show SPLIT (0 : Nat) _ s = y
      rw [SPLIT_val 0 (by decide) _ s (by omega) hs]
      norm_num
      omega
    · rintro r ⟨hr, h⟩
      have h2 : SPLIT (0 : Nat) r s = y := h
      rw [SPLIT_val 0 (by decide) r s hr hs] at h2
      norm_num at h2
      omega
  · refine ⟨((y - s) * 5145) % 10289, ⟨by omega, ?_⟩, ?_⟩
    · show SPLIT (1 : Nat) _ s = y
      rw [SPLIT_val 1 (by decide) _ s (by omega) hs]
      norm_num
      omega
    · rintro r ⟨hr, h⟩
      have h2 : SPLIT (1 : Nat) r s = y := h
      rw [SPLIT_val 1 (by decide) r s hr hs] at h2
      norm_num at h2
      omega
  · refine ⟨((y - s) * 3430) % 10289, ⟨by omega, ?_⟩, ?_⟩
    · show SPLIT (2 : Nat) _ s = y
      rw [SPLIT_val 2 (by decide) _ s (by omega) hs]
      norm_num
      omega
    · rintro r ⟨hr, h⟩
      have h2 : SPLIT (2 : Nat) r s = y := h
      rw [SPLIT_val 2 (by decide) r s hr hs] at h2
      norm_num at h2
      omega

theorem SPLIT_range (j : Nat) (hj : j < 3) (r s : Int) (hr : 0 ≤ r ∧ r < 10289)
    (hs : 0 ≤ s ∧ s < 10289) : 0 ≤ SPLIT j r s ∧ SPLIT j r s < 10289 := by
  rw [SPLIT_val j hj r s hr hs]
  omega

theorem valB_sum (b : Nat → Int) (n : Nat) :
    valB b n = Finset.sum (Finset.range n) (fun i => b i * 2 ^ (n - 1 - i)) := by
  induction n with
  | zero => simp [valB]
  | succ n ih =>
    rw [valB, ih, Finset.sum_range_succ, Finset.mul_sum]
    have e : n + 1 - 1 - n = 0 := by omega
    rw [e, pow_zero, mul_one]
    congr 1
    refine Finset.sum_congr rfl (fun i hi => ?_)
    have hi2 : i < n := Finset.mem_range.1 hi
    have e2 : n + 1 - 1 - i = (n - 1 - i) + 1 := by omega
    rw [e2, pow_succ]
    ring

theorem cmpB_sum (bu bv : Nat → Int) (n : Nat) :
    cmpB bu bv n
      = Finset.sum (Finset.range n) (fun j => prefB bu bv j * (gtB bu bv j - ltB bu bv j)) := by
  induction n with
  | zero => simp [cmpB]
  | succ n ih => rw [cmpB, ih, Finset.sum_range_succ, flagB]

theorem cmpBits_low (u : Int) : cmpBits (u % 16384) = cmpBits u := by
  funext k
  unfold cmpBits
  rw [foldl_setAt (fun i => bitAt (u % 16384) i), foldl_setAt (fun i => bitAt u i), bitAt_low]

theorem runCMP_congr (u v u2 v2 : Int) (hu : cmpBits u = cmpBits u2)
    (hv : cmpBits v = cmpBits v2) : runCMP u v = runCMP u2 v2 := by
  unfold runCMP
  rw [hu, hv]

theorem Server_runCMP_congr (u v u2 v2 : Int) (junk : Nat → Int) (hu : cmpBits u = cmpBits u2)
    (hv : cmpBits v = cmpBits v2) : Server.runCMP u v junk = Server.runCMP u2 v2 junk := by
  unfold Server.runCMP
  rw [hu, hv]

theorem xor_val (u v t : Int) (hu : 0 ≤ u ∧ u < 10289) (hv : 0 ≤ v ∧ v < 10289)
    (ht : 0 ≤ t ∧ t < 10289) :
    cmod (add32 (sub32 (add32 u v) (mul32 2 t)) MOD) MOD
      = (if 2 * t ≤ u + v + 10289 then (u + v - 2 * t) % 10289
         else (u + v - 2 * t) % 10289 - 10289) := by
  simp only [add32, sub32, mul32, MOD]
  simp (disch := omega) only [wrap32_id]
  split_ifs with h
  · rw [cmod_of_nonneg (by omega)]
    omega
  · rw [cmod_of_neg (by omega)]
    omega

theorem script_runRENORM (v : Int) (k : Int → Proc) (n : Nat) (hv : 0 ≤ v ∧ v < 10289)
    (hk : ∀ x : Int, 0 ≤ x ∧ x < 10289 → CmpScript n (k x)) :
    CmpScript (n + 1) (runRENORM v k) := by
  refine ⟨v, _, hv, rfl, rfl, fun r hr => ?_, fun r hr hx => ?_⟩
  · simp only [hr, if_false]
  · simp only [hr, if_true]
    exact hk _ hx

theorem script_forProc {σ : Type} (Inv : σ → Prop) (body : Nat → σ → (σ → Proc) → Proc)
    (c : Nat)
    (hbody : ∀ j s k n, Inv s → (∀ s2, Inv s2 → CmpScript n (k s2)) →
      CmpScript (n + c) (body j s k))
    (k : σ → Proc) (n : Nat) (hk : ∀ s2, Inv s2 → CmpScript n (k s2)) :
    ∀ (m j : Nat) (s : σ), Inv s → CmpScript (n + c * m) (forProc body m j s k) := by
  intro m
  induction m with
  | zero => intro j s hs; exact hk s hs
  | succ m ih =>
    intro j s hs
    have e : n + c * (m + 1) = (n + c * m) + c := by ring
    rw [e]
    exact hbody j s _ _ hs (fun s2 h2 => ih (j + 1) s2 h2)

theorem range_setAt {a : Nat → Int} (h : ∀ i, 0 ≤ a i ∧ a i < 10289) (j : Nat) {v : Int}
    (hv : 0 ≤ v ∧ v < 10289) : ∀ i, 0 ≤ setAt a j v i ∧ setAt a j v i < 10289 := by
  intro i
  unfold setAt
  split_ifs
  · exact hv
  · exact h i

theorem emod_range (x : Int) : 0 ≤ x % 10289 ∧ x % 10289 < 10289 := by omega

theorem script_bitRound (j : Nat) (s : CmpLocals) (k : CmpLocals → Proc) (n : Nat)
    (hs : CmpRange s) (hk : ∀ s2, CmpRange s2 → CmpScript n (k s2)) :
    CmpScript (n + 3) (cmpBitRound j s k) := by
  obtain ⟨hu, hv, he, hg, hl, hp, hf, hc⟩ := hs
  unfold cmpBitRound
  refine script_runRENORM _ _ (n + 2) (by rw [cmod_mul32 (hu j) (hv j)]; exact emod_range _)
    (fun t ht => ?_)
  dsimp only
  have g1 : 0 ≤ cmod (mul32 (s.u_shares j) (cmod (add32 (sub32 1 (s.v_shares j)) MOD) MOD)) MOD ∧
      cmod (mul32 (s.u_shares j) (cmod (add32 (sub32 1 (s.v_shares j)) MOD) MOD)) MOD < 10289 := by
    rw [one_sub_val _ (hv j), cmod_mul32 (hu j) (emod_range _)]
    exact emod_range _
  have l1 : 0 ≤ cmod (mul32 (cmod (add32 (sub32 1 (s.u_shares j)) MOD) MOD) (s.v_shares j)) MOD ∧
      cmod (mul32 (cmod (add32 (sub32 1 (s.u_shares j)) MOD) MOD) (s.v_shares j)) MOD < 10289 := by
    rw [one_sub_val _ (hu j), cmod_mul32 (emod_range _) (hv j)]
    exact emod_range _
  refine script_runRENORM _ _ (n + 1) (by rw [setAt_same]; exact g1) (fun r hr => ?_)
  dsimp only
  refine script_runRENORM _ _ n (by rw [setAt_same]; exact l1) (fun r2 hr2 => ?_)
  refine hk _ ⟨hu, hv, ?_, ?_, ?_, hp, hf, hc⟩
  · exact range_setAt he j (by rw [eq_val _ _ _ (hu j) (hv j) ht]; exact emod_range _)
  · exact range_setAt (range_setAt hg j g1) j hr
  · exact range_setAt (range_setAt hl j l1) j hr2

theorem script_prefixRound (j : Nat) (s : CmpLocals) (k : CmpLocals → Proc) (n : Nat)
    (hs : CmpRange s) (hk : ∀ s2, CmpRange s2 → CmpScript n (k s2)) :
    CmpScript (n + 1) (cmpPrefixRound j s k) := by
  obtain ⟨hu, hv, he, hg, hl, hp, hf, hc⟩ := hs
  unfold cmpPrefixRound
  refine script_runRENORM _ _ n (by rw [cmod_mul32 (hp _) (he _)]; exact emod_range _)
    (fun r hr => ?_)
  exact hk _ ⟨hu, hv, he, hg, hl, range_setAt hp j hr, hf, hc⟩

theorem script_flagRound (j : Nat) (s : CmpLocals) (k : CmpLocals → Proc) (n : Nat)
    (hs : CmpRange s) (hk : ∀ s2, CmpRange s2 → CmpScript n (k s2)) :
    CmpScript (n + 1) (cmpFlagRound j s k) := by
  obtain ⟨hu, hv, he, hg, hl, hp, hf, hc⟩ := hs
  unfold cmpFlagRound
  refine script_runRENORM _ _ n
    (by rw [diff_val _ _ (hg j) (hl j), cmod_mul32 (hp j) (emod_range _)]; exact emod_range _)
    (fun r hr => ?_)
  exact hk _ ⟨hu, hv, he, hg, hl, hp, range_setAt hf j hr, hc⟩

theorem cmpSum_range (s : CmpLocals) (hs : CmpRange s) : CmpRange (cmpSum s) := by
  unfold cmpSum
  refine foldl_range_inv _ (fun _ s => CmpRange s) l s hs (fun k s _ h => ?_)
  obtain ⟨hu, hv, he, hg, hl, hp, hf, hc⟩ := h
  refine ⟨hu, hv, he, hg, hl, hp, hf, ?_⟩
  show 0 ≤ cmod (add32 s.cmp_share (s.flag_share k)) MOD ∧ _ < 10289
  rw [sum_val _ _ hc (hf k)]
  exact emod_range _

theorem cmpDecode_range (t : task_t)
    (ha : 0 ≤ toI32 (ntohl t.a) ∧ toI32 (ntohl t.a) < 10289)
    (hu : ∀ i : Nat, i < l → 0 ≤ toI32 (ntohl (toU32 (t.u_shares i))) ∧
      toI32 (ntohl (toU32 (t.u_shares i))) < 10289)
    (hv : ∀ i : Nat, i < l → 0 ≤ toI32 (ntohl (toU32 (t.v_shares i))) ∧
      toI32 (ntohl (toU32 (t.v_shares i))) < 10289) : CmpRange (cmpDecode t) := by
  unfold cmpDecode
  refine foldl_range_inv _ (fun _ s => CmpRange s) l _ ?_ (fun k s hk h => ?_)
  · have z : (0 : Int) ≤ 0 ∧ (0 : Int) < 10289 := by decide
    exact ⟨fun _ => z, fun _ => z, fun _ => z, fun _ => z, fun _ => z, fun _ => z, fun _ => z, z⟩
  · obtain ⟨h1, h2, h3, h4, h5, h6, h7, h8⟩ := h
    exact ⟨range_setAt h1 k (hu k hk), range_setAt h2 k (hv k hk), h3, h4, h5,
      range_setAt h6 0 ha, h7, h8⟩

theorem script_agentTask (t : task_t) (ht : t.op = OP_CMP)
    (ha : 0 ≤ toI32 (ntohl t.a) ∧ toI32 (ntohl t.a) < 10289)
    (hu : ∀ i : Nat, i < l → 0 ≤ toI32 (ntohl (toU32 (t.u_shares i))) ∧
      toI32 (ntohl (toU32 (t.u_shares i))) < 10289)
    (hv : ∀ i : Nat, i < l → 0 ≤ toI32 (ntohl (toU32 (t.v_shares i))) ∧
      toI32 (ntohl (toU32 (t.v_shares i))) < 10289) : CmpScript 69 (agentTask t) := by
  rw [agentTask_cmp t ht]
  have e : 69 = ((0 + 1 * l) + 1 * (l - 1)) + 3 * l := by decide
  rw [e]
  refine script_forProc CmpRange cmpBitRound 3 script_bitRound _ _ (fun s1 h1 => ?_) l 0 _
    (cmpDecode_range t ha hu hv)
  refine script_forProc CmpRange cmpPrefixRound 1 script_prefixRound _ _ (fun s2 h2 => ?_)
    (l - 1) 1 _ h1
  refine script_forProc CmpRange cmpFlagRound 1 script_flagRound _ _ (fun s3 h3 => ?_)
    l 0 _ h2
  exact ⟨(cmpSum s3).cmp_share, (cmpSum_range s3 h3).2.2.2.2.2.2.2, rfl⟩

theorem run_idle (ins : List (Option response_t)) : Proc.run Proc.idle ins = ([], Proc.idle) := by
  cases ins <;> rfl

theorem script_run_range (n : Nat) : ∀ (P : Proc) (ins : List (Option response_t)),
    CmpScript n P →
    (∀ r : response_t, some r ∈ ins →
      0 ≤ toI32 (ntohl r.value) ∧ toI32 (ntohl r.value) < 10289) →
    ∀ q ∈ (Proc.run P ins).1, ∃ x : Int, (0 ≤ x ∧ x < 10289) ∧ q.value = htonl (toU32 x) := by
  induction n with
  | zero =>
    rintro P ins ⟨x, hx, rfl⟩ _ q hq
    rw [run_send, run_idle] at hq
    rw [List.mem_singleton.1 hq]
    exact ⟨x, hx, rfl⟩
  | succ n ih =>
    rintro P ins ⟨x, k, hx, rfl, k0, k1, k2⟩ hins q hq
    rw [run_send] at hq
    rcases List.mem_cons.1 hq with hq | hq
    · rw [hq]; exact ⟨x, hx, rfl⟩
    · cases ins with
      | nil => exact absurd hq (List.not_mem_nil _)
      | cons m ins =>
        rw [run_recv_cons] at hq
        cases m with
        | none =>
          rw [k0, run_exit] at hq
          exact absurd hq (List.not_mem_nil _)
        | some r =>
          by_cases hr : r.op = OP_REN
          · exact ih _ ins (k2 r hr (hins r (List.mem_cons_self _ _)))
              (fun r2 h2 => hins r2 (List.mem_cons_of_mem _ h2)) q hq
          · rw [k1 r hr, run_exit] at hq
            exact absurd hq (List.not_mem_nil _)

theorem script_run_complete (n : Nat) : ∀ (P : Proc) (ins : List (Option response_t)),
    CmpScript n P → ins.length = n →
    (∀ m ∈ ins, ∃ r : response_t, m = some r ∧ r.op = OP_REN ∧
      0 ≤ toI32 (ntohl r.value) ∧ toI32 (ntohl r.value) < 10289) →
    (Proc.run P ins).2 = Proc.idle ∧
    (Proc.run P ins).1.map (fun q => q.op) = List.replicate n OP_REN ++ [OP_RES] := by
  induction n with
  | zero =>
    rintro P ins ⟨x, hx, rfl⟩ _ _
    rw [run_send, run_idle]
    exact ⟨rfl, rfl⟩
  | succ n ih =>
    rintro P ins ⟨x, k, hx, rfl, k0, k1, k2⟩ hlen hins
    cases ins with
    | nil => exact absurd hlen (by simp)
    | cons m ins =>
      obtain ⟨r, hm, hr, hx2⟩ := hins m (List.mem_cons_self _ _)
      subst hm
      rw [run_send, run_recv_cons]
      obtain ⟨i1, i2⟩ := ih _ ins (k2 r hr hx2) (by simpa using hlen)
        (fun m2 h2 => hins m2 (List.mem_cons_of_mem _ h2))
      refine ⟨i1, ?_⟩
      rw [List.map_cons, i2]
      rfl

theorem cmp_exact (x y z : Int) (hx : 0 ≤ x ∧ x < 10289) (hy : 0 ≤ y ∧ y < 10289)
    (hz : 0 ≤ z ∧ z < 10289) :
    mul32 x y = x * y ∧
    (add32 x y = x + y ∧ mul32 2 z = 2 * z ∧
      sub32 (add32 x y) (mul32 2 z) = x + y - 2 * z ∧
      add32 (sub32 (add32 x y) (mul32 2 z)) MOD = x + y - 2 * z + MOD) ∧
    (sub32 1 (cmod (add32 (sub32 (add32 x y) (mul32 2 z)) MOD) MOD)
        = 1 - cmod (x + y - 2 * z + MOD) MOD ∧
      add32 (sub32 1 (cmod (add32 (sub32 (add32 x y) (mul32 2 z)) MOD) MOD)) MOD
        = 1 - cmod (x + y - 2 * z + MOD) MOD + MOD) ∧
    (sub32 1 y = 1 - y ∧ add32 (sub32 1 y) MOD = 1 - y + MOD ∧
      mul32 x (cmod (add32 (sub32 1 y) MOD) MOD) = x * ((1 - y) % MOD) ∧
      mul32 (cmod (add32 (sub32 1 x) MOD) MOD) y = ((1 - x) % MOD) * y) ∧
    (sub32 x y = x - y ∧ add32 (sub32 x y) MOD = x - y + MOD ∧
      mul32 z (cmod (add32 (sub32 x y) MOD) MOD) = z * ((x - y) % MOD)) := by
  have hm := mul_share_bound hx hy
  have hc := cmod_abs (x + y - 2 * z + 10289)
  refine ⟨mul32_exact hx hy, ⟨?_, ?_, ?_, ?_⟩, ⟨?_, ?_⟩, ⟨?_, ?_, ?_, ?_⟩, ?_, ?_, ?_⟩
  · unfold add32; exact wrap32_id (by omega) (by omega)
  · unfold mul32; exact wrap32_id (by omega) (by omega)
  · simp only [add32, sub32, mul32]
    simp (disch := omega) only [wrap32_id]
  · simp only [add32, sub32, mul32, MOD]
    simp (disch := omega) only [wrap32_id]
  · simp only [add32, sub32, mul32, MOD]
    simp (disch := omega) only [wrap32_id]
  · simp only [add32, sub32, mul32, MOD]
    simp (disch := omega) only [wrap32_id]
  · unfold sub32; exact wrap32_id (by omega) (by omega)
  · simp only [add32, sub32, MOD]
    simp (disch := omega) only [wrap32_id]
  · rw [one_sub_val y hy]
    exact mul32_exact hx (emod_range _)
  · rw [one_sub_val x hx]
    exact mul32_exact (emod_range _) hy
  · unfold sub32; exact wrap32_id (by omega) (by omega)
  · simp only [add32, sub32, MOD]
    simp (disch := omega) only [wrap32_id]
  · rw [diff_val x y hx hy]
    exact mul32_exact hz (emod_range _)

theorem cmod_cast (x : Int) : ((cmod x 10289 : Int) : ZMod 10289) = (x : ZMod 10289) := by
  have h := cmod_emod x
  have h1 := cast_emod (cmod x 10289)
  have h2 := cast_emod x
  rw [← h1, h, h2]

theorem char_zero_p : (10289 : ZMod 10289) = 0 := by
  have h := CharP.cast_eq_zero (ZMod 10289) 10289
  exact_mod_cast h

theorem combine_val (E0 E1 E2 R : Int) (h0 : -10289 < E0 ∧ E0 < 10289)
    (h1 : -10289 < E1 ∧ E1 < 10289) (h2 : -10289 < E2 ∧ E2 < 10289)
    (hR : 0 ≤ R ∧ R < 10289) :
    (let sum := cmod (add32 (cmod (add32 (cmod (add32 0 (mul32 GAMMA1 E0)) MOD)
        (mul32 GAMMA2 E1)) MOD) (mul32 GAMMA3 E2)) MOD
     let v := cmod (sub32 sum R) MOD
     if v < 0 then add32 v MOD else v) = (3 * E0 + 10286 * E1 + E2 - R) % 10289 := by
  simp only [add32, mul32, sub32, GAMMA1, GAMMA2, GAMMA3, MOD, zero_add]
  simp (disch := omega) only [wrap32_id]
  have b1 := cmod_abs (3 * E0)
  have c1 := cmod_cast (3 * E0)
  generalize cmod (3 * E0) 10289 = S1 at *
  simp (disch := omega) only [wrap32_id]
  have b2 := cmod_abs (S1 + (10289 - 3) * E1)
  have c2 := cmod_cast (S1 + (10289 - 3) * E1)
  generalize cmod (S1 + (10289 - 3) * E1) 10289 = S2 at *
  simp (disch := omega) only [wrap32_id]
  have b3 := cmod_abs (S2 + 1 * E2)
  have c3 := cmod_cast (S2 + 1 * E2)
  generalize cmod (S2 + 1 * E2) 10289 = S3 at *
  simp (disch := omega) only [wrap32_id]
  have b4 := cmod_abs (S3 - R)
  have c4 := cmod_cast (S3 - R)
  generalize cmod (S3 - R) 10289 = V at *
  have e : (if V < 0 then wrap32 (V + 10289) else V) = V % 10289 := by
    split_ifs with h
    · rw [wrap32_id (by omega) (by omega)]; omega
    · omega
  rw [e]
  apply emod_eq_of_cast
  rw [c4]
  push_cast at c1 c2 c3 ⊢
  rw [c3, c2, c1]
  ring

theorem RENORMALIZE_val_signed (s : Nat → Int) (g : Rng)
    (h0 : -10289 < s 0 ∧ s 0 < 10289) (h1 : -10289 < s 1 ∧ s 1 < 10289)
    (h2 : -10289 < s 2 ∧ s 2 < 10289)
    (k : Nat) (hk : k < 3) :
      (RENORMALIZE s g).1 k = (3 * s 0 + 10286 * s 1 + s 2 +
        (3 * draw g 2 + 10286 * draw g 3 + draw g 4 + (10289 - draw g 1)) * (k + 1)) % 10289 := by
  have hd0 := draw_range g 0
  have hd1 := draw_range g 1
  have hd2 := draw_range g 2
  have hd3 := draw_range g 3
  have hd4 := draw_range g 4
  have hs : ∀ j : Nat, j < 3 → -10289 < s j ∧ s j < 10289 := by
    intro j hj; interval_cases j <;> assumption
  -- share_r
  have hR : ∀ j : Nat, j < 3 →
      renormShareR (draw g 0) (draw g 1) j = (draw g 0 + draw g 1 * ((j : Int) + 1)) % 10289 := by
    intro j hj
    rw [renormShareR_val, if_pos hj]
    simp only [add32, mul32, MOD]
    interval_cases j <;>
    simp (disch := omega) only [wrap32_id, cmod_of_nonneg, Nat.cast_zero, Nat.cast_one,
      Nat.cast_ofNat, zero_add, mul_one]
  have hRr : ∀ j : Nat, j < 3 → 0 ≤ renormShareR (draw g 0) (draw g 1) j ∧
      renormShareR (draw g 0) (draw g 1) j < 10289 := by
    intro j hj; rw [hR j hj]; omega
  -- d
  have hD : ∀ j : Nat, j < 3 →
      (-10289 < renormD s (renormShareR (draw g 0) (draw g 1)) j ∧
        renormD s (renormShareR (draw g 0) (draw g 1)) j < 10289) ∧
      ((renormD s (renormShareR (draw g 0) (draw g 1)) j : Int) : ZMod 10289)
        = ((s j + (draw g 0 + draw g 1 * ((j : Int) + 1)) : Int) : ZMod 10289) := by
    intro j hj
    rw [renormD_val, if_pos hj]
    have a := hs j hj
    have b := hRr j hj
    unfold add32 MOD
    rw [wrap32_id (by omega) (by omega)]
    refine ⟨cmod_abs _, ?_⟩
    rw [cmod_cast, hR j hj]
    push_cast
    rw [cast_emod]
    push_cast
    rfl
  simp only [RENORMALIZE, rand, cmod_rand, zero_add]
  generalize hrs : renormShareR (draw g 0) (draw g 1) = R at *
  generalize hds : renormD s R = D at *
  have hE : ∀ j : Nat, j < 3 →
      (-10289 < (renormReshare D fun n => g (n + 1 + 1)).1 j k ∧
        (renormReshare D fun n => g (n + 1 + 1)).1 j k < 10289) ∧
      (((renormReshare D fun n => g (n + 1 + 1)).1 j k : Int) : ZMod 10289)
        = ((D j + draw g (j + 2) * ((k : Int) + 1) : Int) : ZMod 10289) := by
    intro j hj
    rw [renormReshare_val _ _ _ _ hj hk]
    refine ⟨cmod_abs _, ?_⟩
    have e : cmod ((g (j + 1 + 1) : Nat) : Int) MOD = draw g (j + 2) := cmod_rand g (j + 2)
    have a := (hD j hj).1
    have b := draw_range g (j + 2)
    unfold MOD
    unfold MOD at e
    rw [cmod_cast, e]
    simp only [add32, mul32]
    generalize draw g (j + 2) = c at *
    generalize D j = d at *
    interval_cases k <;>
    simp (disch := omega) only [wrap32_id, Nat.cast_zero, Nat.cast_one, Nat.cast_ofNat,
      zero_add, mul_one]
  rw [renormCombine_val _ _ _ k hk,
    combine_val _ _ _ _ (hE 0 (by decide)).1 (hE 1 (by decide)).1 (hE 2 (by decide)).1
      (hRr k hk)]
  apply emod_eq_of_cast
  have z := char_zero_p
  have r := hR k hk
  push_cast
  rw [(hE 0 (by decide)).2, (hE 1 (by decide)).2, (hE 2 (by decide)).2, r]
  push_cast
  rw [cast_emod, (hD 0 (by decide)).2, (hD 1 (by decide)).2, (hD 2 (by decide)).2]
  push_cast
  linear_combination ((draw g 0 : ZMod 10289) + 2 * (draw g 1 : ZMod 10289) - ((k : ZMod 10289) + 1)) * z

theorem foldl_setAt_self (F : Nat → Int → Int) (a0 : Nat → Int) (n k : Nat) :
    ((List.range n).foldl (fun a j => setAt a j (F j (a j))) a0) k
      = if k < n then F k (a0 k) else a0 k := by
  induction n with
  | zero => simp
  | succ n ih =>
    rw [List.range_succ, List.foldl_append]
    simp only [List.foldl_cons, List.foldl_nil, setAt]
    by_cases h : k = n
    · subst h
      simp [ih]
    · have h3 : (k < n + 1) ↔ (k < n) := by clear ih; omega
      simp only [if_neg h, ih, h3]

theorem IsShare.cast {t : Nat → Int} {v : Int} (h : IsShare t v) :
    ∃ m : Int, ∀ k : Nat, k < 3 →
      ((t k : Int) : ZMod 10289) = (v : ZMod 10289) + (m : ZMod 10289) * ((k : ZMod 10289) + 1) := by
  obtain ⟨m, hm⟩ := h
  refine ⟨m, fun k hk => ?_⟩
  rw [hm k hk, cast_emod]
  push_cast
  rfl

theorem renorm_signed_share (t : Nat → Int) (g : Rng) (v m : Int)
    (hb : ∀ k : Nat, k < 3 → -10289 < t k ∧ t k < 10289)
    (hc : ∀ k : Nat, k < 3 →
      ((t k : Int) : ZMod 10289) = (v : ZMod 10289) + (m : ZMod 10289) * ((k : ZMod 10289) + 1)) :
    IsShare (RENORMALIZE t g).1 v := by
  refine ⟨3 * draw g 2 + 10286 * draw g 3 + draw g 4 + (10289 - draw g 1), fun k hk => ?_⟩
  rw [RENORMALIZE_val_signed t g (hb 0 (by decide)) (hb 1 (by decide)) (hb 2 (by decide)) k hk]
  apply emod_eq_of_cast
  have z := char_zero_p
  have c0 := hc 0 (by decide)
  have c1 := hc 1 (by decide)
  have c2 := hc 2 (by decide)
  push_cast at c0 c1 c2 ⊢
  rw [c0, c1, c2]
  linear_combination ((v : ZMod 10289) + 2 * (m : ZMod 10289)) * z

theorem IsShare_renorm {t : Nat → Int} {v : Int} (g : Rng) (h : IsShare t v) :
    IsShare (RENORMALIZE t g).1 v := by
  obtain ⟨m, hm⟩ := h.cast
  exact renorm_signed_share t g v m
    (fun k hk => by have := h.range k hk; omega) hm

theorem c2UvProd_val (u v : Nat → Int) (k : Nat) (hk : k < 3) :
    c2UvProd u v k = cmod (mul32 (u k) (v k)) MOD := by
  unfold c2UvProd NP
  rw [foldl_setAt (fun j => cmod (mul32 (u j) (v j)) MOD), if_pos hk]

theorem c2Xor_val (u v w : Nat → Int) (k : Nat) (hk : k < 3) :
    c2Xor u v w k = cmod (add32 (sub32 (add32 (u k) (v k)) (mul32 2 (w k))) MOD) MOD := by
  unfold c2Xor NP
  rw [foldl_setAt (fun j => cmod (add32 (sub32 (add32 (u j) (v j)) (mul32 2 (w j))) MOD) MOD),
    if_pos hk]

theorem c2Tmp_val (x : Nat → Int) (k : Nat) (hk : k < 3) :
    c2Tmp x k = cmod (add32 (sub32 1 (x k)) MOD) MOD := by
  unfold c2Tmp NP
  rw [foldl_setAt (fun j => cmod (add32 (sub32 1 (x j)) MOD) MOD), if_pos hk]

theorem c2MulB_val (b t : Nat → Int) (k : Nat) (hk : k < 3) :
    c2MulB b t k = cmod (mul32 (b k) (t k)) MOD := by
  unfold c2MulB NP
  rw [foldl_setAt_self (fun j x => cmod (mul32 x (t j)) MOD), if_pos hk]

theorem c2T_val (u v b : Nat → Int) (k : Nat) (hk : k < 3) :
    c2T u v b k = cmod (add32 (sub32 (add32 (sub32 (u k) (v k)) 2) (b k)) MOD) MOD := by
  unfold c2T NP
  rw [foldl_setAt (fun j => cmod (add32 (sub32 (add32 (sub32 (u j) (v j)) 2) (b j)) MOD) MOD),
    if_pos hk]

theorem c2MulC_val (c t : Nat → Int) (k : Nat) (hk : k < 3) :
    c2MulC c t k = cmod (mul32 (c k) (t k)) MOD := by
  unfold c2MulC NP
  rw [foldl_setAt_self (fun j x => cmod (mul32 x (t j)) MOD), if_pos hk]

theorem IsShare_xor_renorm {u v w c : Nat → Int} {x y z : Int} (g : Rng)
    (hu : IsShare u x) (hv : IsShare v y) (hw : IsShare w z)
    (hc : ∀ k : Nat, k < 3 →
      c k = cmod (add32 (sub32 (add32 (u k) (v k)) (mul32 2 (w k))) MOD) MOD) :
    IsShare (RENORMALIZE c g).1 (x + y - 2 * z) := by
  obtain ⟨mu, cu⟩ := hu.cast
  obtain ⟨mv, cv⟩ := hv.cast
  obtain ⟨mw, cw⟩ := hw.cast
  have key : ∀ k : Nat, k < 3 →
      c k = cmod (u k + v k - 2 * w k + 10289) 10289 := by
    intro k hk
    have a := hu.range k hk
    have b := hv.range k hk
    have d := hw.range k hk
    rw [hc k hk]
    simp only [add32, sub32, mul32, MOD]
    simp (disch := omega) only [wrap32_id]
  refine renorm_signed_share c g _ (mu + mv - 2 * mw)
    (fun k hk => by rw [key k hk]; exact cmod_abs _) (fun k hk => ?_)
  rw [key k hk, cmod_cast]
  push_cast
  rw [cu k hk, cv k hk, cw k hk]
  linear_combination char_zero_p

theorem IsShare_t_renorm {u v b c : Nat → Int} {x y z : Int} (g : Rng)
    (hu : IsShare u x) (hv : IsShare v y) (hb : IsShare b z)
    (hc : ∀ k : Nat, k < 3 →
      c k = cmod (add32 (sub32 (add32 (sub32 (u k) (v k)) 2) (b k)) MOD) MOD) :
    IsShare (RENORMALIZE c g).1 (x - y + 2 - z) := by
  obtain ⟨mu, cu⟩ := hu.cast
  obtain ⟨mv, cv⟩ := hv.cast
  obtain ⟨mb, cb⟩ := hb.cast
  have key : ∀ k : Nat, k < 3 →
      c k = cmod (u k - v k + 2 - b k + 10289) 10289 := by
    intro k hk
    have a := hu.range k hk
    have b := hv.range k hk
    have d := hb.range k hk
    rw [hc k hk]
    simp only [add32, sub32, MOD]
    simp (disch := omega) only [wrap32_id]
  refine renorm_signed_share c g _ (mu - mv - mb)
    (fun k hk => by rw [key k hk]; exact cmod_abs _) (fun k hk => ?_)
  rw [key k hk, cmod_cast]
  push_cast
  rw [cu k hk, cv k hk, cb k hk]
  linear_combination char_zero_p

theorem IsShare_of_cast {t : Nat → Int} (v m : Int)
    (hr : ∀ k : Nat, k < 3 → 0 ≤ t k ∧ t k < 10289)
    (hc : ∀ k : Nat, k < 3 →
      ((t k : Int) : ZMod 10289) = (v : ZMod 10289) + (m : ZMod 10289) * ((k : ZMod 10289) + 1)) :
    IsShare t v := by
  refine ⟨m, fun k hk => ?_⟩
  have h : t k % 10289 = (v + m * ((k : Int) + 1)) % 10289 := by
    apply emod_eq_of_cast
    rw [hc k hk]
    push_cast
    rfl
  have a := hr k hk
  omega

theorem IsShare_initC {u v c : Nat → Int} {x y : Int} (hu : IsShare u x) (hv : IsShare v y)
    (hc : ∀ k : Nat, k < 3 →
      c k = cmod (add32 (add32 (sub32 (u k) (v k)) 1) MOD) MOD) :
    IsShare c (x - y + 1) := by
  obtain ⟨mu, cu⟩ := hu.cast
  obtain ⟨mv, cv⟩ := hv.cast
  have key : ∀ k : Nat, k < 3 → c k = (u k - v k + 1 + 10289) % 10289 := by
    intro k hk
    have a := hu.range k hk
    have b := hv.range k hk
    rw [hc k hk]
    simp only [add32, sub32, MOD]
    simp (disch := omega) only [wrap32_id, cmod_of_nonneg]
  refine IsShare_of_cast _ (mu - mv) (fun k hk => by rw [key k hk]; omega) (fun k hk => ?_)
  rw [key k hk, cast_emod]
  push_cast
  rw [cu k hk, cv k hk]
  linear_combination char_zero_p

theorem c2Round_eq (s : Cmp2State) (i : Nat) (x y x2 y2 b c : Int)
    (hu : IsShare (s.u_shares (i - 1)) x) (hv : IsShare (s.v_shares (i - 1)) y)
    (hu2 : IsShare (s.u_shares i) x2) (hv2 : IsShare (s.v_shares i) y2)
    (hb : IsShare s.b_shares b) (hc : IsShare s.c_shares c) :
    ∃ B C g2, IsShare B (b * (1 - (x + y - 2 * (x * y)))) ∧
      IsShare C (c * (x2 - y2 + 2 - b * (1 - (x + y - 2 * (x * y))))) ∧
      c2Round s i = { s with b_shares := B, c_shares := C, g := g2 } := by
  have hW : ∀ g1, IsShare (RENORMALIZE (c2UvProd (s.u_shares (i - 1)) (s.v_shares (i - 1)))
      g1).1 (x * y) :=
    fun g1 => IsShare_mul_renorm g1 hu hv (fun k hk => c2UvProd_val _ _ k hk)
  have hX : ∀ g1 g2, IsShare (RENORMALIZE (c2Xor (s.u_shares (i - 1)) (s.v_shares (i - 1))
      (RENORMALIZE (c2UvProd (s.u_shares (i - 1)) (s.v_shares (i - 1))) g1).1) g2).1
      (x + y - 2 * (x * y)) :=
    fun g1 g2 => IsShare_xor_renorm g2 hu hv (hW g1) (fun k hk => c2Xor_val _ _ _ k hk)
  have hT : ∀ g1 g2 g3, IsShare (RENORMALIZE (c2Tmp
      (RENORMALIZE (c2Xor (s.u_shares (i - 1)) (s.v_shares (i - 1))
        (RENORMALIZE (c2UvProd (s.u_shares (i - 1)) (s.v_shares (i - 1))) g1).1) g2).1) g3).1
      (1 - (x + y - 2 * (x * y))) :=
    fun g1 g2 g3 => IsShare_renorm g3
      (IsShare_one_sub (hX g1 g2) (fun k hk => c2Tmp_val _ k hk))
  have hB : ∀ g1 g2 g3 g4, IsShare (RENORMALIZE (c2MulB s.b_shares (RENORMALIZE (c2Tmp
      (RENORMALIZE (c2Xor (s.u_shares (i - 1)) (s.v_shares (i - 1))
        (RENORMALIZE (c2UvProd (s.u_shares (i - 1)) (s.v_shares (i - 1))) g1).1) g2).1) g3).1)
      g4).1 (b * (1 - (x + y - 2 * (x * y)))) :=
    fun g1 g2 g3 g4 => IsShare_mul_renorm g4 hb (hT g1 g2 g3)
      (fun k hk => c2MulB_val _ _ k hk)
  refine ⟨_, _, _, hB _ _ _ _, ?_, rfl⟩
  exact IsShare_mul_renorm _ hc
    (IsShare_t_renorm _ hu2 hv2 (hB _ _ _ _) (fun k hk => c2T_val _ _ _ k hk))
    (fun k hk => c2MulC_val _ _ k hk)

theorem c2ShareBit_eq (bu bv : Nat → Int) (s : Cmp2State) (i : Nat)
    (hbu : 0 ≤ bu i ∧ bu i < 10289) (hbv : 0 ≤ bv i ∧ bv i < 10289) :
    ∃ U V g2, IsShare U (bu i) ∧ IsShare V (bv i) ∧
      c2ShareBit bu bv s i = { s with
        u_shares := setRow s.u_shares i U
        v_shares := setRow s.v_shares i V
        g := g2 } := by
  unfold c2ShareBit
  have e0 : cmod (rand s.g).1 MOD = draw s.g 0 := cmod_rand s.g 0
  have e1 : cmod (rand (rand s.g).2).1 MOD = draw s.g 1 := cmod_rand s.g 1
  dsimp only
  rw [e0, e1]
  have hU : IsShare (fun y : Nat => SPLIT y (draw s.g 0) (bu i)) (bu i) :=
    IsShare_SPLIT _ _ _ (draw_range s.g 0) hbu (fun k hk => rfl)
  have hV : IsShare (fun y : Nat => SPLIT y (draw s.g 1) (bv i)) (bv i) :=
    IsShare_SPLIT _ _ _ (draw_range s.g 1) hbv (fun k hk => rfl)
  refine ⟨fun y => if y < 3 then SPLIT y (draw s.g 0) (bu i) else s.u_shares i y,
    fun y => if y < 3 then SPLIT y (draw s.g 1) (bv i) else s.v_shares i y,
    (rand (rand s.g).2).2,
    hU.ext (fun k hk => by simp only [hk, if_true]),
    hV.ext (fun k hk => by simp only [hk, if_true]), ?_⟩
  simp only [NP, List.range_succ, List.range_zero, List.nil_append, List.cons_append,
    List.foldl_cons, List.foldl_nil, Cmp2State.mk.injEq, true_and, and_true]
  constructor <;>
  · funext a b
    simp only [setAt2, setRow]
    by_cases ha : a = i
    · subst ha
      by_cases h2 : b = 2
      · subst h2; simp
      · by_cases h1 : b = 1
        · subst h1; simp
        · by_cases h0 : b = 0
          · subst h0; simp
          · simp only [h2, h1, h0, and_false, if_false, if_true]
            rw [if_neg (by omega)]
    · simp only [ha, false_and, if_false]

theorem c2Share_step (u v : Int) (s : Cmp2State) (i : Nat) (hi : i < l)
    (h : ∀ j : Nat, j < i →
      IsShare (s.u_shares j) (bitAt u j) ∧ IsShare (s.v_shares j) (bitAt v j)) :
    ∀ j : Nat, j < i + 1 →
      IsShare ((c2ShareBit (cmpBits u) (cmpBits v) s i).u_shares j) (bitAt u j) ∧
      IsShare ((c2ShareBit (cmpBits u) (cmpBits v) s i).v_shares j) (bitAt v j) := by
  obtain ⟨U, V, g2, hU, hV, e⟩ := c2ShareBit_eq (cmpBits u) (cmpBits v) s i
    (cmpBits_range u i) (cmpBits_range v i)
  rw [cmpBits_val u i hi] at hU
  rw [cmpBits_val v i hi] at hV
  rw [e]
  intro j hj
  show IsShare (setRow s.u_shares i U j) _ ∧ IsShare (setRow s.v_shares i V j) _
  rw [setRow_at, setRow_at]
  by_cases hji : j = i
  · subst hji; simp only [if_true]; exact ⟨hU, hV⟩
  · simp only [hji, if_false]; exact h j (by omega)

theorem c2InitB_eq (s : Cmp2State) :
    ∃ B g2, IsShare B 1 ∧ c2InitB s = { s with b_shares := B, g := g2 } := by
  refine ⟨_, _, ?_, rfl⟩
  refine IsShare_SPLIT _ (draw s.g 0) 1 (draw_range s.g 0) (by decide) (fun k hk => ?_)
  have e0 : cmod (rand s.g).1 MOD = draw s.g 0 := cmod_rand s.g 0
  rw [e0]
  unfold NP
  rw [foldl_setAt (fun j => SPLIT j (draw s.g 0) 1), if_pos hk]

theorem c2InitC_eq (s : Cmp2State) (x y : Int) (hu : IsShare (s.u_shares 0) x)
    (hv : IsShare (s.v_shares 0) y) :
    ∃ C, IsShare C (x - y + 1) ∧ c2InitC s = { s with c_shares := C } := by
  refine ⟨_, ?_, rfl⟩
  refine IsShare_initC hu hv (fun k hk => ?_)
  unfold NP
  rw [foldl_setAt (fun j => cmod (add32 (add32 (sub32 (s.u_shares 0 j) (s.v_shares 0 j)) 1)
    MOD) MOD), if_pos hk]

theorem c2Round_step (bu bv : Nat → Int) (s : Cmp2State) (n : Nat) (hn : n < l - 1)
    (h : Cmp2Inv bu bv s n) : Cmp2Inv bu bv (c2Round s (n + 1)) (n + 1) := by
  have h1 : n < l := by unfold l at hn ⊢; omega
  have h2 : n + 1 < l := by unfold l at hn ⊢; omega
  obtain ⟨B, C, g2, hB, hC, e⟩ := c2Round_eq s (n + 1) (bu n) (bv n) (bu (n + 1)) (bv (n + 1))
    (prefB bu bv n) (c2Val bu bv n) (h.1 n h1).1 (h.1 n h1).2 (h.1 (n + 1) h2).1
    (h.1 (n + 1) h2).2 h.2.1 h.2.2
  rw [e]
  exact ⟨h.1, hB, hC⟩

theorem Compare2Test_spec (u v : Int) (g : Rng) :
    ∃ s : Cmp2State, IsShare s.c_shares (c2Val (bitAt u) (bitAt v) (l - 1)) ∧
      Compare2Test u v g
        = ((if RECONSTRUCT s.c_shares ≠ 0 then 1 else 0), (if u ≥ v then 1 else 0)) := by
  have h1 := foldl_range_inv (c2ShareBit (cmpBits u) (cmpBits v))
    (fun n s => ∀ j : Nat, j < n →
      IsShare (s.u_shares j) (bitAt u j) ∧ IsShare (s.v_shares j) (bitAt v j)) l
    ({ u_shares := fun _ _ => 0, v_shares := fun _ _ => 0, b_shares := fun _ => 0,
       c_shares := fun _ => 0, g := g } : Cmp2State)
    (fun j hj => absurd hj (by omega)) (fun k s hk hs => c2Share_step u v s k hk hs)
  have hmain : ∀ s0 : Cmp2State,
      (∀ j : Nat, j < l →
        IsShare (s0.u_shares j) (bitAt u j) ∧ IsShare (s0.v_shares j) (bitAt v j)) →
      Cmp2Inv (bitAt u) (bitAt v) (c2InitC (c2InitB s0)) 0 := by
    intro s0 h
    obtain ⟨B, g2, hB, eB⟩ := c2InitB_eq s0
    rw [eB]
    obtain ⟨C, hC, eC⟩ := c2InitC_eq { s0 with b_shares := B, g := g2 } (bitAt u 0)
      (bitAt v 0) (h 0 (by decide)).1 (h 0 (by decide)).2
    rw [eC]
    exact ⟨h, hB, hC⟩
  have h2 := hmain _ h1
  have h3 := foldl_range_inv (fun s n => c2Round s (n + 1))
    (fun n s => Cmp2Inv (bitAt u) (bitAt v) s n) (l - 1) _ h2
    (fun k s hk hs => c2Round_step _ _ s k hk hs)
  exact ⟨_, h3.2.2, rfl⟩

theorem nz_mul2 (c : Int) (h : c % 10289 ≠ 0) : (2 * c) % 10289 ≠ 0 := by omega

theorem nz_mul3 (c : Int) (h : c % 10289 ≠ 0) : (3 * c) % 10289 ≠ 0 := by omega

theorem c2Val_sem (bu bv : Nat → Int) (hbu : ∀ i, bu i = 0 ∨ bu i = 1)
    (hbv : ∀ i, bv i = 0 ∨ bv i = 1) (n : Nat) :
    (valB bu (n + 1) < valB bv (n + 1) → c2Val bu bv n = 0) ∧
    (valB bu (n + 1) = valB bv (n + 1) → c2Val bu bv n = 1) ∧
    (valB bu (n + 1) > valB bv (n + 1) → c2Val bu bv n % 10289 ≠ 0) := by
  induction n with
  | zero =>
    simp only [c2Val, valB]
    rcases hbu 0 with h | h <;> rcases hbv 0 with h2 | h2 <;> simp only [h, h2] <;>
      refine ⟨fun hh => ?_, fun hh => ?_, fun hh => ?_⟩ <;> omega
  | succ n ih =>
    have hp := (cmpB_val bu bv hbu hbv (n + 1)).1
    have eU : valB bu (n + 1 + 1) = 2 * valB bu (n + 1) + bu (n + 1) := rfl
    have eV : valB bv (n + 1 + 1) = 2 * valB bv (n + 1) + bv (n + 1) := rfl
    have eC : c2Val bu bv (n + 1)
        = c2Val bu bv n * (bu (n + 1) - bv (n + 1) + 2 - prefB bu bv (n + 1)) := rfl
    rw [eU, eV, eC, hp]
    generalize valB bu (n + 1) = U at *
    generalize valB bv (n + 1) = V at *
    generalize c2Val bu bv n = c at *
    obtain ⟨i1, i2, i3⟩ := ih
    clear eU eV eC hp
    rcases lt_trichotomy U V with h | h | h
    · have hc := i1 h
      subst hc
      rw [if_neg (by omega)]
      rcases hbu (n + 1) with a | a <;> rcases hbv (n + 1) with b | b <;>
        rw [a, b, zero_mul] <;>
        refine ⟨fun hh => ?_, fun hh => ?_, fun hh => ?_⟩ <;> first | rfl | omega
    · have hc := i2 h
      subst hc
      rw [if_pos h, one_mul]
      rcases hbu (n + 1) with a | a <;> rcases hbv (n + 1) with b | b <;>
        rw [a, b] <;>
        refine ⟨fun hh => ?_, fun hh => ?_, fun hh => ?_⟩ <;> first | rfl | omega
    · have hc := i3 h
      rw [if_neg (by omega)]
      have e1 : c * (0 - 0 + 2 - 0) = 2 * c := by ring
      have e2 : c * (0 - 1 + 2 - 0) = c := by ring
      have e3 : c * (1 - 0 + 2 - 0) = 3 * c := by ring
      have e4 : c * (1 - 1 + 2 - 0) = 2 * c := by ring
      clear i1 i2 i3
      rcases hbu (n + 1) with a | a <;> rcases hbv (n + 1) with b | b <;>
        rw [a, b] <;>
        (first | rw [e1] | rw [e2] | rw [e3] | rw [e4]) <;>
        refine ⟨fun hh => ?_, fun hh => ?_, fun _ => ?_⟩ <;>
        first
        | exact hc
        | exact nz_mul2 c hc
        | exact nz_mul3 c hc
        | (clear hc; omega)

theorem cptCmp_flags (u v : Int) (g : Rng) :
    CompareParallelTest u v g
      = ((if cptCmp u v g ≥ 0 ∧ cptCmp u v g ≤ MOD / 2 then 1 else 0),
         (if cptCmp u v g = 0 then 1 else 0)) := rfl

theorem cptCmp_share (u v : Int) (g : Rng) :
    ∃ s : CptState, IsShare s.cmp_shares (cmpB (bitAt u) (bitAt v) l) ∧
      cptCmp u v g = RECONSTRUCT s.cmp_shares := by
  have h0 : CptInv (bitAt u) (bitAt v)
      ({ u_shares := fun _ _ => 0, v_shares := fun _ _ => 0, eq_shares := fun _ _ => 0,
         gt_shares := fun _ _ => 0, lt_shares := fun _ _ => 0, prefixEq_shares := fun _ _ => 0,
         flag_shares := fun _ _ => 0, tmp_shares := fun _ => 0, tmp2_shares := fun _ => 0,
         cmp_shares := fun _ => 0, g := g } : CptState) 0 0 0 0 :=
    ⟨fun j hj => absurd hj (by omega), fun j hj => absurd hj (by omega),
      fun j hj => absurd hj (by omega), fun j hj => absurd hj (by omega), fun _ _ => rfl⟩
  have h1 := foldl_range_inv (cptShareBit (cmpBits u) (cmpBits v))
    (fun n s => CptInv (bitAt u) (bitAt v) s n 0 0 0) l _ h0
    (fun k s hk hs => cptShare_step u v s k hk hs)
  have h2 := foldl_range_inv cptBitRound
    (fun n s => CptInv (bitAt u) (bitAt v) s l n 0 0) l _ h1
    (fun k s hk hs => cptBit_step _ _ s k hk hs)
  have h3 := cptInit_step _ _ _ h2
  have h4 := foldl_range_inv (fun s n => cptPrefixRound s (n + 1))
    (fun n s => CptInv (bitAt u) (bitAt v) s l l (n + 1) 0) (l - 1) _ h3
    (fun k s hk hs => cptPrefix_step _ _ s k hk hs)
  have h5 := foldl_range_inv cptFlagRound
    (fun n s => CptInv (bitAt u) (bitAt v) s l l l n) l _ h4
    (fun k s hk hs => cptFlag_step _ _ s k hk hs)
  exact ⟨_, cptSum_share _ _ _ h5, rfl⟩

theorem cptCmp_value (u v : Int) (g : Rng) (hu : 0 ≤ u ∧ u < 16384) (hv : 0 ≤ v ∧ v < 16384) :
    cptCmp u v g = (if u > v then 1 else if u < v then 10288 else 0) := by
  obtain ⟨s, hs, e⟩ := cptCmp_share u v g
  rw [e, hs.recon, cmp_semantics u v hu hv]

/-- C31: the MSB-first bit decomposition used by `runCMP` (NetInt.h and server.c) and by
`CompareParallelTest`. For every `u` in `[0, 2^14)` the array `bits[i] = (u >> (13 - i)) & 1`,
`i = 0..13`, has all entries in `{0, 1}`, holds the most significant bit at index 0 (it is 1
exactly when `u ≥ 2^13`) and the least significant bit at index 13, and
`sum_i bits[i] * 2^(13 - i) = u`. -/
theorem C31_bit_roundtrip (u : Int) (hu : 0 ≤ u ∧ u < 2 ^ l) :
    (∀ i : Nat, i < l → cmpBits u i = (u >>> (l - 1 - i)) % 2) ∧
    (∀ i : Nat, i < l → cmpBits u i = 0 ∨ cmpBits u i = 1) ∧
    (cmpBits u 0 = u / 2 ^ 13 ∧ (cmpBits u 0 = 1 ↔ 2 ^ 13 ≤ u)) ∧
    cmpBits u (l - 1) = u % 2 ∧
    Finset.sum (Finset.range l) (fun i => cmpBits u i * 2 ^ (l - 1 - i)) = u ∧
    (List.range l).foldl (fun b i => setAt b i (bitAt u i)) (fun _ => 0) = cmpBits u := by
  have hu2 : 0 ≤ u ∧ u < 16384 := by simpa [l] using hu
  refine ⟨fun i hi => cmpBits_val u i hi, fun i hi => ?_, ?_, ?_, ?_, rfl⟩
  · rw [cmpBits_val u i hi]
    exact bitAt_bit u i
  · rw [cmpBits_val u 0 (by decide), bitAt_val]
    have e : l - 1 - 0 = 13 := by decide
    rw [e]
    constructor <;> omega
  · rw [cmpBits_val u (l - 1) (by decide), bitAt_val]
    have e : l - 1 - (l - 1) = 0 := by decide
    rw [e]
    omega
  · have h := valB_sum (bitAt u) l
    rw [valB_of_lt u hu2] at h
    refine Eq.trans (Finset.sum_congr rfl (fun i hi => ?_)) h.symm
    rw [cmpBits_val u i (Finset.mem_range.1 hi)]

theorem C31_witness :
    Finset.sum (Finset.range l) (fun i => cmpBits 10288 i * 2 ^ (l - 1 - i)) = 10288 :=
  (C31_bit_roundtrip 10288 (by decide)).2.2.2.2.1

/-- C32: the value the agent computes for `xor_j`,
`tmp2_share = (u_j + v_j - 2*t + MOD) % MOD` (agent.c, and the same expression in
`CompareParallelTest` and `Compare2Test`), for share values `u_j`, `v_j` and a renormalized
product `t` in `[0, p)`. No `int32_t` operation wraps; the value is congruent to
`u_j + v_j - 2*t` modulo `p` and lies strictly between `-p` and `p`. It is the representative
in `[0, p)` when the dividend is not negative, that is when `2*t ≤ u_j + v_j + p`; otherwise
the single `+ MOD` does not make the dividend positive, `%` in C keeps its sign, and the value
is the representative minus `p`: for `u_j = v_j = 0` and `t = 10288` the code computes
`-10287` where the representative is 2. The neighbouring expressions of the same shape do
reach `[0, p)`: `eq_j = (1 - tmp2_share + MOD) % MOD` is the representative of
`1 - (u_j + v_j - 2*t)`, `(1 - v_j + MOD) % MOD` that of `1 - v_j`, and
`(u_j - v_j + MOD) % MOD` that of `u_j - v_j`. -/
theorem C32_xor_share (u v t : Int) (hu : 0 ≤ u ∧ u < MOD) (hv : 0 ≤ v ∧ v < MOD)
    (ht : 0 ≤ t ∧ t < MOD) :
    cmod (add32 (sub32 (add32 u v) (mul32 2 t)) MOD) MOD % MOD = (u + v - 2 * t) % MOD ∧
    (-MOD < cmod (add32 (sub32 (add32 u v) (mul32 2 t)) MOD) MOD ∧
      cmod (add32 (sub32 (add32 u v) (mul32 2 t)) MOD) MOD < MOD) ∧
    (2 * t ≤ u + v + MOD →
      cmod (add32 (sub32 (add32 u v) (mul32 2 t)) MOD) MOD = (u + v - 2 * t) % MOD) ∧
    (u + v + MOD < 2 * t →
      cmod (add32 (sub32 (add32 u v) (mul32 2 t)) MOD) MOD = (u + v - 2 * t) % MOD - MOD) ∧
    add32 (sub32 (add32 u v) (mul32 2 t)) MOD = u + v - 2 * t + MOD ∧
    cmod (add32 (sub32 1 (cmod (add32 (sub32 (add32 u v) (mul32 2 t)) MOD) MOD)) MOD) MOD
      = (1 - (u + v - 2 * t)) % MOD ∧
    cmod (add32 (sub32 1 v) MOD) MOD = (1 - v) % MOD ∧
    cmod (add32 (sub32 u v) MOD) MOD = (u - v) % MOD ∧
    (cmod (add32 (sub32 (add32 0 0) (mul32 2 10288)) MOD) MOD = -10287 ∧
      (0 + 0 - 2 * 10288 : Int) % MOD = 2) := by
  unfold MOD at hu hv ht
  have h := xor_val u v t hu hv ht
  have e := eq_val u v t hu hv ht
  refine ⟨?_, ?_, fun h1 => ?_, fun h1 => ?_, ?_, e, one_sub_val v hv, diff_val u v hu hv,
    by decide⟩
  · rw [h]
    unfold MOD
    split_ifs <;> omega
  · rw [h]
    unfold MOD
    split_ifs <;> omega
  · unfold MOD at h1
    rw [h, if_pos h1]
    rfl
  · unfold MOD at h1
    rw [h, if_neg (by omega)]
    rfl
  · simp only [add32, sub32, mul32, MOD]
    simp (disch := omega) only [wrap32_id]

theorem C32_witness :
    cmod (add32 (sub32 (add32 0 0) (mul32 2 10288)) MOD) MOD
      = (0 + 0 - 2 * 10288) % MOD - MOD :=
  (C32_xor_share 0 0 10288 (by decide) (by decide) (by decide)).2.2.2.1 (by decide)

/-- C33: `ADD` reduces its inputs. For all integers `a`, `b` with `-p ≤ a, b < 2^14` and every
state of the random source, with three agents waiting for a task, `runAdd` of NetInt.h and
`runADD` of server.c return the representative of `(a + b) mod p` in `[0, p)`; adding `-1` and
`-5` returns 10283. -/
theorem C33_add_reduces_inputs (a b : Int) (junk : Nat → Int) (c : NetIntContext)
    (ha : -MOD ≤ a ∧ a < 2 ^ 14) (hb : -MOD ≤ b ∧ b < 2 ^ 14) (hinit : c.initialized = true)
    (hidle : ∀ i : Nat, i < 3 → c.cli i = Proc.idle) :
    (∃ c2, runAdd a b c = Except.ok ((a + b) % MOD, c2)) ∧
    (∃ c2, runADD a b junk c = Except.ok ((a + b) % MOD, c2)) ∧
    (0 ≤ (a + b) % MOD ∧ (a + b) % MOD < MOD) ∧
    (∃ c2, runAdd (-1) (-5) c = Except.ok (10283, c2)) ∧
    (∃ c2, runADD (-1) (-5) junk c = Except.ok (10283, c2)) := by
  unfold MOD at *
  obtain ⟨c1, h1, _⟩ := runAdd_core a b c (by omega) (by omega) hinit hidle
  obtain ⟨c2, h2, _⟩ := runADD_core a b junk c (by omega) (by omega) hidle
  obtain ⟨c3, h3, _⟩ := runAdd_core (-1) (-5) c (by decide) (by decide) hinit hidle
  obtain ⟨c4, h4, _⟩ := runADD_core (-1) (-5) junk c (by decide) (by decide) hidle
  exact ⟨⟨c1, h1⟩, ⟨c2, h2⟩, by omega, ⟨c3, h3⟩, ⟨c4, h4⟩⟩

theorem C33_witness :
    (∃ c2, runAdd (-10289) 16383 (session fun n => 31 * n + 7)
      = Except.ok ((-10289 + 16383) % MOD, c2)) ∧
    (∃ c2, runADD (-10289) 16383 (fun _ => 0) (session fun n => 31 * n + 7)
      = Except.ok ((-10289 + 16383) % MOD, c2)) :=
  ⟨(C33_add_reduces_inputs (-10289) 16383 (fun _ => 0) (session fun n => 31 * n + 7)
      (by decide) (by decide) rfl (fun _ _ => rfl)).1,
    (C33_add_reduces_inputs (-10289) 16383 (fun _ => 0) (session fun n => 31 * n + 7)
      (by decide) (by decide) rfl (fun _ _ => rfl)).2.1⟩

/-- C34: for all `u, v` in `[0, 2^14)` and every state of the random source, the value
`Compare2Test` prints as `Reconstructed Result` (1 if `RECONSTRUCT` of the running product
`c` is non-zero, else 0) equals the value it prints as `Expected Result`, `(u >= v)`:
`c_shares` ends as a sharing of the product of `u_0 - v_0 + 1` and the factors
`u_i - v_i + 2 - b_i`, which is 0 modulo `p` exactly when `u < v`. -/
theorem C34_compare2_correct (u v : Int) (g : Rng) (hu : 0 ≤ u ∧ u < 2 ^ l)
    (hv : 0 ≤ v ∧ v < 2 ^ l) :
    (Compare2Test u v g).1 = (Compare2Test u v g).2 ∧
    (Compare2Test u v g).2 = (if u ≥ v then 1 else 0) ∧
    ∃ s : Cmp2State,
      (Compare2Test u v g).1 = (if RECONSTRUCT s.c_shares ≠ 0 then 1 else 0) ∧
      RECONSTRUCT s.c_shares = c2Val (bitAt u) (bitAt v) (l - 1) % MOD ∧
      (RECONSTRUCT s.c_shares = 0 ↔ u < v) := by
  have e : (2 : Int) ^ l = 16384 := by unfold l; norm_num
  rw [e] at hu hv
  obtain ⟨s, hs, h⟩ := Compare2Test_spec u v g
  have hr : RECONSTRUCT s.c_shares = c2Val (bitAt u) (bitAt v) (l - 1) % 10289 := hs.recon
  have sem := c2Val_sem (bitAt u) (bitAt v) (bitAt_bit u) (bitAt_bit v) (l - 1)
  have el : l - 1 + 1 = l := by decide
  rw [el, valB_of_lt u hu, valB_of_lt v hv] at sem
  obtain ⟨s1, s2, s3⟩ := sem
  have key : RECONSTRUCT s.c_shares = 0 ↔ u < v := by
    rw [hr]
    rcases lt_trichotomy u v with c | c | c
    · rw [s1 c]; exact ⟨fun _ => c, fun _ => rfl⟩
    · rw [s2 c]; exact ⟨fun x => absurd x (by decide), fun x => absurd x (by omega)⟩
    · exact ⟨fun x => absurd x (s3 c), fun x => absurd x (by omega)⟩
  rw [h]
  refine ⟨?_, rfl, s, rfl, hr, key⟩
  show (if RECONSTRUCT s.c_shares ≠ 0 then (1 : Int) else 0) = if u ≥ v then 1 else 0
  by_cases c : u < v
  · rw [if_neg (not_not.2 (key.2 c)), if_neg (by omega)]
  · rw [if_pos (fun x => c (key.1 x)), if_pos (by omega)]

theorem C34_witness :
    (Compare2Test 100 7 (fun n => 31 * n + 7)).1 = (Compare2Test 100 7 (fun n => 31 * n + 7)).2 :=
  (C34_compare2_correct 100 7 (fun n => 31 * n + 7) (by decide) (by decide)).1

/-- C35: the comparison value is three-valued. For all `u, v` in `[0, 2^14)` and every state of
the random source, the value `cmp` reconstructed from the shares of
`sum_j prefixEq_j * (gt_j - lt_j)` is exactly 1 when `u > v`, exactly `p - 1` when `u < v` and
exactly 0 when `u = v`: this is what `runCMP` returns from the three agents' RES shares, and it
is the value `cptCmp u v g` of the local `cmp` that `CompareParallelTest` reconstructs from its
`cmp_shares` and from which it derives its outputs `c` and `e`. -/
theorem C35_cmp_three_valued (u v : Int) (g : Rng) (c : NetIntContext)
    (hu : 0 ≤ u ∧ u < 2 ^ l) (hv : 0 ≤ v ∧ v < 2 ^ l) (hinit : c.initialized = true)
    (hidle : ∀ i : Nat, i < 3 → c.cli i = Proc.idle) :
    (∃ c2, runCMP u v c
      = Except.ok ((if u > v then 1 else if u < v then MOD - 1 else 0), c2)) ∧
    (cptCmp u v g = (if u > v then 1 else if u < v then MOD - 1 else 0) ∧
      CompareParallelTest u v g
        = ((if cptCmp u v g ≥ 0 ∧ cptCmp u v g ≤ MOD / 2 then 1 else 0),
           (if cptCmp u v g = 0 then 1 else 0))) ∧
    (Finset.sum (Finset.range l) (fun j => prefB (bitAt u) (bitAt v) j *
        (gtB (bitAt u) (bitAt v) j - ltB (bitAt u) (bitAt v) j))) % MOD
      = (if u > v then 1 else if u < v then MOD - 1 else 0) ∧
    ((if u > v then 1 else if u < v then MOD - 1 else 0 : Int) = 1 ∨
      (if u > v then 1 else if u < v then MOD - 1 else 0 : Int) = MOD - 1 ∨
      (if u > v then 1 else if u < v then MOD - 1 else 0 : Int) = 0) := by
  have hu2 : 0 ≤ u ∧ u < 16384 := by simpa [l] using hu
  have hv2 : 0 ≤ v ∧ v < 16384 := by simpa [l] using hv
  have e : MOD - 1 = 10288 := by decide
  rw [e]
  obtain ⟨c2, h, _⟩ := cmp_value u v hu2 hv2 c hinit hidle
  refine ⟨⟨c2, h⟩, ⟨cptCmp_value u v g hu2 hv2, cptCmp_flags u v g⟩, ?_, ?_⟩
  · rw [← cmpB_sum]
    exact cmp_semantics u v hu2 hv2
  · split_ifs
    · exact Or.inl rfl
    · exact Or.inr (Or.inl rfl)
    · exact Or.inr (Or.inr rfl)

theorem C35_witness :
    (∃ c2, runCMP 7 100 (session fun n => 31 * n + 7)
      = Except.ok ((if (7 : Int) > 100 then 1 else if (7 : Int) < 100 then MOD - 1 else 0),
          c2)) ∧
    cptCmp 7 100 (fun n => 31 * n + 7)
      = (if (7 : Int) > 100 then 1 else if (7 : Int) < 100 then MOD - 1 else 0) :=
  ⟨(C35_cmp_three_valued 7 100 (fun n => 31 * n + 7) (session fun n => 31 * n + 7)
      (by decide) (by decide) rfl (fun _ _ => rfl)).1,
   (C35_cmp_three_valued 7 100 (fun n => 31 * n + 7) (session fun n => 31 * n + 7)
      (by decide) (by decide) rfl (fun _ _ => rfl)).2.1.1⟩

/-- C36: if every share of a CMP task (the share in field `a` and the entries of `u_shares`
and `v_shares`) lies in `[0, p)`, the agent's CMP branch follows the script of 69 REN frames
and one RES frame, each value sent being in `[0, p)` as long as every REN reply carries a
value in `[0, p)`: whatever frames arrive, with reply values in `[0, p)`, every frame the agent
sends carries a value in `[0, p)`; with 69 REN replies in range it sends exactly 69 REN frames
and then the RES frame and is back at the top of the task loop. No `int32_t` operation of the
branch wraps: on values `x, y, z` in `[0, p)` every sum, difference and product formed in the
three loops and the final sum is the exact integer. -/
theorem C36_agent_cmp_range (t : task_t) (x y z : Int) (ht : t.op = OP_CMP)
    (ha : 0 ≤ toI32 (ntohl t.a) ∧ toI32 (ntohl t.a) < MOD)
    (hu : ∀ i : Nat, i < l → 0 ≤ toI32 (ntohl (toU32 (t.u_shares i))) ∧
      toI32 (ntohl (toU32 (t.u_shares i))) < MOD)
    (hv : ∀ i : Nat, i < l → 0 ≤ toI32 (ntohl (toU32 (t.v_shares i))) ∧
      toI32 (ntohl (toU32 (t.v_shares i))) < MOD)
    (hx : 0 ≤ x ∧ x < MOD) (hy : 0 ≤ y ∧ y < MOD) (hz : 0 ≤ z ∧ z < MOD) :
    CmpScript 69 (agentTask t) ∧
    (∀ ins : List (Option response_t),
      (∀ r : response_t, some r ∈ ins →
        0 ≤ toI32 (ntohl r.value) ∧ toI32 (ntohl r.value) < MOD) →
      ∀ q ∈ (Proc.run (agentTask t) ins).1,
        0 ≤ toI32 (ntohl q.value) ∧ toI32 (ntohl q.value) < MOD ∧
        q.value = htonl (toU32 (toI32 (ntohl q.value)))) ∧
    (∀ ins : List (Option response_t), ins.length = 69 →
      (∀ m ∈ ins, ∃ r : response_t, m = some r ∧ r.op = OP_REN ∧
        0 ≤ toI32 (ntohl r.value) ∧ toI32 (ntohl r.value) < MOD) →
      (Proc.run (agentTask t) ins).2 = Proc.idle ∧
      (Proc.run (agentTask t) ins).1.map (fun q => q.op)
        = List.replicate 69 OP_REN ++ [OP_RES]) ∧
    mul32 x y = x * y ∧
    (add32 x y = x + y ∧ mul32 2 z = 2 * z ∧
      sub32 (add32 x y) (mul32 2 z) = x + y - 2 * z ∧
      add32 (sub32 (add32 x y) (mul32 2 z)) MOD = x + y - 2 * z + MOD) ∧
    (sub32 1 (cmod (add32 (sub32 (add32 x y) (mul32 2 z)) MOD) MOD)
        = 1 - cmod (x + y - 2 * z + MOD) MOD ∧
      add32 (sub32 1 (cmod (add32 (sub32 (add32 x y) (mul32 2 z)) MOD) MOD)) MOD
        = 1 - cmod (x + y - 2 * z + MOD) MOD + MOD) ∧
    (sub32 1 y = 1 - y ∧ add32 (sub32 1 y) MOD = 1 - y + MOD ∧
      mul32 x (cmod (add32 (sub32 1 y) MOD) MOD) = x * ((1 - y) % MOD) ∧
      mul32 (cmod (add32 (sub32 1 x) MOD) MOD) y = ((1 - x) % MOD) * y) ∧
    (sub32 x y = x - y ∧ add32 (sub32 x y) MOD = x - y + MOD ∧
      mul32 z (cmod (add32 (sub32 x y) MOD) MOD) = z * ((x - y) % MOD)) := by
  have hs := script_agentTask t ht ha hu hv
  refine ⟨hs, fun ins hins q hq => ?_, fun ins hlen hins => ?_, cmp_exact x y z hx hy hz⟩
  · obtain ⟨w, hw, e⟩ := script_run_range 69 _ ins hs hins q hq
    rw [e, wire_value w hw]
    exact ⟨hw.1, hw.2, rfl⟩
  · exact script_run_complete 69 _ ins hs hlen hins

theorem C36_witness :
    CmpScript 69 (agentTask
      { op := OP_CMP, a := htonl (toU32 1), b := 0,
        u_shares := fun _ => 0, v_shares := fun _ => 0 }) :=
  (C36_agent_cmp_range
    { op := OP_CMP, a := htonl (toU32 1), b := 0,
      u_shares := fun _ => 0, v_shares := fun _ => 0 } 10288 10288 10288 rfl
    (by decide)
    (fun _ _ => show 0 ≤ toI32 (ntohl (toU32 0)) ∧ toI32 (ntohl (toU32 0)) < MOD by decide)
    (fun _ _ => show 0 ≤ toI32 (ntohl (toU32 0)) ∧ toI32 (ntohl (toU32 0)) < MOD by decide)
    (by decide) (by decide) (by decide)).1

/-- C37: the comparison looks only at the low 14 bits. For all integers `u`, `v` (negative
values and values `≥ 2^14` included), `runCMP u v` is the same computation as
`runCMP (u mod 2^14) (v mod 2^14)`, in NetInt.h and in server.c: from the same state, hence with
the same random draws, it writes the same task frames, takes the same steps and ends with the
same result. `INT_MAX` and `-1` are compared as 16383, and with three agents waiting for a task
the result is that of comparing `u mod 2^14` with `v mod 2^14`. -/
theorem C37_cmp_low_bits :
    (∀ u v : Int, runCMP u v = runCMP (u % 2 ^ 14) (v % 2 ^ 14)) ∧
    (∀ (u v : Int) (junk : Nat → Int),
      Server.runCMP u v junk = Server.runCMP (u % 2 ^ 14) (v % 2 ^ 14) junk) ∧
    (∀ u : Int, cmpBits u = cmpBits (u % 2 ^ 14)) ∧
    (∀ v : Int, runCMP 2147483647 v = runCMP 16383 v ∧ runCMP v 2147483647 = runCMP v 16383 ∧
      runCMP (-1) v = runCMP 16383 v) ∧
    (∀ (a b : Int), runLE a b = runLE (a % 2 ^ 14) (b % 2 ^ 14)) ∧
    (∀ (u v : Int) (c : NetIntContext), c.initialized = true →
      (∀ i : Nat, i < 3 → c.cli i = Proc.idle) →
      ∃ c2, runCMP u v c = Except.ok ((if u % 2 ^ 14 > v % 2 ^ 14 then 1
        else if u % 2 ^ 14 < v % 2 ^ 14 then 10288 else 0 : Int), c2)) := by
  have e : (2 : Int) ^ 14 = 16384 := by norm_num
  rw [e]
  have h1 : ∀ u v : Int, runCMP u v = runCMP (u % 16384) (v % 16384) := fun u v =>
    runCMP_congr _ _ _ _ (cmpBits_low u).symm (cmpBits_low v).symm
  refine ⟨h1, fun u v junk =>
      Server_runCMP_congr _ _ _ _ junk (cmpBits_low u).symm (cmpBits_low v).symm,
    fun u => (cmpBits_low u).symm, fun v => ⟨?_, ?_, ?_⟩, fun a b => ?_, fun u v c hinit hidle => ?_⟩
  · exact runCMP_congr _ _ _ _ ((cmpBits_low 2147483647).symm.trans rfl) rfl
  · exact runCMP_congr _ _ _ _ rfl ((cmpBits_low 2147483647).symm.trans rfl)
  · exact runCMP_congr _ _ _ _ ((cmpBits_low (-1)).symm.trans rfl) rfl
  · unfold runLE
    rw [h1 a b]
  · obtain ⟨c2, h, _⟩ := runCMP_low u v c hinit hidle
    exact ⟨c2, h⟩

/-- C38: a single share hides the secret. For every party index `j` in `{0, 1, 2}` and every
secret `s` in `[0, p)`, the map `r ↦ SPLIT(j, r, s)` is a bijection of `[0, p)` onto itself, and
so is `split` of NetInt.h; hence for any two secrets `s`, `s2` and any share value `y` in
`[0, p)` there is exactly one `r` with `SPLIT(j, r, s) = y` and exactly one `r2` with
`SPLIT(j, r2, s2) = y`. -/
theorem C38_single_share_hides (j : Nat) (s s2 : Int) (hj : j < 3) (hs : 0 ≤ s ∧ s < MOD)
    (hs2 : 0 ≤ s2 ∧ s2 < MOD) :
    Set.BijOn (fun r => SPLIT j r s) (Set.Ico 0 MOD) (Set.Ico 0 MOD) ∧
    Set.BijOn (fun r => split j r s) (Set.Ico 0 MOD) (Set.Ico 0 MOD) ∧
    (∀ y : Int, 0 ≤ y ∧ y < MOD →
      (∃! r : Int, (0 ≤ r ∧ r < MOD) ∧ SPLIT j r s = y) ∧
      (∃! r2 : Int, (0 ≤ r2 ∧ r2 < MOD) ∧ SPLIT j r2 s2 = y)) := by
  unfold MOD at *
  have key : ∀ t : Int, 0 ≤ t ∧ t < 10289 →
      Set.BijOn (fun r => SPLIT j r t) (Set.Ico 0 10289) (Set.Ico 0 10289) := by
    intro t ht
    refine ⟨fun r hr => ?_, fun a ha b hb hab => ?_, fun y hy => ?_⟩
    · exact SPLIT_range j hj r t ⟨hr.1, hr.2⟩ ht
    · obtain ⟨r, _, hu⟩ := SPLIT_unique j hj t (SPLIT j b t)
        ht (SPLIT_range j hj b t ⟨hb.1, hb.2⟩ ht)
      rw [hu a ⟨⟨ha.1, ha.2⟩, hab⟩, hu b ⟨⟨hb.1, hb.2⟩, rfl⟩]
    · obtain ⟨r, ⟨hr, h⟩, _⟩ := SPLIT_unique j hj t y ht ⟨hy.1, hy.2⟩
      exact ⟨r, ⟨hr.1, hr.2⟩, h⟩
  exact ⟨key s hs, key s hs, fun y hy =>
    ⟨SPLIT_unique j hj s y hs hy, SPLIT_unique j hj s2 y hs2 hy⟩⟩

theorem C38_witness :
    Set.BijOn (fun r => SPLIT (1 : Nat) r 7) (Set.Ico 0 MOD) (Set.Ico 0 MOD) :=
  (C38_single_share_hides 1 7 9 (by decide) (by decide) (by decide)).1

/-- C40: `RECONSTRUCT` is additive on arbitrary triples. For all triples `A`, `B` with entries in
`[0, p)`, the triple of the component-wise sums `(A_j + B_j) % MOD` (what three agents compute
in the ADD branch) reconstructs to `(RECONSTRUCT A + RECONSTRUCT B) mod p`; `A` and `B` need
not be degree-1 sharings. -/
theorem C40_reconstruct_additive (A B : Nat → Int)
    (hA : ∀ j : Nat, j < 3 → 0 ≤ A j ∧ A j < MOD) (hB : ∀ j : Nat, j < 3 → 0 ≤ B j ∧ B j < MOD) :
    RECONSTRUCT (fun j => cmod (add32 (A j) (B j)) MOD)
      = (RECONSTRUCT A + RECONSTRUCT B) % MOD ∧
    (∀ j : Nat, j < 3 → cmod (add32 (A j) (B j)) MOD = (A j + B j) % MOD) ∧
    (∀ j : Nat, j < 3 →
      agentTask
        { op := OP_ADD, a := htonl (toU32 (A j)), b := htonl (toU32 (B j)),
          u_shares := fun _ => 0, v_shares := fun _ => 0 }
      = Proc.send { op := OP_RES, value := htonl (toU32 ((A j + B j) % MOD)) } Proc.idle) := by
  unfold MOD at hA hB
  have s : ∀ j : Nat, j < 3 → cmod (add32 (A j) (B j)) MOD = (A j + B j) % 10289 :=
    fun j hj => sum_val (A j) (B j) (hA j hj) (hB j hj)
  refine ⟨?_, s, fun j hj => ?_⟩
  · have r : ∀ j : Nat, j < 3 → 0 ≤ cmod (add32 (A j) (B j)) MOD ∧
        cmod (add32 (A j) (B j)) MOD < 10289 := fun j hj => by
      rw [s j hj]
      omega
    rw [RECONSTRUCT_val _ (r 0 (by decide)) (r 1 (by decide)) (r 2 (by decide)),
      RECONSTRUCT_val A (hA 0 (by decide)) (hA 1 (by decide)) (hA 2 (by decide)),
      RECONSTRUCT_val B (hB 0 (by decide)) (hB 1 (by decide)) (hB 2 (by decide)),
      s 0 (by decide), s 1 (by decide), s 2 (by decide)]
    exact recon_add _ _ _ _ _ _
  · rw [agentTask_add _ rfl]
    show Proc.send { op := OP_RES, value := htonl (toU32 (cmod (add32
      (toI32 (ntohl (htonl (toU32 (A j))))) (toI32 (ntohl (htonl (toU32 (B j)))))) MOD)) }
      Proc.idle = _
    rw [wire_value _ (hA j hj), wire_value _ (hB j hj), s j hj]
    rfl

theorem C40_witness :
    RECONSTRUCT (fun j => cmod (add32 10288 (j : Int)) MOD)
      = (RECONSTRUCT (fun _ => 10288) + RECONSTRUCT (fun j => (j : Int))) % MOD :=
  (C40_reconstruct_additive (fun _ => 10288) (fun j => (j : Int))
    (fun _ _ => show (0 : Int) ≤ 10288 ∧ (10288 : Int) < MOD by decide)
    (fun j hj => by unfold MOD; dsimp only; omega)).1

end NetInt
